import Mathlib

/-!
# Radix tree of `ngx_radix_tree.cpp` / `lngx_radix_tree.h`

A shallow embedding of the node arena (`lngx_radix_alloc`, `lngx_pmemalign`),
of the 32-bit and 128-bit trie operations and of `lngx_radix_tree_create`.

Conventions of the embedding

* A pointer is a natural number, `0` is `NULL`.  Addresses are not reduced
  modulo the word size: the allocator is assumed to hand out addresses that do
  not wrap around.
* Node memory is a total map from node addresses to node records; what it
  holds at an address that was never written is arbitrary.
* `uint32_t` values are naturals below `2 ^ 32`; `key += inc` is reduced
  modulo `2 ^ 32`.  `uintptr_t` and `size_t` are 64 bits wide (LP64), so
  `sizeof(lngx_radix_node_t) = 32` and `NGX_RADIX_NO_VALUE = 2 ^ 64 - 1`.
* A call returns `Except Fault _`: a fault is undefined behaviour of the C
  program (a null pointer is followed, an array is read past its end) or the
  exhaustion of the fuel that bounds a loop which has no bound of its own.
-/

namespace Radix

/-! ## Constants -/

/-- Return code `NGX_OK` of the nginx core (`ngx_core.h`, not part of the sources). -/
def NGX_OK : Int := 0
/-- Return code `NGX_ERROR` of the nginx core. -/
def NGX_ERROR : Int := -1
/-- Return code `NGX_BUSY` of the nginx core. -/
def NGX_BUSY : Int := -3

/-- The sentinel `(uintptr_t) -1`. -/
def NGX_RADIX_NO_VALUE : Nat := 2 ^ 64 - 1

/-- The value of `sizeof(lngx_radix_node_t)`: four machine words. -/
def sizeof_node : Nat := 32
/-- The value of `sizeof(void*)`. -/
def sizeof_ptr : Nat := 8
/-- The value of `sizeof(lngx_radix_tree_t)`: six machine words. -/
def sizeof_tree : Nat := 48

/-! ## Data model -/

/-- The record `struct lngx_radix_node_s`. -/
structure lngx_radix_node_t where
  right : Nat
  left : Nat
  parent : Nat
  value : Nat
deriving DecidableEq

/-- Undefined behaviour of the C program, or a loop that ran out of fuel. -/
inductive Fault where
  | nullDeref
  | wildStore
  | outOfBounds
  | intOverflow
  | outOfFuel
deriving DecidableEq

/-- The caller-supplied allocation function `a` together with its context `ud`.
It hands out consecutive blocks starting at `brk`; call number `i` (counted
from zero) fails, returning `NULL`, when `oom i` holds.  `calls` counts the
calls made so far. -/
structure lua_Alloc where
  brk : Nat
  calls : Nat
  oom : Nat → Bool

/-- The call `a(ud, NULL, 0, nsize)`. -/
def lua_Alloc.alloc (a : lua_Alloc) (nsize : Nat) : Nat × lua_Alloc :=
  if a.oom a.calls then (0, { a with calls := a.calls + 1 })
  else (a.brk, { a with brk := a.brk + nsize, calls := a.calls + 1 })

/-- The record `lngx_radix_tree_t`, together with the memory its pointers refer
to: `mem` is the node memory, `origin` holds the words that `lngx_pmemalign`
stores in front of a slab, and `lngx_pagesize` is the static of that name. -/
structure lngx_radix_tree_t where
  root : Nat
  a : lua_Alloc
  free : Nat
  start : Nat
  size : Nat
  mem : Nat → lngx_radix_node_t
  origin : Nat → Nat
  lngx_pagesize : Nat

/-- The store `p->right = x`. -/
def setRight (m : Nat → lngx_radix_node_t) (p x : Nat) : Nat → lngx_radix_node_t :=
  Function.update m p { m p with right := x }

/-- The store `p->left = x`. -/
def setLeft (m : Nat → lngx_radix_node_t) (p x : Nat) : Nat → lngx_radix_node_t :=
  Function.update m p { m p with left := x }

/-- The store `p->parent = x`. -/
def setParent (m : Nat → lngx_radix_node_t) (p x : Nat) : Nat → lngx_radix_node_t :=
  Function.update m p { m p with parent := x }

/-- The store `p->value = x`. -/
def setValue (m : Nat → lngx_radix_node_t) (p x : Nat) : Nat → lngx_radix_node_t :=
  Function.update m p { m p with value := x }

/-- The expression `x & ~m` on addresses: the bits of `m` are cleared in `x`. -/
def andNot (x m : Nat) : Nat := x - (x &&& m)

/-! ## Node arena -/

/-- The function `lngx_pmemalign(a, ud, size, ALIGN)` of the header.  The raw block is
requested from the allocator, the aligned pointer is computed and the raw
address is stored in the word in front of it.  When the allocator returns
`NULL` the store goes through a pointer computed from `NULL`. -/
def lngx_pmemalign (t : lngx_radix_tree_t) (size ALIGN : Nat) :
    Except Fault (Nat × lngx_radix_tree_t) :=
  let r := t.a.alloc (size + ALIGN + sizeof_ptr)
  let mem := r.1
  let ptr := andNot (mem + ALIGN + sizeof_ptr) (ALIGN - 1)
  if mem = 0 then .error .wildStore
  else .ok (ptr, { t with a := r.2, origin := Function.update t.origin (ptr - sizeof_ptr) mem })

/-- The function `lngx_radix_alloc`. -/
def lngx_radix_alloc (t : lngx_radix_tree_t) : Except Fault (Nat × lngx_radix_tree_t) :=
  if t.free ≠ 0 then
    .ok (t.free, { t with free := (t.mem t.free).right })
  else if t.size < sizeof_node then
    match lngx_pmemalign t t.lngx_pagesize t.lngx_pagesize with
    | .error e => .error e
    | .ok (p, t1) =>
      if p = 0 then .ok (0, { t1 with start := 0 })
      else
        .ok (p, { t1 with start := p + sizeof_node,
                          size := (t1.lngx_pagesize + 2 ^ 64 - sizeof_node) % 2 ^ 64 })
  else
    .ok (t.start, { t with start := t.start + sizeof_node,
                           size := (t.size + 2 ^ 64 - sizeof_node) % 2 ^ 64 })

/-! ## 32-bit operations -/

/-- The first loop of `lngx_radix32tree_insert`: the descent along the masked
key bits that stops at a missing child.  It returns `(bit, node, next)`.  The
loop runs at most 32 times (`bit` is a `uint32_t` shifted right in each round),
which is the fuel the callers pass. -/
def insert_walk (m : Nat → lngx_radix_node_t) (key mask : Nat) :
    Nat → Nat → Nat → Nat → Nat × Nat × Nat
  | 0, bit, node, next => (bit, node, next)
  | n + 1, bit, node, next =>
    if bit &&& mask ≠ 0 then
      let next1 := if key &&& bit ≠ 0 then (m node).right else (m node).left
      if next1 = 0 then (bit, node, next1)
      else insert_walk m key mask n (bit >>> 1) next1 next1
    else (bit, node, next)

/-- The second loop of `lngx_radix32tree_insert`: one node is allocated and
linked for each remaining mask bit.  It returns the last node, or `none` when
`lngx_radix_alloc` returned `NULL`. -/
def insert_build (key mask : Nat) :
    Nat → lngx_radix_tree_t → Nat → Nat → Except Fault (Option Nat × lngx_radix_tree_t)
  | 0, t, _, node => .ok (some node, t)
  | n + 1, t, bit, node =>
    if bit &&& mask ≠ 0 then
      match lngx_radix_alloc t with
      | .error e => .error e
      | .ok (next, t1) =>
        if next = 0 then .ok (none, t1)
        else
          let m1 := Function.update t1.mem next
            { right := 0, left := 0, parent := node, value := NGX_RADIX_NO_VALUE }
          let m2 := if key &&& bit ≠ 0 then setRight m1 node next else setLeft m1 node next
          insert_build key mask n { t1 with mem := m2 } (bit >>> 1) next
    else .ok (some node, t)

/-- The function `lngx_radix32tree_insert`. -/
def lngx_radix32tree_insert (t : lngx_radix_tree_t) (key mask value : Nat) :
    Except Fault (Int × lngx_radix_tree_t) :=
  if t.root = 0 then .error .nullDeref
  else
    match insert_walk t.mem key mask 32 0x80000000 t.root t.root with
    | (bit, node, next) =>
      if next ≠ 0 then
        if (t.mem node).value ≠ NGX_RADIX_NO_VALUE then .ok (NGX_BUSY, t)
        else .ok (NGX_OK, { t with mem := setValue t.mem node value })
      else
        match insert_build key mask 32 t bit node with
        | .error e => .error e
        | .ok (none, t1) => .ok (NGX_ERROR, t1)
        | .ok (some last, t1) => .ok (NGX_OK, { t1 with mem := setValue t1.mem last value })

/-- The first loop of `lngx_radix32tree_delete`: the descent that never
creates a node.  It runs at most 32 times. -/
def delete_walk (m : Nat → lngx_radix_node_t) (key mask : Nat) : Nat → Nat → Nat → Nat
  | 0, _, node => node
  | n + 1, bit, node =>
    if node ≠ 0 ∧ bit &&& mask ≠ 0 then
      delete_walk m key mask n (bit >>> 1)
        (if key &&& bit ≠ 0 then (m node).right else (m node).left)
    else node

/-- The `for ( ;; )` loop shared by both delete functions: the node is unlinked
from its parent and pushed onto the free list, then the walk moves to the
parent.  Each round consumes one unit of fuel. -/
def delete_prune : Nat → lngx_radix_tree_t → Nat → Except Fault lngx_radix_tree_t
  | 0, _, _ => .error .outOfFuel
  | n + 1, t, node =>
    let par := (t.mem node).parent
    if par = 0 then .error .nullDeref
    else
      let m1 := if (t.mem par).right = node then setRight t.mem par 0 else setLeft t.mem par 0
      let m2 := setRight m1 node t.free
      let t2 := { t with mem := m2, free := node }
      let up := (m2 node).parent
      if (m2 up).right ≠ 0 ∨ (m2 up).left ≠ 0 then .ok t2
      else if (m2 up).value ≠ NGX_RADIX_NO_VALUE then .ok t2
      else if (m2 up).parent = 0 then .ok t2
      else delete_prune n t2 up

/-- The part of both delete functions that follows the descent. -/
def delete_at (fuel : Nat) (t : lngx_radix_tree_t) (node : Nat) :
    Except Fault (Int × lngx_radix_tree_t) :=
  if node = 0 then .ok (NGX_ERROR, t)
  else if (t.mem node).right ≠ 0 ∨ (t.mem node).left ≠ 0 then
    if (t.mem node).value ≠ NGX_RADIX_NO_VALUE then
      .ok (NGX_OK, { t with mem := setValue t.mem node NGX_RADIX_NO_VALUE })
    else .ok (NGX_ERROR, t)
  else
    match delete_prune fuel t node with
    | .error e => .error e
    | .ok t1 => .ok (NGX_OK, t1)

/-- The function `lngx_radix32tree_delete`; `fuel` bounds the pruning loop. -/
def lngx_radix32tree_delete (fuel : Nat) (t : lngx_radix_tree_t) (key mask : Nat) :
    Except Fault (Int × lngx_radix_tree_t) :=
  delete_at fuel t (delete_walk t.mem key mask 32 0x80000000 t.root)

/-- The loop of `lngx_radix32tree_find`; each round consumes one unit of fuel. -/
def find_loop (m : Nat → lngx_radix_node_t) (key : Nat) : Nat → Nat → Nat → Nat → Except Fault Nat
  | 0, _, node, value => if node = 0 then .ok value else .error .outOfFuel
  | n + 1, bit, node, value =>
    if node = 0 then .ok value
    else
      find_loop m key n (bit >>> 1)
        (if key &&& bit ≠ 0 then (m node).right else (m node).left)
        (if (m node).value ≠ NGX_RADIX_NO_VALUE then (m node).value else value)

/-- The function `lngx_radix32tree_find`. -/
def lngx_radix32tree_find (fuel : Nat) (t : lngx_radix_tree_t) (key : Nat) : Except Fault Nat :=
  find_loop t.mem key fuel 0x80000000 t.root NGX_RADIX_NO_VALUE

/-! ## Creation -/

/-- One call of `lngx_radix32tree_insert` made by the warm-up pass of
`lngx_radix_tree_create`: the tree before the call, the arguments and what the
call returned.  The log of these calls is kept next to the result of the loops;
it is not part of the state of the program. -/
structure warm_call where
  pre : lngx_radix_tree_t
  key : Nat
  mask : Nat
  res : Except Fault (Int × lngx_radix_tree_t)

/-- The `do ... while (key)` loop of `lngx_radix_tree_create`: the sentinel is
inserted under `mask` for `key`, `key + inc`, ... until the key wraps around to
zero.  `none` is the `return NULL` taken when an insert does not return
`NGX_OK`.  Each round consumes one unit of fuel.  The second component is the
log of the calls to insert. -/
def create_keys : Nat → lngx_radix_tree_t → Nat → Nat → Nat →
    Except Fault (Option lngx_radix_tree_t) × List warm_call
  | 0, _, _, _, _ => (.error .outOfFuel, [])
  | n + 1, t, key, mask, inc =>
    match lngx_radix32tree_insert t key mask NGX_RADIX_NO_VALUE with
    | .error e =>
      (.error e, [{ pre := t, key := key, mask := mask, res := .error e }])
    | .ok (rc, t1) =>
      if rc ≠ NGX_OK then
        (.ok none, [{ pre := t, key := key, mask := mask, res := .ok (rc, t1) }])
      else if (key + inc) % 2 ^ 32 ≠ 0 then
        ((create_keys n t1 ((key + inc) % 2 ^ 32) mask inc).1,
          { pre := t, key := key, mask := mask, res := .ok (rc, t1) }
            :: (create_keys n t1 ((key + inc) % 2 ^ 32) mask inc).2)
      else
        (.ok (some t1), [{ pre := t, key := key, mask := mask, res := .ok (rc, t1) }])

/-- The `while (preallocate--)` loop of `lngx_radix_tree_create`, run for the
given number of rounds; `fuel` is passed to the inner loop.  The second
component is the log of the calls to insert. -/
def create_levels (fuel : Nat) : Nat → lngx_radix_tree_t → Nat → Nat →
    Except Fault (Option lngx_radix_tree_t) × List warm_call
  | 0, t, _, _ => (.ok (some t), [])
  | p + 1, t, mask, inc =>
    match create_keys fuel t 0 ((mask >>> 1) ||| 0x80000000) inc with
    | (.error e, log) => (.error e, log)
    | (.ok none, log) => (.ok none, log)
    | (.ok (some t1), log) =>
      ((create_levels fuel p t1 ((mask >>> 1) ||| 0x80000000) (inc >>> 1)).1,
        log ++ (create_levels fuel p t1 ((mask >>> 1) ||| 0x80000000) (inc >>> 1)).2)

/-- The number of warm-up levels chosen for the hint `-1`. -/
def auto_levels (pagesize : Nat) : Int :=
  match pagesize / sizeof_node with
  | 128 => 6
  | 256 => 7
  | _ => 8

/-- The tree header as `lngx_radix_tree_create` has it before the root is
allocated: the allocator was called once, for the header itself. -/
def header (a : lua_Alloc) (mem : Nat → lngx_radix_node_t) (origin : Nat → Nat)
    (pagesize : Nat) : lngx_radix_tree_t :=
  { root := 0, a := (a.alloc sizeof_tree).2, free := 0, start := 0, size := 0, mem := mem,
    origin := origin, lngx_pagesize := pagesize }

/-- The stores that make `root` the root of the tree: `tree->root = root` and
the four fields of the root node. -/
def set_root (t : lngx_radix_tree_t) (root : Nat) : lngx_radix_tree_t :=
  { t with
    root := root
    mem := Function.update t.mem root
      { right := 0, left := 0, parent := 0, value := NGX_RADIX_NO_VALUE } }

/-- The function `lngx_radix_tree_create(a, ud, preallocate)` together with the log of the
calls to insert it makes.  `mem` and `origin` are the contents of memory at
the call, `pagesize0` is the static `lngx_pagesize` at the call and
`getpagesize` what the function of that name returns.  The result `none` is
`NULL`.  A negative hint other than `-1` keeps the `int` counter decreasing
until it overflows. -/
def lngx_radix_tree_create_log (fuel : Nat) (a : lua_Alloc) (mem : Nat → lngx_radix_node_t)
    (origin : Nat → Nat) (pagesize0 getpagesize : Nat) (preallocate : Int) :
    Except Fault (Option lngx_radix_tree_t) × List warm_call :=
  if (a.alloc sizeof_tree).1 = 0 then (.ok none, [])
  else
    match lngx_radix_alloc
      (header a mem origin (if pagesize0 = 0 then getpagesize else pagesize0)) with
    | .error e => (.error e, [])
    | .ok (root, t1) =>
      if root = 0 then (.ok none, [])
      else if preallocate = 0 then
        (.ok (some (set_root t1 root)), [])
      else if 0 ≤ (if preallocate = -1 then auto_levels t1.lngx_pagesize else preallocate) then
        create_levels fuel
          (if preallocate = -1 then auto_levels t1.lngx_pagesize else preallocate).toNat
          (set_root t1 root) 0 0x80000000
      else
        match create_levels fuel (preallocate + 2 ^ 31).toNat
          (set_root t1 root) 0 0x80000000 with
        | (.ok (some _), log) => (.error .intOverflow, log)
        | r => r

/-- The function `lngx_radix_tree_create(a, ud, preallocate)`. -/
def lngx_radix_tree_create (fuel : Nat) (a : lua_Alloc) (mem : Nat → lngx_radix_node_t)
    (origin : Nat → Nat) (pagesize0 getpagesize : Nat) (preallocate : Int) :
    Except Fault (Option lngx_radix_tree_t) :=
  (lngx_radix_tree_create_log fuel a mem origin pagesize0 getpagesize preallocate).1

/-! ## 128-bit operations -/

/-- The read `a[i]` of a byte array. -/
def rd (a : List Nat) (i : Nat) : Except Fault Nat :=
  match a[i]? with
  | some b => .ok b
  | none => .error .outOfBounds

/-- The first loop of `lngx_radix128tree_insert`.  It returns `(i, bit, node, next)`.
The loop leaves at the latest when `i` reaches 16, after 128 rounds. -/
def insert128_walk (m : Nat → lngx_radix_node_t) (key mask : List Nat) :
    Nat → Nat → Nat → Nat → Nat → Except Fault (Nat × Nat × Nat × Nat)
  | 0, _, _, _, _ => .error .outOfFuel
  | n + 1, i, bit, node, next =>
    match rd mask i with
    | .error e => .error e
    | .ok mi =>
      if bit &&& mi ≠ 0 then
        match rd key i with
        | .error e => .error e
        | .ok ki =>
          let next1 := if ki &&& bit ≠ 0 then (m node).right else (m node).left
          if next1 = 0 then .ok (i, bit, node, next1)
          else if bit >>> 1 = 0 then
            if i + 1 = 16 then .ok (i + 1, bit >>> 1, next1, next1)
            else insert128_walk m key mask n (i + 1) 0x80 next1 next1
          else insert128_walk m key mask n i (bit >>> 1) next1 next1
      else .ok (i, bit, node, next)

/-- The second loop of `lngx_radix128tree_insert`. -/
def insert128_build (key mask : List Nat) :
    Nat → lngx_radix_tree_t → Nat → Nat → Nat → Except Fault (Option Nat × lngx_radix_tree_t)
  | 0, _, _, _, _ => .error .outOfFuel
  | n + 1, t, i, bit, node =>
    match rd mask i with
    | .error e => .error e
    | .ok mi =>
      if bit &&& mi ≠ 0 then
        match lngx_radix_alloc t with
        | .error e => .error e
        | .ok (next, t1) =>
          if next = 0 then .ok (none, t1)
          else
            let m1 := Function.update t1.mem next
              { right := 0, left := 0, parent := node, value := NGX_RADIX_NO_VALUE }
            match rd key i with
            | .error e => .error e
            | .ok ki =>
              let m2 := if ki &&& bit ≠ 0 then setRight m1 node next else setLeft m1 node next
              let t2 := { t1 with mem := m2 }
              if bit >>> 1 = 0 then
                if i + 1 = 16 then .ok (some next, t2)
                else insert128_build key mask n t2 (i + 1) 0x80 next
              else insert128_build key mask n t2 i (bit >>> 1) next
      else .ok (some node, t)

/-- The function `lngx_radix128tree_insert`. -/
def lngx_radix128tree_insert (t : lngx_radix_tree_t) (key mask : List Nat) (value : Nat) :
    Except Fault (Int × lngx_radix_tree_t) :=
  if t.root = 0 then .error .nullDeref
  else
    match insert128_walk t.mem key mask 129 0 0x80 t.root t.root with
    | .error e => .error e
    | .ok (i, bit, node, next) =>
      if next ≠ 0 then
        if (t.mem node).value ≠ NGX_RADIX_NO_VALUE then .ok (NGX_BUSY, t)
        else .ok (NGX_OK, { t with mem := setValue t.mem node value })
      else
        match insert128_build key mask 129 t i bit node with
        | .error e => .error e
        | .ok (none, t1) => .ok (NGX_ERROR, t1)
        | .ok (some last, t1) => .ok (NGX_OK, { t1 with mem := setValue t1.mem last value })

/-- The first loop of `lngx_radix128tree_delete`. -/
def delete128_walk (m : Nat → lngx_radix_node_t) (key mask : List Nat) :
    Nat → Nat → Nat → Nat → Except Fault Nat
  | 0, _, _, _ => .error .outOfFuel
  | n + 1, i, bit, node =>
    if node = 0 then .ok node
    else
      match rd mask i with
      | .error e => .error e
      | .ok mi =>
        if bit &&& mi ≠ 0 then
          match rd key i with
          | .error e => .error e
          | .ok ki =>
            let node1 := if ki &&& bit ≠ 0 then (m node).right else (m node).left
            if bit >>> 1 = 0 then
              if i + 1 = 16 then .ok node1
              else delete128_walk m key mask n (i + 1) 0x80 node1
            else delete128_walk m key mask n i (bit >>> 1) node1
        else .ok node

/-- The function `lngx_radix128tree_delete`; `fuel` bounds the pruning loop. -/
def lngx_radix128tree_delete (fuel : Nat) (t : lngx_radix_tree_t) (key mask : List Nat) :
    Except Fault (Int × lngx_radix_tree_t) :=
  match delete128_walk t.mem key mask 129 0 0x80 t.root with
  | .error e => .error e
  | .ok node => delete_at fuel t node

/-- The loop of `lngx_radix128tree_find`; each round consumes one unit of fuel. -/
def find128_loop (m : Nat → lngx_radix_node_t) (key : List Nat) :
    Nat → Nat → Nat → Nat → Nat → Except Fault Nat
  | 0, _, _, node, value => if node = 0 then .ok value else .error .outOfFuel
  | n + 1, i, bit, node, value =>
    if node = 0 then .ok value
    else
      match rd key i with
      | .error e => .error e
      | .ok ki =>
        let value1 := if (m node).value ≠ NGX_RADIX_NO_VALUE then (m node).value else value
        let node1 := if ki &&& bit ≠ 0 then (m node).right else (m node).left
        if bit >>> 1 = 0 then find128_loop m key n (i + 1) 0x80 node1 value1
        else find128_loop m key n i (bit >>> 1) node1 value1

/-- The function `lngx_radix128tree_find`. -/
def lngx_radix128tree_find (fuel : Nat) (t : lngx_radix_tree_t) (key : List Nat) :
    Except Fault Nat :=
  find128_loop t.mem key fuel 0 0x80 t.root NGX_RADIX_NO_VALUE

/-! ## Paths

The loops of the program consume the key one bit at a time.  The definitions
below describe what they compute in terms of the list of the bits consumed;
the theorems relate each loop to them. -/

/-- The child of `p` in direction `b`: `right` for a one bit, `left` for a zero bit. -/
def child (m : Nat → lngx_radix_node_t) (p : Nat) (b : Bool) : Nat :=
  if b then (m p).right else (m p).left

/-- The node reached from `p` along a path of bits, `0` when a link on the way is null. -/
def walk (m : Nat → lngx_radix_node_t) : Nat → List Bool → Nat
  | p, [] => p
  | p, b :: bs => if p = 0 then 0 else walk m (child m p b) bs

/-- The bits `n - 1, ..., 0` of `key` that lie under the leading run of one
bits of `mask` (taken from bit `n - 1` downwards), most significant first. -/
def pfx (key mask : Nat) : Nat → List Bool
  | 0 => []
  | n + 1 => if mask.testBit n then key.testBit n :: pfx key mask n else []

/-- The bits `n - 1, ..., 0` of `key`, most significant first. -/
def bitsFrom (key : Nat) : Nat → List Bool
  | 0 => []
  | n + 1 => key.testBit n :: bitsFrom key n

/-- The descent along a path that stops in front of a missing child: the last
node and the part of the path that is left. -/
def descend (m : Nat → lngx_radix_node_t) : Nat → List Bool → Nat × List Bool
  | p, [] => (p, [])
  | p, b :: bs => if child m p b = 0 then (p, b :: bs) else descend m (child m p b) bs

/-- The second loop of insert along a list of bits. -/
def buildL : List Bool → lngx_radix_tree_t → Nat → Except Fault (Option Nat × lngx_radix_tree_t)
  | [], t, node => .ok (some node, t)
  | b :: bs, t, node =>
    match lngx_radix_alloc t with
    | .error e => .error e
    | .ok (next, t1) =>
      if next = 0 then .ok (none, t1)
      else
        let m1 := Function.update t1.mem next
          { right := 0, left := 0, parent := node, value := NGX_RADIX_NO_VALUE }
        let m2 := if b then setRight m1 node next else setLeft m1 node next
        buildL bs { t1 with mem := m2 } next

/-- Insert along a list of bits: what both insert functions do with the masked
prefix of their key. -/
def insertL (t : lngx_radix_tree_t) (path : List Bool) (value : Nat) :
    Except Fault (Int × lngx_radix_tree_t) :=
  if t.root = 0 then .error .nullDeref
  else
    match descend t.mem t.root path with
    | (node, []) =>
      if (t.mem node).value ≠ NGX_RADIX_NO_VALUE then .ok (NGX_BUSY, t)
      else .ok (NGX_OK, { t with mem := setValue t.mem node value })
    | (node, b :: bs) =>
      match buildL (b :: bs) t node with
      | .error e => .error e
      | .ok (none, t1) => .ok (NGX_ERROR, t1)
      | .ok (some last, t1) => .ok (NGX_OK, { t1 with mem := setValue t1.mem last value })

/-- The value that find accumulates along a path of bits, starting at `node`
with `value` in hand; the node at the end of the path is inspected too. -/
def accum (m : Nat → lngx_radix_node_t) : List Bool → Nat → Nat → Nat
  | [], node, value =>
    if node = 0 then value
    else if (m node).value ≠ NGX_RADIX_NO_VALUE then (m node).value else value
  | b :: bs, node, value =>
    if node = 0 then value
    else accum m bs (child m node b)
      (if (m node).value ≠ NGX_RADIX_NO_VALUE then (m node).value else value)

/-! ## Well-formed trees -/

/-- The free list that starts at `p` is the chain `F` of nodes linked through
their `right` fields and ended by a null pointer. -/
def FreeChain (m : Nat → lngx_radix_node_t) : Nat → List Nat → Prop
  | p, [] => p = 0
  | p, q :: F => p = q ∧ q ≠ 0 ∧ FreeChain m (m q).right F

/-- The invariant of a tree whose free list is `F`.  The links reachable from
the root form a tree of depth at most 32 (no node is reached along two paths),
every node but the root points back to its parent, the free list is a chain
without repetition of nodes that are not in the trie, and every node in use
lies below the slab cursor, which lies inside the memory handed out by the
allocator. -/
structure Inv (t : lngx_radix_tree_t) (F : List Nat) : Prop where
  root_ne : t.root ≠ 0
  root_parent : (t.mem t.root).parent = 0
  inj : ∀ π ρ, walk t.mem t.root π ≠ 0 → walk t.mem t.root π = walk t.mem t.root ρ → π = ρ
  depth : ∀ π, walk t.mem t.root π ≠ 0 → π.length ≤ 32
  parent : ∀ π b, walk t.mem t.root (π ++ [b]) ≠ 0 →
    (t.mem (walk t.mem t.root (π ++ [b]))).parent = walk t.mem t.root π
  chain : FreeChain t.mem t.free F
  nodup : F.Nodup
  free_unreach : ∀ p ∈ F, ∀ π, walk t.mem t.root π ≠ p
  free_below : ∀ p ∈ F, p + sizeof_node ≤ t.start
  below : ∀ π, walk t.mem t.root π ≠ 0 → walk t.mem t.root π + sizeof_node ≤ t.start
  slab : t.start + t.size ≤ t.a.brk
  size_lt : t.size < 2 ^ 64
  page_ge : sizeof_node ≤ t.lngx_pagesize
  page_lt : t.lngx_pagesize < 2 ^ 64
  brk_pos : 0 < t.a.brk

/-- A well-formed tree: the invariant holds for some free list. -/
def WF (t : lngx_radix_tree_t) : Prop := ∃ F, Inv t F

/-- What the trie holds at a path: `none` when there is no node, otherwise the
value of the node (which may be the sentinel). -/
def obs (t : lngx_radix_tree_t) (π : List Bool) : Option Nat :=
  if walk t.mem t.root π = 0 then none else some (t.mem (walk t.mem t.root π)).value

/-- The allocator does not fail from now on. -/
def NoFail (t : lngx_radix_tree_t) : Prop := ∀ i, t.a.calls ≤ i → t.a.oom i = false

/-- One round of the second loop of insert after the allocation: the new node
`next` is initialised and linked below `node` in direction `b`. -/
def link (t : lngx_radix_tree_t) (node next : Nat) (b : Bool) : lngx_radix_tree_t :=
  { t with mem :=
      if b then
        setRight (Function.update t.mem next
          { right := 0, left := 0, parent := node, value := NGX_RADIX_NO_VALUE }) node next
      else
        setLeft (Function.update t.mem next
          { right := 0, left := 0, parent := node, value := NGX_RADIX_NO_VALUE }) node next }

/-- Insert on observations: the path `κ` gets the value `v`, and a sentinel
node appears at every prefix of `κ` where there was no node. -/
def insO (o : List Bool → Option Nat) (κ : List Bool) (v : Nat) : List Bool → Option Nat :=
  fun π =>
    if π = κ then some v
    else if π <+: κ ∧ o π = none then some NGX_RADIX_NO_VALUE
    else o π

/-- The path `κ` holds a real value. -/
def Occupied (o : List Bool → Option Nat) (κ : List Bool) : Prop :=
  ∃ x, o κ = some x ∧ x ≠ NGX_RADIX_NO_VALUE

/-- The number of nodes an insert along `κ` has to allocate. -/
def need (t : lngx_radix_tree_t) (κ : List Bool) : Nat :=
  (descend t.mem t.root κ).2.length

/-- The value kept after a node was visited: its value when that is real. -/
def keep (x : Option Nat) (cur : Nat) : Nat :=
  match x with
  | some v => if v ≠ NGX_RADIX_NO_VALUE then v else cur
  | none => cur

/-- Longest-prefix match on observations: the paths `pre`, `pre` extended by
one bit of `rest`, by two bits, ... are visited in turn and the last real value
seen is returned, `cur` if there is none. -/
def lpmO (o : List Bool → Option Nat) : List Bool → List Bool → Nat → Nat
  | pre, [], cur => keep (o pre) cur
  | pre, b :: bs, cur => lpmO o (pre ++ [b]) bs (keep (o pre) cur)

/-- The number of nodes reachable from `p` within `d` levels. -/
def count_nodes (m : Nat → lngx_radix_node_t) : Nat → Nat → Nat
  | 0, _ => 0
  | d + 1, p =>
    if p = 0 then 0 else 1 + count_nodes m d (m p).left + count_nodes m d (m p).right

/-- The number of nodes of the trie, the root included (a 32-bit trie has 33
levels at most). -/
def node_count (t : lngx_radix_tree_t) : Nat := count_nodes t.mem 33 t.root

/-- All paths of length below `d`. -/
def allPaths : Nat → List (List Bool)
  | 0 => []
  | d + 1 => [] :: ((allPaths d).map (fun π => false :: π) ++ (allPaths d).map (fun π => true :: π))

/-- One round of the pruning loop up to the move to the parent: `node` is
unlinked from its parent and pushed onto the free list. -/
def unlink (t : lngx_radix_tree_t) (node : Nat) : lngx_radix_tree_t :=
  { t with
    mem := setRight
      (if (t.mem (t.mem node).parent).right = node then setRight t.mem (t.mem node).parent 0
        else setLeft t.mem (t.mem node).parent 0) node t.free
    free := node }

/-- Pruning on observations.  The argument is the reversed path of a leaf: the
leaf disappears, then its ancestors as long as they have no child left, hold
the sentinel and are not the root. -/
def pruneO (o : List Bool → Option Nat) : List Bool → List Bool → Option Nat
  | [] => o
  | b :: rs =>
    if (if rs.reverse ++ [true] = rs.reverse ++ [b] then none else o (rs.reverse ++ [true])) ≠ none
        ∨ (if rs.reverse ++ [false] = rs.reverse ++ [b] then none
            else o (rs.reverse ++ [false])) ≠ none then
      fun π => if π = rs.reverse ++ [b] then none else o π
    else if o rs.reverse ≠ some NGX_RADIX_NO_VALUE then
      fun π => if π = rs.reverse ++ [b] then none else o π
    else
      match rs with
      | [] => fun π => if π = rs.reverse ++ [b] then none else o π
      | _ :: _ => pruneO (fun π => if π = rs.reverse ++ [b] then none else o π) rs

/-- Observations of a trie: where there is no node there is none below. -/
def ClosedO (o : List Bool → Option Nat) : Prop :=
  ∀ π ρ, o π = none → o (π ++ ρ) = none

/-- Observations of a strict trie: a sentinel node other than the root has a child. -/
def StrictO (o : List Bool → Option Nat) : Prop :=
  ∀ π, π ≠ [] → o π = some NGX_RADIX_NO_VALUE →
    o (π ++ [true]) ≠ none ∨ o (π ++ [false]) ≠ none

/-- Every reachable node other than the root has a child or a real value. -/
def Strict (t : lngx_radix_tree_t) : Prop :=
  ∀ π, π ≠ [] → walk t.mem t.root π ≠ 0 →
    (t.mem (walk t.mem t.root π)).right ≠ 0 ∨ (t.mem (walk t.mem t.root π)).left ≠ 0 ∨
      (t.mem (walk t.mem t.root π)).value ≠ NGX_RADIX_NO_VALUE

/-- The variable `mask` of `lngx_radix_tree_create` after `j` rounds of the outer loop. -/
def warm_mask : Nat → Nat
  | 0 => 0
  | j + 1 => (warm_mask j >>> 1) ||| 0x80000000

/-- The variable `inc` of `lngx_radix_tree_create` after `j` rounds of the outer loop. -/
def warm_inc : Nat → Nat
  | 0 => 0x80000000
  | j + 1 => warm_inc j >>> 1

/-- The tree in the warm-up pass at level `l` after the first `i` keys were
inserted: every node holds the sentinel, and the nodes are those of the levels
above `l` and the first `i` nodes of level `l`. -/
def WarmInv (t : lngx_radix_tree_t) (l i : Nat) : Prop :=
  WF t ∧ NoFail t ∧
  (∀ π, obs t π = none ∨ obs t π = some NGX_RADIX_NO_VALUE) ∧
  ∀ π, obs t π ≠ none ↔ π.length < l ∨ ∃ i', i' < i ∧ π = bitsFrom i' l

/-- The tree after `j` warm-up levels: a complete binary tree of depth
`min j 32` of sentinel nodes. -/
def Level (t : lngx_radix_tree_t) (j : Nat) : Prop :=
  WF t ∧ NoFail t ∧
  ∀ π, obs t π = if π.length ≤ min j 32 then some NGX_RADIX_NO_VALUE else none

/-- What the log says of a call of the warm-up pass that added one node: the
call returned `NGX_OK` and the trie has one node more than before it. -/
def AddsOne (c : warm_call) : Prop :=
  ∃ t1, c.res = .ok (NGX_OK, t1) ∧
    lngx_radix32tree_insert c.pre c.key c.mask NGX_RADIX_NO_VALUE = c.res ∧
    node_count t1 = node_count c.pre + 1

/-! ## Example trees

Concrete trees on which the theorems are instantiated: an allocator that does
not fail, pages of 4096 bytes. -/

/-- An allocator that never fails and starts handing out memory at `0x10000`. -/
def ex_alloc : lua_Alloc := { brk := 0x10000, calls := 0, oom := fun _ => false }

/-- Memory filled with zeros. -/
def ex_mem : Nat → lngx_radix_node_t := fun _ => { right := 0, left := 0, parent := 0, value := 0 }

/-- No origin word stored. -/
def ex_origin : Nat → Nat := fun _ => 0

/-- The tree that a call of `lngx_radix_tree_create` returned (the bare header when it
returned none). -/
def tree_of (r : Except Fault (Option lngx_radix_tree_t)) : lngx_radix_tree_t :=
  match r with
  | .ok (some t) => t
  | _ => header ex_alloc ex_mem ex_origin 0

/-- The tree that a call of insert or delete left (the bare header after a fault). -/
def tree_after (r : Except Fault (Int × lngx_radix_tree_t)) : lngx_radix_tree_t :=
  match r with
  | .ok (_, t) => t
  | .error _ => header ex_alloc ex_mem ex_origin 0

/-- The tree created with the hint 0: a root and nothing else. -/
def ex_tree0 : lngx_radix_tree_t :=
  tree_of (lngx_radix_tree_create 1 ex_alloc ex_mem ex_origin 0 4096 0)

/-- The tree `ex_tree0` after the insert of 10.0.0.0/8 with the value 5. -/
def ex_tree1 : lngx_radix_tree_t :=
  tree_after (lngx_radix32tree_insert ex_tree0 0x0a000000 0xff000000 5)


/-- The tree `ex_tree0` after the insert of the prefix of length 0 with the value 5. -/
def ex_tree_root : lngx_radix_tree_t :=
  tree_after (lngx_radix32tree_insert ex_tree0 0 0 5)

/-- The tree created with the hint 1: a root and its two children, all
holding the sentinel. -/
def ex_tree_warm : lngx_radix_tree_t :=
  tree_of (lngx_radix_tree_create 2 ex_alloc ex_mem ex_origin 0 4096 1)


/-! ## 32-bit keys as 16-byte arrays -/

/-- The 16-byte array whose first four bytes are the big-endian bytes of the
32-bit value `x` and whose other twelve bytes are zero. -/
def key16 (x : Nat) : List Nat :=
  [(x >>> 24) % 256, (x >>> 16) % 256, (x >>> 8) % 256, x % 256,
    0, 0, 0, 0, 0, 0, 0, 0, 0, 0, 0, 0]

/-! ## Sequences of calls -/

/-- The arguments of one call of `lngx_radix32tree_insert`. -/
structure ins_call where
  key : Nat
  mask : Nat
  value : Nat

/-- A caller that makes the given calls of `lngx_radix32tree_insert` one after
the other on the same tree; the result is the list of the codes returned and
the tree after the last call. -/
def run_inserts : lngx_radix_tree_t → List ins_call →
    Except Fault (List Int × lngx_radix_tree_t)
  | t, [] => .ok ([], t)
  | t, c :: cs =>
    match lngx_radix32tree_insert t c.key c.mask c.value with
    | .error e => .error e
    | .ok (rc, t1) =>
      match run_inserts t1 cs with
      | .error e => .error e
      | .ok (rcs, t2) => .ok (rc :: rcs, t2)

/-- The number of node allocations that the calls of a run make, each call
counted on the tree that the calls before it left. -/
def need_seq : lngx_radix_tree_t → List ins_call → Nat
  | _, [] => 0
  | t, c :: cs =>
    need t (pfx c.key c.mask 32) +
      (match lngx_radix32tree_insert t c.key c.mask c.value with
       | .error _ => 0
       | .ok (_, t1) => need_seq t1 cs)

/-- The tree `ex_tree1` after the delete of `10.0.0.0/8`: a root and eight
nodes on the free list. -/
def ex_tree_del : lngx_radix_tree_t :=
  tree_after (lngx_radix32tree_delete 32 ex_tree1 0x0a000000 0xff000000)

/-- The code that a call returned, `none` after a fault. -/
def return_code (r : Except Fault (Int × lngx_radix_tree_t)) : Option Int :=
  match r with
  | .ok (rc, _) => some rc
  | .error _ => none

/-- The fault that a call ended in, `none` when it returned. -/
def fault_of (r : Except Fault (Int × lngx_radix_tree_t)) : Option Fault :=
  match r with
  | .ok _ => none
  | .error e => some e


/-- The codes that a run of calls returned, `none` after a fault. -/
def run_codes (r : Except Fault (List Int × lngx_radix_tree_t)) : Option (List Int) :=
  match r with
  | .ok (rcs, _) => some rcs
  | .error _ => none

/-- The tree that a run of calls left (the bare header after a fault). -/
def run_tree (r : Except Fault (List Int × lngx_radix_tree_t)) : lngx_radix_tree_t :=
  match r with
  | .ok (_, t) => t
  | .error _ => header ex_alloc ex_mem ex_origin 0

/-- An allocator that serves two calls, the tree header and one page, and
fails from then on. -/
def ex_alloc_two : lua_Alloc := { brk := 0x10000, calls := 0, oom := fun i => decide (2 ≤ i) }

/-- The tree created with the hint 0 on the allocator `ex_alloc_two`: its page
of 4096 bytes has room for the root and 127 more nodes. -/
def ex_tree_two : lngx_radix_tree_t :=
  tree_of (lngx_radix_tree_create 1 ex_alloc_two ex_mem ex_origin 0 4096 0)

/-- Four host routes, `0.0.0.0`, `128.0.0.0`, `64.0.0.0` and `192.0.0.0`, which
need 32 + 32 + 31 + 31 nodes. -/
def ex_calls_full : List ins_call :=
  [⟨0, 0xffffffff, 1⟩, ⟨0x80000000, 0xffffffff, 2⟩, ⟨0x40000000, 0xffffffff, 3⟩,
    ⟨0xc0000000, 0xffffffff, 4⟩]

/-- The tree `ex_tree_two` after the four inserts of `ex_calls_full`: one node
is left in its page. -/
def ex_tree_full : lngx_radix_tree_t := run_tree (run_inserts ex_tree_two ex_calls_full)


/-! ## Routes

A route is a prefix `key/len` with a value; it is inserted under the
contiguous mask of `len` leading one bits. -/

/-- A prefix `key/len` with its value. -/
structure route where
  key : Nat
  len : Nat
  value : Nat

/-- The contiguous 32-bit mask with `len` leading one bits. -/
def mask_of_len (len : Nat) : Nat := 2 ^ 32 - 2 ^ (32 - len)

/-- The call of insert that adds a route. -/
def call_of (r : route) : ins_call := ⟨r.key, mask_of_len r.len, r.value⟩

/-- The first `len` bits of the lookup key `k` are those of the route. -/
def covers (r : route) (k : Nat) : Prop :=
  r.key &&& mask_of_len r.len = k &&& mask_of_len r.len

/-- The routes whose insert returned `NGX_OK`, given the codes that the
inserts of the routes returned. -/
def accepted : List route → List Int → List route
  | r :: rs, rc :: rcs => if rc = NGX_OK then r :: accepted rs rcs else accepted rs rcs
  | _, _ => []

/-- The real values of a trie with the observations `o` are the values of the
routes `es`, each at the path of the first `len` bits of its key. -/
def HoldsRoutes (o : List Bool → Option Nat) (es : List route) : Prop :=
  (∀ π, Occupied o π ↔ ∃ r ∈ es, (bitsFrom r.key 32).take r.len = π) ∧
  (∀ r ∈ es, o ((bitsFrom r.key 32).take r.len) = some r.value) ∧
  (∀ r ∈ es, r.len ≤ 32 ∧ r.value ≠ NGX_RADIX_NO_VALUE)


/-! ## Allocation failure -/

/-- The fault that a computation ended in, `none` when it returned. -/
def fault_in {α : Type} (r : Except Fault α) : Option Fault :=
  match r with
  | .ok _ => none
  | .error e => some e

/-- An allocator that fails from the first call on. -/
def ex_alloc_zero : lua_Alloc := { brk := 0x10000, calls := 0, oom := fun _ => true }

/-- An allocator that serves one call, the tree header, and fails from then on. -/
def ex_alloc_one : lua_Alloc := { brk := 0x10000, calls := 0, oom := fun i => decide (1 ≤ i) }


/-- The tree `ex_tree0` after the 128-bit insert of the all-zero key under the
all-ones mask (a `/128` prefix) with the value 7: a chain of 128 nodes below
the root. -/
def ex_tree_v6 : lngx_radix_tree_t :=
  tree_after (lngx_radix128tree_insert ex_tree0 (List.replicate 16 0) (List.replicate 16 255) 7)


/-- The number of leading one bits of `mask` among its bits `n - 1, ..., 0`. -/
def leading_ones (mask : Nat) : Nat → Nat
  | 0 => 0
  | n + 1 => if mask.testBit n then leading_ones mask n + 1 else 0

/-- The mask that consists of just the leading run of one bits of a 32-bit mask. -/
def lead_mask (mask : Nat) : Nat := mask_of_len (leading_ones mask 32)


/-! ## Sequences of inserts and deletes -/

/-- A call of `lngx_radix32tree_insert` or of `lngx_radix32tree_delete`. -/
inductive op where
  | insert (key mask value : Nat)
  | delete (key mask : Nat)

/-- A caller that makes the given calls one after the other on the same tree;
the result is the list of the codes returned and the tree after the last call.
`fuel` bounds the pruning loop of each delete. -/
def run_ops (fuel : Nat) : lngx_radix_tree_t → List op →
    Except Fault (List Int × lngx_radix_tree_t)
  | t, [] => .ok ([], t)
  | t, .insert key mask value :: os =>
    match lngx_radix32tree_insert t key mask value with
    | .error e => .error e
    | .ok (rc, t1) =>
      match run_ops fuel t1 os with
      | .error e => .error e
      | .ok (rcs, t2) => .ok (rc :: rcs, t2)
  | t, .delete key mask :: os =>
    match lngx_radix32tree_delete fuel t key mask with
    | .error e => .error e
    | .ok (rc, t1) =>
      match run_ops fuel t1 os with
      | .error e => .error e
      | .ok (rcs, t2) => .ok (rc :: rcs, t2)

/-- The parent links of the trie: the root has no parent, it is the only
reachable node without one, and every other reachable node is the right or
the left child, not both, of its parent, which is reachable. -/
def ParentLinks (t : lngx_radix_tree_t) : Prop :=
  (t.mem t.root).parent = 0 ∧
  ∀ n, n ≠ 0 → (∃ π, walk t.mem t.root π = n) →
    ((t.mem n).parent = 0 ↔ n = t.root) ∧
    (n ≠ t.root →
      (t.mem n).parent ≠ 0 ∧ (∃ ρ, walk t.mem t.root ρ = (t.mem n).parent) ∧
      (((t.mem (t.mem n).parent).right = n ∧ (t.mem (t.mem n).parent).left ≠ n) ∨
        ((t.mem (t.mem n).parent).left = n ∧ (t.mem (t.mem n).parent).right ≠ n)))

/-- The free list and the trie are disjoint: the free list is a chain `F`
without repetition, none of its nodes is reachable from the root, and a node
that `lngx_radix_alloc` returns is not null, not reachable from the root and
not on the free list that is left. -/
def FreeDisjoint (t : lngx_radix_tree_t) : Prop :=
  ∃ F, FreeChain t.mem t.free F ∧ F.Nodup ∧ (∀ p ∈ F, ∀ π, walk t.mem t.root π ≠ p) ∧
    ∀ p t1, lngx_radix_alloc t = .ok (p, t1) →
      p ≠ 0 ∧ (∀ π, walk t1.mem t1.root π ≠ p) ∧
      ∃ F1, FreeChain t1.mem t1.free F1 ∧ F1.Nodup ∧ p ∉ F1

/-- Three calls: the insert of `10.0.0.0/8` with the value 5, the insert of
`10.10.0.0/16` with the value 6 and the delete of `10.10.0.0/16`. -/
def ex_ops : List op :=
  [.insert 0x0a000000 0xff000000 5, .insert 0x0a0a0000 0xffff0000 6,
    .delete 0x0a0a0000 0xffff0000]


/-! ## The add-record sequence -/

/-- The calls that `ngx_lua_radix_addrecord` makes on the tree: an insert and,
when it returns `NGX_BUSY`, a delete of the same prefix followed by the insert
again.  The code of the delete is not looked at. -/
def add_record (fuel : Nat) (t : lngx_radix_tree_t) (c : ins_call) :
    Except Fault (Int × lngx_radix_tree_t) :=
  match lngx_radix32tree_insert t c.key c.mask c.value with
  | .error e => .error e
  | .ok (rc, t1) =>
    if rc = NGX_BUSY then
      match lngx_radix32tree_delete fuel t1 c.key c.mask with
      | .error e => .error e
      | .ok (_, t2) => lngx_radix32tree_insert t2 c.key c.mask c.value
    else .ok (rc, t1)

/-- A sequence of add-record calls on the same tree. -/
def run_records (fuel : Nat) : lngx_radix_tree_t → List ins_call →
    Except Fault (List Int × lngx_radix_tree_t)
  | t, [] => .ok ([], t)
  | t, c :: cs =>
    match add_record fuel t c with
    | .error e => .error e
    | .ok (rc, t1) =>
      match run_records fuel t1 cs with
      | .error e => .error e
      | .ok (rcs, t2) => .ok (rc :: rcs, t2)

/-- The mask that `ngx_lua_radix_addrecord` computes from the prefix length
`subnet`: `subnet ? ~((1 << (32-subnet)) - 1) : 0` in 32 bits. -/
def subnet_mask (subnet : Nat) : Nat :=
  if subnet ≠ 0 then (2 ^ 32 - 1) - ((1 <<< (32 - subnet)) + 2 ^ 32 - 1) % 2 ^ 32 else 0

/-- A well-formed tree whose root has a child. -/
def Rooted (t : lngx_radix_tree_t) : Prop :=
  WF t ∧ ∃ c, obs t [c] ≠ none


/-! # Theorems -/

/-! ## Bits -/

theorem and_two_pow_ne_zero (x n : Nat) : x &&& 2 ^ n ≠ 0 ↔ x.testBit n = true := by
  constructor
  · intro h
    obtain ⟨i, hi⟩ := Nat.ne_zero_implies_bit_true h
    rw [Nat.testBit_and, Nat.testBit_two_pow] at hi
    simp at hi
    obtain ⟨h1, h2⟩ := hi
    subst h2
    exact h1
  · intro h h0
    have : (x &&& 2 ^ n).testBit n = true := by
      rw [Nat.testBit_and, Nat.testBit_two_pow_self, h]; rfl
    rw [h0] at this
    simp at this

theorem two_pow_and_ne_zero (x n : Nat) : 2 ^ n &&& x ≠ 0 ↔ x.testBit n = true := by
  rw [Nat.land_comm]; exact and_two_pow_ne_zero x n

theorem half_pow_succ (n : Nat) : 2 ^ (n + 1) / 2 = 2 ^ n := by
  rw [pow_succ]; simp

theorem half_pow_shift (n : Nat) : (2 ^ (n + 1) / 2) >>> 1 = 2 ^ n / 2 := by
  rw [half_pow_succ, Nat.shiftRight_eq_div_pow]

theorem half_pow_zero : 2 ^ 0 / 2 = 0 := by decide

/-! ## The loops in terms of paths -/

theorem walk_zero (m : Nat → lngx_radix_node_t) (l : List Bool) : walk m 0 l = 0 := by
  cases l <;> simp [walk]

theorem walk_append (m : Nat → lngx_radix_node_t) (p : Nat) (l₁ l₂ : List Bool) :
    walk m p (l₁ ++ l₂) = walk m (walk m p l₁) l₂ := by
  induction l₁ generalizing p with
  | nil => rfl
  | cons b bs ih =>
    by_cases hp : p = 0
    · subst hp; simp [walk, walk_zero]
    · simp [walk, hp, ih]

theorem walk_snoc (m : Nat → lngx_radix_node_t) (p : Nat) (l : List Bool) (b : Bool) :
    walk m p (l ++ [b]) = if walk m p l = 0 then 0 else child m (walk m p l) b := by
  rw [walk_append]
  by_cases h : walk m p l = 0 <;> simp [walk, h]

theorem descend_ne_zero (m : Nat → lngx_radix_node_t) (l : List Bool) (p : Nat) (hp : p ≠ 0) :
    (descend m p l).1 ≠ 0 := by
  induction l generalizing p with
  | nil => simpa [descend] using hp
  | cons b bs ih =>
    by_cases h : child m p b = 0
    · simpa [descend, h] using hp
    · simpa [descend, h] using ih _ h

/-- The first loop of insert: with `bit = 2 ^ n / 2` it descends along
`pfx key mask n`, and it leaves `bit` at the position of the first bit it did
not consume. -/
theorem insert_walk_spec (m : Nat → lngx_radix_node_t) (key mask : Nat) (n node : Nat) :
    ∃ r, r ≤ n ∧
      insert_walk m key mask n (2 ^ n / 2) node node =
        (2 ^ r / 2, (descend m node (pfx key mask n)).1,
          if (descend m node (pfx key mask n)).2 = [] then (descend m node (pfx key mask n)).1
          else 0) ∧
      pfx key mask r = (descend m node (pfx key mask n)).2 := by
  induction n generalizing node with
  | zero => exact ⟨0, le_refl _, by simp [insert_walk, pfx, descend], by simp [pfx, descend]⟩
  | succ n ih =>
    by_cases hm : mask.testBit n = true
    · have hb : 2 ^ (n + 1) / 2 &&& mask ≠ 0 := by
        rw [half_pow_succ]; exact (two_pow_and_ne_zero mask n).2 hm
      by_cases hc : child m node (key.testBit n) = 0
      · refine ⟨n + 1, le_refl _, ?_, ?_⟩
        · have hk : (if key &&& 2 ^ (n + 1) / 2 ≠ 0 then (m node).right else (m node).left) = 0 := by
            rw [half_pow_succ]
            by_cases hkb : key.testBit n = true
            · rw [if_pos ((and_two_pow_ne_zero key n).2 hkb)]; simpa [child, hkb] using hc
            · rw [if_neg (fun h => hkb ((and_two_pow_ne_zero key n).1 h))]
              simpa [child, hkb] using hc
          simp only [insert_walk, pfx, hm, descend, hc, if_true]
          rw [if_pos hb]
          simp only [hk, if_true]
          simp
        · simp [pfx, hm, descend, hc]
      · obtain ⟨r, hr, h1, h2⟩ := ih (child m node (key.testBit n))
        refine ⟨r, Nat.le_succ_of_le hr, ?_, ?_⟩
        · have hk : (if key &&& 2 ^ (n + 1) / 2 ≠ 0 then (m node).right else (m node).left)
              = child m node (key.testBit n) := by
            rw [half_pow_succ]
            by_cases hkb : key.testBit n = true
            · rw [if_pos ((and_two_pow_ne_zero key n).2 hkb)]; simp [child, hkb]
            · rw [if_neg (fun h => hkb ((and_two_pow_ne_zero key n).1 h))]
              simp [child, hkb]
          simp only [insert_walk, pfx, hm, descend, hc, if_true, if_false]
          rw [if_pos hb]
          simp only [hk, hc, if_false]
          rw [half_pow_shift, h1]
        · simp [pfx, hm, descend, hc, h2]
    · have hb : ¬ (2 ^ (n + 1) / 2 &&& mask ≠ 0) := by
        rw [half_pow_succ]; exact fun h => hm ((two_pow_and_ne_zero mask n).1 h)
      refine ⟨n + 1, le_refl _, ?_, ?_⟩
      · simp only [insert_walk, pfx, hm, descend]
        rw [if_neg hb]
        simp
      · simp [pfx, hm, descend]

theorem key_bit_child (m : Nat → lngx_radix_node_t) (key n node : Nat) :
    (if key &&& 2 ^ (n + 1) / 2 ≠ 0 then (m node).right else (m node).left)
      = child m node (key.testBit n) := by
  rw [half_pow_succ]
  by_cases hkb : key.testBit n = true
  · rw [if_pos ((and_two_pow_ne_zero key n).2 hkb)]; simp [child, hkb]
  · rw [if_neg (fun h => hkb ((and_two_pow_ne_zero key n).1 h))]
    simp [child, hkb]

/-- The second loop of insert: started at the position where the first loop
stopped, with any fuel that covers the bits left, it builds along the rest of
the masked prefix. -/
theorem insert_build_spec (key mask : Nat) (r : Nat) :
    ∀ (f : Nat) (t : lngx_radix_tree_t) (node : Nat), r ≤ f →
      insert_build key mask f t (2 ^ r / 2) node = buildL (pfx key mask r) t node := by
  induction r with
  | zero =>
    intro f t node _
    cases f with
    | zero => simp [insert_build, pfx, buildL]
    | succ f => simp [insert_build, pfx, buildL]
  | succ r ih =>
    intro f t node hf
    obtain ⟨f, rfl⟩ : ∃ g, f = g + 1 := ⟨f - 1, by omega⟩
    have hf' : r ≤ f := by omega
    by_cases hm : mask.testBit r = true
    · have hb : 2 ^ (r + 1) / 2 &&& mask ≠ 0 := by
        rw [half_pow_succ]; exact (two_pow_and_ne_zero mask r).2 hm
      have hside : ∀ (m1 : Nat → lngx_radix_node_t) (next : Nat),
          (if key &&& 2 ^ (r + 1) / 2 ≠ 0 then setRight m1 node next else setLeft m1 node next)
            = (if key.testBit r = true then setRight m1 node next else setLeft m1 node next) := by
        intro m1 next
        rw [half_pow_succ]
        by_cases hkb : key.testBit r = true
        · rw [if_pos ((and_two_pow_ne_zero key r).2 hkb), if_pos hkb]
        · rw [if_neg (fun h => hkb ((and_two_pow_ne_zero key r).1 h)), if_neg hkb]
      simp only [insert_build, pfx, hm, buildL, if_true]
      rw [if_pos hb]
      cases hal : lngx_radix_alloc t with
      | error e => rfl
      | ok res =>
        obtain ⟨next, t1⟩ := res
        simp only
        by_cases hn : next = 0
        · simp [hn]
        · simp only [hn, if_false]
          rw [hside, half_pow_shift, ih f _ next hf']
    · have hb : ¬ (2 ^ (r + 1) / 2 &&& mask ≠ 0) := by
        rw [half_pow_succ]; exact fun h => hm ((two_pow_and_ne_zero mask r).1 h)
      simp only [insert_build, pfx, hm, buildL]
      rw [if_neg hb]

/-- The 32-bit insert is the insert along the masked prefix of its key. -/
theorem insert_eq_insertL (t : lngx_radix_tree_t) (key mask value : Nat) :
    lngx_radix32tree_insert t key mask value = insertL t (pfx key mask 32) value := by
  unfold lngx_radix32tree_insert insertL
  by_cases hroot : t.root = 0
  · simp [hroot]
  · simp only [hroot, if_false]
    obtain ⟨r, hr, h1, h2⟩ := insert_walk_spec t.mem key mask 32 t.root
    have h32 : (0x80000000 : Nat) = 2 ^ 32 / 2 := by norm_num
    rw [h32, h1]
    have hne := descend_ne_zero t.mem (pfx key mask 32) t.root hroot
    cases hd : descend t.mem t.root (pfx key mask 32) with
    | mk node rest =>
      rw [hd] at h2 hne
      simp only at h2 hne ⊢
      cases rest with
      | nil => simp [hne]
      | cons b bs =>
        simp only [reduceCtorEq, if_false, ne_eq, not_true_eq_false]
        rw [insert_build_spec key mask r 32 t node hr, h2]

/-- The first loop of delete reaches the node at the masked prefix, or null. -/
theorem delete_walk_spec (m : Nat → lngx_radix_node_t) (key mask : Nat) (n node : Nat) :
    delete_walk m key mask n (2 ^ n / 2) node = walk m node (pfx key mask n) := by
  induction n generalizing node with
  | zero => simp [delete_walk, pfx, walk]
  | succ n ih =>
    by_cases hm : mask.testBit n = true
    · have hb : 2 ^ (n + 1) / 2 &&& mask ≠ 0 := by
        rw [half_pow_succ]; exact (two_pow_and_ne_zero mask n).2 hm
      by_cases hp : node = 0
      · subst hp; simp [delete_walk, walk_zero]
      · simp only [delete_walk, pfx, hm, walk, hp, if_true, if_false]
        rw [if_pos ⟨hp, hb⟩, key_bit_child, half_pow_shift, ih]
    · have hb : ¬ (2 ^ (n + 1) / 2 &&& mask ≠ 0) := by
        rw [half_pow_succ]; exact fun h => hm ((two_pow_and_ne_zero mask n).1 h)
      simp only [delete_walk, pfx, hm, walk]
      rw [if_neg (fun h => hb h.2)]

/-- The 32-bit delete acts at the node of the masked prefix. -/
theorem delete_eq (fuel : Nat) (t : lngx_radix_tree_t) (key mask : Nat) :
    lngx_radix32tree_delete fuel t key mask
      = delete_at fuel t (walk t.mem t.root (pfx key mask 32)) := by
  unfold lngx_radix32tree_delete
  have h32 : (0x80000000 : Nat) = 2 ^ 32 / 2 := by norm_num
  rw [h32, delete_walk_spec]

theorem find_loop_null (m : Nat → lngx_radix_node_t) (key f bit value : Nat) :
    find_loop m key f bit 0 value = .ok value := by
  cases f <;> simp [find_loop]

/-- The loop of find: the `n` bits under `bit = 2 ^ n / 2` are consumed, then
the loop goes on with `bit = 0`, that is to the left. -/
theorem find_loop_spec (m : Nat → lngx_radix_node_t) (key : Nat) (n : Nat) :
    ∀ (node value : Nat),
      find_loop m key (n + 1) (2 ^ n / 2) node value
        = if walk m node (bitsFrom key n ++ [false]) = 0 then
            .ok (accum m (bitsFrom key n) node value)
          else .error .outOfFuel := by
  induction n with
  | zero =>
    intro node value
    by_cases hp : node = 0
    · subst hp; simp [find_loop, bitsFrom, walk, accum]
    · by_cases hl : (m node).left = 0
      · simp [find_loop, bitsFrom, walk, accum, hp, child, hl]
      · simp [find_loop, bitsFrom, walk, accum, hp, child, hl]
  | succ n ih =>
    intro node value
    by_cases hp : node = 0
    · subst hp; simp [find_loop, bitsFrom, walk, accum]
    · rw [find_loop]
      simp only [hp, if_false]
      rw [key_bit_child, half_pow_shift, ih]
      simp [bitsFrom, walk, accum, hp]

/-! ## The node arena on well-formed trees -/

theorem FreeChain_congr {m m' : Nat → lngx_radix_node_t} :
    ∀ (F : List Nat) (p : Nat), (∀ q ∈ F, (m' q).right = (m q).right) →
      FreeChain m p F → FreeChain m' p F := by
  intro F
  induction F with
  | nil => intro p _ h; exact h
  | cons q F ih =>
    intro p hq h
    obtain ⟨h1, h2, h3⟩ := h
    refine ⟨h1, h2, ?_⟩
    rw [hq q (List.mem_cons_self _ _)]
    exact ih _ (fun x hx => hq x (List.mem_cons_of_mem _ hx)) h3

theorem FreeChain_zero_not_mem {m : Nat → lngx_radix_node_t} :
    ∀ (F : List Nat) (p : Nat), FreeChain m p F → 0 ∉ F := by
  intro F
  induction F with
  | nil => intro p _; simp
  | cons q F ih =>
    intro p h
    obtain ⟨_, h2, h3⟩ := h
    intro hmem
    rcases List.mem_cons.1 hmem with h0 | h0
    · exact h2 h0.symm
    · exact ih _ h3 h0

theorem andNot_le (x m : Nat) : andNot x m ≤ x := Nat.sub_le _ _

theorem le_andNot (x m : Nat) : x ≤ andNot x m + m := by
  unfold andNot
  have : x &&& m ≤ m := Nat.and_le_right
  omega

/-- What `lngx_radix_alloc` returns on a well-formed tree: a node that is not
null, not in the trie and not on the free list that is left; memory and trie
are untouched.  When the free list is not empty the node is its head and the
allocator is not called. -/
theorem alloc_spec (t : lngx_radix_tree_t) (F : List Nat) (h : Inv t F)
    (p : Nat) (t1 : lngx_radix_tree_t) (hal : lngx_radix_alloc t = .ok (p, t1)) :
    p ≠ 0 ∧ t1.mem = t.mem ∧ t1.root = t.root ∧ t1.lngx_pagesize = t.lngx_pagesize ∧
    t1.a.oom = t.a.oom ∧ t.a.calls ≤ t1.a.calls ∧
    (∀ π, walk t.mem t.root π ≠ p) ∧ p + sizeof_node ≤ t1.start ∧
    ∃ F1, Inv t1 F1 ∧ p ∉ F1 ∧ (t.free ≠ 0 → F = p :: F1 ∧ t1.a = t.a ∧
      t1.start = t.start ∧ t1.size = t.size) ∧ (t.free = 0 → F1 = []) := by
  have hroot := h.below [] (by simpa [walk] using h.root_ne)
  simp only [walk] at hroot
  unfold lngx_radix_alloc at hal
  by_cases hf : t.free = 0
  · have hF : F = [] := by
      cases F with
      | nil => rfl
      | cons q F =>
        have := h.chain
        obtain ⟨h1, h2, _⟩ := this
        exact absurd (h1.symm.trans hf) h2
    subst hF
    simp only [hf, ne_eq, not_true_eq_false, if_false] at hal
    by_cases hs : t.size < sizeof_node
    · simp only [hs, if_true, lngx_pmemalign, lua_Alloc.alloc] at hal
      by_cases hoom : t.a.oom t.a.calls = true
      · simp [hoom] at hal
      · simp only [hoom, Bool.false_eq_true, if_false] at hal
        by_cases hb : t.a.brk = 0
        · simp [hb] at hal
        · simp only [hb, if_false] at hal
          have hlo := le_andNot (t.a.brk + t.lngx_pagesize + sizeof_ptr) (t.lngx_pagesize - 1)
          have hhi := andNot_le (t.a.brk + t.lngx_pagesize + sizeof_ptr) (t.lngx_pagesize - 1)
          have hpg := h.page_ge
          have hpl := h.page_lt
          have hsl := h.slab
          set q := andNot (t.a.brk + t.lngx_pagesize + sizeof_ptr) (t.lngx_pagesize - 1) with hq
          have hq0 : q ≠ 0 := by
            simp only [sizeof_ptr, sizeof_node] at *
            omega
          simp only [hq0, if_false, Except.ok.injEq, Prod.mk.injEq] at hal
          obtain ⟨hp, ht1⟩ := hal
          subst hp
          subst ht1
          have hfresh : ∀ π, walk t.mem t.root π ≠ q := by
            intro π hπ
            have := h.below π (by rw [hπ]; exact hq0)
            rw [hπ] at this
            simp only [sizeof_ptr, sizeof_node] at *
            omega
          have hsz : (t.lngx_pagesize + 2 ^ 64 - sizeof_node) % 2 ^ 64
              = t.lngx_pagesize - sizeof_node := by
            simp only [sizeof_node] at *
            omega
          refine ⟨hq0, rfl, rfl, rfl, rfl, by simp, hfresh, le_refl _, [], ?_, by simp,
            fun hne => absurd hf hne, fun _ => rfl⟩
          refine ⟨h.root_ne, h.root_parent, h.inj, h.depth, h.parent, hf,
            List.nodup_nil, by simp, by simp, ?_, ?_, ?_, h.page_ge, h.page_lt, ?_⟩
          · intro π hπ
            have := h.below π hπ
            simp only [sizeof_ptr, sizeof_node] at *
            omega
          · show q + sizeof_node + (t.lngx_pagesize + 2 ^ 64 - sizeof_node) % 2 ^ 64
              ≤ t.a.brk + (t.lngx_pagesize + t.lngx_pagesize + sizeof_ptr)
            rw [hsz]
            simp only [sizeof_ptr, sizeof_node] at *
            omega
          · show (t.lngx_pagesize + 2 ^ 64 - sizeof_node) % 2 ^ 64 < 2 ^ 64
            exact Nat.mod_lt _ (by norm_num)
          · show 0 < t.a.brk + (t.lngx_pagesize + t.lngx_pagesize + sizeof_ptr)
            have := h.brk_pos
            omega
    · simp only [hs, if_false, Except.ok.injEq, Prod.mk.injEq] at hal
      obtain ⟨hp, ht1⟩ := hal
      subst hp
      subst ht1
      have hsl := h.slab
      have hlt := h.size_lt
      have hsz : (t.size + 2 ^ 64 - sizeof_node) % 2 ^ 64 = t.size - sizeof_node := by
        simp only [sizeof_node] at *
        omega
      have hfresh : ∀ π, walk t.mem t.root π ≠ t.start := by
        intro π hπ
        have := h.below π (by rw [hπ]; simp only [sizeof_node] at *; omega)
        rw [hπ] at this
        simp only [sizeof_node] at *
        omega
      refine ⟨by simp only [sizeof_node] at *; omega, rfl, rfl, rfl, rfl, le_refl _, hfresh,
        le_refl _, [], ?_, by simp, fun hne => absurd hf hne, fun _ => rfl⟩
      refine ⟨h.root_ne, h.root_parent, h.inj, h.depth, h.parent, rfl,
        List.nodup_nil, by simp, by simp, ?_, ?_, ?_, h.page_ge, h.page_lt, h.brk_pos⟩
      · intro π hπ
        have := h.below π hπ
        show walk t.mem t.root π + sizeof_node ≤ t.start + sizeof_node
        omega
      · show t.start + sizeof_node + (t.size + 2 ^ 64 - sizeof_node) % 2 ^ 64 ≤ t.a.brk
        rw [hsz]
        simp only [sizeof_node] at *
        omega
      · show (t.size + 2 ^ 64 - sizeof_node) % 2 ^ 64 < 2 ^ 64
        exact Nat.mod_lt _ (by norm_num)
  · simp only [hf, ne_eq, not_false_eq_true, if_true, Except.ok.injEq, Prod.mk.injEq] at hal
    obtain ⟨hp, ht1⟩ := hal
    subst hp
    subst ht1
    cases F with
    | nil => exact absurd h.chain hf
    | cons q F1 =>
      obtain ⟨h1, h2, h3⟩ := h.chain
      have hnd := h.nodup
      rw [List.nodup_cons] at hnd
      refine ⟨hf, rfl, rfl, rfl, rfl, le_refl _, ?_, ?_, F1, ?_, ?_, ?_, ?_⟩
      · exact h.free_unreach t.free (by rw [h1]; exact List.mem_cons_self _ _)
      · exact h.free_below t.free (by rw [h1]; exact List.mem_cons_self _ _)
      · refine ⟨h.root_ne, h.root_parent, h.inj, h.depth, h.parent, ?_, hnd.2, ?_, ?_,
          h.below, h.slab, h.size_lt, h.page_ge, h.page_lt, h.brk_pos⟩
        · show FreeChain t.mem (t.mem t.free).right F1
          rw [h1]; exact h3
        · exact fun p hp => h.free_unreach p (List.mem_cons_of_mem _ hp)
        · exact fun p hp => h.free_below p (List.mem_cons_of_mem _ hp)
      · rw [h1]; exact hnd.1
      · intro _; rw [h1]; exact ⟨rfl, rfl, rfl, rfl⟩
      · intro h0; exact absurd h0 hf

/-- On a well-formed tree `lngx_radix_alloc` returns a node whenever the free
list is not empty, the slab has room, or the allocator does not fail. -/
theorem alloc_total (t : lngx_radix_tree_t) (F : List Nat) (h : Inv t F)
    (hok : t.free ≠ 0 ∨ sizeof_node ≤ t.size ∨ t.a.oom t.a.calls = false) :
    ∃ p t1, lngx_radix_alloc t = .ok (p, t1) := by
  unfold lngx_radix_alloc
  by_cases hf : t.free = 0
  · simp only [hf, ne_eq, not_true_eq_false, if_false]
    by_cases hs : t.size < sizeof_node
    · have hoom : t.a.oom t.a.calls = false := by
        rcases hok with h1 | h1 | h1
        · exact absurd hf h1
        · omega
        · exact h1
      have hb : t.a.brk ≠ 0 := Nat.pos_iff_ne_zero.1 h.brk_pos
      simp only [hs, if_true, lngx_pmemalign, lua_Alloc.alloc, hoom, Bool.false_eq_true, if_false,
        hb]
      split <;> exact ⟨_, _, rfl⟩
    · simp only [hs, if_false]
      exact ⟨_, _, rfl⟩
  · simp only [hf, ne_eq, not_false_eq_true, if_true]
    exact ⟨_, _, rfl⟩

theorem NoFail_alloc (t : lngx_radix_tree_t) (hn : NoFail t) (t1 : lngx_radix_tree_t)
    (ho : t1.a.oom = t.a.oom) (hc : t.a.calls ≤ t1.a.calls) : NoFail t1 := by
  intro i hi
  rw [ho]
  exact hn i (le_trans hc hi)

/-! ## Linking a new node -/

theorem walk_congr (m m' : Nat → lngx_radix_node_t) :
    ∀ (π : List Bool) (p : Nat),
      (∀ σ b, (σ ++ [b]) <+: π → walk m p σ ≠ 0 →
        child m' (walk m p σ) b = child m (walk m p σ) b) →
      walk m' p π = walk m p π := by
  intro π
  induction π with
  | nil => intro p _; rfl
  | cons c ρ ih =>
    intro p h
    by_cases hp : p = 0
    · subst hp; simp [walk]
    · simp only [walk, hp, if_false]
      have h0 := h [] c (by simp) (by simpa [walk] using hp)
      simp only [walk] at h0
      rw [h0]
      apply ih
      intro σ b hpre hne
      have := h (c :: σ) b (by simpa using hpre) (by simpa [walk, hp] using hne)
      simpa [walk, hp] using this

theorem buildL_cons (b : Bool) (bs : List Bool) (t : lngx_radix_tree_t) (node : Nat) :
    buildL (b :: bs) t node =
      match lngx_radix_alloc t with
      | .error e => .error e
      | .ok (next, t1) =>
        if next = 0 then .ok (none, t1) else buildL bs (link t1 node next b) next := by
  simp only [buildL, link]

theorem link_mem_other (t : lngx_radix_tree_t) (node next : Nat) (b : Bool) (q : Nat)
    (h1 : q ≠ node) (h2 : q ≠ next) : (link t node next b).mem q = t.mem q := by
  cases b <;> simp [link, setRight, setLeft, Function.update, h1, h2]

theorem link_mem_next (t : lngx_radix_tree_t) (node next : Nat) (b : Bool) (h : next ≠ node) :
    (link t node next b).mem next =
      { right := 0, left := 0, parent := node, value := NGX_RADIX_NO_VALUE } := by
  cases b <;> simp [link, setRight, setLeft, Function.update, h]

theorem link_child_node (t : lngx_radix_tree_t) (node next : Nat) (b c : Bool)
    (h : next ≠ node) :
    child (link t node next b).mem node c = if c = b then next else child t.mem node c := by
  have h' : node ≠ next := fun e => h e.symm
  cases b <;> cases c <;> simp [link, setRight, setLeft, Function.update, child, h, h']

theorem link_parent_node (t : lngx_radix_tree_t) (node next : Nat) (b : Bool)
    (h : next ≠ node) : ((link t node next b).mem node).parent = (t.mem node).parent := by
  have h' : node ≠ next := fun e => h e.symm
  cases b <;> simp [link, setRight, setLeft, Function.update, h, h']

theorem link_value (t : lngx_radix_tree_t) (node next : Nat) (b : Bool) (q : Nat)
    (h : next ≠ node) (hq : q ≠ next) : ((link t node next b).mem q).value = (t.mem q).value := by
  have h' : node ≠ next := fun e => h e.symm
  by_cases hqn : q = node
  · subst hqn
    cases b <;> simp [link, setRight, setLeft, Function.update, h, h']
  · rw [link_mem_other t node next b q hqn hq]

theorem link_right_other (t : lngx_radix_tree_t) (node next : Nat) (b : Bool) (q : Nat)
    (h1 : q ≠ node) (h2 : q ≠ next) :
    ((link t node next b).mem q).right = (t.mem q).right := by
  rw [link_mem_other t node next b q h1 h2]

/-- The walk in the tree after a node was linked at the path `σ ++ [b]`, where
there was none. -/
theorem link_walk (t : lngx_radix_tree_t) (F : List Nat) (h : Inv t F) (σ : List Bool) (b : Bool)
    (node next : Nat) (hnode : walk t.mem t.root σ = node) (hn0 : node ≠ 0)
    (hc : child t.mem node b = 0) (hnext : next ≠ 0)
    (hfresh : ∀ π, walk t.mem t.root π ≠ next) (π : List Bool) :
    walk (link t node next b).mem (link t node next b).root π =
      if π = σ ++ [b] then next else walk t.mem t.root π := by
  have hne : next ≠ node := fun e => hfresh σ (hnode.trans e.symm)
  have hroot : (link t node next b).root = t.root := rfl
  rw [hroot]
  -- walks that do not pass the new link are unchanged
  have key : ∀ ρ : List Bool, ¬ (σ ++ [b]) <+: ρ →
      walk (link t node next b).mem t.root ρ = walk t.mem t.root ρ := by
    intro ρ hρ
    apply walk_congr
    intro σ' c hpre hq
    by_cases hqn : walk t.mem t.root σ' = node
    · have hσ : σ' = σ := h.inj σ' σ hq (hqn.trans hnode.symm)
      subst hσ
      rw [hqn, link_child_node t node next b c hne]
      have hcb : c ≠ b := by
        intro e; subst e; exact hρ hpre
      simp [hcb]
    · have hq2 : walk t.mem t.root σ' ≠ next := hfresh σ'
      simp only [child]
      rw [link_mem_other t node next b _ hqn hq2]
  have hσ : walk (link t node next b).mem t.root σ = node := by
    rw [key σ]
    · exact hnode
    · intro hpre
      have := hpre.length_le
      simp at this
  have hσb : walk (link t node next b).mem t.root (σ ++ [b]) = next := by
    rw [walk_snoc, hσ]
    simp [hn0, link_child_node t node next b b hne]
  by_cases hπ : π = σ ++ [b]
  · subst hπ
    simp [hσb]
  · simp only [hπ, if_false]
    by_cases hpre : (σ ++ [b]) <+: π
    · obtain ⟨ρ, hρ⟩ := hpre
      cases ρ with
      | nil => exact absurd (by simpa using hρ.symm) hπ
      | cons c ρ =>
        rw [← hρ, walk_append, hσb, walk_append (m := t.mem), walk_snoc, hnode]
        simp only [hn0, if_false, hc, walk_zero]
        simp only [walk, hnext, if_false]
        have : child (link t node next b).mem next c = 0 := by
          simp only [child]
          rw [link_mem_next t node next b hne]
          cases c <;> rfl
        rw [this, walk_zero]
    · exact key π hpre

theorem link_parent (t : lngx_radix_tree_t) (node next : Nat) (b : Bool) (q : Nat)
    (h : next ≠ node) (hq : q ≠ next) :
    ((link t node next b).mem q).parent = (t.mem q).parent := by
  by_cases hqn : q = node
  · subst hqn; exact link_parent_node t q next b h
  · rw [link_mem_other t node next b q hqn hq]

/-- Linking a fresh node below a node of the trie keeps the invariant. -/
theorem link_inv (t : lngx_radix_tree_t) (F : List Nat) (h : Inv t F) (σ : List Bool) (b : Bool)
    (node next : Nat) (hnode : walk t.mem t.root σ = node) (hn0 : node ≠ 0)
    (hc : child t.mem node b = 0) (hnext : next ≠ 0)
    (hfresh : ∀ π, walk t.mem t.root π ≠ next) (hF : next ∉ F)
    (hbelow : next + sizeof_node ≤ t.start) (hlen : σ.length < 32) :
    Inv (link t node next b) F := by
  have hne : next ≠ node := fun e => hfresh σ (hnode.trans e.symm)
  have hw := link_walk t F h σ b node next hnode hn0 hc hnext hfresh
  have hσb0 : walk t.mem t.root (σ ++ [b]) = 0 := by
    rw [walk_snoc, hnode]; simp [hn0, hc]
  refine ⟨h.root_ne, ?_, ?_, ?_, ?_, ?_, h.nodup, ?_, h.free_below, ?_, h.slab, h.size_lt,
    h.page_ge, h.page_lt, h.brk_pos⟩
  · show ((link t node next b).mem t.root).parent = 0
    rw [link_parent t node next b t.root hne (hfresh [])]
    exact h.root_parent
  · intro π ρ h1 h2
    rw [hw π] at h1 h2
    rw [hw ρ] at h2
    by_cases hπ : π = σ ++ [b]
    · by_cases hρ : ρ = σ ++ [b]
      · rw [hπ, hρ]
      · simp only [hπ, hρ, if_true, if_false] at h2
        exact absurd h2.symm (hfresh ρ)
    · by_cases hρ : ρ = σ ++ [b]
      · simp only [hπ, hρ, if_true, if_false] at h2
        exact absurd h2 (hfresh π)
      · simp only [hπ, hρ, if_false] at h1 h2
        exact h.inj π ρ h1 h2
  · intro π h1
    rw [hw π] at h1
    by_cases hπ : π = σ ++ [b]
    · rw [hπ]; simp; omega
    · simp only [hπ, if_false] at h1
      exact h.depth π h1
  · intro π c h1
    rw [hw (π ++ [c])] at h1 ⊢
    rw [hw π]
    by_cases hπ : π ++ [c] = σ ++ [b]
    · have hπσ : π = σ := (List.append_inj' hπ rfl).1
      have hσ' : ¬ σ = σ ++ [b] := by
        intro e
        have := congrArg List.length e
        simp at this
      subst hπσ
      simp only [hπ, if_true, hσ', if_false]
      rw [link_mem_next t node next b hne]
      exact hnode.symm
    · simp only [hπ, if_false] at h1 ⊢
      have hπ' : ¬ π = σ ++ [b] := by
        intro e
        apply h1
        rw [e, walk_append, hσb0, walk_zero]
      simp only [hπ', if_false]
      rw [link_parent t node next b _ hne (hfresh _)]
      exact h.parent π c h1
  · apply FreeChain_congr F t.free _ h.chain
    intro q hq
    have h1 : q ≠ next := fun e => hF (e ▸ hq)
    have h2 : q ≠ node := fun e => h.free_unreach q hq σ (hnode.trans e.symm)
    exact link_right_other t node next b q h2 h1
  · intro p hp π
    show walk (link t node next b).mem (link t node next b).root π ≠ p
    rw [hw π]
    by_cases hπ : π = σ ++ [b]
    · simp only [hπ, if_true]
      exact fun e => hF (e ▸ hp)
    · simp only [hπ, if_false]
      exact h.free_unreach p hp π
  · intro π h1
    show walk (link t node next b).mem (link t node next b).root π + sizeof_node ≤ t.start
    rw [hw π] at h1 ⊢
    by_cases hπ : π = σ ++ [b]
    · simp only [hπ, if_true]; exact hbelow
    · simp only [hπ, if_false] at h1 ⊢
      exact h.below π h1

theorem setValue_right (m : Nat → lngx_radix_node_t) (q v x : Nat) :
    ((setValue m q v) x).right = (m x).right := by
  by_cases h : x = q
  · subst h; simp [setValue]
  · simp [setValue, Function.update_noteq h]

theorem setValue_left (m : Nat → lngx_radix_node_t) (q v x : Nat) :
    ((setValue m q v) x).left = (m x).left := by
  by_cases h : x = q
  · subst h; simp [setValue]
  · simp [setValue, Function.update_noteq h]

theorem setValue_parent (m : Nat → lngx_radix_node_t) (q v x : Nat) :
    ((setValue m q v) x).parent = (m x).parent := by
  by_cases h : x = q
  · subst h; simp [setValue]
  · simp [setValue, Function.update_noteq h]

theorem setValue_value (m : Nat → lngx_radix_node_t) (q v x : Nat) :
    ((setValue m q v) x).value = if x = q then v else (m x).value := by
  by_cases h : x = q
  · subst h; simp [setValue]
  · simp [setValue, Function.update_noteq h, h]

theorem setValue_child (m : Nat → lngx_radix_node_t) (q v x : Nat) (b : Bool) :
    child (setValue m q v) x b = child m x b := by
  cases b <;> simp [child, setValue_right, setValue_left]

theorem link_obs (t : lngx_radix_tree_t) (F : List Nat) (h : Inv t F) (σ : List Bool) (b : Bool)
    (node next : Nat) (hnode : walk t.mem t.root σ = node) (hn0 : node ≠ 0)
    (hc : child t.mem node b = 0) (hnext : next ≠ 0)
    (hfresh : ∀ π, walk t.mem t.root π ≠ next) (π : List Bool) :
    obs (link t node next b) π =
      if π = σ ++ [b] then some NGX_RADIX_NO_VALUE else obs t π := by
  have hne : next ≠ node := fun e => hfresh σ (hnode.trans e.symm)
  unfold obs
  rw [link_walk t F h σ b node next hnode hn0 hc hnext hfresh π]
  by_cases hπ : π = σ ++ [b]
  · simp only [hπ, if_true, hnext, if_false]
    rw [link_mem_next t node next b hne]
  · simp only [hπ, if_false]
    by_cases hw : walk t.mem t.root π = 0
    · simp [hw]
    · simp only [hw, if_false]
      rw [link_value t node next b _ hne (hfresh π)]

theorem setValue_walk (m : Nat → lngx_radix_node_t) (q v : Nat) :
    ∀ (π : List Bool) (p : Nat), walk (setValue m q v) p π = walk m p π := by
  intro π p
  apply walk_congr
  intro σ b _ _
  exact setValue_child m q v _ b

/-- A store to a value field keeps the invariant. -/
theorem setValue_inv (t : lngx_radix_tree_t) (F : List Nat) (h : Inv t F) (q v : Nat) :
    Inv { t with mem := setValue t.mem q v } F := by
  have hp : ∀ x, ((setValue t.mem q v) x).parent = (t.mem x).parent :=
    fun x => setValue_parent t.mem q v x
  have hr : ∀ x, ((setValue t.mem q v) x).right = (t.mem x).right :=
    fun x => setValue_right t.mem q v x
  refine ⟨h.root_ne, ?_, ?_, ?_, ?_, ?_, h.nodup, ?_, h.free_below, ?_, h.slab, h.size_lt,
    h.page_ge, h.page_lt, h.brk_pos⟩
  · show ((setValue t.mem q v) t.root).parent = 0
    rw [hp]; exact h.root_parent
  · intro π ρ
    show walk (setValue t.mem q v) t.root π ≠ 0 →
      walk (setValue t.mem q v) t.root π = walk (setValue t.mem q v) t.root ρ → π = ρ
    rw [setValue_walk, setValue_walk]
    exact h.inj π ρ
  · intro π
    show walk (setValue t.mem q v) t.root π ≠ 0 → _
    rw [setValue_walk]
    exact h.depth π
  · intro π b
    show walk (setValue t.mem q v) t.root (π ++ [b]) ≠ 0 →
      ((setValue t.mem q v) (walk (setValue t.mem q v) t.root (π ++ [b]))).parent
        = walk (setValue t.mem q v) t.root π
    rw [setValue_walk, setValue_walk, hp]
    exact h.parent π b
  · exact FreeChain_congr F t.free (fun x _ => hr x) h.chain
  · intro p hp' π
    show walk (setValue t.mem q v) t.root π ≠ p
    rw [setValue_walk]
    exact h.free_unreach p hp' π
  · intro π
    show walk (setValue t.mem q v) t.root π ≠ 0 → walk (setValue t.mem q v) t.root π + _ ≤ _
    rw [setValue_walk]
    exact h.below π

theorem setValue_obs (t : lngx_radix_tree_t) (F : List Nat) (h : Inv t F) (κ : List Bool)
    (q v : Nat) (hq : walk t.mem t.root κ = q) (hq0 : q ≠ 0) (π : List Bool) :
    obs { t with mem := setValue t.mem q v } π = if π = κ then some v else obs t π := by
  unfold obs
  show (if walk (setValue t.mem q v) t.root π = 0 then none
    else some ((setValue t.mem q v) (walk (setValue t.mem q v) t.root π)).value) = _
  rw [setValue_walk]
  by_cases hπ : π = κ
  · subst hπ
    simp [hq, hq0, setValue_value]
  · simp only [hπ, if_false]
    by_cases hw : walk t.mem t.root π = 0
    · simp [hw]
    · simp only [hw, if_false]
      have hne : walk t.mem t.root π ≠ q := by
        intro e
        exact hπ (h.inj π κ hw (e.trans hq.symm))
      simp [setValue_value, hne]

theorem prefix_snoc_len (π σ : List Bool) (b : Bool) (bs : List Bool) :
    (π <+: σ ++ b :: bs ∧ σ.length < π.length) ↔
      (π = σ ++ [b] ∨ (π <+: (σ ++ [b]) ++ bs ∧ (σ ++ [b]).length < π.length)) := by
  have e : σ ++ b :: bs = (σ ++ [b]) ++ bs := by simp
  constructor
  · rintro ⟨hp, hl⟩
    by_cases hlen : π.length = σ.length + 1
    · left
      rw [e] at hp
      have h2 : (σ ++ [b]) <+: (σ ++ [b]) ++ bs := List.prefix_append _ _
      exact ((List.prefix_of_prefix_length_le hp h2 (by simp [hlen]))).eq_of_length
        (by simp [hlen])
    · right
      rw [e] at hp
      refine ⟨hp, ?_⟩
      simp only [List.length_append, List.length_singleton]
      omega
  · rintro (h | ⟨hp, hl⟩)
    · subst h
      rw [e]
      exact ⟨List.prefix_append _ _, by simp⟩
    · rw [e]
      refine ⟨hp, ?_⟩
      simp only [List.length_append, List.length_singleton] at hl
      omega

theorem obs_congr (t t1 : lngx_radix_tree_t) (hm : t1.mem = t.mem) (hr : t1.root = t.root) :
    obs t1 = obs t := by
  funext π
  unfold obs
  rw [hm, hr]

/-- The second loop of insert on a well-formed tree.  Started at the node of
the path `σ` whose child in the direction of the first bit left is missing, it
ends with a node for every prefix of `σ ++ rest` longer than `σ`, all holding
the sentinel; nothing else changes in the trie.  It cannot fail while the free
list has nodes left or the allocator does not fail. -/
theorem buildL_spec : ∀ (rest σ : List Bool) (t : lngx_radix_tree_t) (F : List Nat) (node : Nat),
    Inv t F → walk t.mem t.root σ = node → node ≠ 0 →
    (∀ b bs, rest = b :: bs → child t.mem node b = 0) →
    σ.length + rest.length ≤ 32 →
    ((NoFail t ∨ rest.length ≤ F.length) → ∃ r, buildL rest t node = .ok r) ∧
    ∀ o t', buildL rest t node = .ok (o, t') →
      ∃ last F', o = some last ∧ Inv t' F' ∧ walk t'.mem t'.root (σ ++ rest) = last ∧
        last ≠ 0 ∧
        (∀ π, obs t' π =
          if π <+: σ ++ rest ∧ σ.length < π.length then some NGX_RADIX_NO_VALUE else obs t π) ∧
        t'.root = t.root ∧ t'.lngx_pagesize = t.lngx_pagesize ∧ t'.a.oom = t.a.oom ∧
        t.a.calls ≤ t'.a.calls ∧
        (rest.length ≤ F.length → F' = F.drop rest.length ∧ t'.a = t.a ∧
          t'.start = t.start ∧ t'.size = t.size) := by
  intro rest
  induction rest with
  | nil =>
    intro σ t F node h hnode hn0 _ _
    refine ⟨fun _ => ⟨_, rfl⟩, ?_⟩
    intro o t' hb
    simp only [buildL, Except.ok.injEq, Prod.mk.injEq] at hb
    obtain ⟨ho, ht⟩ := hb
    subst ht
    refine ⟨node, F, ho.symm, h, by simpa using hnode, hn0, ?_, rfl, rfl, rfl, le_refl _,
      fun _ => ⟨by simp, rfl, rfl, rfl⟩⟩
    intro π
    have : ¬ (π <+: σ ++ [] ∧ σ.length < π.length) := by
      rintro ⟨hp, hl⟩
      have := hp.length_le
      simp at this
      omega
    rw [if_neg this]
  | cons b bs ih =>
    intro σ t F node h hnode hn0 hc hlen
    have hcb : child t.mem node b = 0 := hc b bs rfl
    simp only [List.length_cons] at hlen
    constructor
    · intro hok
      have hal : ∃ p t1, lngx_radix_alloc t = .ok (p, t1) := by
        apply alloc_total t F h
        rcases hok with hnf | hfl
        · exact Or.inr (Or.inr (hnf _ (le_refl _)))
        · left
          cases F with
          | nil => simp at hfl
          | cons q F1 =>
            obtain ⟨h1, h2, _⟩ := h.chain
            rw [h1]; exact h2
      obtain ⟨next, t1, hal⟩ := hal
      obtain ⟨hnext, hm, hr, _, hoom, hcalls, hfresh, hbelow, F1, hinv1, hF1, hfree, _⟩ :=
        alloc_spec t F h next t1 hal
      rw [buildL_cons, hal]
      simp only [hnext, if_false]
      have hnode1 : walk t1.mem t1.root σ = node := by rw [hm, hr]; exact hnode
      have hcb1 : child t1.mem node b = 0 := by rw [hm]; exact hcb
      have hfresh1 : ∀ π, walk t1.mem t1.root π ≠ next := by rw [hm, hr]; exact hfresh
      have hinv2 := link_inv t1 F1 hinv1 σ b node next hnode1 hn0 hcb1 hnext hfresh1 hF1 hbelow
        (by omega)
      have hw2 := link_walk t1 F1 hinv1 σ b node next hnode1 hn0 hcb1 hnext hfresh1 (σ ++ [b])
      simp only [if_true] at hw2
      have hne : next ≠ node := fun e => hfresh1 σ (hnode1.trans e.symm)
      have hch : ∀ b' bs', bs = b' :: bs' → child (link t1 node next b).mem next b' = 0 := by
        intro b' _ _
        simp only [child]
        rw [link_mem_next t1 node next b hne]
        cases b' <;> rfl
      refine (ih (σ ++ [b]) (link t1 node next b) F1 next hinv2 hw2 hnext hch
        (by simp; omega)).1 ?_
      rcases hok with hnf | hfl
      · left
        exact NoFail_alloc t hnf t1 hoom hcalls
      · right
        cases F with
        | nil => simp at hfl
        | cons q F2 =>
          have hne0 : t.free ≠ 0 := by
            obtain ⟨h1, h2, _⟩ := h.chain
            rw [h1]; exact h2
          have := (hfree hne0).1
          simp only [List.cons.injEq] at this
          rw [← this.2]
          simpa using hfl
    · intro o t' hb
      rw [buildL_cons] at hb
      cases hal : lngx_radix_alloc t with
      | error e => rw [hal] at hb; simp at hb
      | ok res =>
        obtain ⟨next, t1⟩ := res
        rw [hal] at hb
        obtain ⟨hnext, hm, hr, hpg, hoom, hcalls, hfresh, hbelow, F1, hinv1, hF1, hfree, _⟩ :=
          alloc_spec t F h next t1 hal
        simp only [hnext, if_false] at hb
        have hnode1 : walk t1.mem t1.root σ = node := by rw [hm, hr]; exact hnode
        have hcb1 : child t1.mem node b = 0 := by rw [hm]; exact hcb
        have hfresh1 : ∀ π, walk t1.mem t1.root π ≠ next := by rw [hm, hr]; exact hfresh
        have hinv2 := link_inv t1 F1 hinv1 σ b node next hnode1 hn0 hcb1 hnext hfresh1 hF1
          hbelow (by omega)
        have hw2 := link_walk t1 F1 hinv1 σ b node next hnode1 hn0 hcb1 hnext hfresh1 (σ ++ [b])
        simp only [if_true] at hw2
        have hne : next ≠ node := fun e => hfresh1 σ (hnode1.trans e.symm)
        have hch : ∀ b' bs', bs = b' :: bs' → child (link t1 node next b).mem next b' = 0 := by
          intro b' _ _
          simp only [child]
          rw [link_mem_next t1 node next b hne]
          cases b' <;> rfl
        obtain ⟨last, F', ho, hinv', hlast, hl0, hobs, hroot', hpg', hoom', hcalls', hfl'⟩ :=
          (ih (σ ++ [b]) (link t1 node next b) F1 next hinv2 hw2 hnext hch
            (by simp; omega)).2 o t' hb
        have e : σ ++ b :: bs = (σ ++ [b]) ++ bs := by simp
        refine ⟨last, F', ho, hinv', by rw [e]; exact hlast, hl0, ?_, ?_, ?_, ?_, ?_, ?_⟩
        · intro π
          rw [hobs π, link_obs t1 F1 hinv1 σ b node next hnode1 hn0 hcb1 hnext hfresh1 π,
            obs_congr t t1 hm hr]
          by_cases hA : π <+: σ ++ b :: bs ∧ σ.length < π.length
          · rw [if_pos hA]
            rcases (prefix_snoc_len π σ b bs).1 hA with h1 | h1
            · by_cases hB : π <+: (σ ++ [b]) ++ bs ∧ (σ ++ [b]).length < π.length
              · rw [if_pos hB]
              · rw [if_neg hB, if_pos h1]
            · rw [if_pos h1]
          · rw [if_neg hA]
            have hB : ¬ (π <+: (σ ++ [b]) ++ bs ∧ (σ ++ [b]).length < π.length) :=
              fun hB => hA ((prefix_snoc_len π σ b bs).2 (Or.inr hB))
            have hC : ¬ π = σ ++ [b] :=
              fun hC => hA ((prefix_snoc_len π σ b bs).2 (Or.inl hC))
            rw [if_neg hB, if_neg hC]
        · rw [hroot']; exact hr
        · rw [hpg']; exact hpg
        · rw [hoom']; exact hoom
        · exact le_trans hcalls hcalls'
        · intro hfl
          simp only [List.length_cons] at hfl
          cases F with
          | nil => simp at hfl
          | cons q F2 =>
            have hne0 : t.free ≠ 0 := by
              obtain ⟨h1, h2, _⟩ := h.chain
              rw [h1]; exact h2
            obtain ⟨hF, ha, hst, hsz⟩ := hfree hne0
            simp only [List.cons.injEq] at hF
            obtain ⟨hF'', ha', hst', hsz'⟩ := hfl' (by rw [← hF.2]; simpa using hfl)
            refine ⟨?_, ?_, ?_, ?_⟩
            · rw [hF'', ← hF.2]; simp
            · rw [ha']; exact ha
            · rw [hst']; exact hst
            · rw [hsz']; exact hsz

theorem descend_spec (m : Nat → lngx_radix_node_t) :
    ∀ (κ : List Bool) (p : Nat), p ≠ 0 →
      ∃ σ rest, κ = σ ++ rest ∧ descend m p κ = (walk m p σ, rest) ∧ walk m p σ ≠ 0 ∧
        ∀ b bs, rest = b :: bs → child m (walk m p σ) b = 0 := by
  intro κ
  induction κ with
  | nil =>
    intro p hp
    exact ⟨[], [], rfl, rfl, by simpa [walk] using hp, by simp⟩
  | cons c κ ih =>
    intro p hp
    by_cases hc : child m p c = 0
    · refine ⟨[], c :: κ, rfl, by simp [descend, hc, walk], by simpa [walk] using hp, ?_⟩
      intro b bs hb
      simp only [List.cons.injEq] at hb
      rw [← hb.1]
      simpa [walk] using hc
    · obtain ⟨σ, rest, h1, h2, h3, h4⟩ := ih (child m p c) hc
      refine ⟨c :: σ, rest, by simp [h1], ?_, ?_, ?_⟩
      · simp [descend, hc, walk, hp, h2]
      · simpa [walk, hp] using h3
      · intro b bs hb
        simpa [walk, hp] using h4 b bs hb

theorem walk_prefix_ne_zero (m : Nat → lngx_radix_node_t) (p : Nat) (σ ρ : List Bool)
    (h : walk m p (σ ++ ρ) ≠ 0) : walk m p σ ≠ 0 := by
  intro h0
  apply h
  rw [walk_append, h0, walk_zero]

theorem obs_eq_none (t : lngx_radix_tree_t) (π : List Bool) :
    obs t π = none ↔ walk t.mem t.root π = 0 := by
  unfold obs
  by_cases h : walk t.mem t.root π = 0 <;> simp [h]

theorem obs_of_walk (t : lngx_radix_tree_t) (π : List Bool) (h : walk t.mem t.root π ≠ 0) :
    obs t π = some (t.mem (walk t.mem t.root π)).value := by
  unfold obs
  simp [h]

/-- Insert along a path on a well-formed tree.  It answers `NGX_BUSY` and
changes nothing exactly when the path holds a real value; otherwise, when it
returns, it returns `NGX_OK`, the tree is well-formed and holds what `insO`
describes.  It returns whenever the allocator does not fail or the free list
covers the nodes needed, which are then taken from the free list without a
call to the allocator. -/
theorem insertL_spec (t : lngx_radix_tree_t) (F : List Nat) (h : Inv t F) (κ : List Bool)
    (hlen : κ.length ≤ 32) (v : Nat) :
    (Occupied (obs t) κ → insertL t κ v = .ok (NGX_BUSY, t)) ∧
    (¬ Occupied (obs t) κ → (NoFail t ∨ need t κ ≤ F.length) →
      ∃ t', insertL t κ v = .ok (NGX_OK, t')) ∧
    ∀ rc t', insertL t κ v = .ok (rc, t') → ¬ Occupied (obs t) κ →
      rc = NGX_OK ∧ obs t' = insO (obs t) κ v ∧
      t'.root = t.root ∧ t'.lngx_pagesize = t.lngx_pagesize ∧ t'.a.oom = t.a.oom ∧
      t.a.calls ≤ t'.a.calls ∧
      ∃ F', Inv t' F' ∧ (need t κ ≤ F.length → F' = F.drop (need t κ) ∧ t'.a = t.a ∧
        t'.start = t.start ∧ t'.size = t.size) := by
  obtain ⟨σ, rest, hκ, hd, hσ, hch⟩ := descend_spec t.mem κ t.root h.root_ne
  have hneed : need t κ = rest.length := by unfold need; rw [hd]
  -- the observation at the prefixes of `κ`
  have hpre : ∀ π, π <+: κ → (obs t π = none ↔ σ.length < π.length) := by
    intro π hπ
    rw [obs_eq_none]
    constructor
    · intro h0
      by_contra hl
      have hπσ : π <+: σ :=
        List.prefix_of_prefix_length_le hπ (hκ ▸ List.prefix_append σ rest) (by omega)
      obtain ⟨ρ, hρ⟩ := hπσ
      exact walk_prefix_ne_zero t.mem t.root π ρ (hρ ▸ hσ) h0
    · intro hl
      cases rest with
      | nil =>
        have := hπ.length_le
        simp [hκ] at this
        omega
      | cons b bs =>
        have hσb : (σ ++ [b]) <+: π := by
          have h2 : (σ ++ [b]) <+: κ := by
            rw [hκ]; exact ⟨bs, by simp⟩
          exact List.prefix_of_prefix_length_le h2 hπ (by simp; omega)
        obtain ⟨ρ, hρ⟩ := hσb
        rw [← hρ, walk_append, walk_snoc]
        simp [hσ, hch b bs rfl, walk_zero]
  unfold insertL
  cases rest with
  | nil =>
    simp only [h.root_ne, if_false, hd]
    have hκσ : κ = σ := by simpa using hκ
    subst hκσ
    have hobs : obs t κ = some (t.mem (walk t.mem t.root κ)).value := obs_of_walk t κ hσ
    by_cases hv : (t.mem (walk t.mem t.root κ)).value = NGX_RADIX_NO_VALUE
    · have hnocc : ¬ Occupied (obs t) κ := by
        rintro ⟨x, hx, hx'⟩
        rw [hobs] at hx
        simp only [Option.some.injEq] at hx
        exact hx' (hx ▸ hv)
      simp only [hv, ne_eq, not_true_eq_false, if_false]
      refine ⟨fun ho => absurd ho hnocc, fun _ _ => ⟨_, rfl⟩, ?_⟩
      intro rc t' hr _
      simp only [Except.ok.injEq, Prod.mk.injEq] at hr
      obtain ⟨hrc, ht'⟩ := hr
      subst ht'
      refine ⟨hrc.symm, ?_, rfl, rfl, rfl, le_refl _, F, setValue_inv t F h _ v, ?_⟩
      · funext π
        rw [setValue_obs t F h κ _ v rfl hσ π]
        unfold insO
        by_cases hπ : π = κ
        · simp [hπ]
        · simp only [hπ, if_false]
          by_cases hp : π <+: κ ∧ obs t π = none
          · have := (hpre π hp.1).1 hp.2
            have := hp.1.length_le
            omega
          · rw [if_neg hp]
      · intro _
        rw [hneed]
        exact ⟨by simp, rfl, rfl, rfl⟩
    · have hocc : Occupied (obs t) κ := ⟨_, hobs, hv⟩
      simp only [hv, ne_eq, not_false_eq_true, if_true]
      exact ⟨fun _ => by first | rfl | trivial, fun hn => absurd hocc hn,
        fun rc t' _ hn => absurd hocc hn⟩
  | cons b bs =>
    have hnone : obs t κ = none := by
      rw [hpre κ (List.prefix_refl κ), hκ]
      simp
    have hnocc : ¬ Occupied (obs t) κ := by
      rintro ⟨x, hx, _⟩
      rw [hnone] at hx
      exact absurd hx (by simp)
    have hlen' : σ.length + (b :: bs).length ≤ 32 := by
      rw [← List.length_append, ← hκ]; exact hlen
    obtain ⟨htot, hres⟩ := buildL_spec (b :: bs) σ t F _ h rfl hσ hch hlen'
    simp only [h.root_ne, if_false, hd]
    refine ⟨fun ho => absurd ho hnocc, ?_, ?_⟩
    · intro _ hok
      rw [hneed] at hok
      obtain ⟨⟨o, t1⟩, hr⟩ := htot hok
      obtain ⟨last, F', ho, _⟩ := hres o t1 hr
      subst ho
      rw [hr]
      exact ⟨_, rfl⟩
    · intro rc t' hr _
      cases hb : buildL (b :: bs) t (walk t.mem t.root σ) with
      | error e => rw [hb] at hr; simp at hr
      | ok res =>
        obtain ⟨o, t1⟩ := res
        rw [hb] at hr
        obtain ⟨last, F', ho, hinv', hlast, hl0, hobs, hroot', hpg', hoom', hcalls', hfl'⟩ :=
          hres o t1 hb
        subst ho
        simp only [Except.ok.injEq, Prod.mk.injEq] at hr
        obtain ⟨hrc, ht'⟩ := hr
        subst ht'
        rw [← hκ] at hlast hobs
        refine ⟨hrc.symm, ?_, hroot', hpg', hoom', hcalls', F', setValue_inv t1 F' hinv' _ v, ?_⟩
        · funext π
          rw [setValue_obs t1 F' hinv' κ last v hlast hl0 π, hobs π]
          unfold insO
          by_cases hπ : π = κ
          · simp [hπ]
          · simp only [hπ, if_false]
            by_cases hp : π <+: κ
            · by_cases hl : σ.length < π.length
              · rw [if_pos ⟨hp, hl⟩, if_pos ⟨hp, (hpre π hp).2 hl⟩]
              · rw [if_neg (fun hh => hl hh.2),
                  if_neg (fun hh => hl ((hpre π hp).1 hh.2))]
            · rw [if_neg (fun hh => hp hh.1), if_neg (fun hh => hp hh.1)]
        · intro hn
          rw [hneed] at hn ⊢
          exact hfl' hn

/-! ## Find on well-formed trees -/

theorem find_loop_mono (m : Nat → lngx_radix_node_t) (key : Nat) :
    ∀ (f bit node value v : Nat), find_loop m key f bit node value = .ok v →
      find_loop m key (f + 1) bit node value = .ok v := by
  intro f
  induction f with
  | zero =>
    intro bit node value v h
    by_cases hp : node = 0
    · subst hp; simpa [find_loop] using h
    · simp [find_loop, hp] at h
  | succ f ih =>
    intro bit node value v h
    by_cases hp : node = 0
    · subst hp
      rw [find_loop_null] at h ⊢
      exact h
    · rw [find_loop] at h ⊢
      simp only [hp, if_false] at h ⊢
      exact ih _ _ _ _ h

theorem find_loop_mono_le (m : Nat → lngx_radix_node_t) (key : Nat) (f f' bit node value v : Nat)
    (hle : f ≤ f') (h : find_loop m key f bit node value = .ok v) :
    find_loop m key f' bit node value = .ok v := by
  induction hle with
  | refl => exact h
  | step _ ih => exact find_loop_mono m key _ _ _ _ _ ih

theorem bitsFrom_length (key n : Nat) : (bitsFrom key n).length = n := by
  induction n with
  | zero => rfl
  | succ n ih => simp [bitsFrom, ih]

theorem pfx_length_le (key mask n : Nat) : (pfx key mask n).length ≤ n := by
  induction n with
  | zero => simp [pfx]
  | succ n ih =>
    by_cases hm : mask.testBit n = true
    · simp [pfx, hm]; omega
    · simp [pfx, hm]

theorem pfx_initial (key mask n : Nat) : pfx key mask n <+: bitsFrom key n := by
  induction n with
  | zero => simp [pfx, bitsFrom]
  | succ n ih =>
    by_cases hm : mask.testBit n = true
    · simp only [pfx, hm, if_true, bitsFrom]
      exact (List.prefix_cons_inj _).2 ih
    · simp [pfx, hm]

theorem keep_none_path (cur : Nat) : keep none cur = cur := rfl

theorem accum_eq_lpmO (t : lngx_radix_tree_t) :
    ∀ (l pre : List Bool) (cur : Nat),
      accum t.mem l (walk t.mem t.root pre) cur = lpmO (obs t) pre l cur := by
  have hdead : ∀ (l pre : List Bool) (cur : Nat), walk t.mem t.root pre = 0 →
      lpmO (obs t) pre l cur = cur := by
    intro l
    induction l with
    | nil =>
      intro pre cur h0
      simp [lpmO, (obs_eq_none t pre).2 h0, keep]
    | cons b bs ih =>
      intro pre cur h0
      simp only [lpmO, (obs_eq_none t pre).2 h0, keep]
      apply ih
      rw [walk_append, h0, walk_zero]
  intro l
  induction l with
  | nil =>
    intro pre cur
    by_cases h0 : walk t.mem t.root pre = 0
    · simp [accum, lpmO, h0, (obs_eq_none t pre).2 h0, keep]
    · simp only [accum, lpmO, h0, if_false, obs_of_walk t pre h0, keep]
  | cons b bs ih =>
    intro pre cur
    by_cases h0 : walk t.mem t.root pre = 0
    · rw [hdead _ _ _ h0]
      simp [accum, h0]
    · simp only [accum, lpmO, h0, if_false, obs_of_walk t pre h0, keep]
      rw [← ih (pre ++ [b]), walk_snoc]
      simp [h0]

/-- Find on a well-formed tree returns, with any fuel of at least 33, the
longest-prefix match of the 32 key bits on what the trie holds. -/
theorem find_spec (t : lngx_radix_tree_t) (F : List Nat) (h : Inv t F) (key fuel : Nat)
    (hf : 33 ≤ fuel) :
    lngx_radix32tree_find fuel t key
      = .ok (lpmO (obs t) [] (bitsFrom key 32) NGX_RADIX_NO_VALUE) := by
  unfold lngx_radix32tree_find
  apply find_loop_mono_le t.mem key 33 fuel _ _ _ _ hf
  have h32 : (0x80000000 : Nat) = 2 ^ 32 / 2 := by norm_num
  rw [h32, find_loop_spec]
  have hz : walk t.mem t.root (bitsFrom key 32 ++ [false]) = 0 := by
    by_contra hne
    have := h.depth _ hne
    simp [bitsFrom_length] at this
  rw [if_pos hz]
  have := accum_eq_lpmO t (bitsFrom key 32) [] NGX_RADIX_NO_VALUE
  simp only [walk] at this
  rw [this]

theorem lpmO_none (o : List Bool → Option Nat) :
    ∀ (l pre : List Bool) (cur : Nat),
      (∀ j, j ≤ l.length → ¬ Occupied o (pre ++ l.take j)) → lpmO o pre l cur = cur := by
  intro l
  induction l with
  | nil =>
    intro pre cur h
    have h0 := h 0 (le_refl _)
    simp only [List.take_nil, List.append_nil] at h0
    simp only [lpmO]
    cases ho : o pre with
    | none => rfl
    | some x =>
      simp only [keep]
      by_cases hx : x = NGX_RADIX_NO_VALUE
      · simp [hx]
      · exact absurd ⟨x, ho, hx⟩ h0
  | cons b bs ih =>
    intro pre cur h
    have h0 := h 0 (Nat.zero_le _)
    simp only [List.take_zero, List.append_nil] at h0
    have hk : keep (o pre) cur = cur := by
      cases ho : o pre with
      | none => rfl
      | some x =>
        simp only [keep]
        by_cases hx : x = NGX_RADIX_NO_VALUE
        · simp [hx]
        · exact absurd ⟨x, ho, hx⟩ h0
    simp only [lpmO, hk]
    apply ih
    intro j hj
    have := h (j + 1) (by simp; omega)
    simpa using this

theorem lpmO_some (o : List Bool → Option Nat) :
    ∀ (l pre : List Bool) (cur j x : Nat), j ≤ l.length →
      o (pre ++ l.take j) = some x → x ≠ NGX_RADIX_NO_VALUE →
      (∀ i, j < i → i ≤ l.length → ¬ Occupied o (pre ++ l.take i)) →
      lpmO o pre l cur = x := by
  intro l
  induction l with
  | nil =>
    intro pre cur j x _ ho hx _
    simp only [List.take_nil, List.append_nil] at ho
    simp [lpmO, ho, keep, hx]
  | cons b bs ih =>
    intro pre cur j x hj ho hx hlast
    cases j with
    | zero =>
      simp only [List.take_zero, List.append_nil] at ho
      simp only [lpmO, ho, keep, hx, ne_eq, not_false_eq_true, if_true]
      apply lpmO_none
      intro i hi
      have := hlast (i + 1) (by omega) (by simp; omega)
      simpa using this
    | succ j =>
      simp only [lpmO]
      apply ih (pre ++ [b]) _ j x (by simpa using hj) (by simpa using ho) hx
      intro i hi hi'
      have := hlast (i + 1) (by omega) (by simp; omega)
      simpa using this

/-! ## Counting nodes -/

theorem mem_allPaths (d : Nat) (π : List Bool) : π ∈ allPaths d ↔ π.length < d := by
  induction d generalizing π with
  | zero => simp [allPaths]
  | succ d ih =>
    cases π with
    | nil => simp [allPaths]
    | cons b π =>
      cases b <;> simp [allPaths, ih]

theorem allPaths_nodup (d : Nat) : (allPaths d).Nodup := by
  induction d with
  | zero => simp [allPaths]
  | succ d ih =>
    simp only [allPaths, List.nodup_cons, List.mem_append, List.mem_map, not_or, not_exists,
      not_and]
    refine ⟨⟨fun x _ h => by simp at h, fun x _ h => by simp at h⟩, ?_⟩
    rw [List.nodup_append]
    refine ⟨ih.map (fun a b h => by simpa using h), ih.map (fun a b h => by simpa using h), ?_⟩
    intro x hx hy
    simp only [List.mem_map] at hx hy
    obtain ⟨a, _, ha⟩ := hx
    obtain ⟨b, _, hb⟩ := hy
    rw [← ha] at hb
    simp at hb

theorem count_nodes_eq (m : Nat → lngx_radix_node_t) (d p : Nat) :
    count_nodes m d p = (allPaths d).countP (fun π => decide (walk m p π ≠ 0)) := by
  induction d generalizing p with
  | zero => simp [count_nodes, allPaths]
  | succ d ih =>
    by_cases hp : p = 0
    · subst hp
      simp [count_nodes, walk_zero]
    · simp only [count_nodes, hp, if_false, allPaths, List.countP_cons, List.countP_append,
        List.countP_map, walk, ne_eq, not_false_eq_true, decide_True, if_true]
      rw [ih, ih]
      have e1 : ((fun π => decide (walk m p π ≠ 0)) ∘ fun π => false :: π)
          = fun π => decide (walk m (m p).left π ≠ 0) := by
        funext π; simp [walk, hp, child]
      have e2 : ((fun π => decide (walk m p π ≠ 0)) ∘ fun π => true :: π)
          = fun π => decide (walk m (m p).right π ≠ 0) := by
        funext π; simp [walk, hp, child]
      simp only [ne_eq] at e1 e2 ⊢
      rw [e1, e2]
      omega

theorem node_count_eq (t : lngx_radix_tree_t) :
    node_count t = (allPaths 33).countP (fun π => decide (obs t π ≠ none)) := by
  unfold node_count
  rw [count_nodes_eq]
  congr 1
  funext π
  have := obs_eq_none t π
  by_cases h : walk t.mem t.root π = 0
  · simp [h, this.2 h]
  · have h' : obs t π ≠ none := fun e => h (this.1 e)
    simp [h, h']

theorem node_count_congr (t t' : lngx_radix_tree_t) (h : obs t' = obs t) :
    node_count t' = node_count t := by
  rw [node_count_eq, node_count_eq, h]

theorem countP_add_one {α : Type} [DecidableEq α] (P Q : α → Bool) (τ : α) :
    ∀ (l : List α), l.Nodup → τ ∈ l → P τ = false → Q τ = true →
      (∀ x, x ≠ τ → Q x = P x) → l.countP Q = l.countP P + 1 := by
  intro l
  induction l with
  | nil => intro _ h; simp at h
  | cons a l ih =>
    intro hnd hmem hP hQ hne
    rw [List.nodup_cons] at hnd
    by_cases ha : a = τ
    · subst ha
      have hrest : l.countP Q = l.countP P := by
        apply List.countP_congr
        intro x hx
        have : x ≠ a := fun e => hnd.1 (e ▸ hx)
        rw [hne x this]
      simp [List.countP_cons, hP, hQ, hrest]
    · have hmem' : τ ∈ l := by
        rcases List.mem_cons.1 hmem with h | h
        · exact absurd h.symm ha
        · exact h
      have := ih hnd.2 hmem' hP hQ hne
      simp [List.countP_cons, this, hne a ha]
      omega

/-- A node that appears at a path of length at most 32, where there was none,
raises the node count by one. -/
theorem node_count_add_one (t t' : lngx_radix_tree_t) (τ : List Bool) (hτ : τ.length ≤ 32)
    (h0 : obs t τ = none) (h1 : obs t' τ ≠ none) (hne : ∀ π, π ≠ τ → obs t' π = obs t π) :
    node_count t' = node_count t + 1 := by
  rw [node_count_eq, node_count_eq]
  apply countP_add_one _ _ τ _ (allPaths_nodup 33) ((mem_allPaths 33 τ).2 (by omega))
  · simp [h0]
  · simp [h1]
  · intro x hx
    rw [hne x hx]

/-! ## Unlinking a leaf -/

theorem setRight_right (m : Nat → lngx_radix_node_t) (q v x : Nat) :
    ((setRight m q v) x).right = if x = q then v else (m x).right := by
  by_cases h : x = q
  · subst h; simp [setRight]
  · simp [setRight, Function.update_noteq h, h]

theorem setRight_left (m : Nat → lngx_radix_node_t) (q v x : Nat) :
    ((setRight m q v) x).left = (m x).left := by
  by_cases h : x = q
  · subst h; simp [setRight]
  · simp [setRight, Function.update_noteq h]

theorem setRight_parent (m : Nat → lngx_radix_node_t) (q v x : Nat) :
    ((setRight m q v) x).parent = (m x).parent := by
  by_cases h : x = q
  · subst h; simp [setRight]
  · simp [setRight, Function.update_noteq h]

theorem setRight_value (m : Nat → lngx_radix_node_t) (q v x : Nat) :
    ((setRight m q v) x).value = (m x).value := by
  by_cases h : x = q
  · subst h; simp [setRight]
  · simp [setRight, Function.update_noteq h]

theorem setLeft_right (m : Nat → lngx_radix_node_t) (q v x : Nat) :
    ((setLeft m q v) x).right = (m x).right := by
  by_cases h : x = q
  · subst h; simp [setLeft]
  · simp [setLeft, Function.update_noteq h]

theorem setLeft_left (m : Nat → lngx_radix_node_t) (q v x : Nat) :
    ((setLeft m q v) x).left = if x = q then v else (m x).left := by
  by_cases h : x = q
  · subst h; simp [setLeft]
  · simp [setLeft, Function.update_noteq h, h]

theorem setLeft_parent (m : Nat → lngx_radix_node_t) (q v x : Nat) :
    ((setLeft m q v) x).parent = (m x).parent := by
  by_cases h : x = q
  · subst h; simp [setLeft]
  · simp [setLeft, Function.update_noteq h]

theorem setLeft_value (m : Nat → lngx_radix_node_t) (q v x : Nat) :
    ((setLeft m q v) x).value = (m x).value := by
  by_cases h : x = q
  · subst h; simp [setLeft]
  · simp [setLeft, Function.update_noteq h]

theorem unlink_parent (t : lngx_radix_tree_t) (node x : Nat) :
    ((unlink t node).mem x).parent = (t.mem x).parent := by
  unfold unlink
  simp only [setRight_parent]
  split
  · rw [setRight_parent]
  · rw [setLeft_parent]

theorem unlink_value (t : lngx_radix_tree_t) (node x : Nat) :
    ((unlink t node).mem x).value = (t.mem x).value := by
  unfold unlink
  simp only [setRight_value]
  split
  · rw [setRight_value]
  · rw [setLeft_value]

/-- In a well-formed tree the test `node->parent->right == node` tells the
direction in which the node hangs below its parent. -/
theorem side_test (t : lngx_radix_tree_t) (F : List Nat) (h : Inv t F) (σ : List Bool) (b : Bool)
    (node : Nat) (hnode : walk t.mem t.root (σ ++ [b]) = node) (hn0 : node ≠ 0) :
    (t.mem node).parent = walk t.mem t.root σ ∧ walk t.mem t.root σ ≠ 0 ∧
    child t.mem (walk t.mem t.root σ) b = node ∧
    ((t.mem (walk t.mem t.root σ)).right = node ↔ b = true) := by
  have hσ : walk t.mem t.root σ ≠ 0 :=
    walk_prefix_ne_zero t.mem t.root σ [b] (hnode ▸ hn0)
  have hpar := h.parent σ b (hnode ▸ hn0)
  rw [hnode] at hpar
  have hch : child t.mem (walk t.mem t.root σ) b = node := by
    have := walk_snoc t.mem t.root σ b
    rw [hnode] at this
    simpa [hσ] using this.symm
  refine ⟨hpar, hσ, hch, ?_⟩
  constructor
  · intro hr
    cases b with
    | true => rfl
    | false =>
      have h1 : walk t.mem t.root (σ ++ [true]) = node := by
        rw [walk_snoc]; simp [hσ, child, hr]
      have := h.inj (σ ++ [true]) (σ ++ [false]) (h1 ▸ hn0) (h1.trans hnode.symm)
      simp at this
  · intro hb
    subst hb
    simpa [child] using hch

theorem unlink_child (t : lngx_radix_tree_t) (F : List Nat) (h : Inv t F) (σ : List Bool)
    (b : Bool) (node : Nat) (hnode : walk t.mem t.root (σ ++ [b]) = node) (hn0 : node ≠ 0)
    (q : Nat) (c : Bool) (hq : q ≠ node) :
    child (unlink t node).mem q c =
      if q = walk t.mem t.root σ ∧ c = b then 0 else child t.mem q c := by
  obtain ⟨hpar, hσ, hch, hside⟩ := side_test t F h σ b node hnode hn0
  unfold unlink
  rw [hpar]
  cases b with
  | true =>
    have hr : (t.mem (walk t.mem t.root σ)).right = node := hside.2 rfl
    simp only [hr, if_true]
    cases c with
    | true =>
      simp only [child, if_true, setRight_right, hq, if_false, and_true]
    | false =>
      simp [child, setRight_left]
  | false =>
    have hr : ¬ (t.mem (walk t.mem t.root σ)).right = node := fun e => by
      have := hside.1 e
      simp at this
    simp only [hr, if_false]
    cases c with
    | true =>
      simp [child, setRight_right, hq, setLeft_right]
    | false =>
      simp only [child, setRight_left, setLeft_left, and_true]
      simp

/-- The walk in the tree after a leaf at the path `σ ++ [b]` was unlinked. -/
theorem unlink_walk (t : lngx_radix_tree_t) (F : List Nat) (h : Inv t F) (σ : List Bool)
    (b : Bool) (node : Nat) (hnode : walk t.mem t.root (σ ++ [b]) = node) (hn0 : node ≠ 0)
    (hleaf : ∀ c, child t.mem node c = 0) (π : List Bool) :
    walk (unlink t node).mem (unlink t node).root π =
      if π = σ ++ [b] then 0 else walk t.mem t.root π := by
  obtain ⟨hpar, hσ, hch, hside⟩ := side_test t F h σ b node hnode hn0
  have hroot : (unlink t node).root = t.root := rfl
  rw [hroot]
  have hpn : walk t.mem t.root σ ≠ node := by
    intro e
    have := h.inj σ (σ ++ [b]) hσ (e.trans hnode.symm)
    have := congrArg List.length this
    simp at this
  have key : ∀ ρ : List Bool, ¬ (σ ++ [b]) <+: ρ →
      walk (unlink t node).mem t.root ρ = walk t.mem t.root ρ := by
    intro ρ hρ
    apply walk_congr
    intro σ' c hpre hq
    have hqn : walk t.mem t.root σ' ≠ node := by
      intro e
      have hσ' : σ' = σ ++ [b] := h.inj σ' (σ ++ [b]) hq (e.trans hnode.symm)
      apply hρ
      rw [← hσ']
      exact (List.prefix_append σ' [c]).trans hpre
    rw [unlink_child t F h σ b node hnode hn0 _ c hqn]
    have : ¬ (walk t.mem t.root σ' = walk t.mem t.root σ ∧ c = b) := by
      rintro ⟨e1, e2⟩
      have hσ' : σ' = σ := h.inj σ' σ hq e1
      subst hσ'
      subst e2
      exact hρ hpre
    rw [if_neg this]
  have hσw : walk (unlink t node).mem t.root σ = walk t.mem t.root σ := by
    apply key
    intro hpre
    have := hpre.length_le
    simp at this
  have hσb : walk (unlink t node).mem t.root (σ ++ [b]) = 0 := by
    rw [walk_snoc, hσw]
    simp only [hσ, if_false]
    rw [unlink_child t F h σ b node hnode hn0 _ b hpn]
    simp
  by_cases hπ : π = σ ++ [b]
  · subst hπ
    simp [hσb]
  · simp only [hπ, if_false]
    by_cases hpre : (σ ++ [b]) <+: π
    · obtain ⟨ρ, hρ⟩ := hpre
      cases ρ with
      | nil => exact absurd (by simpa using hρ.symm) hπ
      | cons c ρ =>
        rw [← hρ, walk_append, hσb, walk_zero, walk_append, hnode]
        simp [walk, hn0, hleaf c, walk_zero]
    · exact key π hpre
theorem unlink_right_other (t : lngx_radix_tree_t) (node q : Nat) (h1 : q ≠ node)
    (h2 : q ≠ (t.mem node).parent) : ((unlink t node).mem q).right = (t.mem q).right := by
  unfold unlink
  simp only [setRight_right, h1, if_false]
  split
  · rw [setRight_right]; simp [h2]
  · rw [setLeft_right]

/-- Unlinking a leaf keeps the invariant; the leaf becomes the head of the free list. -/
theorem unlink_inv (t : lngx_radix_tree_t) (F : List Nat) (h : Inv t F) (σ : List Bool)
    (b : Bool) (node : Nat) (hnode : walk t.mem t.root (σ ++ [b]) = node) (hn0 : node ≠ 0)
    (hleaf : ∀ c, child t.mem node c = 0) :
    Inv (unlink t node) (node :: F) := by
  obtain ⟨hpar, hσ, hch, hside⟩ := side_test t F h σ b node hnode hn0
  have hw := unlink_walk t F h σ b node hnode hn0 hleaf
  have hroot : (unlink t node).root = t.root := rfl
  have hfresh : ∀ π, walk (unlink t node).mem (unlink t node).root π ≠ node := by
    intro π e
    rw [hw π] at e
    by_cases hπ : π = σ ++ [b]
    · simp only [hπ, if_true] at e
      exact hn0 e.symm
    · simp only [hπ, if_false] at e
      exact hπ (h.inj π (σ ++ [b]) (e ▸ hn0) (e.trans hnode.symm))
  have hold : ∀ π, walk (unlink t node).mem (unlink t node).root π ≠ 0 →
      walk (unlink t node).mem (unlink t node).root π = walk t.mem t.root π := by
    intro π hne
    rw [hw π] at hne ⊢
    by_cases hπ : π = σ ++ [b]
    · simp [hπ] at hne
    · simp [hπ]
  refine ⟨h.root_ne, ?_, ?_, ?_, ?_, ?_, ?_, ?_, ?_, ?_, h.slab, h.size_lt,
    h.page_ge, h.page_lt, h.brk_pos⟩
  · rw [hroot, unlink_parent]; exact h.root_parent
  · intro π ρ h1 h2
    have e1 := hold π h1
    have e2 := hold ρ (h2 ▸ h1)
    rw [e1] at h1
    rw [e1, e2] at h2
    exact h.inj π ρ h1 h2
  · intro π h1
    have e1 := hold π h1
    rw [e1] at h1
    exact h.depth π h1
  · intro π c h1
    have e1 := hold (π ++ [c]) h1
    rw [e1, unlink_parent]
    rw [e1] at h1
    have hπ0 := walk_prefix_ne_zero t.mem t.root π [c] h1
    have : walk (unlink t node).mem (unlink t node).root π = walk t.mem t.root π := by
      rw [hw π]
      have : ¬ π = σ ++ [b] := by
        intro e
        apply h1
        rw [e, walk_snoc, hnode]
        simp [hn0, hleaf c]
      simp [this]
    rw [this]
    exact h.parent π c h1
  · refine ⟨rfl, hn0, ?_⟩
    have hr : ((unlink t node).mem node).right = t.free := by
      unfold unlink
      simp [setRight_right]
    rw [hr]
    apply FreeChain_congr F t.free _ h.chain
    intro q hq
    apply unlink_right_other
    · exact fun e => h.free_unreach q hq (σ ++ [b]) (hnode.trans e.symm)
    · rw [hpar]
      exact fun e => h.free_unreach q hq σ e.symm
  · rw [List.nodup_cons]
    exact ⟨fun hm => h.free_unreach node hm (σ ++ [b]) hnode, h.nodup⟩
  · intro p hp π
    rcases List.mem_cons.1 hp with e | hp'
    · rw [e]; exact hfresh π
    · intro e
      have h0 : walk (unlink t node).mem (unlink t node).root π ≠ 0 := by
        rw [e]
        exact fun e0 => FreeChain_zero_not_mem F t.free h.chain (e0 ▸ hp')
      rw [hold π h0] at e
      exact h.free_unreach p hp' π e
  · intro p hp
    rcases List.mem_cons.1 hp with e | hp'
    · rw [e]
      have := h.below (σ ++ [b]) (hnode ▸ hn0)
      rw [hnode] at this
      exact this
    · exact h.free_below p hp'
  · intro π h1
    rw [hold π h1]
    rw [hold π h1] at h1
    exact h.below π h1

theorem unlink_obs (t : lngx_radix_tree_t) (F : List Nat) (h : Inv t F) (σ : List Bool)
    (b : Bool) (node : Nat) (hnode : walk t.mem t.root (σ ++ [b]) = node) (hn0 : node ≠ 0)
    (hleaf : ∀ c, child t.mem node c = 0) (π : List Bool) :
    obs (unlink t node) π = if π = σ ++ [b] then none else obs t π := by
  unfold obs
  rw [unlink_walk t F h σ b node hnode hn0 hleaf π]
  by_cases hπ : π = σ ++ [b]
  · simp [hπ]
  · simp only [hπ, if_false, unlink_value]

theorem delete_prune_succ (n : Nat) (t : lngx_radix_tree_t) (node : Nat) :
    delete_prune (n + 1) t node =
      if (t.mem node).parent = 0 then .error .nullDeref
      else if ((unlink t node).mem ((unlink t node).mem node).parent).right ≠ 0
          ∨ ((unlink t node).mem ((unlink t node).mem node).parent).left ≠ 0 then
        .ok (unlink t node)
      else if ((unlink t node).mem ((unlink t node).mem node).parent).value
          ≠ NGX_RADIX_NO_VALUE then .ok (unlink t node)
      else if ((unlink t node).mem ((unlink t node).mem node).parent).parent = 0 then
        .ok (unlink t node)
      else delete_prune n (unlink t node) ((unlink t node).mem node).parent := by
  simp only [delete_prune, unlink]
/-! ## The pruning loop -/

theorem pruneO_stop (o o2 : List Bool → Option Nat) (b : Bool) (rs : List Bool)
    (ho2 : o2 = fun π => if π = rs.reverse ++ [b] then none else o π)
    (hstop : (o2 (rs.reverse ++ [true]) ≠ none ∨ o2 (rs.reverse ++ [false]) ≠ none)
      ∨ o rs.reverse ≠ some NGX_RADIX_NO_VALUE ∨ rs = []) :
    pruneO o (b :: rs) = o2 := by
  subst ho2
  by_cases h1 : ((if rs.reverse ++ [true] = rs.reverse ++ [b] then none
        else o (rs.reverse ++ [true])) ≠ none
      ∨ (if rs.reverse ++ [false] = rs.reverse ++ [b] then none
        else o (rs.reverse ++ [false])) ≠ none)
  · simp only [pruneO]
    rw [if_pos h1]
  · by_cases h2 : o rs.reverse ≠ some NGX_RADIX_NO_VALUE
    · simp only [pruneO]
      rw [if_neg h1, if_pos h2]
    · rcases hstop with h | h | h
      · exact absurd h h1
      · exact absurd h h2
      · subst h
        simp only [pruneO]
        rw [if_neg h1, if_neg h2]

theorem pruneO_go (o o2 : List Bool → Option Nat) (b r : Bool) (rs : List Bool)
    (ho2 : o2 = fun π => if π = (r :: rs).reverse ++ [b] then none else o π)
    (h1 : ¬ (o2 ((r :: rs).reverse ++ [true]) ≠ none ∨ o2 ((r :: rs).reverse ++ [false]) ≠ none))
    (h2 : ¬ o (r :: rs).reverse ≠ some NGX_RADIX_NO_VALUE) :
    pruneO o (b :: r :: rs) = pruneO o2 (r :: rs) := by
  subst ho2
  rw [pruneO]
  rw [if_neg h1, if_neg h2]

/-- The pruning loop on a well-formed tree, started at a leaf that is not the
root, with fuel for every ancestor: it returns, the tree stays well-formed, the
free list grows by the nodes removed and the trie holds what `pruneO`
describes.  The allocator and the slab cursor are not touched. -/
theorem prune_spec : ∀ (rs : List Bool) (b : Bool) (t : lngx_radix_tree_t) (F : List Nat)
    (node fuel : Nat), Inv t F → walk t.mem t.root (rs.reverse ++ [b]) = node → node ≠ 0 →
    (∀ c, child t.mem node c = 0) → rs.length < fuel →
    ∃ t' R, delete_prune fuel t node = .ok t' ∧ Inv t' (R ++ F) ∧
      obs t' = pruneO (obs t) (b :: rs) ∧
      t'.a = t.a ∧ t'.root = t.root ∧ t'.start = t.start ∧ t'.size = t.size ∧
      t'.lngx_pagesize = t.lngx_pagesize ∧
      (∀ π, walk t.mem t.root π ≠ 0 → walk t'.mem t'.root π = 0 → walk t.mem t.root π ∈ R) ∧
      R.length + node_count t' = node_count t := by
  intro rs
  induction rs with
  | nil =>
    intro b t F node fuel h hnode hn0 hleaf hfuel
    obtain ⟨n, rfl⟩ : ∃ n, fuel = n + 1 := ⟨fuel - 1, by omega⟩
    simp only [List.reverse_nil, List.nil_append] at hnode
    obtain ⟨hpar, hσ, hch, hside⟩ := side_test t F h [] b node hnode hn0
    simp only [walk] at hpar
    have hinv2 := unlink_inv t F h [] b node hnode hn0 hleaf
    have hobs2 : obs (unlink t node) = fun π => if π = [].reverse ++ [b] then none else obs t π := by
      funext π
      rw [unlink_obs t F h [] b node hnode hn0 hleaf π]
      simp
    have hw2 := unlink_walk t F h [] b node hnode hn0 hleaf
    have hpp : ((unlink t node).mem ((unlink t node).mem node).parent).parent = 0 := by
      rw [unlink_parent, unlink_parent, hpar]
      exact h.root_parent
    refine ⟨unlink t node, [node], ?_, hinv2, ?_, rfl, rfl, rfl, rfl, rfl, ?_, ?_⟩
    · rw [delete_prune_succ]
      rw [if_neg (by rw [hpar]; exact h.root_ne)]
      by_cases hc1 : ((unlink t node).mem ((unlink t node).mem node).parent).right ≠ 0
          ∨ ((unlink t node).mem ((unlink t node).mem node).parent).left ≠ 0
      · rw [if_pos hc1]
      · by_cases hc2 : ((unlink t node).mem ((unlink t node).mem node).parent).value
            ≠ NGX_RADIX_NO_VALUE
        · rw [if_neg hc1, if_pos hc2]
        · rw [if_neg hc1, if_neg hc2, if_pos hpp]
    · rw [pruneO_stop (obs t) (obs (unlink t node)) b [] hobs2 (Or.inr (Or.inr rfl))]
    · intro π h1 h2
      rw [hw2 π] at h2
      by_cases hπ : π = [] ++ [b]
      · rw [hπ]
        simp only [List.nil_append]
        rw [hnode]; simp
      · simp only [hπ, if_false] at h2
        exact absurd h2 h1
    · have hlen := h.depth _ (hnode ▸ hn0)
      rw [node_count_add_one (unlink t node) t [b] hlen]
      · simp; omega
      · rw [unlink_obs t F h [] b node hnode hn0 hleaf]; simp
      · rw [obs_of_walk t [b] (hnode ▸ hn0)]; simp
      · intro π hπ
        rw [unlink_obs t F h [] b node hnode hn0 hleaf]
        simp only [List.nil_append, hπ, if_false]
  | cons r rs ih =>
    intro b t F node fuel h hnode hn0 hleaf hfuel
    obtain ⟨n, rfl⟩ : ∃ n, fuel = n + 1 := ⟨fuel - 1, by omega⟩
    simp only [List.length_cons] at hfuel
    obtain ⟨hpar, hσ, hch, hside⟩ := side_test t F h (r :: rs).reverse b node hnode hn0
    have hinv2 := unlink_inv t F h (r :: rs).reverse b node hnode hn0 hleaf
    have hobs2 : obs (unlink t node)
        = fun π => if π = (r :: rs).reverse ++ [b] then none else obs t π := by
      funext π
      rw [unlink_obs t F h (r :: rs).reverse b node hnode hn0 hleaf π]
    have hw2 := unlink_walk t F h (r :: rs).reverse b node hnode hn0 hleaf
    have hne : ¬ (r :: rs).reverse = (r :: rs).reverse ++ [b] := by
      intro e
      have := congrArg List.length e
      simp at this
    have hwσ : walk (unlink t node).mem (unlink t node).root (r :: rs).reverse
        = walk t.mem t.root (r :: rs).reverse := by
      rw [hw2]; simp only [hne, if_false]
    have hup : ((unlink t node).mem node).parent = walk t.mem t.root (r :: rs).reverse := by
      rw [unlink_parent, hpar]
    have hrev : (r :: rs).reverse = rs.reverse ++ [r] := by simp
    -- the parent is not the root
    have hpp : ¬ ((unlink t node).mem ((unlink t node).mem node).parent).parent = 0 := by
      rw [hup, unlink_parent]
      have hσ' : walk t.mem t.root (rs.reverse ++ [r]) = walk t.mem t.root (r :: rs).reverse := by
        rw [hrev]
      have := side_test t F h rs.reverse r _ hσ' hσ
      rw [this.1]
      exact this.2.1
    -- the tests of the loop in terms of observations
    have hkid : ∀ c, obs (unlink t node) ((r :: rs).reverse ++ [c]) ≠ none ↔
        child (unlink t node).mem ((unlink t node).mem node).parent c ≠ 0 := by
      intro c
      rw [hup, Ne, obs_eq_none, walk_snoc, hwσ, if_neg hσ]
    have hval : obs t (r :: rs).reverse ≠ some NGX_RADIX_NO_VALUE ↔
        ((unlink t node).mem ((unlink t node).mem node).parent).value ≠ NGX_RADIX_NO_VALUE := by
      rw [hup, unlink_value, obs_of_walk t _ hσ]
      simp
    have hcount : node_count t = node_count (unlink t node) + 1 := by
      have hlen := h.depth _ (hnode ▸ hn0)
      apply node_count_add_one (unlink t node) t ((r :: rs).reverse ++ [b]) hlen
      · rw [unlink_obs t F h _ b node hnode hn0 hleaf]; simp
      · rw [obs_of_walk t _ (hnode ▸ hn0)]; simp
      · intro π hπ
        rw [unlink_obs t F h _ b node hnode hn0 hleaf]
        simp only [hπ, if_false]
    have hrem : ∀ π, walk t.mem t.root π ≠ 0 →
        walk (unlink t node).mem (unlink t node).root π = 0 → walk t.mem t.root π = node := by
      intro π h1 h2
      rw [hw2 π] at h2
      by_cases hπ : π = (r :: rs).reverse ++ [b]
      · rw [hπ, hnode]
      · simp only [hπ, if_false] at h2
        exact absurd h2 h1
    by_cases hc1 : ((unlink t node).mem ((unlink t node).mem node).parent).right ≠ 0
        ∨ ((unlink t node).mem ((unlink t node).mem node).parent).left ≠ 0
    · refine ⟨unlink t node, [node], ?_, hinv2, ?_, rfl, rfl, rfl, rfl, rfl, ?_, ?_⟩
      · rw [delete_prune_succ, if_neg (by rw [hpar]; exact hσ), if_pos hc1]
      · rw [pruneO_stop (obs t) (obs (unlink t node)) b (r :: rs) hobs2]
        left
        rcases hc1 with hc | hc
        · left; exact (hkid true).2 (by simpa [child] using hc)
        · right; exact (hkid false).2 (by simpa [child] using hc)
      · intro π h1 h2
        rw [hrem π h1 h2]; simp
      · rw [hcount]; simp; omega
    · by_cases hc2 : ((unlink t node).mem ((unlink t node).mem node).parent).value
          ≠ NGX_RADIX_NO_VALUE
      · refine ⟨unlink t node, [node], ?_, hinv2, ?_, rfl, rfl, rfl, rfl, rfl, ?_, ?_⟩
        · rw [delete_prune_succ, if_neg (by rw [hpar]; exact hσ), if_neg hc1, if_pos hc2]
        · rw [pruneO_stop (obs t) (obs (unlink t node)) b (r :: rs) hobs2]
          right; left
          exact hval.2 hc2
        · intro π h1 h2
          rw [hrem π h1 h2]; simp
        · rw [hcount]; simp; omega
      · have hleaf2 : ∀ c, child (unlink t node).mem
            (walk t.mem t.root (r :: rs).reverse) c = 0 := by
          intro c
          rw [← hup]
          by_contra hne0
          apply hc1
          cases c with
          | true => left; simpa [child] using hne0
          | false => right; simpa [child] using hne0
        obtain ⟨t', R, hrun, hinv', hobs', ha, hroot, hst, hsz, hpg, hrem', hcnt'⟩ :=
          ih r (unlink t node) (node :: F) (walk t.mem t.root (r :: rs).reverse) n hinv2
            (by rw [← hrev]; exact hwσ) hσ hleaf2 (by omega)
        refine ⟨t', R ++ [node], ?_, ?_, ?_, ha, hroot, hst, hsz, hpg, ?_, ?_⟩
        · rw [delete_prune_succ, if_neg (by rw [hpar]; exact hσ), if_neg hc1, if_neg hc2,
            if_neg hpp, hup]
          exact hrun
        · simpa using hinv'
        · rw [hobs']
          symm
          apply pruneO_go (obs t) (obs (unlink t node)) b r rs hobs2
          · intro hk
            apply hc1
            rcases hk with hk | hk
            · left; simpa [child] using (hkid true).1 hk
            · right; simpa [child] using (hkid false).1 hk
          · exact fun hv => hc2 (hval.1 hv)
        · intro π h1 h2
          by_cases hπ : walk (unlink t node).mem (unlink t node).root π = 0
          · rw [hrem π h1 hπ]; simp
          · have := hrem' π hπ h2
            rw [hw2 π] at this hπ
            by_cases hπ' : π = (r :: rs).reverse ++ [b]
            · simp [hπ'] at hπ
            · simp only [hπ', if_false] at this
              exact List.mem_append_left _ this
        · rw [hcount, ← hcnt']
          simp; omega

/-! ## Delete on well-formed trees -/

theorem obs_closed (t : lngx_radix_tree_t) : ClosedO (obs t) := by
  intro π ρ h
  rw [obs_eq_none] at h ⊢
  rw [walk_append, h, walk_zero]

theorem obs_root (t : lngx_radix_tree_t) (h : t.root ≠ 0) : obs t [] ≠ none := by
  rw [Ne, obs_eq_none]
  simpa [walk] using h

theorem obs_child (t : lngx_radix_tree_t) (π : List Bool) (c : Bool)
    (h : walk t.mem t.root π ≠ 0) :
    obs t (π ++ [c]) ≠ none ↔ child t.mem (walk t.mem t.root π) c ≠ 0 := by
  rw [Ne, obs_eq_none, walk_snoc, if_neg h]

theorem Strict.strictO (t : lngx_radix_tree_t) (h : Strict t) : StrictO (obs t) := by
  intro π hπ ho
  have hw : walk t.mem t.root π ≠ 0 := by
    intro e
    rw [(obs_eq_none t π).2 e] at ho
    exact absurd ho (by simp)
  rw [obs_of_walk t π hw] at ho
  simp only [Option.some.injEq] at ho
  rcases h π hπ hw with h1 | h1 | h1
  · left; exact (obs_child t π true hw).2 (by simpa [child] using h1)
  · right; exact (obs_child t π false hw).2 (by simpa [child] using h1)
  · exact absurd ho h1

/-- Pruning undoes an insert: when the observations `o1` are `o` with a chain
of sentinel nodes added down to a leaf at the path `rs.reverse ++ [b]`, pruning
from that leaf gives `o` back, provided `o` is strict. -/
theorem pruneO_chain (o : List Bool → Option Nat) (hcl : ClosedO o) (hroot : o [] ≠ none)
    (hst : StrictO o) :
    ∀ (rs : List Bool) (b : Bool) (o1 : List Bool → Option Nat),
      o (rs.reverse ++ [b]) = none →
      (∀ π, π ≠ rs.reverse ++ [b] →
        o1 π = if π <+: rs.reverse ++ [b] ∧ o π = none then some NGX_RADIX_NO_VALUE else o π) →
      pruneO o1 (b :: rs) = o := by
  intro rs
  induction rs with
  | nil =>
    intro b o1 hτ h1
    simp only [List.reverse_nil, List.nil_append] at hτ h1
    have ho2 : (fun π => if π = [].reverse ++ [b] then none else o1 π) = o := by
      funext π
      simp only [List.reverse_nil, List.nil_append]
      by_cases hπ : π = [b]
      · simp [hπ, hτ]
      · simp only [hπ, if_false]
        rw [h1 π hπ]
        have : ¬ (π <+: [b] ∧ o π = none) := by
          rintro ⟨hp, hn⟩
          have hp' : π <+: [] ++ [b] := by simpa using hp
          rcases List.prefix_concat_iff.1 hp' with e | e
          · exact hπ (by simpa using e)
          · have : π = [] := by simpa using e
            exact hroot (this ▸ hn)
        rw [if_neg this]
    rw [pruneO_stop o1 o b [] ho2.symm (Or.inr (Or.inr rfl))]
  | cons r rs ih =>
    intro b o1 hτ h1
    have hne : (r :: rs).reverse ≠ (r :: rs).reverse ++ [b] := by
      intro e
      have := congrArg List.length e
      simp at this
    have hσnil : (r :: rs).reverse ≠ [] := by simp
    have hkid : ∀ c, c ≠ b → o1 ((r :: rs).reverse ++ [c]) = o ((r :: rs).reverse ++ [c]) := by
      intro c hc
      have hne' : (r :: rs).reverse ++ [c] ≠ (r :: rs).reverse ++ [b] := by
        intro e
        exact hc (by simpa using e)
      rw [h1 _ hne']
      have : ¬ ((r :: rs).reverse ++ [c] <+: (r :: rs).reverse ++ [b]
          ∧ o ((r :: rs).reverse ++ [c]) = none) := by
        rintro ⟨hp, _⟩
        exact hne' (hp.eq_of_length (by simp))
      rw [if_neg this]
    by_cases hσ : o (r :: rs).reverse = none
    · -- the parent is part of the chain: go on
      have ho1σ : o1 (r :: rs).reverse = some NGX_RADIX_NO_VALUE := by
        rw [h1 _ hne, if_pos ⟨List.prefix_append _ _, hσ⟩]
      have hgo := pruneO_go o1 (fun π => if π = (r :: rs).reverse ++ [b] then none else o1 π)
        b r rs rfl
      rw [hgo]
      · apply ih r
        · simpa using hσ
        · intro π hπ
          have hrev : rs.reverse ++ [r] = (r :: rs).reverse := by simp
          rw [hrev] at hπ ⊢
          by_cases hπτ : π = (r :: rs).reverse ++ [b]
          · simp only [hπτ, if_true]
            have : ¬ ((r :: rs).reverse ++ [b] <+: (r :: rs).reverse
                ∧ o ((r :: rs).reverse ++ [b]) = none) := by
              rintro ⟨hp, _⟩
              have := hp.length_le
              simp at this
            rw [if_neg this, hτ]
          · simp only [hπτ, if_false]
            rw [h1 π hπτ]
            have hiff : π <+: (r :: rs).reverse ++ [b] ↔ π <+: (r :: rs).reverse := by
              rw [List.prefix_concat_iff]
              constructor
              · rintro (e | e)
                · exact absurd e hπτ
                · exact e
              · exact fun e => Or.inr e
            simp only [hiff]
      · rintro (hk | hk)
        · by_cases hb : true = b
          · subst hb; simp at hk
          · have hne' : (r :: rs).reverse ++ [true] ≠ (r :: rs).reverse ++ [b] := by
              intro e; exact hb (by simpa using e)
            simp only [hne', if_false] at hk
            rw [hkid true hb] at hk
            exact hk (hcl _ _ hσ)
        · by_cases hb : false = b
          · subst hb; simp at hk
          · have hne' : (r :: rs).reverse ++ [false] ≠ (r :: rs).reverse ++ [b] := by
              intro e; exact hb (by simpa using e)
            simp only [hne', if_false] at hk
            rw [hkid false hb] at hk
            exact hk (hcl _ _ hσ)
      · rw [ho1σ]; simp
    · -- the parent is a node of `o`: stop
      have ho1σ : o1 (r :: rs).reverse = o (r :: rs).reverse := by
        rw [h1 _ hne, if_neg (fun hh => hσ hh.2)]
      have ho2 : (fun π => if π = (r :: rs).reverse ++ [b] then none else o1 π) = o := by
        funext π
        by_cases hπ : π = (r :: rs).reverse ++ [b]
        · show (if π = (r :: rs).reverse ++ [b] then none else o1 π) = o π
          rw [if_pos hπ, hπ, hτ]
        · show (if π = (r :: rs).reverse ++ [b] then none else o1 π) = o π
          rw [if_neg hπ]
          rw [h1 π hπ]
          have : ¬ (π <+: (r :: rs).reverse ++ [b] ∧ o π = none) := by
            rintro ⟨hp, hn⟩
            rcases List.prefix_concat_iff.1 hp with e | e
            · exact hπ e
            · obtain ⟨ρ, hρ⟩ := e
              apply hσ
              rw [← hρ]
              exact hcl π ρ hn
          rw [if_neg this]
      apply pruneO_stop o1 o b (r :: rs) ho2.symm
      by_cases hv : o (r :: rs).reverse = some NGX_RADIX_NO_VALUE
      · left
        rcases hst _ hσnil hv with hc | hc
        · left; exact hc
        · right; exact hc
      · right; left
        rw [ho1σ]; exact hv

theorem delete_at_inner (fuel : Nat) (t : lngx_radix_tree_t) (node : Nat) (hn : node ≠ 0)
    (hkid : (t.mem node).right ≠ 0 ∨ (t.mem node).left ≠ 0)
    (hv : (t.mem node).value ≠ NGX_RADIX_NO_VALUE) :
    delete_at fuel t node
      = .ok (NGX_OK, { t with mem := setValue t.mem node NGX_RADIX_NO_VALUE }) := by
  unfold delete_at
  rw [if_neg hn, if_pos hkid, if_pos hv]

theorem delete_at_leaf (fuel : Nat) (t t' : lngx_radix_tree_t) (node : Nat) (hn : node ≠ 0)
    (hleaf : ∀ c, child t.mem node c = 0) (hp : delete_prune fuel t node = .ok t') :
    delete_at fuel t node = .ok (NGX_OK, t') := by
  unfold delete_at
  have hkid : ¬ ((t.mem node).right ≠ 0 ∨ (t.mem node).left ≠ 0) := by
    rintro (h | h)
    · exact h (by simpa [child] using hleaf true)
    · exact h (by simpa [child] using hleaf false)
  rw [if_neg hn, if_neg hkid, hp]

/-- Insert followed by delete of the same prefix on a well-formed strict tree:
the observations are the same as before and the nodes the insert added are on
the free list. -/
theorem insert_then_delete (t : lngx_radix_tree_t) (F : List Nat) (h : Inv t F)
    (hstrict : Strict t) (key mask v fuel : Nat) (hmask : pfx key mask 32 ≠ [])
    (hfree : ¬ Occupied (obs t) (pfx key mask 32)) (hv : v ≠ NGX_RADIX_NO_VALUE)
    (hfuel : 32 ≤ fuel) (rc : Int) (t1 : lngx_radix_tree_t)
    (hins : lngx_radix32tree_insert t key mask v = .ok (rc, t1)) :
    rc = NGX_OK ∧ ∃ t2 F2, lngx_radix32tree_delete fuel t1 key mask = .ok (NGX_OK, t2) ∧
      obs t2 = obs t ∧ node_count t2 = node_count t ∧ Inv t2 F2 ∧
      ∀ π, obs t π = none → walk t1.mem t1.root π ≠ 0 → walk t1.mem t1.root π ∈ F2 := by
  have hlen := pfx_length_le key mask 32
  rw [insert_eq_insertL] at hins
  obtain ⟨hrc, hobs1, hroot1, _, _, _, F1, hinv1, _⟩ :=
    (insertL_spec t F h (pfx key mask 32) hlen v).2.2 rc t1 hins hfree
  refine ⟨hrc, ?_⟩
  rw [delete_eq]
  have hκ1 : obs t1 (pfx key mask 32) = some v := by
    rw [hobs1]; simp [insO]
  have hn1 : walk t1.mem t1.root (pfx key mask 32) ≠ 0 := by
    intro e
    rw [(obs_eq_none t1 _).2 e] at hκ1
    exact absurd hκ1 (by simp)
  have hval1 : (t1.mem (walk t1.mem t1.root (pfx key mask 32))).value = v := by
    rw [obs_of_walk t1 _ hn1] at hκ1
    simpa using hκ1
  have hbelow : ∀ c, obs t1 (pfx key mask 32 ++ [c]) = obs t (pfx key mask 32 ++ [c]) := by
    intro c
    rw [hobs1]
    unfold insO
    have h1 : ¬ pfx key mask 32 ++ [c] = pfx key mask 32 := by
      intro e
      have := congrArg List.length e
      simp at this
    have h2 : ¬ (pfx key mask 32 ++ [c] <+: pfx key mask 32
        ∧ obs t (pfx key mask 32 ++ [c]) = none) := by
      rintro ⟨hp, _⟩
      have := hp.length_le
      simp at this
    rw [if_neg h1, if_neg h2]
  cases hκ : obs t (pfx key mask 32) with
  | some x =>
    -- the node was there, holding the sentinel
    have hx : x = NGX_RADIX_NO_VALUE := by
      by_contra hx
      exact hfree ⟨x, hκ, hx⟩
    subst hx
    have hsame : ∀ π, π ≠ pfx key mask 32 → obs t1 π = obs t π := by
      intro π hπ
      rw [hobs1]
      unfold insO
      rw [if_neg hπ]
      have : ¬ (π <+: pfx key mask 32 ∧ obs t π = none) := by
        rintro ⟨⟨ρ, hρ⟩, hn⟩
        have := obs_closed t π ρ hn
        rw [hρ, hκ] at this
        exact absurd this (by simp)
      rw [if_neg this]
    have hkid : (t1.mem (walk t1.mem t1.root (pfx key mask 32))).right ≠ 0
        ∨ (t1.mem (walk t1.mem t1.root (pfx key mask 32))).left ≠ 0 := by
      rcases (Strict.strictO t hstrict) _ hmask hκ with hc | hc
      · left
        rw [← hbelow true] at hc
        simpa [child] using (obs_child t1 _ true hn1).1 hc
      · right
        rw [← hbelow false] at hc
        simpa [child] using (obs_child t1 _ false hn1).1 hc
    have hobs2 : obs { t1 with mem := (setValue t1.mem
        (walk t1.mem t1.root (pfx key mask 32)) NGX_RADIX_NO_VALUE) } = obs t := by
      funext π
      rw [setValue_obs t1 F1 hinv1 (pfx key mask 32) _ _ rfl hn1 π]
      by_cases hπ : π = pfx key mask 32
      · rw [if_pos hπ, hπ, hκ]
      · rw [if_neg hπ, hsame π hπ]
    refine ⟨_, F1, delete_at_inner fuel t1 _ hn1 hkid (by rw [hval1]; exact hv), hobs2,
      node_count_congr _ _ hobs2, setValue_inv t1 F1 hinv1 _ _, ?_⟩
    intro π hπ hw
    exfalso
    have hπκ : π ≠ pfx key mask 32 := by
      intro e; rw [e, hκ] at hπ; exact absurd hπ (by simp)
    have := hsame π hπκ
    rw [hπ, obs_eq_none] at this
    exact hw this
  | none =>
    -- the insert built a chain: the delete prunes it
    have hleaf : ∀ c, child t1.mem (walk t1.mem t1.root (pfx key mask 32)) c = 0 := by
      intro c
      by_contra hc
      have := (obs_child t1 _ c hn1).2 hc
      rw [hbelow c] at this
      exact this (obs_closed t _ [c] hκ)
    obtain ⟨σ, b, hσb⟩ : ∃ σ b, pfx key mask 32 = σ ++ [b] := by
      rcases List.eq_nil_or_concat (pfx key mask 32) with e | ⟨σ, b, e⟩
      · exact absurd e hmask
      · exact ⟨σ, b, by simpa using e⟩
    have hσlen : σ.length < fuel := by
      rw [hσb] at hlen
      simp at hlen
      omega
    have hnode : walk t1.mem t1.root (σ.reverse.reverse ++ [b])
        = walk t1.mem t1.root (pfx key mask 32) := by
      rw [List.reverse_reverse, hσb]
    obtain ⟨t2, R, hrun, hinv2, hobs2, _, _, _, _, _, hrem, _⟩ :=
      prune_spec σ.reverse b t1 F1 _ fuel hinv1 hnode hn1 hleaf (by simpa using hσlen)
    have hback : obs t2 = obs t := by
      rw [hobs2]
      apply pruneO_chain (obs t) (obs_closed t) (obs_root t h.root_ne)
        (Strict.strictO t hstrict) σ.reverse b (obs t1)
      · rw [List.reverse_reverse, ← hσb]; exact hκ
      · intro π hπ
        rw [List.reverse_reverse, ← hσb] at hπ ⊢
        rw [hobs1]
        unfold insO
        rw [if_neg hπ]
    refine ⟨t2, R ++ F1, delete_at_leaf fuel t1 t2 _ hn1 hleaf hrun, hback,
      node_count_congr _ _ hback, hinv2, ?_⟩
    intro π hπ hw
    apply List.mem_append_left
    apply hrem π hw
    rw [← obs_eq_none, hback]
    exact hπ

/-! ## The warm-up pass -/

theorem warm_mask_testBit (j n : Nat) :
    (warm_mask j).testBit n = decide (n < 32 ∧ 32 ≤ n + j) := by
  induction j generalizing n with
  | zero =>
    simp only [warm_mask, Nat.zero_testBit, Nat.add_zero]
    symm
    rw [decide_eq_false_iff_not]
    omega
  | succ j ih =>
    have h31 : (0x80000000 : Nat) = 2 ^ 31 := by norm_num
    rw [warm_mask, Nat.testBit_or, Nat.testBit_shiftRight, ih, h31, Nat.testBit_two_pow]
    by_cases h1 : n = 31
    · subst h1; simp; omega
    · have h2 : ¬ 31 = n := fun e => h1 e.symm
      simp only [h2, decide_False, Bool.or_false]
      congr 1
      apply propext
      constructor <;> intro h <;> omega

theorem warm_inc_eq (j : Nat) : warm_inc j = 2 ^ 31 / 2 ^ j := by
  induction j with
  | zero => simp [warm_inc]
  | succ j ih =>
    rw [warm_inc, ih, Nat.shiftRight_eq_div_pow, Nat.div_div_eq_div_mul, pow_one, ← pow_succ]

theorem warm_inc_small (j : Nat) (hj : j ≤ 31) : warm_inc j = 2 ^ (31 - j) := by
  rw [warm_inc_eq, Nat.pow_div hj (by norm_num)]

theorem warm_inc_large (j : Nat) (hj : 32 ≤ j) : warm_inc j = 0 := by
  rw [warm_inc_eq]
  apply Nat.div_eq_of_lt
  calc 2 ^ 31 < 2 ^ 32 := by norm_num
    _ ≤ 2 ^ j := Nat.pow_le_pow_right (by norm_num) hj

/-- Under a mask whose one bits are the `j` highest of the low `N` bits, the
masked prefix consists of the first `j` key bits. -/
theorem pfx_eq_take (key mask : Nat) :
    ∀ (N j : Nat), (∀ n, n < N → mask.testBit n = decide (N ≤ n + j)) →
      pfx key mask N = (bitsFrom key N).take j := by
  intro N
  induction N with
  | zero => intro j _; simp [pfx, bitsFrom]
  | succ N ih =>
    intro j h
    cases j with
    | zero =>
      have := h N (by omega)
      simp only [pfx, this]
      simp
    | succ j =>
      have hN := h N (by omega)
      have hN' : mask.testBit N = true := by
        rw [hN]; simp
      simp only [pfx, hN', if_true, bitsFrom, List.take_succ_cons]
      rw [ih j]
      intro n hn
      rw [h n (by omega)]
      congr 1
      apply propext
      constructor <;> intro h <;> omega

theorem pfx_warm_mask (key j : Nat) :
    pfx key (warm_mask j) 32 = (bitsFrom key 32).take j := by
  apply pfx_eq_take
  intro n hn
  rw [warm_mask_testBit]
  congr 1
  apply propext
  constructor
  · intro h; exact h.2
  · intro h; exact ⟨hn, h⟩

theorem bitsFrom_shift (i s : Nat) :
    ∀ l : Nat, (bitsFrom (i * 2 ^ s) (s + l)).take l = bitsFrom i l := by
  intro l
  induction l with
  | zero => simp [bitsFrom]
  | succ l ih =>
    have : s + (l + 1) = (s + l) + 1 := by omega
    rw [this, bitsFrom, bitsFrom, List.take_succ_cons, ih]
    congr 1
    rw [← Nat.shiftLeft_eq, Nat.testBit_shiftLeft]
    simp

theorem bitsFrom_eq_iff (i i' : Nat) :
    ∀ l : Nat, bitsFrom i l = bitsFrom i' l ↔ ∀ n, n < l → i.testBit n = i'.testBit n := by
  intro l
  induction l with
  | zero => simp [bitsFrom]
  | succ l ih =>
    simp only [bitsFrom, List.cons.injEq, ih]
    constructor
    · rintro ⟨h1, h2⟩ n hn
      by_cases hnl : n = l
      · subst hnl; exact h1
      · exact h2 n (by omega)
    · intro h
      exact ⟨h l (by omega), fun n hn => h n (by omega)⟩

theorem bitsFrom_inj (i i' l : Nat) (hi : i < 2 ^ l) (hi' : i' < 2 ^ l)
    (h : bitsFrom i l = bitsFrom i' l) : i = i' := by
  apply Nat.eq_of_testBit_eq
  intro n
  by_cases hn : n < l
  · exact (bitsFrom_eq_iff i i' l).1 h n hn
  · have hle : 2 ^ l ≤ 2 ^ n := Nat.pow_le_pow_right (by norm_num) (by omega)
    rw [Nat.testBit_lt_two_pow (lt_of_lt_of_le hi hle),
      Nat.testBit_lt_two_pow (lt_of_lt_of_le hi' hle)]

theorem bitsFrom_surj : ∀ (π : List Bool), ∃ i, i < 2 ^ π.length ∧ bitsFrom i π.length = π := by
  intro π
  induction π with
  | nil => exact ⟨0, by simp, rfl⟩
  | cons b π ih =>
    obtain ⟨i, hi, hb⟩ := ih
    cases b with
    | false =>
      refine ⟨i, ?_, ?_⟩
      · simp only [List.length_cons, pow_succ]; omega
      · simp only [List.length_cons, bitsFrom, hb, Nat.testBit_lt_two_pow hi]
    | true =>
      refine ⟨2 ^ π.length + i, ?_, ?_⟩
      · simp only [List.length_cons, pow_succ]; omega
      · simp only [List.length_cons, bitsFrom]
        rw [Nat.testBit_two_pow_add_eq, Nat.testBit_lt_two_pow hi]
        simp only [Bool.not_false, List.cons.injEq, true_and]
        have : bitsFrom (2 ^ π.length + i) π.length = bitsFrom i π.length := by
          apply (bitsFrom_eq_iff _ _ _).2
          intro n hn
          rw [Nat.testBit_two_pow_add_gt hn]
        rw [this, hb]

theorem create_keys_succ (n : Nat) (t t1 : lngx_radix_tree_t) (key mask inc : Nat)
    (h : lngx_radix32tree_insert t key mask NGX_RADIX_NO_VALUE = .ok (NGX_OK, t1)) :
    create_keys (n + 1) t key mask inc =
      if (key + inc) % 2 ^ 32 ≠ 0 then
        ((create_keys n t1 ((key + inc) % 2 ^ 32) mask inc).1,
          { pre := t, key := key, mask := mask, res := .ok (NGX_OK, t1) }
            :: (create_keys n t1 ((key + inc) % 2 ^ 32) mask inc).2)
      else
        (.ok (some t1), [{ pre := t, key := key, mask := mask, res := .ok (NGX_OK, t1) }]) := by
  rw [create_keys, h]
  simp

/-- An insert of the sentinel on a tree whose nodes all hold the sentinel. -/
theorem warm_insert (t : lngx_radix_tree_t) (hwf : WF t) (hnf : NoFail t)
    (hall : ∀ π, obs t π = none ∨ obs t π = some NGX_RADIX_NO_VALUE) (key mask : Nat) :
    ∃ t1, lngx_radix32tree_insert t key mask NGX_RADIX_NO_VALUE = .ok (NGX_OK, t1) ∧
      WF t1 ∧ NoFail t1 ∧ t1.lngx_pagesize = t.lngx_pagesize ∧
      obs t1 = insO (obs t) (pfx key mask 32) NGX_RADIX_NO_VALUE := by
  obtain ⟨F, h⟩ := hwf
  have hlen := pfx_length_le key mask 32
  have hfree : ¬ Occupied (obs t) (pfx key mask 32) := by
    rintro ⟨x, hx, hx'⟩
    rcases hall (pfx key mask 32) with h1 | h1
    · rw [h1] at hx; exact absurd hx (by simp)
    · rw [h1] at hx
      simp only [Option.some.injEq] at hx
      exact hx' hx.symm
  obtain ⟨_, htot, hres⟩ := insertL_spec t F h (pfx key mask 32) hlen NGX_RADIX_NO_VALUE
  obtain ⟨t1, h1⟩ := htot hfree (Or.inl hnf)
  obtain ⟨_, hobs, _, hpg, hoom, hcalls, F', hinv', _⟩ := hres _ t1 h1 hfree
  rw [insert_eq_insertL]
  exact ⟨t1, h1, ⟨F', hinv'⟩, NoFail_alloc t hnf t1 hoom hcalls, hpg, hobs⟩

theorem insO_sentinel_all (o : List Bool → Option Nat) (κ : List Bool)
    (hall : ∀ π, o π = none ∨ o π = some NGX_RADIX_NO_VALUE) (π : List Bool) :
    insO o κ NGX_RADIX_NO_VALUE π = none ∨
      insO o κ NGX_RADIX_NO_VALUE π = some NGX_RADIX_NO_VALUE := by
  unfold insO
  by_cases h1 : π = κ
  · right; rw [if_pos h1]
  · rw [if_neg h1]
    by_cases h2 : π <+: κ ∧ o π = none
    · right; rw [if_pos h2]
    · rw [if_neg h2]; exact hall π

/-- The inner loop of the warm-up pass at a level `l` between 1 and 32, with
`n` keys left to insert: it returns after `n` calls to insert, each of which
returned `NGX_OK` and added one node, and level `l` is complete. -/
theorem create_keys_spec (l : Nat) (hl1 : 1 ≤ l) (hl : l ≤ 32) :
    ∀ (n i fuel : Nat) (t : lngx_radix_tree_t), i + (n + 1) = 2 ^ l → n + 1 ≤ fuel →
      WarmInv t l i →
      ∃ t' log, create_keys fuel t (i * 2 ^ (32 - l)) (warm_mask l) (warm_inc (l - 1))
          = (.ok (some t'), log) ∧
        WarmInv t' l (2 ^ l) ∧ t'.lngx_pagesize = t.lngx_pagesize ∧
        log.length = n + 1 ∧ node_count t' = node_count t + (n + 1) ∧
        ∀ c ∈ log, AddsOne c := by
  have hinc : warm_inc (l - 1) = 2 ^ (32 - l) := by
    rw [warm_inc_small (l - 1) (by omega)]
    congr 1
    omega
  have hpow : 2 ^ l * 2 ^ (32 - l) = 2 ^ 32 := by
    rw [← pow_add]
    congr 1
    omega
  intro n
  induction n with
  | zero =>
    intro i fuel t hi hfuel ⟨hwf, hnf, hall, hshape⟩
    obtain ⟨f, rfl⟩ : ∃ f, fuel = f + 1 := ⟨fuel - 1, by omega⟩
    obtain ⟨t1, hins, hwf1, hnf1, hpg1, hobs1⟩ :=
      warm_insert t hwf hnf hall (i * 2 ^ (32 - l)) (warm_mask l)
    have hκ : pfx (i * 2 ^ (32 - l)) (warm_mask l) 32 = bitsFrom i l := by
      rw [pfx_warm_mask]
      have := bitsFrom_shift i (32 - l) l
      rwa [show 32 - l + l = 32 by omega] at this
    rw [hκ] at hobs1
    have hilt : i < 2 ^ l := by omega
    have hnone : obs t (bitsFrom i l) = none := by
      by_contra hne
      rcases (hshape _).1 hne with h1 | ⟨i', hi', he⟩
      · rw [bitsFrom_length] at h1; omega
      · have := bitsFrom_inj i i' l hilt (by omega) he
        omega
    have hshape1 : ∀ π, obs t1 π ≠ none ↔ π.length < l ∨ ∃ i', i' < i + 1 ∧ π = bitsFrom i' l := by
      intro π
      rw [hobs1]
      unfold insO
      by_cases h1 : π = bitsFrom i l
      · rw [if_pos h1]
        simp only [ne_eq, not_false_eq_true, true_iff, reduceCtorEq]
        exact Or.inr ⟨i, by omega, h1⟩
      · rw [if_neg h1]
        have h2 : ¬ (π <+: bitsFrom i l ∧ obs t π = none) := by
          rintro ⟨hp, hn⟩
          have hlen := hp.length_le
          rw [bitsFrom_length] at hlen
          have hlt : π.length < l := by
            rcases Nat.lt_or_ge π.length l with h | h
            · exact h
            · exact absurd (hp.eq_of_length (by rw [bitsFrom_length]; omega)) h1
          exact (hshape π).2 (Or.inl hlt) hn
        rw [if_neg h2, hshape π]
        constructor
        · rintro (h | ⟨i', hi', he⟩)
          · exact Or.inl h
          · exact Or.inr ⟨i', by omega, he⟩
        · rintro (h | ⟨i', hi', he⟩)
          · exact Or.inl h
          · right
            refine ⟨i', ?_, he⟩
            rcases Nat.lt_or_ge i' i with h | h
            · exact h
            · have : i' = i := by omega
              subst this
              exact absurd he h1
    have hcount : node_count t1 = node_count t + 1 := by
      apply node_count_add_one t t1 (bitsFrom i l) (by rw [bitsFrom_length]; exact hl) hnone
      · rw [hobs1]; simp [insO]
      · intro π hπ
        rw [hobs1]
        unfold insO
        rw [if_neg hπ]
        have h2 : ¬ (π <+: bitsFrom i l ∧ obs t π = none) := by
          rintro ⟨hp, hn⟩
          have hlen := hp.length_le
          rw [bitsFrom_length] at hlen
          have hlt : π.length < l := by
            rcases Nat.lt_or_ge π.length l with h | h
            · exact h
            · exact absurd (hp.eq_of_length (by rw [bitsFrom_length]; omega)) hπ
          exact (hshape π).2 (Or.inl hlt) hn
        rw [if_neg h2]
    have hkey : (i * 2 ^ (32 - l) + warm_inc (l - 1)) % 2 ^ 32 = 0 := by
      rw [hinc]
      have : i * 2 ^ (32 - l) + 2 ^ (32 - l) = 2 ^ l * 2 ^ (32 - l) := by
        have : i + 1 = 2 ^ l := by omega
        rw [← this]; ring
      rw [this, hpow]; simp
    rw [create_keys_succ f t t1 _ _ _ hins, if_neg (by rw [hkey]; simp)]
    refine ⟨t1, _, rfl, ⟨hwf1, hnf1, ?_, ?_⟩, hpg1, rfl, hcount, ?_⟩
    · intro π; rw [hobs1]; exact insO_sentinel_all _ _ hall π
    · intro π
      rw [hshape1 π]
      have : i + 1 = 2 ^ l := by omega
      rw [this]
    · intro c hc
      simp only [List.mem_singleton] at hc
      subst hc
      exact ⟨t1, rfl, hins, hcount⟩
  | succ n ih =>
    intro i fuel t hi hfuel ⟨hwf, hnf, hall, hshape⟩
    obtain ⟨f, rfl⟩ : ∃ f, fuel = f + 1 := ⟨fuel - 1, by omega⟩
    obtain ⟨t1, hins, hwf1, hnf1, hpg1, hobs1⟩ :=
      warm_insert t hwf hnf hall (i * 2 ^ (32 - l)) (warm_mask l)
    have hκ : pfx (i * 2 ^ (32 - l)) (warm_mask l) 32 = bitsFrom i l := by
      rw [pfx_warm_mask]
      have := bitsFrom_shift i (32 - l) l
      rwa [show 32 - l + l = 32 by omega] at this
    rw [hκ] at hobs1
    have hilt : i < 2 ^ l := by omega
    have hnone : obs t (bitsFrom i l) = none := by
      by_contra hne
      rcases (hshape _).1 hne with h1 | ⟨i', hi', he⟩
      · rw [bitsFrom_length] at h1; omega
      · have := bitsFrom_inj i i' l hilt (by omega) he
        omega
    have hpre : ∀ π, ¬ (π ≠ bitsFrom i l ∧ π <+: bitsFrom i l ∧ obs t π = none) := by
      rintro π ⟨h1, hp, hn⟩
      have hlen := hp.length_le
      rw [bitsFrom_length] at hlen
      have hlt : π.length < l := by
        rcases Nat.lt_or_ge π.length l with h | h
        · exact h
        · exact absurd (hp.eq_of_length (by rw [bitsFrom_length]; omega)) h1
      exact (hshape π).2 (Or.inl hlt) hn
    have hsame : ∀ π, π ≠ bitsFrom i l → obs t1 π = obs t π := by
      intro π hπ
      rw [hobs1]
      unfold insO
      rw [if_neg hπ, if_neg (fun hh => hpre π ⟨hπ, hh⟩)]
    have hnew : obs t1 (bitsFrom i l) ≠ none := by
      rw [hobs1]; simp [insO]
    have hshape1 : ∀ π, obs t1 π ≠ none ↔ π.length < l ∨ ∃ i', i' < i + 1 ∧ π = bitsFrom i' l := by
      intro π
      by_cases h1 : π = bitsFrom i l
      · rw [h1]
        simp only [hnew, ne_eq, not_false_eq_true, true_iff]
        exact Or.inr ⟨i, by omega, rfl⟩
      · rw [hsame π h1, hshape π]
        constructor
        · rintro (h | ⟨i', hi', he⟩)
          · exact Or.inl h
          · exact Or.inr ⟨i', by omega, he⟩
        · rintro (h | ⟨i', hi', he⟩)
          · exact Or.inl h
          · right
            refine ⟨i', ?_, he⟩
            rcases Nat.lt_or_ge i' i with h | h
            · exact h
            · have : i' = i := by omega
              subst this
              exact absurd he h1
    have hcount : node_count t1 = node_count t + 1 :=
      node_count_add_one t t1 (bitsFrom i l) (by rw [bitsFrom_length]; exact hl) hnone hnew hsame
    have hlt32 : (i + 1) * 2 ^ (32 - l) < 2 ^ 32 := by
      rw [← hpow]
      apply Nat.mul_lt_mul_of_pos_right (by omega) (by positivity)
    have hkey : (i * 2 ^ (32 - l) + warm_inc (l - 1)) % 2 ^ 32 = (i + 1) * 2 ^ (32 - l) := by
      rw [hinc]
      have : i * 2 ^ (32 - l) + 2 ^ (32 - l) = (i + 1) * 2 ^ (32 - l) := by ring
      rw [this, Nat.mod_eq_of_lt hlt32]
    have hkey0 : (i + 1) * 2 ^ (32 - l) ≠ 0 := by positivity
    obtain ⟨t', log, hrun, hinv', hpg', hlen', hcnt', hlog'⟩ :=
      ih (i + 1) f t1 (by omega) (by omega)
        ⟨hwf1, hnf1, fun π => by rw [hobs1]; exact insO_sentinel_all _ _ hall π, hshape1⟩
    rw [create_keys_succ f t t1 _ _ _ hins, if_pos (by rw [hkey]; exact hkey0), hkey, hrun]
    refine ⟨t', _, rfl, hinv', by rw [hpg', hpg1], by simp [hlen'], by rw [hcnt', hcount]; omega,
      ?_⟩
    intro c hc
    rcases List.mem_cons.1 hc with e | hc'
    · subst e
      exact ⟨t1, rfl, hins, hcount⟩
    · exact hlog' c hc'

theorem bitsFrom_zero (n : Nat) : bitsFrom 0 n = List.replicate n false := by
  induction n with
  | zero => rfl
  | succ n ih => simp [bitsFrom, ih, List.replicate_succ]

/-- The inner loop of the warm-up pass at a level above 32: one insert at the
path of 32 zero bits, which changes nothing in a complete tree of depth 32. -/
theorem create_keys_over (l : Nat) (hl : 33 ≤ l) (fuel : Nat) (hfuel : 1 ≤ fuel)
    (t : lngx_radix_tree_t) (h : Level t 32) :
    ∃ t' log, create_keys fuel t 0 (warm_mask l) (warm_inc (l - 1)) = (.ok (some t'), log) ∧
      Level t' 32 ∧ t'.lngx_pagesize = t.lngx_pagesize := by
  obtain ⟨hwf, hnf, hshape⟩ := h
  obtain ⟨f, rfl⟩ : ∃ f, fuel = f + 1 := ⟨fuel - 1, by omega⟩
  have hall : ∀ π, obs t π = none ∨ obs t π = some NGX_RADIX_NO_VALUE := by
    intro π
    rw [hshape π]
    by_cases hπ : π.length ≤ min 32 32
    · right; rw [if_pos hπ]
    · left; rw [if_neg hπ]
  obtain ⟨t1, hins, hwf1, hnf1, hpg1, hobs1⟩ := warm_insert t hwf hnf hall 0 (warm_mask l)
  have hκ : pfx 0 (warm_mask l) 32 = bitsFrom 0 32 := by
    rw [pfx_warm_mask]
    apply List.take_of_length_le
    rw [bitsFrom_length]; omega
  have hobs : obs t1 = obs t := by
    rw [hobs1, hκ]
    funext π
    unfold insO
    by_cases h1 : π = bitsFrom 0 32
    · rw [if_pos h1, h1, hshape, if_pos (by rw [bitsFrom_length]; simp)]
    · rw [if_neg h1]
      have h2 : ¬ (π <+: bitsFrom 0 32 ∧ obs t π = none) := by
        rintro ⟨hp, hn⟩
        have hlen := hp.length_le
        rw [bitsFrom_length] at hlen
        rw [hshape, if_pos (by simpa using hlen)] at hn
        exact absurd hn (by simp)
      rw [if_neg h2]
  have hkey : (0 + warm_inc (l - 1)) % 2 ^ 32 = 0 := by
    rw [warm_inc_large (l - 1) (by omega)]
    rfl
  rw [create_keys_succ f t t1 _ _ _ hins, if_neg (by rw [hkey]; simp)]
  exact ⟨t1, _, rfl, ⟨hwf1, hnf1, fun π => by rw [hobs]; exact hshape π⟩, hpg1⟩

theorem create_levels_succ (fuel p : Nat) (t t1 : lngx_radix_tree_t) (mask inc : Nat)
    (log : List warm_call)
    (h : create_keys fuel t 0 ((mask >>> 1) ||| 0x80000000) inc = (.ok (some t1), log)) :
    create_levels fuel (p + 1) t mask inc =
      ((create_levels fuel p t1 ((mask >>> 1) ||| 0x80000000) (inc >>> 1)).1,
        log ++ (create_levels fuel p t1 ((mask >>> 1) ||| 0x80000000) (inc >>> 1)).2) := by
  rw [create_levels, h]

/-- The outer loop of the warm-up pass, started after `j` complete levels and
run for `p` rounds with enough fuel: it returns a tree with `j + p` complete
levels (32 at most).  While the levels stay within 32 every call to insert
returned `NGX_OK` and added one node, and there are `2 ^ l` calls at level `l`. -/
theorem create_levels_spec : ∀ (p j fuel : Nat) (t : lngx_radix_tree_t),
    2 ^ (min (j + p) 32) ≤ fuel → Level t j →
    ∃ t' log, create_levels fuel p t (warm_mask j) (warm_inc j) = (.ok (some t'), log) ∧
      Level t' (j + p) ∧ t'.lngx_pagesize = t.lngx_pagesize ∧
      (j + p ≤ 32 → log.length + 2 ^ (j + 1) = 2 ^ (j + p + 1) ∧
        node_count t' = node_count t + log.length ∧ ∀ c ∈ log, AddsOne c) := by
  intro p
  induction p with
  | zero =>
    intro j fuel t _ h
    exact ⟨t, [], rfl, h, rfl, fun _ => ⟨by simp, by simp, by simp⟩⟩
  | succ p ih =>
    intro j fuel t hfuel h
    obtain ⟨hwf, hnf, hshape⟩ := h
    have hmask : (warm_mask j >>> 1) ||| 0x80000000 = warm_mask (j + 1) := rfl
    have hincs : warm_inc j >>> 1 = warm_inc (j + 1) := rfl
    by_cases hl : j + 1 ≤ 32
    · have hmin : min j 32 = j := by omega
      rw [hmin] at hshape
      have hwarm : WarmInv t (j + 1) 0 := by
        refine ⟨hwf, hnf, ?_, ?_⟩
        · intro π
          rw [hshape π]
          by_cases hπ : π.length ≤ j
          · right; rw [if_pos hπ]
          · left; rw [if_neg hπ]
        · intro π
          rw [hshape π]
          by_cases hπ : π.length ≤ j
          · rw [if_pos hπ]
            simp only [ne_eq, not_false_eq_true, true_iff, reduceCtorEq]
            left; omega
          · rw [if_neg hπ]
            simp only [ne_eq, not_true_eq_false, false_iff, not_or, not_exists, not_and]
            exact ⟨by omega, fun i' hi' => by omega⟩
      have hf1 : 2 ^ (j + 1) ≤ fuel := by
        refine le_trans (Nat.pow_le_pow_right (by norm_num) ?_) hfuel
        omega
      have hpos : 0 < 2 ^ (j + 1) := by positivity
      obtain ⟨t1, log1, hrun1, ⟨hwf1, hnf1, hall1, hshape1⟩, hpg1, hlen1, hcnt1, hlog1⟩ :=
        create_keys_spec (j + 1) (by omega) hl (2 ^ (j + 1) - 1) 0 fuel t (by omega) (by omega)
          hwarm
      simp only [Nat.zero_mul, Nat.add_sub_cancel] at hrun1
      have hlev1 : Level t1 (j + 1) := by
        refine ⟨hwf1, hnf1, ?_⟩
        intro π
        have hmin1 : min (j + 1) 32 = j + 1 := by omega
        rw [hmin1]
        by_cases hπ : π.length ≤ j + 1
        · rw [if_pos hπ]
          have hne : obs t1 π ≠ none := by
            rw [hshape1 π]
            rcases Nat.lt_or_ge π.length (j + 1) with h1 | h1
            · exact Or.inl h1
            · right
              have hlen : π.length = j + 1 := by omega
              obtain ⟨i, hi, he⟩ := bitsFrom_surj π
              rw [hlen] at hi he
              exact ⟨i, hi, he.symm⟩
          rcases hall1 π with h1 | h1
          · exact absurd h1 hne
          · exact h1
        · rw [if_neg hπ]
          by_contra hne
          rcases (hshape1 π).1 hne with h1 | ⟨i', _, he⟩
          · omega
          · rw [he, bitsFrom_length] at hπ
            omega
      obtain ⟨t', log2, hrun2, hlev2, hpg2, hlog2⟩ :=
        ih (j + 1) fuel t1 (by rwa [show j + 1 + p = j + (p + 1) by omega]) hlev1
      rw [create_levels_succ fuel p t t1 _ _ log1 (by rw [hmask]; exact hrun1), hmask, hincs,
        hrun2]
      refine ⟨t', log1 ++ log2, rfl, by rwa [show j + (p + 1) = j + 1 + p by omega],
        by rw [hpg2, hpg1], ?_⟩
      intro hjp
      obtain ⟨hlen2, hcnt2, hadd2⟩ := hlog2 (by omega)
      refine ⟨?_, ?_, ?_⟩
      · rw [List.length_append, hlen1]
        have e1 : 2 ^ (j + 1 + 1) = 2 ^ (j + 1) + 2 ^ (j + 1) := by rw [pow_succ]; omega
        have e2 : j + 1 + p + 1 = j + (p + 1) + 1 := by omega
        rw [e2] at hlen2
        omega
      · rw [hcnt2, hcnt1, List.length_append, hlen1]
        omega
      · intro c hc
        rcases List.mem_append.1 hc with h1 | h1
        · exact hlog1 c h1
        · exact hadd2 c h1
    · have hlev32 : Level t 32 := by
        refine ⟨hwf, hnf, ?_⟩
        intro π
        rw [hshape π]
        have : min j 32 = min 32 32 := by omega
        rw [this]
      obtain ⟨t1, log1, hrun1, hlev1, hpg1⟩ :=
        create_keys_over (j + 1) (by omega) fuel
          (le_trans (Nat.one_le_two_pow) hfuel) t hlev32
      have hlev1' : Level t1 (j + 1) := by
        obtain ⟨a1, a2, a3⟩ := hlev1
        refine ⟨a1, a2, ?_⟩
        intro π
        rw [a3 π]
        have : min (j + 1) 32 = min 32 32 := by omega
        rw [this]
      obtain ⟨t', log2, hrun2, hlev2, hpg2, _⟩ :=
        ih (j + 1) fuel t1 (by rwa [show j + 1 + p = j + (p + 1) by omega]) hlev1'
      have hrun1' : create_keys fuel t 0 ((warm_mask j >>> 1) ||| 0x80000000) (warm_inc j)
          = (.ok (some t1), log1) := by
        rw [hmask]
        simpa using hrun1
      rw [create_levels_succ fuel p t t1 _ _ log1 hrun1', hmask, hincs, hrun2]
      exact ⟨t', log1 ++ log2, rfl, by rwa [show j + (p + 1) = j + 1 + p by omega],
        by rw [hpg2, hpg1], fun hjp => by omega⟩

/-! ## Creation -/

theorem walk_leaf (m : Nat → lngx_radix_node_t) (p : Nat) (hl : (m p).left = 0)
    (hr : (m p).right = 0) (π : List Bool) : walk m p π = if π = [] then p else 0 := by
  cases π with
  | nil => simp [walk]
  | cons b π =>
    by_cases hp : p = 0
    · simp [walk, hp]
    · cases b <;> simp [walk, hp, child, hl, hr, walk_zero]

theorem set_root_mem_root (t : lngx_radix_tree_t) (r : Nat) :
    (set_root t r).mem (set_root t r).root
      = { right := 0, left := 0, parent := 0, value := NGX_RADIX_NO_VALUE } := by
  simp [set_root]

/-- A tree that consists of a root without children is well-formed when the
arena part of the invariant holds. -/
theorem set_root_inv (t : lngx_radix_tree_t) (r : Nat) (hr : r ≠ 0) (hfree : t.free = 0)
    (hbelow : r + sizeof_node ≤ t.start) (hslab : t.start + t.size ≤ t.a.brk)
    (hsize : t.size < 2 ^ 64) (hps : sizeof_node ≤ t.lngx_pagesize)
    (hps' : t.lngx_pagesize < 2 ^ 64) (hbrk : 0 < t.a.brk) :
    Inv (set_root t r) [] ∧
      ∀ π, obs (set_root t r) π = if π = [] then some NGX_RADIX_NO_VALUE else none := by
  have hm := set_root_mem_root t r
  have hroot : (set_root t r).root = r := rfl
  have hw : ∀ π, walk (set_root t r).mem (set_root t r).root π = if π = [] then r else 0 := by
    intro π
    rw [walk_leaf _ _ (by rw [hm]) (by rw [hm]) π, hroot]
  constructor
  · refine ⟨by rw [hroot]; exact hr, by rw [hm], ?_, ?_, ?_, hfree, List.nodup_nil, by simp,
      by simp, ?_, hslab, hsize, hps, hps', hbrk⟩
    · intro π ρ hπ he
      rw [hw π] at hπ he
      rw [hw ρ] at he
      by_cases h1 : π = []
      · by_cases h2 : ρ = []
        · rw [h1, h2]
        · simp only [h1, h2, if_true, if_false] at he
          exact absurd he hr
      · simp [h1] at hπ
    · intro π hπ
      rw [hw π] at hπ
      by_cases h1 : π = []
      · rw [h1]; simp
      · simp [h1] at hπ
    · intro π b hπ
      rw [hw (π ++ [b])] at hπ
      simp at hπ
    · intro π hπ
      rw [hw π] at hπ ⊢
      by_cases h1 : π = []
      · simp only [h1, if_true]; exact hbelow
      · simp [h1] at hπ
  · intro π
    unfold obs
    rw [hw π]
    by_cases h1 : π = []
    · simp only [h1, if_true, hr, if_false]
      have hm' : (set_root t r).mem r
          = { right := 0, left := 0, parent := 0, value := NGX_RADIX_NO_VALUE } := hm
      rw [hm']
    · simp [h1]

/-- The allocation of the root: the first slab is requested and its first node
becomes the root of a well-formed tree with no other node. -/
theorem create_root_spec (a : lua_Alloc) (mem : Nat → lngx_radix_node_t) (origin : Nat → Nat)
    (ps : Nat) (h0 : a.oom a.calls = false) (h1 : a.oom (a.calls + 1) = false)
    (hbrk : 0 < a.brk) (hps : sizeof_node ≤ ps) (hps' : ps < 2 ^ 64) :
    (a.alloc sizeof_tree).1 ≠ 0 ∧
    ∃ root t1, lngx_radix_alloc (header a mem origin ps) = .ok (root, t1) ∧ root ≠ 0 ∧
      Inv (set_root t1 root) [] ∧
      (∀ π, obs (set_root t1 root) π = if π = [] then some NGX_RADIX_NO_VALUE else none) ∧
      t1.lngx_pagesize = ps ∧ t1.a.oom = a.oom ∧ t1.a.calls = a.calls + 2 := by
  have ha : a.alloc sizeof_tree
      = (a.brk, { a with brk := a.brk + sizeof_tree, calls := a.calls + 1 }) := by
    simp [lua_Alloc.alloc, h0]
  refine ⟨by rw [ha]; exact Nat.pos_iff_ne_zero.1 hbrk, ?_⟩
  have hlo := le_andNot (a.brk + sizeof_tree + ps + sizeof_ptr) (ps - 1)
  have hhi := andNot_le (a.brk + sizeof_tree + ps + sizeof_ptr) (ps - 1)
  have hq0 : andNot (a.brk + sizeof_tree + ps + sizeof_ptr) (ps - 1) ≠ 0 := by
    simp only [sizeof_ptr, sizeof_node, sizeof_tree] at *
    omega
  have hh : header a mem origin ps =
      { root := 0, a := { a with brk := a.brk + sizeof_tree, calls := a.calls + 1 },
        free := 0, start := 0, size := 0, mem := mem, origin := origin,
        lngx_pagesize := ps } := by
    simp only [header, ha]
  have hb : ¬ a.brk + sizeof_tree = 0 := by omega
  have hs : (0 : Nat) < sizeof_node := by simp [sizeof_node]
  have hal : ∃ t1, lngx_radix_alloc (header a mem origin ps)
        = .ok (andNot (a.brk + sizeof_tree + ps + sizeof_ptr) (ps - 1), t1) ∧
      t1.free = 0 ∧
      t1.start = andNot (a.brk + sizeof_tree + ps + sizeof_ptr) (ps - 1) + sizeof_node ∧
      t1.size = (ps + 2 ^ 64 - sizeof_node) % 2 ^ 64 ∧
      t1.a.brk = a.brk + sizeof_tree + (ps + ps + sizeof_ptr) ∧ t1.lngx_pagesize = ps ∧
      t1.a.oom = a.oom ∧ t1.a.calls = a.calls + 2 := by
    rw [hh]
    simp only [lngx_radix_alloc, lngx_pmemalign, lua_Alloc.alloc, h1, ne_eq,
      not_true_eq_false, if_false, hs, if_true, Bool.false_eq_true, hb, hq0]
    exact ⟨_, rfl, rfl, rfl, rfl, rfl, rfl, rfl, rfl⟩
  obtain ⟨t1, hrun, hfree, hstart, hsize, hbrk1, hpg, hoom, hcalls⟩ := hal
  have hsz : (ps + 2 ^ 64 - sizeof_node) % 2 ^ 64 = ps - sizeof_node := by
    simp only [sizeof_node] at *
    omega
  have hinv := set_root_inv t1 (andNot (a.brk + sizeof_tree + ps + sizeof_ptr) (ps - 1)) hq0
    hfree (by rw [hstart]) (by
      rw [hstart, hsize, hbrk1, hsz]
      simp only [sizeof_ptr, sizeof_node, sizeof_tree] at *
      omega)
    (by rw [hsize]; exact Nat.mod_lt _ (by norm_num)) (by rw [hpg]; exact hps)
    (by rw [hpg]; exact hps') (by rw [hbrk1]; omega)
  exact ⟨_, t1, hrun, hq0, hinv.1, hinv.2, hpg, hoom, hcalls⟩

theorem count_nodes_null (m : Nat → lngx_radix_node_t) (d : Nat) : count_nodes m d 0 = 0 := by
  cases d <;> simp [count_nodes]

theorem node_count_set_root (t : lngx_radix_tree_t) (r : Nat) (hr : r ≠ 0) :
    node_count (set_root t r) = 1 := by
  have hm := set_root_mem_root t r
  have hroot : (set_root t r).root = r := rfl
  rw [hroot] at hm
  unfold node_count
  rw [hroot, count_nodes]
  simp [hr, hm, count_nodes_null]

/-- The function `lngx_radix_tree_create` with an allocator that does not fail, a hint that
stands for `levels` warm-up levels and fuel for the largest level: it returns
a well-formed tree with `levels` complete levels of sentinel nodes (32 at
most).  Up to 32 levels every logged call to insert returned `NGX_OK` and added
one node. -/
theorem create_spec (fuel : Nat) (a : lua_Alloc) (mem : Nat → lngx_radix_node_t)
    (origin : Nat → Nat) (ps0 gps : Nat) (hint : Int) (levels : Nat)
    (hnf : ∀ i, a.calls ≤ i → a.oom i = false) (hbrk : 0 < a.brk)
    (hps : sizeof_node ≤ (if ps0 = 0 then gps else ps0))
    (hps' : (if ps0 = 0 then gps else ps0) < 2 ^ 64)
    (hlev : (if hint = -1 then auto_levels (if ps0 = 0 then gps else ps0) else hint)
      = (levels : Int))
    (hfuel : 2 ^ (min levels 32) ≤ fuel) :
    ∃ t log, lngx_radix_tree_create_log fuel a mem origin ps0 gps hint = (.ok (some t), log) ∧
      Level t levels ∧ t.lngx_pagesize = (if ps0 = 0 then gps else ps0) ∧
      (levels ≤ 32 → log.length + 2 = 2 ^ (levels + 1) ∧ node_count t = 1 + log.length ∧
        ∀ c ∈ log, AddsOne c) := by
  obtain ⟨ha, root, t1, hal, hroot, hinv, hobs, hpg, hoom, hcalls⟩ :=
    create_root_spec a mem origin (if ps0 = 0 then gps else ps0) (hnf _ (le_refl _))
      (hnf _ (by omega)) hbrk hps hps'
  have hnf1 : NoFail (set_root t1 root) := by
    intro i hi
    have hi' : t1.a.calls ≤ i := hi
    show t1.a.oom i = false
    rw [hoom]
    exact hnf i (by omega)
  have hlev0 : Level (set_root t1 root) 0 := by
    refine ⟨⟨[], hinv⟩, hnf1, ?_⟩
    intro π
    rw [hobs π]
    by_cases h1 : π = []
    · simp [h1]
    · have : ¬ π.length ≤ min 0 32 := by
        simp only [Nat.zero_min, Nat.le_zero, List.length_eq_zero]
        exact h1
      rw [if_neg h1, if_neg this]
  have hpg2 : (set_root t1 root).lngx_pagesize = (if ps0 = 0 then gps else ps0) := hpg
  unfold lngx_radix_tree_create_log
  rw [if_neg ha, hal]
  simp only [hroot, if_false]
  by_cases h0 : hint = 0
  · have hl0 : levels = 0 := by
      rw [h0] at hlev
      simp only [show ¬ (0 : Int) = -1 by decide, if_false] at hlev
      exact_mod_cast hlev.symm
    subst hl0
    rw [if_pos h0]
    refine ⟨_, [], rfl, hlev0, hpg2, fun _ => ⟨by simp, ?_, by simp⟩⟩
    rw [node_count_set_root t1 root hroot]; rfl
  · rw [if_neg h0, hpg, hlev]
    have hnn : (0 : Int) ≤ (levels : Int) := Int.natCast_nonneg levels
    rw [if_pos hnn, Int.toNat_natCast]
    obtain ⟨t', log, hrun, hlev', hpg', hlog⟩ :=
      create_levels_spec levels 0 fuel (set_root t1 root) (by simpa using hfuel) hlev0
    have hm0 : warm_mask 0 = 0 := rfl
    have hi0 : warm_inc 0 = 0x80000000 := rfl
    rw [hm0, hi0] at hrun
    refine ⟨t', log, hrun, by simpa using hlev', by rw [hpg', hpg2], ?_⟩
    intro hle
    obtain ⟨hlen, hcnt, hadd⟩ := hlog (by simpa using hle)
    refine ⟨?_, ?_, hadd⟩
    · simp only [Nat.zero_add, pow_one] at hlen
      exact hlen
    · rw [hcnt, node_count_set_root t1 root hroot]

/-! ## Longest-prefix match and insert -/

theorem lpmO_congr (o1 o2 : List Bool → Option Nat) :
    ∀ (l pre : List Bool) (cur : Nat),
      (∀ j, j ≤ l.length → ∀ c, keep (o1 (pre ++ l.take j)) c = keep (o2 (pre ++ l.take j)) c) →
      lpmO o1 pre l cur = lpmO o2 pre l cur := by
  intro l
  induction l with
  | nil =>
    intro pre cur h
    have := h 0 (le_refl _) cur
    simpa [lpmO] using this
  | cons b bs ih =>
    intro pre cur h
    have h0 := h 0 (Nat.zero_le _) cur
    simp only [List.take_zero, List.append_nil] at h0
    simp only [lpmO, h0]
    apply ih
    intro j hj c
    have := h (j + 1) (by simp; omega) c
    simpa using this

theorem lpmO_tail (o1 o2 : List Bool → Option Nat) :
    ∀ (l pre : List Bool) (j j0 c1 c2 : Nat), j ≤ j0 → j0 ≤ l.length →
      (∀ i, j ≤ i → i ≤ l.length → o1 (pre ++ l.take i) = o2 (pre ++ l.take i)) →
      Occupied o1 (pre ++ l.take j0) →
      lpmO o1 pre l c1 = lpmO o2 pre l c2 := by
  intro l
  induction l with
  | nil =>
    intro pre j j0 c1 c2 hj hj0 hag ⟨x, hx, hx'⟩
    have e := hag 0 (by simp at hj0; omega) (le_refl _)
    simp only [List.take_nil, List.append_nil] at e hx
    simp [lpmO, ← e, hx, keep, hx']
  | cons b bs ih =>
    intro pre j j0 c1 c2 hj hj0 hag hocc
    cases j0 with
    | zero =>
      obtain ⟨x, hx, hx'⟩ := hocc
      have hj' : j = 0 := by omega
      subst hj'
      have e := hag 0 (le_refl _) (Nat.zero_le _)
      simp only [List.take_zero, List.append_nil] at e hx
      simp only [lpmO, ← e, hx, keep, hx', ne_eq, not_false_eq_true, if_true]
      apply lpmO_congr
      intro i hi c
      have := hag (i + 1) (Nat.zero_le _) (by simp; omega)
      simp only [List.take_succ_cons] at this
      simp only [List.append_assoc, List.singleton_append]
      rw [this]
    | succ j0 =>
      simp only [lpmO]
      apply ih (pre ++ [b]) (j - 1) j0 _ _ (by omega) (by simpa using hj0)
      · intro i hi hi'
        have := hag (i + 1) (by omega) (by simp; omega)
        simpa using this
      · simpa using hocc

theorem pfx_eq_take_length (key mask : Nat) :
    pfx key mask 32 = (bitsFrom key 32).take (pfx key mask 32).length :=
  List.prefix_iff_eq_take.1 (pfx_initial key mask 32)

/-- Find after an insert that returned `NGX_OK` on a well-formed tree, in terms
of the observations before the insert. -/
theorem find_after_insert (t : lngx_radix_tree_t) (F : List Nat) (h : Inv t F)
    (key mask v : Nat) (t' : lngx_radix_tree_t)
    (hins : lngx_radix32tree_insert t key mask v = .ok (NGX_OK, t')) (k fuel : Nat)
    (hfuel : 33 ≤ fuel) :
    lngx_radix32tree_find fuel t k
        = .ok (lpmO (obs t) [] (bitsFrom k 32) NGX_RADIX_NO_VALUE) ∧
    lngx_radix32tree_find fuel t' k
        = .ok (lpmO (insO (obs t) (pfx key mask 32) v) [] (bitsFrom k 32)
            NGX_RADIX_NO_VALUE) := by
  have hlen := pfx_length_le key mask 32
  rw [insert_eq_insertL] at hins
  have hfree : ¬ Occupied (obs t) (pfx key mask 32) := by
    intro ho
    have := (insertL_spec t F h (pfx key mask 32) hlen v).1 ho
    rw [this] at hins
    simp only [Except.ok.injEq, Prod.mk.injEq] at hins
    exact absurd hins.1 (by decide)
  obtain ⟨_, hobs1, _, _, _, _, F1, hinv1, _⟩ :=
    (insertL_spec t F h (pfx key mask 32) hlen v).2.2 _ t' hins hfree
  refine ⟨find_spec t F h k fuel hfuel, ?_⟩
  rw [find_spec t' F1 hinv1 k fuel hfuel, hobs1]

/-! ## The example trees -/

theorem ex_alloc_ok : ∀ i, ex_alloc.calls ≤ i → ex_alloc.oom i = false := fun _ _ => rfl

theorem ex_tree0_level : Level ex_tree0 0 := by
  obtain ⟨t, log, hrun, hlev, _, _⟩ :=
    create_spec 1 ex_alloc ex_mem ex_origin 0 4096 0 0 ex_alloc_ok (by decide) (by decide)
      (by decide) (by decide) (by decide)
  have : ex_tree0 = t := by
    unfold ex_tree0 lngx_radix_tree_create
    rw [hrun]
    rfl
  rw [this]
  exact hlev

theorem ex_tree0_obs (π : List Bool) (hπ : π ≠ []) : obs ex_tree0 π = none := by
  rw [ex_tree0_level.2.2 π]
  have : ¬ π.length ≤ min 0 32 := by
    simp only [Nat.zero_min, Nat.le_zero, List.length_eq_zero]
    exact hπ
  rw [if_neg this]

theorem descend_of_walk (m : Nat → lngx_radix_node_t) :
    ∀ (κ : List Bool) (p : Nat), walk m p κ ≠ 0 → descend m p κ = (walk m p κ, []) := by
  intro κ
  induction κ with
  | nil => intro p _; rfl
  | cons b κ ih =>
    intro p h
    by_cases hp : p = 0
    · rw [hp, walk_zero] at h; exact absurd rfl h
    · simp only [walk, hp, if_false] at h ⊢
      have hc : child m p b ≠ 0 := by
        intro e
        rw [e, walk_zero] at h
        exact h rfl
      simp only [descend, hc, if_false]
      exact ih _ h

/-! ## The 128-bit loops on 32-bit keys -/

/-- The byte of `key16 x` that holds bit `31 - q` of `x`, for `q < 32`. -/
theorem rd_key16 (x q : Nat) (hq : q < 32) :
    ∃ B, rd (key16 x) (q / 8) = .ok B ∧ B.testBit (7 - q % 8) = x.testBit (31 - q) := by
  have h256 : (256 : Nat) = 2 ^ 8 := by norm_num
  have hj : 7 - q % 8 < 8 := by omega
  rcases (show q / 8 = 0 ∨ q / 8 = 1 ∨ q / 8 = 2 ∨ q / 8 = 3 by omega) with h | h | h | h
  · refine ⟨(x >>> 24) % 256, by rw [h]; rfl, ?_⟩
    rw [h256, Nat.testBit_mod_two_pow, Nat.testBit_shiftRight]
    simp only [hj, decide_True, Bool.true_and]
    congr 1; omega
  · refine ⟨(x >>> 16) % 256, by rw [h]; rfl, ?_⟩
    rw [h256, Nat.testBit_mod_two_pow, Nat.testBit_shiftRight]
    simp only [hj, decide_True, Bool.true_and]
    congr 1; omega
  · refine ⟨(x >>> 8) % 256, by rw [h]; rfl, ?_⟩
    rw [h256, Nat.testBit_mod_two_pow, Nat.testBit_shiftRight]
    simp only [hj, decide_True, Bool.true_and]
    congr 1; omega
  · refine ⟨x % 256, by rw [h]; rfl, ?_⟩
    rw [h256, Nat.testBit_mod_two_pow]
    simp only [hj, decide_True, Bool.true_and]
    congr 1; omega

/-- The bytes of `key16 x` from the fifth on are zero. -/
theorem rd_key16_zero (x q : Nat) (hq : 32 ≤ q) (hq' : q < 128) :
    rd (key16 x) (q / 8) = .ok 0 := by
  have h1 : 4 ≤ q / 8 := by omega
  have h2 : q / 8 < 16 := by omega
  generalize q / 8 = i at h1 h2
  interval_cases i <;> rfl

/-- The bit variable of the 128-bit loops after `q` bits: `0x80` shifted by
the position within the byte. -/
theorem bit8_eq (q : Nat) : 0x80 >>> (q % 8) = 2 ^ (7 - q % 8) := by
  have h : q % 8 < 8 := Nat.mod_lt _ (by norm_num)
  generalize q % 8 = j at h
  interval_cases j <;> rfl

theorem bit8_shift (q : Nat) :
    ((0x80 >>> (q % 8)) >>> 1 = 0 ↔ q % 8 = 7) ∧
    (q % 8 ≠ 7 → (0x80 >>> (q % 8)) >>> 1 = 0x80 >>> ((q + 1) % 8)) := by
  have h : q % 8 < 8 := Nat.mod_lt _ (by norm_num)
  have h1 : q % 8 ≠ 7 → (q + 1) % 8 = q % 8 + 1 := by omega
  constructor
  · generalize q % 8 = j at h
    interval_cases j <;> decide
  · intro hne
    rw [h1 hne]
    generalize q % 8 = j at h hne
    interval_cases j <;> rfl

theorem test8 (B q : Nat) : (0x80 >>> (q % 8)) &&& B ≠ 0 ↔ B.testBit (7 - q % 8) = true := by
  rw [bit8_eq]; exact two_pow_and_ne_zero B _

theorem test8' (B q : Nat) : B &&& (0x80 >>> (q % 8)) ≠ 0 ↔ B.testBit (7 - q % 8) = true := by
  rw [bit8_eq]; exact and_two_pow_ne_zero B _

theorem child8 (m : Nat → lngx_radix_node_t) (B q node : Nat) :
    (if B &&& (0x80 >>> (q % 8)) ≠ 0 then (m node).right else (m node).left)
      = child m node (B.testBit (7 - q % 8)) := by
  by_cases h : B.testBit (7 - q % 8) = true
  · rw [if_pos ((test8' B q).2 h)]; simp [child, h]
  · rw [if_neg (fun e => h ((test8' B q).1 e))]; simp [child, h]
/-- The state of the 128-bit loops after `q + 1` bits, from the state after `q` bits. -/
theorem pos8_next (q : Nat) :
    (q % 8 = 7 → (q + 1) / 8 = q / 8 + 1 ∧ 0x80 >>> ((q + 1) % 8) = 0x80) ∧
    (q % 8 ≠ 7 → (q + 1) / 8 = q / 8) := by
  constructor
  · intro h
    have h1 : (q + 1) % 8 = 0 := by omega
    exact ⟨by omega, by rw [h1]; rfl⟩
  · intro h; omega

/-- The first loop of the 128-bit insert on the arrays of a 32-bit key and
mask: the same descent as in the 32-bit insert. -/
theorem insert128_walk_spec (m : Nat → lngx_radix_node_t) (key mask : Nat) :
    ∀ (n node fuel : Nat), n ≤ 32 → n + 1 ≤ fuel →
      ∃ r, r ≤ n ∧
        insert128_walk m (key16 key) (key16 mask) fuel ((32 - n) / 8)
            (0x80 >>> ((32 - n) % 8)) node node
          = .ok ((32 - r) / 8, 0x80 >>> ((32 - r) % 8), (descend m node (pfx key mask n)).1,
              if (descend m node (pfx key mask n)).2 = [] then
                (descend m node (pfx key mask n)).1 else 0) ∧
        pfx key mask r = (descend m node (pfx key mask n)).2 := by
  intro n
  induction n with
  | zero =>
    intro node fuel _ hfuel
    obtain ⟨f, rfl⟩ : ∃ f, fuel = f + 1 := ⟨fuel - 1, by omega⟩
    refine ⟨0, le_refl _, ?_, by simp [pfx, descend]⟩
    have hz := rd_key16_zero mask 32 (le_refl _) (by norm_num)
    simp only [Nat.sub_zero] at hz ⊢
    rw [insert128_walk, hz]
    simp [pfx, descend]
  | succ n ih =>
    intro node fuel hn hfuel
    obtain ⟨f, rfl⟩ : ∃ f, fuel = f + 1 := ⟨fuel - 1, by omega⟩
    have hq : 32 - (n + 1) = 31 - n := by omega
    have hq1 : 32 - n = (31 - n) + 1 := by omega
    have hqn : 31 - (31 - n) = n := by omega
    obtain ⟨Bm, hBm, hBm'⟩ := rd_key16 mask (31 - n) (by omega)
    obtain ⟨Bk, hBk, hBk'⟩ := rd_key16 key (31 - n) (by omega)
    rw [hqn] at hBm' hBk'
    rw [hq, insert128_walk, hBm]
    simp only
    by_cases hm : mask.testBit n = true
    · have hb : 0x80 >>> ((31 - n) % 8) &&& Bm ≠ 0 := (test8 Bm (31 - n)).2 (hBm'.trans hm)
      rw [if_pos hb, hBk]
      simp only
      rw [child8, hBk']
      by_cases hc : child m node (key.testBit n) = 0
      · refine ⟨n + 1, le_refl _, ?_, by simp [pfx, hm, descend, hc]⟩
        rw [if_pos hc, hq]
        simp [pfx, hm, descend, hc]
      · rw [if_neg hc]
        obtain ⟨r, hr, h1, h2⟩ := ih (child m node (key.testBit n)) f (by omega) (by omega)
        refine ⟨r, Nat.le_succ_of_le hr, ?_, by simp [pfx, hm, descend, hc, h2]⟩
        rw [hq1] at h1
        have hd : descend m node (pfx key mask (n + 1))
            = descend m (child m node (key.testBit n)) (pfx key mask n) := by
          simp [pfx, hm, descend, hc]
        rw [hd]
        by_cases h7 : (31 - n) % 8 = 7
        · rw [if_pos ((bit8_shift (31 - n)).1.2 h7)]
          have hne : ¬ (31 - n) / 8 + 1 = 16 := by omega
          rw [if_neg hne]
          obtain ⟨e1, e2⟩ := (pos8_next (31 - n)).1 h7
          rw [e1, e2] at h1
          exact h1
        · rw [if_neg (fun e => h7 ((bit8_shift (31 - n)).1.1 e))]
          rw [(pos8_next (31 - n)).2 h7, ← (bit8_shift (31 - n)).2 h7] at h1
          exact h1
    · have hb : ¬ (0x80 >>> ((31 - n) % 8) &&& Bm ≠ 0) :=
        fun e => hm (hBm'.symm.trans ((test8 Bm (31 - n)).1 e))
      rw [if_neg hb]
      refine ⟨n + 1, le_refl _, ?_, by simp [pfx, hm, descend]⟩
      rw [hq]
      simp [pfx, hm, descend]

/-- The second loop of the 128-bit insert on the arrays of a 32-bit key and
mask, started where the first loop stopped. -/
theorem insert128_build_spec (key mask : Nat) :
    ∀ (r fuel : Nat) (t : lngx_radix_tree_t) (node : Nat), r ≤ 32 → r + 1 ≤ fuel →
      insert128_build (key16 key) (key16 mask) fuel t ((32 - r) / 8)
          (0x80 >>> ((32 - r) % 8)) node
        = buildL (pfx key mask r) t node := by
  intro r
  induction r with
  | zero =>
    intro fuel t node _ hfuel
    obtain ⟨f, rfl⟩ : ∃ f, fuel = f + 1 := ⟨fuel - 1, by omega⟩
    have hz := rd_key16_zero mask 32 (le_refl _) (by norm_num)
    simp only [Nat.sub_zero] at hz ⊢
    rw [insert128_build, hz]
    simp [pfx, buildL]
  | succ r ih =>
    intro fuel t node hr hfuel
    obtain ⟨f, rfl⟩ : ∃ f, fuel = f + 1 := ⟨fuel - 1, by omega⟩
    have hq : 32 - (r + 1) = 31 - r := by omega
    have hq1 : 32 - r = (31 - r) + 1 := by omega
    have hqn : 31 - (31 - r) = r := by omega
    obtain ⟨Bm, hBm, hBm'⟩ := rd_key16 mask (31 - r) (by omega)
    obtain ⟨Bk, hBk, hBk'⟩ := rd_key16 key (31 - r) (by omega)
    rw [hqn] at hBm' hBk'
    rw [hq, insert128_build, hBm]
    simp only
    by_cases hm : mask.testBit r = true
    · have hb : 0x80 >>> ((31 - r) % 8) &&& Bm ≠ 0 := (test8 Bm (31 - r)).2 (hBm'.trans hm)
      rw [if_pos hb]
      simp only [pfx, hm, if_true, buildL]
      cases hal : lngx_radix_alloc t with
      | error e => rfl
      | ok res =>
        obtain ⟨next, t1⟩ := res
        simp only
        by_cases hn : next = 0
        · simp [hn]
        · simp only [hn, if_false, hBk]
          have hside : ∀ (m1 : Nat → lngx_radix_node_t),
              (if Bk &&& 0x80 >>> ((31 - r) % 8) ≠ 0 then setRight m1 node next
                else setLeft m1 node next)
              = (if key.testBit r = true then setRight m1 node next
                else setLeft m1 node next) := by
            intro m1
            by_cases hkb : key.testBit r = true
            · rw [if_pos ((test8' Bk (31 - r)).2 (hBk'.trans hkb)), if_pos hkb]
            · rw [if_neg (fun e => hkb (hBk'.symm.trans ((test8' Bk (31 - r)).1 e))),
                if_neg hkb]
          rw [hside]
          have hih := ih f
            { t1 with mem :=
              (if key.testBit r = true then
                setRight (Function.update t1.mem next
                  { right := 0, left := 0, parent := node, value := NGX_RADIX_NO_VALUE })
                  node next
              else
                setLeft (Function.update t1.mem next
                  { right := 0, left := 0, parent := node, value := NGX_RADIX_NO_VALUE })
                  node next) } next (by omega) (by omega)
          rw [hq1] at hih
          by_cases h7 : (31 - r) % 8 = 7
          · rw [if_pos ((bit8_shift (31 - r)).1.2 h7)]
            have hne : ¬ (31 - r) / 8 + 1 = 16 := by omega
            rw [if_neg hne]
            obtain ⟨e1, e2⟩ := (pos8_next (31 - r)).1 h7
            rw [e1, e2] at hih
            exact hih
          · rw [if_neg (fun e => h7 ((bit8_shift (31 - r)).1.1 e))]
            rw [(pos8_next (31 - r)).2 h7, ← (bit8_shift (31 - r)).2 h7] at hih
            exact hih
    · have hb : ¬ (0x80 >>> ((31 - r) % 8) &&& Bm ≠ 0) :=
        fun e => hm (hBm'.symm.trans ((test8 Bm (31 - r)).1 e))
      rw [if_neg hb]
      simp [pfx, hm, buildL]
/-- The first loop of the 128-bit delete on the arrays of a 32-bit key and mask. -/
theorem delete128_walk_spec (m : Nat → lngx_radix_node_t) (key mask : Nat) :
    ∀ (n node fuel : Nat), n ≤ 32 → n + 1 ≤ fuel →
      delete128_walk m (key16 key) (key16 mask) fuel ((32 - n) / 8)
          (0x80 >>> ((32 - n) % 8)) node
        = .ok (walk m node (pfx key mask n)) := by
  intro n
  induction n with
  | zero =>
    intro node fuel _ hfuel
    obtain ⟨f, rfl⟩ : ∃ f, fuel = f + 1 := ⟨fuel - 1, by omega⟩
    have hz := rd_key16_zero mask 32 (le_refl _) (by norm_num)
    simp only [Nat.sub_zero] at hz ⊢
    rw [delete128_walk, hz]
    by_cases hp : node = 0
    · simp [hp, pfx, walk]
    · simp [hp, pfx, walk]
  | succ n ih =>
    intro node fuel hn hfuel
    obtain ⟨f, rfl⟩ : ∃ f, fuel = f + 1 := ⟨fuel - 1, by omega⟩
    have hq : 32 - (n + 1) = 31 - n := by omega
    have hq1 : 32 - n = (31 - n) + 1 := by omega
    have hqn : 31 - (31 - n) = n := by omega
    obtain ⟨Bm, hBm, hBm'⟩ := rd_key16 mask (31 - n) (by omega)
    obtain ⟨Bk, hBk, hBk'⟩ := rd_key16 key (31 - n) (by omega)
    rw [hqn] at hBm' hBk'
    rw [hq, delete128_walk]
    by_cases hp : node = 0
    · rw [if_pos hp, hp, walk_zero]
    · rw [if_neg hp, hBm]
      simp only
      by_cases hm : mask.testBit n = true
      · have hb : 0x80 >>> ((31 - n) % 8) &&& Bm ≠ 0 := (test8 Bm (31 - n)).2 (hBm'.trans hm)
        rw [if_pos hb, hBk]
        simp only
        rw [child8, hBk']
        have hw : walk m node (pfx key mask (n + 1))
            = walk m (child m node (key.testBit n)) (pfx key mask n) := by
          simp [pfx, hm, walk, hp]
        rw [hw]
        have hih := ih (child m node (key.testBit n)) f (by omega) (by omega)
        rw [hq1] at hih
        by_cases h7 : (31 - n) % 8 = 7
        · rw [if_pos ((bit8_shift (31 - n)).1.2 h7)]
          have hne : ¬ (31 - n) / 8 + 1 = 16 := by omega
          rw [if_neg hne]
          obtain ⟨e1, e2⟩ := (pos8_next (31 - n)).1 h7
          rw [e1, e2] at hih
          exact hih
        · rw [if_neg (fun e => h7 ((bit8_shift (31 - n)).1.1 e))]
          rw [(pos8_next (31 - n)).2 h7, ← (bit8_shift (31 - n)).2 h7] at hih
          exact hih
      · have hb : ¬ (0x80 >>> ((31 - n) % 8) &&& Bm ≠ 0) :=
          fun e => hm (hBm'.symm.trans ((test8 Bm (31 - n)).1 e))
        rw [if_neg hb]
        simp [pfx, hm, walk]

/-- The loop of the 128-bit find on the array of a 32-bit key runs in step
with the loop of the 32-bit find, as long as it stays within the 128 bits. -/
theorem find128_loop_spec (m : Nat → lngx_radix_node_t) (key : Nat) :
    ∀ (f q node value : Nat), q + f ≤ 128 →
      find128_loop m (key16 key) f (q / 8) (0x80 >>> (q % 8)) node value
        = find_loop m key f (2 ^ (32 - q) / 2) node value := by
  intro f
  induction f with
  | zero =>
    intro q node value _
    simp [find128_loop, find_loop]
  | succ f ih =>
    intro q node value hq
    rw [find128_loop, find_loop]
    by_cases hp : node = 0
    · rw [if_pos hp, if_pos hp]
    · rw [if_neg hp, if_neg hp]
      have hih := ih (q + 1) (if key &&& 2 ^ (32 - q) / 2 ≠ 0 then (m node).right
          else (m node).left)
        (if (m node).value ≠ NGX_RADIX_NO_VALUE then (m node).value else value) (by omega)
      have hbit : (2 ^ (32 - q) / 2) >>> 1 = 2 ^ (32 - (q + 1)) / 2 := by
        by_cases h32 : q < 32
        · have : 32 - q = (32 - (q + 1)) + 1 := by omega
          rw [this, half_pow_shift]
        · have e1 : 32 - q = 0 := by omega
          have e2 : 32 - (q + 1) = 0 := by omega
          rw [e1, e2]; rfl
      rw [hbit, ← hih]
      have hkid : ∃ B, rd (key16 key) (q / 8) = .ok B ∧
          (if B &&& 0x80 >>> (q % 8) ≠ 0 then (m node).right else (m node).left)
            = (if key &&& 2 ^ (32 - q) / 2 ≠ 0 then (m node).right else (m node).left) := by
        by_cases h32 : q < 32
        · obtain ⟨B, hB, hB'⟩ := rd_key16 key q h32
          refine ⟨B, hB, ?_⟩
          have : 32 - q = (31 - q) + 1 := by omega
          rw [child8, hB', this, key_bit_child]
        · refine ⟨0, rd_key16_zero key q (by omega) (by omega), ?_⟩
          have e1 : 32 - q = 0 := by omega
          rw [e1]
          simp
      obtain ⟨B, hB, hB'⟩ := hkid
      rw [hB]
      simp only
      rw [hB']
      by_cases h7 : q % 8 = 7
      · rw [if_pos ((bit8_shift q).1.2 h7)]
        obtain ⟨e1, e2⟩ := (pos8_next q).1 h7
        rw [e1, e2]
      · rw [if_neg (fun e => h7 ((bit8_shift q).1.1 e))]
        rw [(pos8_next q).2 h7, ← (bit8_shift q).2 h7]

/-- The 128-bit insert on the arrays of a 32-bit key and mask is the insert
along the masked prefix of the 32-bit key. -/
theorem insert128_eq_insertL (t : lngx_radix_tree_t) (key mask value : Nat) :
    lngx_radix128tree_insert t (key16 key) (key16 mask) value
      = insertL t (pfx key mask 32) value := by
  unfold lngx_radix128tree_insert insertL
  by_cases hroot : t.root = 0
  · simp [hroot]
  · simp only [hroot, if_false]
    obtain ⟨r, hr, h1, h2⟩ := insert128_walk_spec t.mem key mask 32 t.root 129 (le_refl _)
      (by norm_num)
    simp only [Nat.sub_self, Nat.zero_div, Nat.zero_mod, Nat.shiftRight_zero] at h1
    rw [h1]
    have hne := descend_ne_zero t.mem (pfx key mask 32) t.root hroot
    cases hd : descend t.mem t.root (pfx key mask 32) with
    | mk node rest =>
      rw [hd] at h2 hne
      simp only at h2 hne ⊢
      cases rest with
      | nil => simp [hne]
      | cons b bs =>
        simp only [reduceCtorEq, if_false, ne_eq, not_true_eq_false]
        rw [insert128_build_spec key mask r 129 t node (by omega) (by omega), h2]

theorem find128_loop_mono (m : Nat → lngx_radix_node_t) (key : List Nat) :
    ∀ (f i bit node value v : Nat), find128_loop m key f i bit node value = .ok v →
      find128_loop m key (f + 1) i bit node value = .ok v := by
  intro f
  induction f with
  | zero =>
    intro i bit node value v h
    by_cases hp : node = 0
    · subst hp; simpa [find128_loop] using h
    · simp [find128_loop, hp] at h
  | succ f ih =>
    intro i bit node value v h
    rw [find128_loop] at h
    rw [find128_loop]
    by_cases hp : node = 0
    · rw [if_pos hp] at h ⊢
      exact h
    · rw [if_neg hp] at h ⊢
      cases hr : rd key i with
      | error e => rw [hr] at h; simp at h
      | ok ki =>
        rw [hr] at h
        simp only at h ⊢
        by_cases hb : bit >>> 1 = 0
        · rw [if_pos hb] at h ⊢
          exact ih _ _ _ _ _ h
        · rw [if_neg hb] at h ⊢
          exact ih _ _ _ _ _ h

theorem find128_loop_mono_le (m : Nat → lngx_radix_node_t) (key : List Nat)
    (f f' i bit node value v : Nat) (hle : f ≤ f')
    (h : find128_loop m key f i bit node value = .ok v) :
    find128_loop m key f' i bit node value = .ok v := by
  induction hle with
  | refl => exact h
  | step _ ih => exact find128_loop_mono m key _ _ _ _ _ _ ih

/-- The 128-bit find on the array of a 32-bit key, within 128 rounds. -/
theorem find128_eq_find (t : lngx_radix_tree_t) (key fuel : Nat) (hf : fuel ≤ 128) :
    lngx_radix128tree_find fuel t (key16 key) = lngx_radix32tree_find fuel t key := by
  unfold lngx_radix128tree_find lngx_radix32tree_find
  have := find128_loop_spec t.mem key fuel 0 t.root NGX_RADIX_NO_VALUE (by omega)
  simpa using this

/-- The 128-bit find on the array of a 32-bit key, on a well-formed tree. -/
theorem find128_spec (t : lngx_radix_tree_t) (F : List Nat) (h : Inv t F) (key fuel : Nat)
    (hf : 33 ≤ fuel) :
    lngx_radix128tree_find fuel t (key16 key)
      = .ok (lpmO (obs t) [] (bitsFrom key 32) NGX_RADIX_NO_VALUE) := by
  have h33 := find128_eq_find t key 33 (by norm_num)
  rw [find_spec t F h key 33 (le_refl _)] at h33
  exact find128_loop_mono_le t.mem (key16 key) 33 fuel _ _ _ _ _ hf h33

/-- The 128-bit delete on the arrays of a 32-bit key and mask. -/
theorem delete128_eq (fuel : Nat) (t : lngx_radix_tree_t) (key mask : Nat) :
    lngx_radix128tree_delete fuel t (key16 key) (key16 mask)
      = delete_at fuel t (walk t.mem t.root (pfx key mask 32)) := by
  unfold lngx_radix128tree_delete
  have := delete128_walk_spec t.mem key mask 32 t.root 129 (le_refl _) (by norm_num)
  simp only [Nat.sub_self, Nat.zero_div, Nat.zero_mod, Nat.shiftRight_zero] at this
  rw [this]
/-- A tree that an insert of a fresh prefix returned is well formed. -/
theorem insert_wf (t : lngx_radix_tree_t) (hwf : WF t) (key mask v : Nat)
    (hfree : ¬ Occupied (obs t) (pfx key mask 32)) (rc : Int) (t1 : lngx_radix_tree_t)
    (hins : lngx_radix32tree_insert t key mask v = .ok (rc, t1)) : WF t1 := by
  obtain ⟨F, h⟩ := hwf
  rw [insert_eq_insertL] at hins
  obtain ⟨_, _, _, _, _, _, F1, hinv1, _⟩ :=
    (insertL_spec t F h (pfx key mask 32) (pfx_length_le key mask 32) v).2.2 rc t1 hins hfree
  exact ⟨F1, hinv1⟩

theorem ex_tree1_wf : WF ex_tree1 := by
  have hins : lngx_radix32tree_insert ex_tree0 0x0a000000 0xff000000 5
      = .ok (NGX_OK, ex_tree1) := by rfl
  refine insert_wf ex_tree0 ex_tree0_level.1 _ _ _ ?_ _ _ hins
  rintro ⟨x, hx, _⟩
  rw [ex_tree0_obs _ (by decide)] at hx
  exact absurd hx (by simp)

theorem need_of_node (t : lngx_radix_tree_t) (κ : List Bool)
    (h : walk t.mem t.root κ ≠ 0) : need t κ = 0 := by
  unfold need
  rw [descend_of_walk t.mem κ t.root h]
  rfl

theorem node_count_setValue (t : lngx_radix_tree_t) (F : List Nat) (h : Inv t F)
    (κ : List Bool) (q v : Nat) (hq : walk t.mem t.root κ = q) (hq0 : q ≠ 0) :
    node_count { t with mem := setValue t.mem q v } = node_count t := by
  rw [node_count_eq, node_count_eq]
  apply List.countP_congr
  intro π _
  rw [setValue_obs t F h κ q v hq hq0 π]
  by_cases hπ : π = κ
  · subst hπ
    have : obs t π ≠ none := by
      rw [Ne, obs_eq_none, hq]; exact hq0
    simp [this]
  · simp [hπ]

/-- A delete that returns on a well-formed tree pushes the nodes it removed
from the trie onto the front of the free list and does not touch the allocator
or the slab. -/
theorem delete_recycles (t : lngx_radix_tree_t) (F : List Nat) (h : Inv t F)
    (fuel key mask : Nat) (hfuel : 32 ≤ fuel) (rc : Int) (t' : lngx_radix_tree_t)
    (hdel : lngx_radix32tree_delete fuel t key mask = .ok (rc, t')) :
    ∃ R, Inv t' (R ++ F) ∧ R.length + node_count t' = node_count t ∧ t'.a = t.a ∧
      t'.start = t.start ∧ t'.size = t.size := by
  rw [delete_eq] at hdel
  unfold delete_at at hdel
  by_cases hn : walk t.mem t.root (pfx key mask 32) = 0
  · rw [if_pos hn] at hdel
    simp only [Except.ok.injEq, Prod.mk.injEq] at hdel
    obtain ⟨_, rfl⟩ := hdel
    exact ⟨[], by simpa using h, by simp, rfl, rfl, rfl⟩
  · rw [if_neg hn] at hdel
    by_cases hkid : (t.mem (walk t.mem t.root (pfx key mask 32))).right ≠ 0
        ∨ (t.mem (walk t.mem t.root (pfx key mask 32))).left ≠ 0
    · rw [if_pos hkid] at hdel
      by_cases hv : (t.mem (walk t.mem t.root (pfx key mask 32))).value ≠ NGX_RADIX_NO_VALUE
      · rw [if_pos hv] at hdel
        simp only [Except.ok.injEq, Prod.mk.injEq] at hdel
        obtain ⟨_, rfl⟩ := hdel
        refine ⟨[], ?_, ?_, rfl, rfl, rfl⟩
        · simpa using setValue_inv t F h _ NGX_RADIX_NO_VALUE
        · simpa using node_count_setValue t F h (pfx key mask 32) _ NGX_RADIX_NO_VALUE rfl hn
      · rw [if_neg hv] at hdel
        simp only [Except.ok.injEq, Prod.mk.injEq] at hdel
        obtain ⟨_, rfl⟩ := hdel
        exact ⟨[], by simpa using h, by simp, rfl, rfl, rfl⟩
    · rw [if_neg hkid] at hdel
      have hleaf : ∀ c, child t.mem (walk t.mem t.root (pfx key mask 32)) c = 0 := by
        intro c
        by_contra hc
        apply hkid
        cases c
        · right; simpa [child] using hc
        · left; simpa [child] using hc
      rcases List.eq_nil_or_concat (pfx key mask 32) with hκ | ⟨σ, b, hκ⟩
      · -- the target is the root: the loop follows its null parent link
        rw [hκ] at hdel
        simp only [walk] at hdel
        cases fuel with
        | zero => omega
        | succ n =>
          rw [delete_prune_succ, if_pos h.root_parent] at hdel
          simp at hdel
      · have hκ' : pfx key mask 32 = σ.reverse.reverse ++ [b] := by
          rw [List.reverse_reverse, hκ, List.concat_eq_append]
        have hlen : (pfx key mask 32).length ≤ 32 := pfx_length_le key mask 32
        have hσ : σ.reverse.length < fuel := by
          rw [hκ] at hlen
          simp only [List.concat_eq_append, List.length_append, List.length_singleton] at hlen
          simp only [List.length_reverse]
          omega
        obtain ⟨t1, R, hp, hinv, _, ha, _, hs, hz, _, _, hcount⟩ :=
          prune_spec σ.reverse b t F (walk t.mem t.root (pfx key mask 32)) fuel h
            (by rw [← hκ']) hn hleaf hσ
        rw [hp] at hdel
        simp only [Except.ok.injEq, Prod.mk.injEq] at hdel
        obtain ⟨_, rfl⟩ := hdel
        exact ⟨R, hinv, hcount, ha, hs, hz⟩

/-- A run of inserts whose node allocations are covered by the free list: it
returns, every node comes from the free list, and the allocator and the slab
are as they were. -/
theorem run_inserts_reuse :
    ∀ (cs : List ins_call) (t : lngx_radix_tree_t) (F : List Nat), Inv t F →
      need_seq t cs ≤ F.length →
      ∃ rcs t', run_inserts t cs = .ok (rcs, t') ∧ t'.a = t.a ∧ t'.start = t.start ∧
        t'.size = t.size ∧ Inv t' (F.drop (need_seq t cs)) := by
  intro cs
  induction cs with
  | nil =>
    intro t F h _
    exact ⟨[], t, rfl, rfl, rfl, rfl, by simpa [need_seq] using h⟩
  | cons c cs ih =>
    intro t F h hneed
    have hlen := pfx_length_le c.key c.mask 32
    have hspec := insertL_spec t F h (pfx c.key c.mask 32) hlen c.value
    rw [← insert_eq_insertL] at hspec
    by_cases hocc : Occupied (obs t) (pfx c.key c.mask 32)
    · have hins := hspec.1 hocc
      have hn0 : need t (pfx c.key c.mask 32) = 0 := by
        apply need_of_node
        obtain ⟨x, hx, _⟩ := hocc
        intro e
        rw [(obs_eq_none t _).2 e] at hx
        exact absurd hx (by simp)
      have hseq : need_seq t (c :: cs) = need_seq t cs := by
        simp only [need_seq, hins, hn0, Nat.zero_add]
      rw [hseq] at hneed ⊢
      obtain ⟨rcs, t', hrun, h1, h2, h3, h4⟩ := ih t F h hneed
      refine ⟨NGX_BUSY :: rcs, t', ?_, h1, h2, h3, h4⟩
      simp only [run_inserts, hins, hrun]
    · have hle : need t (pfx c.key c.mask 32) ≤ F.length := by
        simp only [need_seq] at hneed
        omega
      obtain ⟨t1, hins⟩ := hspec.2.1 hocc (Or.inr hle)
      obtain ⟨_, _, _, _, _, _, F1, hinv1, hF1⟩ := hspec.2.2 _ _ hins hocc
      obtain ⟨hF1, ha1, hs1, hz1⟩ := hF1 hle
      have hseq : need_seq t (c :: cs) = need t (pfx c.key c.mask 32) + need_seq t1 cs := by
        simp only [need_seq, hins]
      rw [hseq] at hneed ⊢
      rw [hF1] at hinv1
      obtain ⟨rcs, t', hrun, h1, h2, h3, h4⟩ := ih t1 _ hinv1 (by
        rw [List.length_drop]; omega)
      refine ⟨NGX_OK :: rcs, t', ?_, h1.trans ha1, h2.trans hs1, h3.trans hz1, ?_⟩
      · simp only [run_inserts, hins, hrun]
      · rw [List.drop_drop] at h4
        exact h4

theorem eq_of_return_code (r : Except Fault (Int × lngx_radix_tree_t)) (rc : Int)
    (h : return_code r = some rc) : r = .ok (rc, tree_after r) := by
  cases r with
  | error e => simp [return_code] at h
  | ok p =>
    obtain ⟨rc', t⟩ := p
    simp only [return_code, Option.some.injEq] at h
    subst h
    rfl

theorem eq_of_fault_of (r : Except Fault (Int × lngx_radix_tree_t)) (e : Fault)
    (h : fault_of r = some e) : r = .error e := by
  cases r with
  | error e' =>
    simp only [fault_of, Option.some.injEq] at h
    rw [h]
  | ok p => simp [fault_of] at h

theorem strict_of_strictO (t : lngx_radix_tree_t) (h : StrictO (obs t)) : Strict t := by
  intro π hπ hw
  by_cases hv : (t.mem (walk t.mem t.root π)).value = NGX_RADIX_NO_VALUE
  · have ho : obs t π = some NGX_RADIX_NO_VALUE := by
      rw [obs_of_walk t π hw, hv]
    rcases h π hπ ho with h1 | h1
    · left
      simpa [child] using (obs_child t π true hw).1 h1
    · right; left
      simpa [child] using (obs_child t π false hw).1 h1
  · right; right; exact hv

theorem insO_strictO (o : List Bool → Option Nat) (hcl : ClosedO o) (hst : StrictO o)
    (κ : List Bool) (v : Nat) (hv : v ≠ NGX_RADIX_NO_VALUE) : StrictO (insO o κ v) := by
  -- a path that has a node before the insert has one after it
  have hkeep : ∀ π, o π ≠ none → insO o κ v π ≠ none := by
    intro π hπ
    unfold insO
    by_cases h1 : π = κ
    · simp [h1]
    · rw [if_neg h1]
      by_cases h2 : π <+: κ ∧ o π = none
      · simp [h2]
      · rw [if_neg h2]; exact hπ
  intro π hπ ho
  unfold insO at ho
  by_cases h1 : π = κ
  · rw [if_pos h1] at ho
    simp only [Option.some.injEq] at ho
    exact absurd ho hv
  · rw [if_neg h1] at ho
    by_cases h2 : π <+: κ ∧ o π = none
    · -- a new sentinel node: the next node on the way to `κ` is below it
      obtain ⟨⟨ρ, hρ⟩, hnone⟩ := h2
      cases ρ with
      | nil => simp at hρ; exact absurd hρ h1
      | cons b ρ =>
        have hb : insO o κ v (π ++ [b]) ≠ none := by
          unfold insO
          by_cases h3 : π ++ [b] = κ
          · simp [h3]
          · rw [if_neg h3]
            have h4 : π ++ [b] <+: κ ∧ o (π ++ [b]) = none :=
              ⟨⟨ρ, by rw [← hρ]; simp⟩, hcl π [b] hnone⟩
            simp [h4]
        cases b
        · right; exact hb
        · left; exact hb
    · rw [if_neg h2] at ho
      rcases hst π hπ ho with h3 | h3
      · left; exact hkeep _ h3
      · right; exact hkeep _ h3

/-- A tree that an insert of a real value returned is well formed and strict
when the tree it was given is. -/
theorem insert_strict (t : lngx_radix_tree_t) (hwf : WF t) (hs : Strict t)
    (key mask v : Nat) (hv : v ≠ NGX_RADIX_NO_VALUE) (rc : Int) (t1 : lngx_radix_tree_t)
    (hins : lngx_radix32tree_insert t key mask v = .ok (rc, t1)) : WF t1 ∧ Strict t1 := by
  obtain ⟨F, h⟩ := hwf
  have hspec := insertL_spec t F h (pfx key mask 32) (pfx_length_le key mask 32) v
  rw [← insert_eq_insertL] at hspec
  by_cases hocc : Occupied (obs t) (pfx key mask 32)
  · rw [hspec.1 hocc] at hins
    simp only [Except.ok.injEq, Prod.mk.injEq] at hins
    obtain ⟨_, rfl⟩ := hins
    exact ⟨⟨F, h⟩, hs⟩
  · obtain ⟨_, hobs, _, _, _, _, F1, hinv1, _⟩ := hspec.2.2 rc t1 hins hocc
    refine ⟨⟨F1, hinv1⟩, strict_of_strictO t1 ?_⟩
    rw [hobs]
    exact insO_strictO _ (obs_closed t) (Strict.strictO t hs) _ v hv

theorem run_inserts_strict :
    ∀ (cs : List ins_call) (t : lngx_radix_tree_t), WF t → Strict t →
      (∀ c ∈ cs, c.value ≠ NGX_RADIX_NO_VALUE) →
      ∀ rcs t', run_inserts t cs = .ok (rcs, t') → WF t' ∧ Strict t' := by
  intro cs
  induction cs with
  | nil =>
    intro t hwf hs _ rcs t' hrun
    simp only [run_inserts, Except.ok.injEq, Prod.mk.injEq] at hrun
    obtain ⟨_, rfl⟩ := hrun
    exact ⟨hwf, hs⟩
  | cons c cs ih =>
    intro t hwf hs hv rcs t' hrun
    rw [run_inserts] at hrun
    cases hins : lngx_radix32tree_insert t c.key c.mask c.value with
    | error e => rw [hins] at hrun; simp at hrun
    | ok p =>
      obtain ⟨rc, t1⟩ := p
      rw [hins] at hrun
      simp only at hrun
      obtain ⟨hwf1, hs1⟩ := insert_strict t hwf hs c.key c.mask c.value
        (hv c (List.mem_cons_self _ _)) rc t1 hins
      cases hrest : run_inserts t1 cs with
      | error e => rw [hrest] at hrun; simp at hrun
      | ok q =>
        obtain ⟨rcs1, t2⟩ := q
        rw [hrest] at hrun
        simp only [Except.ok.injEq, Prod.mk.injEq] at hrun
        obtain ⟨_, rfl⟩ := hrun
        exact ih t1 hwf1 hs1 (fun c hc => hv c (List.mem_cons_of_mem _ hc)) rcs1 t2 hrest

theorem eq_of_run_codes (r : Except Fault (List Int × lngx_radix_tree_t)) (rcs : List Int)
    (h : run_codes r = some rcs) : r = .ok (rcs, run_tree r) := by
  cases r with
  | error e => simp [run_codes] at h
  | ok p =>
    obtain ⟨rcs', t⟩ := p
    simp only [run_codes, Option.some.injEq] at h
    subst h
    rfl

/-- A tree whose only node is the root is strict. -/
theorem strict_of_root_only (t : lngx_radix_tree_t)
    (h : ∀ π, π ≠ [] → obs t π = none) : Strict t := by
  intro π hπ hw
  exact absurd ((obs_eq_none t π).1 (h π hπ)) hw

theorem ex_tree_two_spec : Inv ex_tree_two [] ∧
    ∀ π, obs ex_tree_two π = if π = [] then some NGX_RADIX_NO_VALUE else none := by
  obtain ⟨h0, root, t1, hal, hroot, hinv, hobs, _⟩ :=
    create_root_spec ex_alloc_two ex_mem ex_origin 4096 (by decide) (by decide) (by decide)
      (by decide) (by decide)
  have : ex_tree_two = set_root t1 root := by
    unfold ex_tree_two lngx_radix_tree_create lngx_radix_tree_create_log
    rw [if_neg h0]
    simp only [if_true, hal, hroot, if_false]
    rfl
  rw [this]
  exact ⟨hinv, hobs⟩

theorem ex_tree_full_spec : WF ex_tree_full ∧ Strict ex_tree_full := by
  have hrun : run_inserts ex_tree_two ex_calls_full
      = .ok ([NGX_OK, NGX_OK, NGX_OK, NGX_OK], ex_tree_full) :=
    eq_of_run_codes _ _ (by decide!)
  refine run_inserts_strict ex_calls_full ex_tree_two ⟨[], ex_tree_two_spec.1⟩ ?_ ?_ _ _ hrun
  · apply strict_of_root_only
    intro π hπ
    rw [ex_tree_two_spec.2 π, if_neg hπ]
  · decide

theorem sum_pow_two (K : Nat) : (∑ j ∈ Finset.range K, 2 ^ (j + 1)) + 2 = 2 ^ (K + 1) := by
  induction K with
  | zero => simp
  | succ K ih =>
    rw [Finset.sum_range_succ]
    have : 2 ^ (K + 1 + 1) = 2 * 2 ^ (K + 1) := by rw [pow_succ]; ring
    omega

/-- Find on a tree that holds no real value. -/
theorem find_no_value (t : lngx_radix_tree_t) (hwf : WF t)
    (h : ∀ π, ¬ Occupied (obs t) π) (key fuel : Nat) (hf : 33 ≤ fuel) :
    lngx_radix32tree_find fuel t key = .ok NGX_RADIX_NO_VALUE := by
  obtain ⟨F, hF⟩ := hwf
  rw [find_spec t F hF key fuel hf, lpmO_none]
  intro j _
  exact h _

/-- The root of a tree whose only node is the root. -/
theorem root_of_level_zero (t : lngx_radix_tree_t) (h : Level t 0) :
    t.root ≠ 0 ∧ (t.mem t.root).right = 0 ∧ (t.mem t.root).left = 0 ∧
    (t.mem t.root).parent = 0 ∧ (t.mem t.root).value = NGX_RADIX_NO_VALUE := by
  obtain ⟨⟨F, hF⟩, _, hobs⟩ := h
  have hroot := hF.root_ne
  have hkid : ∀ b, child t.mem t.root b = 0 := by
    intro b
    have := hobs [b]
    simp only [List.length_singleton, Nat.zero_min, Nat.le_zero, one_ne_zero, if_false] at this
    rw [obs_eq_none] at this
    simpa [walk, hroot] using this
  have hval := hobs []
  rw [obs_of_walk t [] (by simpa [walk] using hroot)] at hval
  simp only [walk, List.length_nil, Nat.zero_min, le_refl, if_true, Option.some.injEq] at hval
  exact ⟨hroot, by simpa [child] using hkid true, by simpa [child] using hkid false,
    hF.root_parent, hval⟩

theorem mask_of_len_eq_warm : ∀ len, len ≤ 32 → mask_of_len len = warm_mask len := by
  decide

theorem mask_of_len_testBit (len n : Nat) (hlen : len ≤ 32) :
    (mask_of_len len).testBit n = decide (n < 32 ∧ 32 ≤ n + len) := by
  rw [mask_of_len_eq_warm len hlen, warm_mask_testBit]

/-- The path of a route: the first `len` bits of its key. -/
theorem pfx_mask_of_len (key len : Nat) (hlen : len ≤ 32) :
    pfx key (mask_of_len len) 32 = (bitsFrom key 32).take len := by
  rw [mask_of_len_eq_warm len hlen, pfx_warm_mask]

theorem take_bitsFrom_eq_iff (a b : Nat) :
    ∀ (N len : Nat), len ≤ N →
      ((bitsFrom a N).take len = (bitsFrom b N).take len ↔
        ∀ n, n < N → N ≤ n + len → a.testBit n = b.testBit n) := by
  intro N
  induction N with
  | zero =>
    intro len hlen
    simp [bitsFrom]
  | succ N ih =>
    intro len hlen
    cases len with
    | zero =>
      simp only [List.take_zero, Nat.add_zero, true_iff]
      intro n h1 h2
      omega
    | succ len =>
      simp only [bitsFrom, List.take_succ_cons, List.cons.injEq]
      rw [ih len (by omega)]
      constructor
      · rintro ⟨h1, h2⟩ n hn hn'
        by_cases hN : n = N
        · rw [hN]; exact h1
        · exact h2 n (by omega) (by omega)
      · intro h
        exact ⟨h N (by omega) (by omega), fun n hn hn' => h n (by omega) (by omega)⟩

/-- A route covers a key exactly when the first `len` bits agree. -/
theorem covers_iff (r : route) (k : Nat) (hlen : r.len ≤ 32) :
    covers r k ↔ (bitsFrom r.key 32).take r.len = (bitsFrom k 32).take r.len := by
  rw [take_bitsFrom_eq_iff r.key k 32 r.len hlen]
  unfold covers
  constructor
  · intro h n hn hn'
    have := congrArg (fun x => x.testBit n) h
    simp only [Nat.testBit_and, mask_of_len_testBit r.len n hlen] at this
    simpa [hn, hn'] using this
  · intro h
    apply Nat.eq_of_testBit_eq
    intro n
    simp only [Nat.testBit_and, mask_of_len_testBit r.len n hlen]
    by_cases hn : n < 32 ∧ 32 ≤ n + r.len
    · rw [h n hn.1 hn.2]
    · simp [hn]

/-- Among the routes of a list that cover a key there is a longest one. -/
theorem exists_longest (k : Nat) :
    ∀ (es : List route), (∃ r ∈ es, covers r k) →
      ∃ r ∈ es, covers r k ∧ ∀ r' ∈ es, covers r' k → r'.len ≤ r.len := by
  intro es
  induction es with
  | nil => rintro ⟨r, hr, _⟩; simp at hr
  | cons e es ih =>
    intro _
    by_cases hes : ∃ r ∈ es, covers r k
    · obtain ⟨r, hr, hc, hmax⟩ := ih hes
      by_cases he : covers e k ∧ r.len < e.len
      · refine ⟨e, List.mem_cons_self _ _, he.1, ?_⟩
        intro r' hr' hc'
        rcases List.mem_cons.1 hr' with h1 | h1
        · rw [h1]
        · have := hmax r' h1 hc'
          omega
      · refine ⟨r, List.mem_cons_of_mem _ hr, hc, ?_⟩
        intro r' hr' hc'
        rcases List.mem_cons.1 hr' with h1 | h1
        · rw [h1]
          by_contra hlt
          exact he ⟨h1 ▸ hc', by omega⟩
        · exact hmax r' h1 hc'
    · have he : covers e k := by
        rename_i h
        obtain ⟨r, hr, hc⟩ := h
        rcases List.mem_cons.1 hr with h1 | h1
        · rw [← h1]; exact hc
        · exact absurd ⟨r, h1, hc⟩ hes
      refine ⟨e, List.mem_cons_self _ _, he, ?_⟩
      intro r' hr' hc'
      rcases List.mem_cons.1 hr' with h1 | h1
      · rw [h1]
      · exact absurd ⟨r', h1, hc'⟩ hes
theorem holds_insO (o : List Bool → Option Nat) (es : List route) (h : HoldsRoutes o es)
    (r : route) (hlen : r.len ≤ 32) (hv : r.value ≠ NGX_RADIX_NO_VALUE)
    (hfree : ¬ Occupied o ((bitsFrom r.key 32).take r.len)) :
    HoldsRoutes (insO o ((bitsFrom r.key 32).take r.len) r.value) (es ++ [r]) := by
  obtain ⟨ha, hb, hc⟩ := h
  refine ⟨?_, ?_, ?_⟩
  · intro π
    by_cases h1 : π = (bitsFrom r.key 32).take r.len
    · constructor
      · intro _
        exact ⟨r, by simp, h1.symm⟩
      · intro _
        exact ⟨r.value, by simp [insO, h1], hv⟩
    · by_cases h2 : π <+: (bitsFrom r.key 32).take r.len ∧ o π = none
      · constructor
        · rintro ⟨x, hx, hx'⟩
          simp only [insO, if_neg h1, if_pos h2, Option.some.injEq] at hx
          exact absurd hx.symm hx'
        · rintro ⟨r', hr', hp⟩
          rcases List.mem_append.1 hr' with h3 | h3
          · obtain ⟨x, hx, _⟩ := (ha π).2 ⟨r', h3, hp⟩
            rw [h2.2] at hx
            exact absurd hx (by simp)
          · simp only [List.mem_singleton] at h3
            rw [h3] at hp
            exact absurd hp.symm h1
      · have hsame : insO o ((bitsFrom r.key 32).take r.len) r.value π = o π := by
          simp only [insO, if_neg h1, if_neg h2]
        constructor
        · rintro ⟨x, hx, hx'⟩
          rw [hsame] at hx
          obtain ⟨r', hr', hp⟩ := (ha π).1 ⟨x, hx, hx'⟩
          exact ⟨r', List.mem_append_left _ hr', hp⟩
        · rintro ⟨r', hr', hp⟩
          rcases List.mem_append.1 hr' with h3 | h3
          · obtain ⟨x, hx, hx'⟩ := (ha π).2 ⟨r', h3, hp⟩
            exact ⟨x, by rw [hsame]; exact hx, hx'⟩
          · simp only [List.mem_singleton] at h3
            rw [h3] at hp
            exact absurd hp.symm h1
  · intro r' hr'
    rcases List.mem_append.1 hr' with h3 | h3
    · have hne : (bitsFrom r'.key 32).take r'.len ≠ (bitsFrom r.key 32).take r.len := by
        intro e
        apply hfree
        rw [← e]
        exact (ha _).2 ⟨r', h3, rfl⟩
      have hsome := hb r' h3
      simp only [insO, if_neg hne]
      rw [if_neg (by rintro ⟨_, h4⟩; rw [h4] at hsome; exact absurd hsome (by simp))]
      exact hsome
    · simp only [List.mem_singleton] at h3
      rw [h3]
      simp [insO]
  · intro r' hr'
    rcases List.mem_append.1 hr' with h3 | h3
    · exact hc r' h3
    · simp only [List.mem_singleton] at h3
      rw [h3]
      exact ⟨hlen, hv⟩

/-- The insert of a route into a well-formed tree whose allocator does not fail. -/
theorem insert_route (t : lngx_radix_tree_t) (hwf : WF t) (hnf : NoFail t) (es : List route)
    (hH : HoldsRoutes (obs t) es) (r : route) (hlen : r.len ≤ 32)
    (hv : r.value ≠ NGX_RADIX_NO_VALUE) :
    ∃ rc t1, lngx_radix32tree_insert t r.key (mask_of_len r.len) r.value = .ok (rc, t1) ∧
      WF t1 ∧ NoFail t1 ∧
      HoldsRoutes (obs t1) (if rc = NGX_OK then es ++ [r] else es) := by
  obtain ⟨F, h⟩ := hwf
  have hspec := insertL_spec t F h (pfx r.key (mask_of_len r.len) 32)
    (pfx_length_le _ _ 32) r.value
  rw [← insert_eq_insertL, pfx_mask_of_len r.key r.len hlen] at hspec
  by_cases hocc : Occupied (obs t) ((bitsFrom r.key 32).take r.len)
  · refine ⟨NGX_BUSY, t, hspec.1 hocc, ⟨F, h⟩, hnf, ?_⟩
    rw [if_neg (by decide)]
    exact hH
  · obtain ⟨t1, hins⟩ := hspec.2.1 hocc (Or.inl hnf)
    obtain ⟨_, hobs, _, _, hoom, hcalls, F1, hinv1, _⟩ := hspec.2.2 _ _ hins hocc
    refine ⟨NGX_OK, t1, hins, ⟨F1, hinv1⟩, NoFail_alloc t hnf t1 hoom hcalls, ?_⟩
    rw [if_pos rfl, hobs]
    exact holds_insO (obs t) es hH r hlen hv hocc

/-- A run of inserts of routes on a well-formed tree whose allocator does not
fail: it returns, and the real values of the trie are those of the routes
that were there before and of the routes accepted by the run. -/
theorem run_routes :
    ∀ (rs : List route) (t : lngx_radix_tree_t) (es : List route), WF t → NoFail t →
      HoldsRoutes (obs t) es → (∀ r ∈ rs, r.len ≤ 32 ∧ r.value ≠ NGX_RADIX_NO_VALUE) →
      ∃ rcs t', run_inserts t (rs.map call_of) = .ok (rcs, t') ∧ rcs.length = rs.length ∧
        WF t' ∧ NoFail t' ∧ HoldsRoutes (obs t') (es ++ accepted rs rcs) := by
  intro rs
  induction rs with
  | nil =>
    intro t es hwf hnf hH _
    exact ⟨[], t, rfl, rfl, hwf, hnf, by simpa [accepted] using hH⟩
  | cons r rs ih =>
    intro t es hwf hnf hH hrs
    obtain ⟨hlen, hv⟩ := hrs r (List.mem_cons_self _ _)
    obtain ⟨rc, t1, hins, hwf1, hnf1, hH1⟩ := insert_route t hwf hnf es hH r hlen hv
    obtain ⟨rcs, t', hrun, hl, hwf', hnf', hH'⟩ :=
      ih t1 _ hwf1 hnf1 hH1 (fun r' hr' => hrs r' (List.mem_cons_of_mem _ hr'))
    refine ⟨rc :: rcs, t', ?_, by simp [hl], hwf', hnf', ?_⟩
    · simp only [List.map_cons, run_inserts, call_of]
      have hins' : lngx_radix32tree_insert t r.key (mask_of_len r.len) r.value
          = .ok (rc, t1) := hins
      rw [hins']
      simp only [hrun]
    · by_cases hrc : rc = NGX_OK
      · rw [if_pos hrc] at hH'
        simp only [accepted, if_pos hrc]
        simpa using hH'
      · rw [if_neg hrc] at hH'
        simp only [accepted, if_neg hrc]
        exact hH'

/-- Find on a well-formed tree whose real values are those of the routes `es`:
the value of the longest route that covers the key, the sentinel when no route
covers it. -/
theorem find_of_holds (t : lngx_radix_tree_t) (hwf : WF t) (es : List route)
    (hH : HoldsRoutes (obs t) es) (k f : Nat) (hf : 33 ≤ f) :
    ∃ x, lngx_radix32tree_find f t k = .ok x ∧
      ((∃ r ∈ es, covers r k ∧ (∀ r' ∈ es, covers r' k → r'.len ≤ r.len) ∧ x = r.value) ∨
        ((∀ r ∈ es, ¬ covers r k) ∧ x = NGX_RADIX_NO_VALUE)) := by
  obtain ⟨F, hF⟩ := hwf
  obtain ⟨ha, hb, hc⟩ := hH
  refine ⟨_, find_spec t F hF k f hf, ?_⟩
  have hbk : (bitsFrom k 32).length = 32 := bitsFrom_length k 32
  -- a real value on the path of `k` belongs to a route that covers `k`
  have hcov : ∀ i, i ≤ 32 → Occupied (obs t) ((bitsFrom k 32).take i) →
      ∃ r ∈ es, covers r k ∧ r.len = i := by
    intro i hi hocc
    obtain ⟨r, hr, hp⟩ := (ha _).1 hocc
    have hl := congrArg List.length hp
    rw [List.length_take, List.length_take, bitsFrom_length, bitsFrom_length] at hl
    have hrl := (hc r hr).1
    have hri : r.len = i := by omega
    refine ⟨r, hr, ?_, hri⟩
    rw [covers_iff r k hrl, hp, hri]
  by_cases hex : ∃ r ∈ es, covers r k
  · left
    obtain ⟨r, hr, hcr, hmax⟩ := exists_longest k es hex
    refine ⟨r, hr, hcr, hmax, ?_⟩
    have hrl := (hc r hr).1
    apply lpmO_some (obs t) (bitsFrom k 32) [] NGX_RADIX_NO_VALUE r.len r.value
      (by rw [hbk]; exact hrl)
    · rw [List.nil_append, ← (covers_iff r k hrl).1 hcr]
      exact hb r hr
    · exact (hc r hr).2
    · intro i hi hi' hocc
      rw [List.nil_append] at hocc
      rw [hbk] at hi'
      obtain ⟨r', hr', hc', hl'⟩ := hcov i hi' hocc
      have := hmax r' hr' hc'
      omega
  · right
    refine ⟨fun r hr hcr => hex ⟨r, hr, hcr⟩, ?_⟩
    apply lpmO_none
    intro j hj hocc
    rw [List.nil_append] at hocc
    rw [hbk] at hj
    obtain ⟨r', hr', hc', _⟩ := hcov j hj hocc
    exact hex ⟨r', hr', hc'⟩
theorem auto_levels_nonneg (p : Nat) : 0 ≤ auto_levels p := by
  unfold auto_levels
  split <;> decide

theorem overflow_guard (r : Except Fault (Option lngx_radix_tree_t) × List warm_call)
    (t : lngx_radix_tree_t) :
    (match r with
      | (.ok (some _), log) => ((.error .intOverflow : Except Fault (Option lngx_radix_tree_t)), log)
      | r => r).1 ≠ .ok (some t) := by
  obtain ⟨r1, r2⟩ := r
  cases r1 with
  | error e => simp
  | ok o => cases o <;> simp

/-- The function `lngx_radix_tree_create` with an allocator that does not fail: for a
hint of `-1` or more it returns a tree, and a tree that it returns, whatever
the hint, is a complete tree of sentinel nodes. -/
theorem create_tree (fuel : Nat) (a : lua_Alloc) (mem : Nat → lngx_radix_node_t)
    (origin : Nat → Nat) (ps0 gps : Nat) (hint : Int)
    (hnf : ∀ i, a.calls ≤ i → a.oom i = false) (hbrk : 0 < a.brk)
    (hps : sizeof_node ≤ (if ps0 = 0 then gps else ps0))
    (hps' : (if ps0 = 0 then gps else ps0) < 2 ^ 64) (hfuel : 2 ^ 32 ≤ fuel) :
    (-1 ≤ hint → ∃ t, lngx_radix_tree_create fuel a mem origin ps0 gps hint = .ok (some t)) ∧
    ∀ t, lngx_radix_tree_create fuel a mem origin ps0 gps hint = .ok (some t) →
      ∃ levels, Level t levels := by
  by_cases hh : -1 ≤ hint
  · have hnn : 0 ≤ (if hint = -1 then auto_levels (if ps0 = 0 then gps else ps0) else hint) := by
      by_cases h1 : hint = -1
      · rw [if_pos h1]; exact auto_levels_nonneg _
      · rw [if_neg h1]; omega
    obtain ⟨levels, hlev⟩ := Int.eq_ofNat_of_zero_le hnn
    have hf : 2 ^ (min levels 32) ≤ fuel :=
      le_trans (Nat.pow_le_pow_right (by norm_num) (Nat.min_le_right _ _)) hfuel
    obtain ⟨t', log, hrun, hlevel, _⟩ :=
      create_spec fuel a mem origin ps0 gps hint levels hnf hbrk hps hps' hlev hf
    have hc : lngx_radix_tree_create fuel a mem origin ps0 gps hint = .ok (some t') := by
      unfold lngx_radix_tree_create
      rw [hrun]
    refine ⟨fun _ => ⟨t', hc⟩, ?_⟩
    intro t ht
    rw [hc] at ht
    simp only [Except.ok.injEq, Option.some.injEq] at ht
    exact ⟨levels, ht ▸ hlevel⟩
  · refine ⟨fun h => absurd h hh, ?_⟩
    intro t ht
    exfalso
    have h0 : ¬ hint = 0 := by omega
    have h1 : ¬ hint = -1 := by omega
    unfold lngx_radix_tree_create lngx_radix_tree_create_log at ht
    by_cases ha : (a.alloc sizeof_tree).1 = 0
    · rw [if_pos ha] at ht
      simp at ht
    · rw [if_neg ha] at ht
      cases hal : lngx_radix_alloc (header a mem origin (if ps0 = 0 then gps else ps0)) with
      | error e => rw [hal] at ht; simp at ht
      | ok p =>
        obtain ⟨root, t1⟩ := p
        rw [hal] at ht
        simp only at ht
        by_cases hr : root = 0
        · rw [if_pos hr] at ht
          simp at ht
        · rw [if_neg hr, if_neg h0, if_neg h1, if_neg (by omega)] at ht
          exact overflow_guard _ t ht

theorem eq_of_fault_in {α : Type} (r : Except Fault α) (e : Fault)
    (h : fault_in r = some e) : r = .error e := by
  cases r with
  | error e' =>
    simp only [fault_in, Option.some.injEq] at h
    rw [h]
  | ok p => simp [fault_in] at h

theorem andNot_pow (x k : Nat) : andNot x (2 ^ k - 1) = 2 ^ k * (x / 2 ^ k) := by
  unfold andNot
  rw [Nat.and_pow_two_sub_one_eq_mod]
  have := Nat.div_add_mod x (2 ^ k)
  omega

theorem leading_ones_le (mask : Nat) : ∀ n, leading_ones mask n ≤ n := by
  intro n
  induction n with
  | zero => simp [leading_ones]
  | succ n ih =>
    by_cases h : mask.testBit n = true
    · simp only [leading_ones, h, if_true]; omega
    · simp [leading_ones, h]

/-- The masked prefix of a key: as many of its leading bits as the mask has
leading one bits. -/
theorem pfx_eq_take_leading (key mask : Nat) :
    ∀ n, pfx key mask n = (bitsFrom key n).take (leading_ones mask n) := by
  intro n
  induction n with
  | zero => simp [pfx, bitsFrom]
  | succ n ih =>
    by_cases h : mask.testBit n = true
    · simp only [pfx, leading_ones, h, if_true, bitsFrom, List.take_succ_cons, ih]
    · simp [pfx, leading_ones, h]

theorem pfx_length (key mask : Nat) : (pfx key mask 32).length = leading_ones mask 32 := by
  rw [pfx_eq_take_leading, List.length_take, bitsFrom_length]
  exact Nat.min_eq_left (leading_ones_le mask 32)

/-- The masked prefix depends only on the leading run of the mask and on the
key bits under it. -/
theorem pfx_lead_mask (key mask : Nat) :
    pfx (key &&& lead_mask mask) (lead_mask mask) 32 = pfx key mask 32 := by
  have hL := leading_ones_le mask 32
  unfold lead_mask
  rw [pfx_mask_of_len _ _ hL, pfx_eq_take_leading key mask 32]
  rw [take_bitsFrom_eq_iff _ _ 32 _ hL]
  intro n hn hn'
  rw [Nat.testBit_and, mask_of_len_testBit _ n hL]
  simp [hn, hn']

/-- A tree that an insert returned is well formed when the tree it was given is. -/
theorem insert_wf_any (t : lngx_radix_tree_t) (hwf : WF t) (key mask v : Nat) (rc : Int)
    (t1 : lngx_radix_tree_t) (hins : lngx_radix32tree_insert t key mask v = .ok (rc, t1)) :
    WF t1 := by
  by_cases hocc : Occupied (obs t) (pfx key mask 32)
  · obtain ⟨F, h⟩ := hwf
    have hspec := insertL_spec t F h (pfx key mask 32) (pfx_length_le key mask 32) v
    rw [← insert_eq_insertL] at hspec
    rw [hspec.1 hocc] at hins
    simp only [Except.ok.injEq, Prod.mk.injEq] at hins
    obtain ⟨_, rfl⟩ := hins
    exact ⟨F, h⟩
  · exact insert_wf t hwf key mask v hocc rc t1 hins

/-- A tree that a delete returned is well formed when the tree it was given is. -/
theorem delete_wf (t : lngx_radix_tree_t) (hwf : WF t) (fuel key mask : Nat)
    (hfuel : 32 ≤ fuel) (rc : Int) (t1 : lngx_radix_tree_t)
    (hdel : lngx_radix32tree_delete fuel t key mask = .ok (rc, t1)) : WF t1 := by
  obtain ⟨F, h⟩ := hwf
  obtain ⟨R, hinv, _⟩ := delete_recycles t F h fuel key mask hfuel rc t1 hdel
  exact ⟨_, hinv⟩

/-- A property of trees that every insert and every delete keeps holds after a run. -/
theorem run_ops_pres (P : lngx_radix_tree_t → Prop) (fuel : Nat)
    (hins : ∀ t key mask v rc t1, P t → lngx_radix32tree_insert t key mask v = .ok (rc, t1) →
      P t1)
    (hdel : ∀ t key mask rc t1, P t → lngx_radix32tree_delete fuel t key mask = .ok (rc, t1) →
      P t1) :
    ∀ (os : List op) (t : lngx_radix_tree_t) (rcs : List Int) (t' : lngx_radix_tree_t),
      P t → run_ops fuel t os = .ok (rcs, t') → P t' := by
  intro os
  induction os with
  | nil =>
    intro t rcs t' hP hrun
    simp only [run_ops, Except.ok.injEq, Prod.mk.injEq] at hrun
    obtain ⟨_, rfl⟩ := hrun
    exact hP
  | cons o os ih =>
    intro t rcs t' hP hrun
    cases o with
    | insert key mask value =>
      rw [run_ops] at hrun
      cases h1 : lngx_radix32tree_insert t key mask value with
      | error e => rw [h1] at hrun; simp at hrun
      | ok p =>
        obtain ⟨rc, t1⟩ := p
        rw [h1] at hrun
        simp only at hrun
        cases h2 : run_ops fuel t1 os with
        | error e => rw [h2] at hrun; simp at hrun
        | ok q =>
          obtain ⟨rcs1, t2⟩ := q
          rw [h2] at hrun
          simp only [Except.ok.injEq, Prod.mk.injEq] at hrun
          obtain ⟨_, rfl⟩ := hrun
          exact ih t1 rcs1 t2 (hins t key mask value rc t1 hP h1) h2
    | delete key mask =>
      rw [run_ops] at hrun
      cases h1 : lngx_radix32tree_delete fuel t key mask with
      | error e => rw [h1] at hrun; simp at hrun
      | ok p =>
        obtain ⟨rc, t1⟩ := p
        rw [h1] at hrun
        simp only at hrun
        cases h2 : run_ops fuel t1 os with
        | error e => rw [h2] at hrun; simp at hrun
        | ok q =>
          obtain ⟨rcs1, t2⟩ := q
          rw [h2] at hrun
          simp only [Except.ok.injEq, Prod.mk.injEq] at hrun
          obtain ⟨_, rfl⟩ := hrun
          exact ih t1 rcs1 t2 (hdel t key mask rc t1 hP h1) h2

theorem run_ops_wf (fuel : Nat) (hfuel : 32 ≤ fuel) (os : List op) (t : lngx_radix_tree_t)
    (rcs : List Int) (t' : lngx_radix_tree_t) (hwf : WF t)
    (hrun : run_ops fuel t os = .ok (rcs, t')) : WF t' :=
  run_ops_pres WF fuel
    (fun t key mask v rc t1 h hi => insert_wf_any t h key mask v rc t1 hi)
    (fun t key mask rc t1 h hd => delete_wf t h fuel key mask hfuel rc t1 hd)
    os t rcs t' hwf hrun

/-- A property of trees that every insert of the sentinel returning `NGX_OK`
keeps holds after the inner loop of the warm-up pass. -/
theorem create_keys_pres (P : lngx_radix_tree_t → Prop)
    (hP : ∀ t key mask t1, P t →
      lngx_radix32tree_insert t key mask NGX_RADIX_NO_VALUE = .ok (NGX_OK, t1) → P t1) :
    ∀ (fuel : Nat) (t : lngx_radix_tree_t) (key mask inc : Nat) (t' : lngx_radix_tree_t),
      P t → (create_keys fuel t key mask inc).1 = .ok (some t') → P t' := by
  intro fuel
  induction fuel with
  | zero =>
    intro t key mask inc t' _ h
    simp [create_keys] at h
  | succ n ih =>
    intro t key mask inc t' hPt h
    rw [create_keys] at h
    cases hins : lngx_radix32tree_insert t key mask NGX_RADIX_NO_VALUE with
    | error e => rw [hins] at h; simp at h
    | ok p =>
      obtain ⟨rc, t1⟩ := p
      rw [hins] at h
      simp only at h
      by_cases hrc : rc ≠ NGX_OK
      · rw [if_pos hrc] at h
        simp at h
      · rw [if_neg hrc] at h
        have hrc' : rc = NGX_OK := not_not.1 hrc
        subst hrc'
        have hP1 := hP t key mask t1 hPt hins
        by_cases hk : (key + inc) % 2 ^ 32 ≠ 0
        · rw [if_pos hk] at h
          exact ih t1 _ mask inc t' hP1 h
        · rw [if_neg hk] at h
          simp only [Except.ok.injEq, Option.some.injEq] at h
          exact h ▸ hP1

/-- The same for the outer loop of the warm-up pass. -/
theorem create_levels_pres (P : lngx_radix_tree_t → Prop)
    (hP : ∀ t key mask t1, P t →
      lngx_radix32tree_insert t key mask NGX_RADIX_NO_VALUE = .ok (NGX_OK, t1) → P t1)
    (fuel : Nat) :
    ∀ (p : Nat) (t : lngx_radix_tree_t) (mask inc : Nat) (t' : lngx_radix_tree_t),
      P t → (create_levels fuel p t mask inc).1 = .ok (some t') → P t' := by
  intro p
  induction p with
  | zero =>
    intro t mask inc t' hPt h
    simp only [create_levels, Except.ok.injEq, Option.some.injEq] at h
    exact h ▸ hPt
  | succ p ih =>
    intro t mask inc t' hPt h
    rw [create_levels] at h
    cases hk : create_keys fuel t 0 ((mask >>> 1) ||| 0x80000000) inc with
    | mk r log =>
      rw [hk] at h
      cases r with
      | error e => simp at h
      | ok o =>
        cases o with
        | none => simp at h
        | some t1 =>
          simp only at h
          have hP1 : P t1 := by
            apply create_keys_pres P hP fuel t 0 _ inc t1 hPt
            rw [hk]
          exact ih t1 _ _ t' hP1 h
/-- A property that holds for the tree with the fresh root and that every
insert of the sentinel returning `NGX_OK` keeps holds for every tree that
`lngx_radix_tree_create` returns. -/
theorem create_pres (P : lngx_radix_tree_t → Prop)
    (hP : ∀ t key mask t1, P t →
      lngx_radix32tree_insert t key mask NGX_RADIX_NO_VALUE = .ok (NGX_OK, t1) → P t1)
    (fuel : Nat) (a : lua_Alloc) (mem : Nat → lngx_radix_node_t) (origin : Nat → Nat)
    (ps0 gps : Nat) (hint : Int)
    (hbase : ∀ root t1, (a.alloc sizeof_tree).1 ≠ 0 →
      lngx_radix_alloc (header a mem origin (if ps0 = 0 then gps else ps0)) = .ok (root, t1) →
      root ≠ 0 → P (set_root t1 root)) :
    ∀ t, lngx_radix_tree_create fuel a mem origin ps0 gps hint = .ok (some t) → P t := by
  intro t ht
  unfold lngx_radix_tree_create lngx_radix_tree_create_log at ht
  by_cases ha : (a.alloc sizeof_tree).1 = 0
  · rw [if_pos ha] at ht
    simp at ht
  · rw [if_neg ha] at ht
    cases hal : lngx_radix_alloc (header a mem origin (if ps0 = 0 then gps else ps0)) with
    | error e => rw [hal] at ht; simp at ht
    | ok p =>
      obtain ⟨root, t1⟩ := p
      rw [hal] at ht
      simp only at ht
      by_cases hr : root = 0
      · rw [if_pos hr] at ht
        simp at ht
      · rw [if_neg hr] at ht
        have hP0 := hbase root t1 ha hal hr
        by_cases h0 : hint = 0
        · rw [if_pos h0] at ht
          simp only [Except.ok.injEq, Option.some.injEq] at ht
          exact ht ▸ hP0
        · rw [if_neg h0] at ht
          by_cases hnn : 0 ≤ (if hint = -1 then auto_levels t1.lngx_pagesize else hint)
          · rw [if_pos hnn] at ht
            exact create_levels_pres P hP fuel _ _ _ _ t hP0 ht
          · rw [if_neg hnn] at ht
            exact absurd ht (overflow_guard _ t)

/-- The tree with the fresh root, when the allocator served the header and the
first page. -/
theorem base_spec (a : lua_Alloc) (mem : Nat → lngx_radix_node_t) (origin : Nat → Nat)
    (ps : Nat) (hps : sizeof_node ≤ ps) (hps' : ps < 2 ^ 64) (root : Nat)
    (t1 : lngx_radix_tree_t) (ha : (a.alloc sizeof_tree).1 ≠ 0)
    (hal : lngx_radix_alloc (header a mem origin ps) = .ok (root, t1)) :
    root ≠ 0 ∧ Inv (set_root t1 root) [] ∧
    (∀ π, obs (set_root t1 root) π = if π = [] then some NGX_RADIX_NO_VALUE else none) ∧
    t1.lngx_pagesize = ps ∧ t1.a.oom = a.oom ∧ t1.a.calls = a.calls + 2 := by
  have h0 : a.oom a.calls = false := by
    by_contra h
    apply ha
    simp [lua_Alloc.alloc, h]
  have hbrk : 0 < a.brk := by
    apply Nat.pos_of_ne_zero
    intro h
    apply ha
    simp [lua_Alloc.alloc, h0, h]
  have h1 : a.oom (a.calls + 1) = false := by
    by_contra h
    have hoom : a.oom (a.calls + 1) = true := by simpa using h
    have hcalls : (a.alloc sizeof_tree).2.calls = a.calls + 1 := by
      simp [lua_Alloc.alloc, h0]
    have hoom2 : (a.alloc sizeof_tree).2.oom = a.oom := by
      simp [lua_Alloc.alloc, h0]
    have : lngx_radix_alloc (header a mem origin ps) = .error .wildStore := by
      unfold lngx_radix_alloc lngx_pmemalign
      simp [header, sizeof_node, lua_Alloc.alloc, h0, hoom]
    rw [this] at hal
    simp at hal
  obtain ⟨_, root', t1', hal', hr, hinv, hobs, hpg, hoom, hc⟩ :=
    create_root_spec a mem origin ps h0 h1 hbrk hps hps'
  rw [hal] at hal'
  simp only [Except.ok.injEq, Prod.mk.injEq] at hal'
  obtain ⟨rfl, rfl⟩ := hal'
  exact ⟨hr, hinv, hobs, hpg, hoom, hc⟩

/-- Every tree that `lngx_radix_tree_create` returns is well formed. -/
theorem create_wf (fuel : Nat) (a : lua_Alloc) (mem : Nat → lngx_radix_node_t)
    (origin : Nat → Nat) (ps0 gps : Nat) (hint : Int)
    (hps : sizeof_node ≤ (if ps0 = 0 then gps else ps0))
    (hps' : (if ps0 = 0 then gps else ps0) < 2 ^ 64) :
    ∀ t, lngx_radix_tree_create fuel a mem origin ps0 gps hint = .ok (some t) → WF t := by
  apply create_pres WF
    (fun t key mask t1 h hi => insert_wf_any t h key mask _ _ t1 hi)
  intro root t1 ha hal _
  exact ⟨[], (base_spec a mem origin _ hps hps' root t1 ha hal).2.1⟩
theorem wf_parent_links (t : lngx_radix_tree_t) (hwf : WF t) : ParentLinks t := by
  obtain ⟨F, h⟩ := hwf
  refine ⟨h.root_parent, ?_⟩
  rintro n hn ⟨π, hπ⟩
  rcases List.eq_nil_or_concat π with hnil | ⟨σ, b, hσ⟩
  · subst hnil
    simp only [walk] at hπ
    subst hπ
    exact ⟨⟨fun _ => rfl, fun _ => h.root_parent⟩, fun hne => absurd rfl hne⟩
  · rw [List.concat_eq_append] at hσ
    subst hσ
    obtain ⟨hpar, hσ0, hch, hside⟩ := side_test t F h σ b n hπ hn
    have hnr : n ≠ t.root := by
      intro e
      have := h.inj (σ ++ [b]) [] (by rw [hπ]; exact hn) (by rw [hπ, e]; rfl)
      simp at this
    have hp0 : (t.mem n).parent ≠ 0 := by rw [hpar]; exact hσ0
    refine ⟨⟨fun e => absurd e hp0, fun e => absurd e hnr⟩, fun _ => ⟨hp0, ⟨σ, hpar.symm⟩, ?_⟩⟩
    rw [hpar]
    -- the other child of the parent is another node
    have hother : child t.mem (walk t.mem t.root σ) (!b) ≠ n := by
      intro e
      have hw : walk t.mem t.root (σ ++ [!b]) = n := by
        rw [walk_snoc, if_neg hσ0, e]
      have := h.inj (σ ++ [!b]) (σ ++ [b]) (by rw [hw]; exact hn) (by rw [hw, hπ])
      simp at this
    cases b with
    | true =>
      left
      exact ⟨by simpa [child] using hch, by simpa [child] using hother⟩
    | false =>
      right
      exact ⟨by simpa [child] using hch, by simpa [child] using hother⟩

theorem wf_free_disjoint (t : lngx_radix_tree_t) (hwf : WF t) : FreeDisjoint t := by
  obtain ⟨F, h⟩ := hwf
  refine ⟨F, h.chain, h.nodup, h.free_unreach, ?_⟩
  intro p t1 hal
  obtain ⟨hp, hmem, hroot, _, _, _, hfresh, _, F1, hinv1, hF1, _⟩ := alloc_spec t F h p t1 hal
  refine ⟨hp, ?_, F1, hinv1.chain, hinv1.nodup, hF1⟩
  intro π
  rw [hmem, hroot]
  exact hfresh π

theorem ex_ops_run :
    run_ops 32 ex_tree0 ex_ops
      = .ok ([NGX_OK, NGX_OK, NGX_OK], run_tree (run_ops 32 ex_tree0 ex_ops)) :=
  eq_of_run_codes _ _ (by decide!)

/-- Pruning keeps a trie strict: when every node other than the root and the
leaf to be removed has a child or a real value, so has every node other than
the root after the pruning. -/
theorem pruneO_strict : ∀ (rs : List Bool) (b : Bool) (o : List Bool → Option Nat),
    ClosedO o → (∀ c, o (rs.reverse ++ [b] ++ [c]) = none) →
    (∀ π, π ≠ [] → π ≠ rs.reverse ++ [b] → o π = some NGX_RADIX_NO_VALUE →
      o (π ++ [true]) ≠ none ∨ o (π ++ [false]) ≠ none) →
    StrictO (pruneO o (b :: rs)) := by
  intro rs
  induction rs with
  | nil =>
    intro b o _ _ hst
    rw [pruneO_stop o _ b [] rfl (Or.inr (Or.inr rfl))]
    intro π hπ ho
    simp only [List.reverse_nil, List.nil_append] at ho hst ⊢
    by_cases hκ : π = [b]
    · rw [if_pos hκ] at ho
      exact absurd ho (by simp)
    · rw [if_neg hκ] at ho
      have hlen : ∀ c, π ++ [c] ≠ [b] := by
        intro c e
        have := congrArg List.length e
        simp only [List.length_append, List.length_singleton] at this
        exact hπ (List.length_eq_zero.1 (by omega))
      rcases hst π hπ hκ ho with h1 | h1
      · left; rw [if_neg (hlen true)]; exact h1
      · right; rw [if_neg (hlen false)]; exact h1
  | cons r rs ih =>
    intro b o hcl hleaf hst
    -- every node but the parent of the leaf keeps a child
    have hF1 : ∀ π, π ≠ [] → π ≠ (r :: rs).reverse →
        (if π = (r :: rs).reverse ++ [b] then none else o π) = some NGX_RADIX_NO_VALUE →
        (if π ++ [true] = (r :: rs).reverse ++ [b] then none else o (π ++ [true])) ≠ none ∨
        (if π ++ [false] = (r :: rs).reverse ++ [b] then none else o (π ++ [false])) ≠ none := by
      intro π hπ hpar ho
      by_cases hκ : π = (r :: rs).reverse ++ [b]
      · rw [if_pos hκ] at ho
        exact absurd ho (by simp)
      · rw [if_neg hκ] at ho
        have hne : ∀ c, π ++ [c] ≠ (r :: rs).reverse ++ [b] := by
          intro c e
          exact hpar (List.append_inj' e rfl).1
        rcases hst π hπ hκ ho with h1 | h1
        · left; rw [if_neg (hne true)]; exact h1
        · right; rw [if_neg (hne false)]; exact h1
    have hparκ : (r :: rs).reverse ≠ (r :: rs).reverse ++ [b] := by
      intro e
      have := congrArg List.length e
      simp at this
    by_cases hstop : ((if (r :: rs).reverse ++ [true] = (r :: rs).reverse ++ [b] then none
          else o ((r :: rs).reverse ++ [true])) ≠ none
        ∨ (if (r :: rs).reverse ++ [false] = (r :: rs).reverse ++ [b] then none
          else o ((r :: rs).reverse ++ [false])) ≠ none)
        ∨ o (r :: rs).reverse ≠ some NGX_RADIX_NO_VALUE
    · rw [pruneO_stop o _ b (r :: rs) rfl (by
        rcases hstop with h | h
        · exact Or.inl h
        · exact Or.inr (Or.inl h))]
      intro π hπ ho
      by_cases hpar : π = (r :: rs).reverse
      · rcases hstop with h | h
        · rw [hpar]; exact h
        · simp only at ho
          rw [hpar, if_neg hparκ] at ho
          exact absurd ho h
      · exact hF1 π hπ hpar ho
    · have h1 := fun h => hstop (Or.inl h)
      have h2 := fun h => hstop (Or.inr h)
      rw [pruneO_go o _ b r rs rfl h1 h2]
      apply ih r
      · -- removing a leaf keeps the observations closed
        intro π ρ h
        simp only at h ⊢
        by_cases hκ : π = (r :: rs).reverse ++ [b]
        · by_cases hρ : π ++ ρ = (r :: rs).reverse ++ [b]
          · rw [if_pos hρ]
          · rw [if_neg hρ]
            cases ρ with
            | nil => rw [List.append_nil] at hρ; exact absurd hκ hρ
            | cons c ρ' =>
              have := hcl ((r :: rs).reverse ++ [b] ++ [c]) ρ' (hleaf c)
              rw [hκ]
              simpa using this
        · rw [if_neg hκ] at h
          by_cases hρ : π ++ ρ = (r :: rs).reverse ++ [b]
          · rw [if_pos hρ]
          · rw [if_neg hρ]
            exact hcl π ρ h
      · intro c
        have hrev : rs.reverse ++ [r] = (r :: rs).reverse := by simp
        rw [hrev]
        cases c with
        | true =>
          by_contra hc
          exact h1 (Or.inl hc)
        | false =>
          by_contra hc
          exact h1 (Or.inr hc)
      · intro π hπ hpar ho
        have hrev : rs.reverse ++ [r] = (r :: rs).reverse := by simp
        rw [hrev] at hpar
        exact hF1 π hπ hpar ho
/-- A delete that returns keeps a strict trie strict. -/
theorem delete_strict (t : lngx_radix_tree_t) (F : List Nat) (h : Inv t F) (hs : Strict t)
    (fuel key mask : Nat) (hfuel : 32 ≤ fuel) (rc : Int) (t1 : lngx_radix_tree_t)
    (hdel : lngx_radix32tree_delete fuel t key mask = .ok (rc, t1)) : Strict t1 := by
  rw [delete_eq] at hdel
  unfold delete_at at hdel
  by_cases hn : walk t.mem t.root (pfx key mask 32) = 0
  · rw [if_pos hn] at hdel
    simp only [Except.ok.injEq, Prod.mk.injEq] at hdel
    exact hdel.2 ▸ hs
  · rw [if_neg hn] at hdel
    by_cases hkid : (t.mem (walk t.mem t.root (pfx key mask 32))).right ≠ 0
        ∨ (t.mem (walk t.mem t.root (pfx key mask 32))).left ≠ 0
    · rw [if_pos hkid] at hdel
      by_cases hv : (t.mem (walk t.mem t.root (pfx key mask 32))).value ≠ NGX_RADIX_NO_VALUE
      · rw [if_pos hv] at hdel
        simp only [Except.ok.injEq, Prod.mk.injEq] at hdel
        obtain ⟨_, ht1⟩ := hdel
        apply strict_of_strictO
        have hobs : ∀ π, obs t1 π
            = if π = pfx key mask 32 then some NGX_RADIX_NO_VALUE else obs t π := by
          intro π
          rw [← ht1]
          exact setValue_obs t F h (pfx key mask 32) _ NGX_RADIX_NO_VALUE rfl hn π
        have hkeep : ∀ π, obs t π ≠ none → obs t1 π ≠ none := by
          intro π hπ
          rw [hobs π]
          by_cases e : π = pfx key mask 32
          · simp [e]
          · rw [if_neg e]; exact hπ
        intro π hπ ho
        by_cases e : π = pfx key mask 32
        · -- the node itself has a child
          rcases hkid with hk | hk
          · left
            apply hkeep
            rw [e]
            exact (obs_child t _ true hn).2 (by simpa [child] using hk)
          · right
            apply hkeep
            rw [e]
            exact (obs_child t _ false hn).2 (by simpa [child] using hk)
        · rw [hobs π, if_neg e] at ho
          rcases Strict.strictO t hs π hπ ho with h1 | h1
          · left; exact hkeep _ h1
          · right; exact hkeep _ h1
      · rw [if_neg hv] at hdel
        simp only [Except.ok.injEq, Prod.mk.injEq] at hdel
        exact hdel.2 ▸ hs
    · rw [if_neg hkid] at hdel
      have hleaf : ∀ c, child t.mem (walk t.mem t.root (pfx key mask 32)) c = 0 := by
        intro c
        by_contra hc
        apply hkid
        cases c
        · right; simpa [child] using hc
        · left; simpa [child] using hc
      rcases List.eq_nil_or_concat (pfx key mask 32) with hκ | ⟨σ, b, hκ⟩
      · rw [hκ] at hdel
        simp only [walk] at hdel
        cases fuel with
        | zero => omega
        | succ n =>
          rw [delete_prune_succ, if_pos h.root_parent] at hdel
          simp at hdel
      · have hκ' : pfx key mask 32 = σ.reverse.reverse ++ [b] := by
          rw [List.reverse_reverse, hκ, List.concat_eq_append]
        have hlen : (pfx key mask 32).length ≤ 32 := pfx_length_le key mask 32
        have hσ : σ.reverse.length < fuel := by
          rw [hκ] at hlen
          simp only [List.concat_eq_append, List.length_append, List.length_singleton] at hlen
          simp only [List.length_reverse]
          omega
        obtain ⟨t2, R, hp, _, hobs, _⟩ :=
          prune_spec σ.reverse b t F (walk t.mem t.root (pfx key mask 32)) fuel h
            (by rw [← hκ']) hn hleaf hσ
        rw [hp] at hdel
        simp only [Except.ok.injEq, Prod.mk.injEq] at hdel
        obtain ⟨_, rfl⟩ := hdel
        apply strict_of_strictO
        rw [hobs]
        apply pruneO_strict σ.reverse b (obs t) (obs_closed t)
        · intro c
          rw [← hκ', obs_eq_none, walk_snoc, if_neg hn]
          exact hleaf c
        · intro π hπ _ ho
          exact Strict.strictO t hs π hπ ho

/-- A delete with fuel for 32 rounds on a well-formed tree returns, unless its
target is the root and the root has no children: then it follows the null
parent link of the root. -/
theorem delete_total (t : lngx_radix_tree_t) (F : List Nat) (h : Inv t F)
    (fuel key mask : Nat) (hfuel : 32 ≤ fuel) :
    (∃ rc t1, lngx_radix32tree_delete fuel t key mask = .ok (rc, t1)) ∨
    (lngx_radix32tree_delete fuel t key mask = .error .nullDeref ∧ pfx key mask 32 = [] ∧
      ∀ c, child t.mem t.root c = 0) := by
  rw [delete_eq]
  unfold delete_at
  by_cases hn : walk t.mem t.root (pfx key mask 32) = 0
  · rw [if_pos hn]
    exact Or.inl ⟨_, _, rfl⟩
  · rw [if_neg hn]
    by_cases hkid : (t.mem (walk t.mem t.root (pfx key mask 32))).right ≠ 0
        ∨ (t.mem (walk t.mem t.root (pfx key mask 32))).left ≠ 0
    · rw [if_pos hkid]
      by_cases hv : (t.mem (walk t.mem t.root (pfx key mask 32))).value ≠ NGX_RADIX_NO_VALUE
      · rw [if_pos hv]
        exact Or.inl ⟨_, _, rfl⟩
      · rw [if_neg hv]
        exact Or.inl ⟨_, _, rfl⟩
    · rw [if_neg hkid]
      have hleaf : ∀ c, child t.mem (walk t.mem t.root (pfx key mask 32)) c = 0 := by
        intro c
        by_contra hc
        apply hkid
        cases c
        · right; simpa [child] using hc
        · left; simpa [child] using hc
      rcases List.eq_nil_or_concat (pfx key mask 32) with hκ | ⟨σ, b, hκ⟩
      · right
        rw [hκ] at hleaf ⊢
        simp only [walk] at hleaf ⊢
        refine ⟨?_, trivial, hleaf⟩
        cases fuel with
        | zero => omega
        | succ n =>
          rw [delete_prune_succ, if_pos h.root_parent]
      · left
        have hκ' : pfx key mask 32 = σ.reverse.reverse ++ [b] := by
          rw [List.reverse_reverse, hκ, List.concat_eq_append]
        have hlen : (pfx key mask 32).length ≤ 32 := pfx_length_le key mask 32
        have hσ : σ.reverse.length < fuel := by
          rw [hκ] at hlen
          simp only [List.concat_eq_append, List.length_append, List.length_singleton] at hlen
          simp only [List.length_reverse]
          omega
        obtain ⟨t2, R, hp, _⟩ :=
          prune_spec σ.reverse b t F (walk t.mem t.root (pfx key mask 32)) fuel h
            (by rw [← hκ']) hn hleaf hσ
        rw [hp]
        exact ⟨_, _, rfl⟩

/-- An insert on a well-formed tree whose allocator does not fail returns, and
the allocator of the tree it returns does not fail either. -/
theorem insert_total (t : lngx_radix_tree_t) (hwf : WF t) (hnf : NoFail t)
    (key mask v : Nat) :
    ∃ rc t1, lngx_radix32tree_insert t key mask v = .ok (rc, t1) ∧ NoFail t1 := by
  obtain ⟨F, h⟩ := hwf
  have hspec := insertL_spec t F h (pfx key mask 32) (pfx_length_le key mask 32) v
  rw [← insert_eq_insertL] at hspec
  by_cases hocc : Occupied (obs t) (pfx key mask 32)
  · exact ⟨_, _, hspec.1 hocc, hnf⟩
  · obtain ⟨t1, hins⟩ := hspec.2.1 hocc (Or.inl hnf)
    obtain ⟨_, _, _, _, hoom, hcalls, _⟩ := hspec.2.2 _ _ hins hocc
    exact ⟨_, t1, hins, NoFail_alloc t hnf t1 hoom hcalls⟩

/-- A run of inserts of real values and of deletes on a well-formed strict
tree whose allocator does not fail: it returns a well-formed strict tree, or
it ends where a delete follows the null parent link of a childless root. -/
theorem run_ops_strict (fuel : Nat) (hfuel : 32 ≤ fuel) :
    ∀ (os : List op) (t : lngx_radix_tree_t), WF t → Strict t → NoFail t →
      (∀ key mask v, op.insert key mask v ∈ os → v ≠ NGX_RADIX_NO_VALUE) →
      (∃ rcs t', run_ops fuel t os = .ok (rcs, t') ∧ WF t' ∧ Strict t' ∧ NoFail t') ∨
      run_ops fuel t os = .error .nullDeref := by
  intro os
  induction os with
  | nil =>
    intro t hwf hs hnf _
    exact Or.inl ⟨[], t, rfl, hwf, hs, hnf⟩
  | cons o os ih =>
    intro t hwf hs hnf hreal
    have hreal' : ∀ key mask v, op.insert key mask v ∈ os → v ≠ NGX_RADIX_NO_VALUE :=
      fun key mask v hm => hreal key mask v (List.mem_cons_of_mem _ hm)
    cases o with
    | insert key mask value =>
      obtain ⟨rc, t1, hins, hnf1⟩ := insert_total t hwf hnf key mask value
      obtain ⟨hwf1, hs1⟩ := insert_strict t hwf hs key mask value
        (hreal key mask value (List.mem_cons_self _ _)) rc t1 hins
      rcases ih t1 hwf1 hs1 hnf1 hreal' with ⟨rcs, t', hrun, hP⟩ | hrun
      · left
        refine ⟨rc :: rcs, t', ?_, hP⟩
        simp only [run_ops, hins, hrun]
      · right
        simp only [run_ops, hins, hrun]
    | delete key mask =>
      obtain ⟨F, h⟩ := hwf
      rcases delete_total t F h fuel key mask hfuel with ⟨rc, t1, hdel⟩ | ⟨hdel, _⟩
      · have hwf1 := delete_wf t ⟨F, h⟩ fuel key mask hfuel rc t1 hdel
        have hs1 := delete_strict t F h hs fuel key mask hfuel rc t1 hdel
        obtain ⟨R, _, _, ha, _⟩ := delete_recycles t F h fuel key mask hfuel rc t1 hdel
        have hnf1 : NoFail t1 := by
          intro i hi
          rw [ha] at hi ⊢
          exact hnf i hi
        rcases ih t1 hwf1 hs1 hnf1 hreal' with ⟨rcs, t', hrun, hP⟩ | hrun
        · left
          refine ⟨rc :: rcs, t', ?_, hP⟩
          simp only [run_ops, hdel, hrun]
        · right
          simp only [run_ops, hdel, hrun]
      · right
        simp only [run_ops, hdel]

/-- What pruning leaves at a path: the old observation, or nothing at a prefix
of the pruned path that held the sentinel (or at the pruned path itself). -/
theorem pruneO_char : ∀ (rs : List Bool) (b : Bool) (o : List Bool → Option Nat)
    (π : List Bool),
    pruneO o (b :: rs) π = o π ∨
      (pruneO o (b :: rs) π = none ∧ π <+: rs.reverse ++ [b] ∧
        (π = rs.reverse ++ [b] ∨ o π = some NGX_RADIX_NO_VALUE)) := by
  intro rs
  induction rs with
  | nil =>
    intro b o π
    rw [pruneO_stop o _ b [] rfl (Or.inr (Or.inr rfl))]
    by_cases hκ : π = [].reverse ++ [b]
    · right
      exact ⟨by simp [hκ], by rw [hκ], Or.inl hκ⟩
    · left
      simp only
      rw [if_neg hκ]
  | cons r rs ih =>
    intro b o π
    by_cases hstop : ((if (r :: rs).reverse ++ [true] = (r :: rs).reverse ++ [b] then none
          else o ((r :: rs).reverse ++ [true])) ≠ none
        ∨ (if (r :: rs).reverse ++ [false] = (r :: rs).reverse ++ [b] then none
          else o ((r :: rs).reverse ++ [false])) ≠ none)
        ∨ o (r :: rs).reverse ≠ some NGX_RADIX_NO_VALUE
    · rw [pruneO_stop o _ b (r :: rs) rfl (by
        rcases hstop with h | h
        · exact Or.inl h
        · exact Or.inr (Or.inl h))]
      by_cases hκ : π = (r :: rs).reverse ++ [b]
      · right
        exact ⟨by simp [hκ], by rw [hκ], Or.inl hκ⟩
      · left
        simp only
        rw [if_neg hκ]
    · have h1 := fun h => hstop (Or.inl h)
      have h2 : o (r :: rs).reverse = some NGX_RADIX_NO_VALUE := by
        by_contra h
        exact hstop (Or.inr h)
      rw [pruneO_go o _ b r rs rfl h1 (by simpa using h2)]
      have hrev : rs.reverse ++ [r] = (r :: rs).reverse := by simp
      rcases ih r (fun π => if π = (r :: rs).reverse ++ [b] then none else o π) π
        with h | ⟨h, hp, hq⟩
      · by_cases hκ : π = (r :: rs).reverse ++ [b]
        · right
          rw [h]
          exact ⟨by simp [hκ], by rw [hκ], Or.inl hκ⟩
        · left
          rw [h]
          exact if_neg hκ
      · right
        rw [hrev] at hp hq
        refine ⟨h, hp.trans (List.prefix_append _ _), Or.inr ?_⟩
        rcases hq with hq | hq
        · rw [hq]; exact h2
        · by_cases hκ : π = (r :: rs).reverse ++ [b]
          · rw [if_pos hκ] at hq
            exact absurd hq (by simp)
          · rw [if_neg hκ] at hq
            exact hq

theorem pruneO_target (rs : List Bool) (b : Bool) (o : List Bool → Option Nat)
    (h : ∀ c, o (rs.reverse ++ [b] ++ [c]) = none) :
    pruneO o (b :: rs) (rs.reverse ++ [b]) = none := by
  cases rs with
  | nil =>
    rw [pruneO_stop o _ b [] rfl (Or.inr (Or.inr rfl))]
    simp
  | cons r rs =>
    by_cases hstop : ((if (r :: rs).reverse ++ [true] = (r :: rs).reverse ++ [b] then none
          else o ((r :: rs).reverse ++ [true])) ≠ none
        ∨ (if (r :: rs).reverse ++ [false] = (r :: rs).reverse ++ [b] then none
          else o ((r :: rs).reverse ++ [false])) ≠ none)
        ∨ o (r :: rs).reverse ≠ some NGX_RADIX_NO_VALUE
    · rw [pruneO_stop o _ b (r :: rs) rfl (by
        rcases hstop with h | h
        · exact Or.inl h
        · exact Or.inr (Or.inl h))]
      simp
    · have h1 := fun h => hstop (Or.inl h)
      have h2 : o (r :: rs).reverse = some NGX_RADIX_NO_VALUE := by
        by_contra h
        exact hstop (Or.inr h)
      rw [pruneO_go o _ b r rs rfl h1 (by simpa using h2)]
      rcases pruneO_char rs r (fun π => if π = (r :: rs).reverse ++ [b] then none else o π)
        ((r :: rs).reverse ++ [b]) with h | ⟨h, _⟩
      · rw [h]; simp
      · exact h

/-- An insert along a pruned path restores what was there, with the new value
at the end of the path. -/
theorem insO_pruneO (o : List Bool → Option Nat) (hcl : ClosedO o) (rs : List Bool) (b : Bool)
    (hκ : o (rs.reverse ++ [b]) ≠ none) (v : Nat) (π : List Bool) :
    insO (pruneO o (b :: rs)) (rs.reverse ++ [b]) v π
      = if π = rs.reverse ++ [b] then some v else o π := by
  unfold insO
  by_cases h1 : π = rs.reverse ++ [b]
  · rw [if_pos h1, if_pos h1]
  · rw [if_neg h1, if_neg h1]
    by_cases h2 : π <+: rs.reverse ++ [b] ∧ pruneO o (b :: rs) π = none
    · rw [if_pos h2]
      rcases pruneO_char rs b o π with h | ⟨_, _, h | h⟩
      · rw [h2.2] at h
        obtain ⟨ρ, hρ⟩ := h2.1
        have := hcl π ρ h.symm
        rw [hρ] at this
        exact absurd this hκ
      · exact absurd h h1
      · exact h.symm
    · rw [if_neg h2]
      rcases pruneO_char rs b o π with h | ⟨h, hp, _⟩
      · exact h
      · exact absurd ⟨hp, h⟩ h2
/-- The nodes that an insert along `κ` has to allocate in `t1` are at most as
many as the nodes of the path `κ` of `t` that are gone in `t1`. -/
theorem need_le_removed (t t1 : lngx_radix_tree_t) (F : List Nat) (h : Inv t F)
    (κ : List Bool) (hκ : walk t.mem t.root κ ≠ 0) (R : List Nat) (hroot : t1.root ≠ 0)
    (hrem : ∀ π, walk t.mem t.root π ≠ 0 → walk t1.mem t1.root π = 0 →
      walk t.mem t.root π ∈ R) :
    need t1 κ ≤ R.length := by
  obtain ⟨σ, rest, hsplit, hd, hσ, hch⟩ := descend_spec t1.mem κ t1.root hroot
  have hneed : need t1 κ = rest.length := by unfold need; rw [hd]
  rw [hneed]
  cases rest with
  | nil => simp
  | cons b' bs =>
    have hgone : ∀ i, walk t1.mem t1.root (σ ++ (b' :: bs).take (i + 1)) = 0 := by
      intro i
      have h0 : walk t1.mem t1.root (σ ++ [b']) = 0 := by
        rw [walk_snoc, if_neg hσ]
        exact hch b' bs rfl
      have : σ ++ (b' :: bs).take (i + 1) = (σ ++ [b']) ++ bs.take i := by simp
      rw [this, walk_append, h0, walk_zero]
    have hthere : ∀ i, walk t.mem t.root (σ ++ (b' :: bs).take (i + 1)) ≠ 0 := by
      intro i
      apply walk_prefix_ne_zero t.mem t.root _ ((b' :: bs).drop (i + 1))
      rw [List.append_assoc, List.take_append_drop, ← hsplit]
      exact hκ
    have hnd : ((List.range (b' :: bs).length).map
        (fun i => walk t.mem t.root (σ ++ (b' :: bs).take (i + 1)))).Nodup := by
      apply List.Nodup.map_on _ (List.nodup_range _)
      intro i hi j hj e
      rw [List.mem_range] at hi hj
      have hp := h.inj _ _ (hthere i) e
      have hl := congrArg List.length (List.append_cancel_left hp)
      rw [List.length_take, List.length_take] at hl
      omega
    have hsub : (List.range (b' :: bs).length).map
        (fun i => walk t.mem t.root (σ ++ (b' :: bs).take (i + 1))) ⊆ R := by
      intro x hx
      rw [List.mem_map] at hx
      obtain ⟨i, _, rfl⟩ := hx
      exact hrem _ (hthere i) (hgone i)
    have := (hnd.subperm hsub).length_le
    simpa using this
/-- Delete followed by insert of an occupied prefix on a well-formed tree,
when the target is not a childless root: both return `NGX_OK`, the insert
takes its nodes from the free list, and the trie is what it was with the new
value at the prefix. -/
theorem replace_spec (t : lngx_radix_tree_t) (F : List Nat) (h : Inv t F)
    (key mask v fuel : Nat) (hfuel : 32 ≤ fuel)
    (hocc : Occupied (obs t) (pfx key mask 32))
    (hroot : pfx key mask 32 ≠ [] ∨ ∃ c, child t.mem t.root c ≠ 0) :
    lngx_radix32tree_insert t key mask v = .ok (NGX_BUSY, t) ∧
    ∃ t1 t2 F2, lngx_radix32tree_delete fuel t key mask = .ok (NGX_OK, t1) ∧
      lngx_radix32tree_insert t1 key mask v = .ok (NGX_OK, t2) ∧
      t1.a = t.a ∧ t2.a = t.a ∧ t2.start = t.start ∧ t2.size = t.size ∧ Inv t2 F2 ∧
      ∀ π, obs t2 π = if π = pfx key mask 32 then some v else obs t π := by
  have hlen := pfx_length_le key mask 32
  have hbusy : lngx_radix32tree_insert t key mask v = .ok (NGX_BUSY, t) := by
    rw [insert_eq_insertL]
    exact (insertL_spec t F h (pfx key mask 32) hlen v).1 hocc
  refine ⟨hbusy, ?_⟩
  obtain ⟨x, hx, hxreal⟩ := hocc
  have hn : walk t.mem t.root (pfx key mask 32) ≠ 0 := by
    intro e
    rw [(obs_eq_none t _).2 e] at hx
    exact absurd hx (by simp)
  have hval : (t.mem (walk t.mem t.root (pfx key mask 32))).value ≠ NGX_RADIX_NO_VALUE := by
    rw [obs_of_walk t _ hn] at hx
    simp only [Option.some.injEq] at hx
    rw [hx]; exact hxreal
  -- the second insert, given what the delete left
  have hsecond : ∀ (t1 : lngx_radix_tree_t) (F1 : List Nat), Inv t1 F1 →
      need t1 (pfx key mask 32) ≤ F1.length →
      ¬ Occupied (obs t1) (pfx key mask 32) →
      (∀ π, insO (obs t1) (pfx key mask 32) v π
        = if π = pfx key mask 32 then some v else obs t π) →
      t1.a = t.a → t1.start = t.start → t1.size = t.size →
      ∃ t2 F2, lngx_radix32tree_insert t1 key mask v = .ok (NGX_OK, t2) ∧
        t1.a = t.a ∧ t2.a = t.a ∧ t2.start = t.start ∧ t2.size = t.size ∧ Inv t2 F2 ∧
        ∀ π, obs t2 π = if π = pfx key mask 32 then some v else obs t π := by
    intro t1 F1 h1 hneed hfree1 hshape ha hs hz
    have hspec := insertL_spec t1 F1 h1 (pfx key mask 32) hlen v
    rw [← insert_eq_insertL] at hspec
    obtain ⟨t2, hins⟩ := hspec.2.1 hfree1 (Or.inr hneed)
    obtain ⟨_, hobs2, _, _, _, _, F2, hinv2, hF2⟩ := hspec.2.2 _ _ hins hfree1
    obtain ⟨_, ha2, hs2, hz2⟩ := hF2 hneed
    refine ⟨t2, F2, hins, ha, ha2.trans ha, hs2.trans hs, hz2.trans hz, hinv2, ?_⟩
    intro π
    rw [hobs2]
    exact hshape π
  rw [delete_eq]
  by_cases hkid : (t.mem (walk t.mem t.root (pfx key mask 32))).right ≠ 0
      ∨ (t.mem (walk t.mem t.root (pfx key mask 32))).left ≠ 0
  · -- a node with children: its value is cleared and set again
    have hd := delete_at_inner fuel t _ hn hkid hval
    have h1 := setValue_inv t F h (walk t.mem t.root (pfx key mask 32)) NGX_RADIX_NO_VALUE
    have hobs1 := setValue_obs t F h (pfx key mask 32) _ NGX_RADIX_NO_VALUE rfl hn
    obtain ⟨t2, F2, hins, hrest⟩ := hsecond _ F h1
      (by
        rw [need_of_node _ _ (by
          intro e
          have := hobs1 (pfx key mask 32)
          rw [(obs_eq_none _ _).2 e] at this
          simp at this)]
        exact Nat.zero_le _)
      (by
        rintro ⟨y, hy, hy'⟩
        rw [hobs1] at hy
        simp only [if_true, Option.some.injEq] at hy
        exact hy' hy.symm)
      (by
        intro π
        unfold insO
        by_cases e : π = pfx key mask 32
        · rw [if_pos e, if_pos e]
        · rw [if_neg e, if_neg e, hobs1 π, if_neg e]
          rw [if_neg]
          rintro ⟨⟨ρ, hρ⟩, h0⟩
          rw [obs_eq_none] at h0
          apply hn
          rw [← hρ, walk_append, h0, walk_zero])
      rfl rfl rfl
    exact ⟨_, t2, F2, hd, hins, hrest⟩
  · -- a leaf: the chain is pruned and built again from the free list
    have hleaf : ∀ c, child t.mem (walk t.mem t.root (pfx key mask 32)) c = 0 := by
      intro c
      by_contra hc
      apply hkid
      cases c
      · right; simpa [child] using hc
      · left; simpa [child] using hc
    rcases List.eq_nil_or_concat (pfx key mask 32) with hκ | ⟨σ, b, hκ⟩
    · exfalso
      rcases hroot with hr | ⟨c, hc⟩
      · exact hr hκ
      · rw [hκ] at hleaf
        exact hc (hleaf c)
    · have hκ' : pfx key mask 32 = σ.reverse.reverse ++ [b] := by
        rw [List.reverse_reverse, hκ, List.concat_eq_append]
      have hσ : σ.reverse.length < fuel := by
        rw [hκ] at hlen
        simp only [List.concat_eq_append, List.length_append, List.length_singleton] at hlen
        simp only [List.length_reverse]
        omega
      obtain ⟨t1, R, hp, hinv1, hobs1, ha, hr1, hs, hz, _, hrem, _⟩ :=
        prune_spec σ.reverse b t F (walk t.mem t.root (pfx key mask 32)) fuel h
          (by rw [← hκ']) hn hleaf hσ
      have hd := delete_at_leaf fuel t t1 _ hn hleaf hp
      have hleafO : ∀ c, obs t (σ.reverse.reverse ++ [b] ++ [c]) = none := by
        intro c
        rw [← hκ', obs_eq_none, walk_snoc, if_neg hn]
        exact hleaf c
      have hκO : obs t (σ.reverse.reverse ++ [b]) ≠ none := by
        rw [← hκ', Ne, obs_eq_none]
        exact hn
      obtain ⟨t2, F2, hins, hrest⟩ := hsecond t1 (R ++ F) hinv1
        (by
          have := need_le_removed t t1 F h (pfx key mask 32) hn R hinv1.root_ne hrem
          rw [List.length_append]
          omega)
        (by
          rintro ⟨y, hy, _⟩
          rw [hobs1, hκ', pruneO_target _ _ _ hleafO] at hy
          exact absurd hy (by simp))
        (by
          intro π
          rw [hobs1, hκ']
          exact insO_pruneO (obs t) (obs_closed t) σ.reverse b hκO v π)
        ha hs hz
      exact ⟨t1, t2, F2, hd, hins, hrest⟩
theorem subnet_mask_eq : ∀ subnet, subnet ≤ 32 → subnet_mask subnet = mask_of_len subnet := by
  decide

theorem auto_levels_range (p : Nat) : 6 ≤ auto_levels p ∧ auto_levels p ≤ 8 := by
  unfold auto_levels
  split <;> decide

theorem tree_of_eq (r : Except Fault (Option lngx_radix_tree_t)) (t : lngx_radix_tree_t)
    (h : r = .ok (some t)) : tree_of r = t := by
  rw [h]; rfl

/-- The tree that `lngx_radix_tree_create` returns for the hint `-1`. -/
theorem create_auto (fuel : Nat) (a : lua_Alloc) (mem : Nat → lngx_radix_node_t)
    (origin : Nat → Nat) (ps0 gps : Nat)
    (hnf : ∀ i, a.calls ≤ i → a.oom i = false) (hbrk : 0 < a.brk)
    (hps : sizeof_node ≤ (if ps0 = 0 then gps else ps0))
    (hps' : (if ps0 = 0 then gps else ps0) < 2 ^ 64) (hfuel : 256 ≤ fuel) :
    ∃ t log, ∃ levels : Nat, lngx_radix_tree_create_log fuel a mem origin ps0 gps (-1)
        = (.ok (some t), log) ∧
      lngx_radix_tree_create fuel a mem origin ps0 gps (-1) = .ok (some t) ∧
      (levels : Int) = auto_levels (if ps0 = 0 then gps else ps0) ∧ 6 ≤ levels ∧ levels ≤ 8 ∧
      Level t levels ∧ log.length + 2 = 2 ^ (levels + 1) ∧ node_count t = 1 + log.length ∧
      ∀ c ∈ log, AddsOne c := by
  obtain ⟨h6, h8⟩ := auto_levels_range (if ps0 = 0 then gps else ps0)
  obtain ⟨levels, hlev⟩ := Int.eq_ofNat_of_zero_le (le_trans (by decide) h6)
  have hl6 : 6 ≤ levels := by omega
  have hl8 : levels ≤ 8 := by omega
  have hf : 2 ^ (min levels 32) ≤ fuel := by
    have : min levels 32 = levels := Nat.min_eq_left (by omega)
    rw [this]
    exact le_trans (Nat.pow_le_pow_right (by norm_num) hl8) hfuel
  obtain ⟨t, log, hrun, hlevel, _, hrest⟩ :=
    create_spec fuel a mem origin ps0 gps (-1) levels hnf hbrk hps hps'
      (by rw [if_pos rfl]; exact hlev) hf
  obtain ⟨h1, h2, h3⟩ := hrest (by omega)
  refine ⟨t, log, levels, hrun, ?_, hlev.symm, hl6, hl8, hlevel, h1, h2, h3⟩
  unfold lngx_radix_tree_create
  rw [hrun]

/-- An add-record call that returns keeps the tree well formed and the root
with a child. -/
theorem add_record_rooted (fuel : Nat) (hfuel : 32 ≤ fuel) (t : lngx_radix_tree_t)
    (hr : Rooted t) (c : ins_call) (rc : Int) (t' : lngx_radix_tree_t)
    (hrun : add_record fuel t c = .ok (rc, t')) : Rooted t' := by
  obtain ⟨⟨F, h⟩, c0, hc0⟩ := hr
  have hlen := pfx_length_le c.key c.mask 32
  unfold add_record at hrun
  by_cases hocc : Occupied (obs t) (pfx c.key c.mask 32)
  · have hkid : ∃ c', child t.mem t.root c' ≠ 0 := by
      refine ⟨c0, ?_⟩
      have := (obs_child t [] c0 (by simpa [walk] using h.root_ne)).1 (by simpa using hc0)
      simpa [walk] using this
    obtain ⟨hbusy, t1, t2, F2, hdel, hins, _, _, _, _, hinv2, hobs2⟩ :=
      replace_spec t F h c.key c.mask c.value fuel hfuel hocc (Or.inr hkid)
    rw [hbusy] at hrun
    simp only [if_true] at hrun
    rw [hdel] at hrun
    simp only at hrun
    rw [hins] at hrun
    simp only [Except.ok.injEq, Prod.mk.injEq] at hrun
    obtain ⟨_, rfl⟩ := hrun
    refine ⟨⟨F2, hinv2⟩, c0, ?_⟩
    rw [hobs2]
    by_cases e : [c0] = pfx c.key c.mask 32
    · simp [e]
    · rw [if_neg e]; exact hc0
  · have hspec := insertL_spec t F h (pfx c.key c.mask 32) hlen c.value
    rw [← insert_eq_insertL] at hspec
    cases hins : lngx_radix32tree_insert t c.key c.mask c.value with
    | error e => rw [hins] at hrun; simp at hrun
    | ok p =>
      obtain ⟨rc1, t1⟩ := p
      obtain ⟨hrc, hobs1, _, _, _, _, F1, hinv1, _⟩ := hspec.2.2 _ _ hins hocc
      rw [hins] at hrun
      simp only [hrc, show ¬ NGX_OK = NGX_BUSY by decide, if_false, Except.ok.injEq,
        Prod.mk.injEq] at hrun
      obtain ⟨_, rfl⟩ := hrun
      refine ⟨⟨F1, hinv1⟩, c0, ?_⟩
      rw [hobs1]
      unfold insO
      by_cases e1 : [c0] = pfx c.key c.mask 32
      · simp [e1]
      · rw [if_neg e1]
        by_cases e2 : [c0] <+: pfx c.key c.mask 32 ∧ obs t [c0] = none
        · simp [e2]
        · rw [if_neg e2]; exact hc0

theorem run_records_rooted (fuel : Nat) (hfuel : 32 ≤ fuel) :
    ∀ (cs : List ins_call) (t : lngx_radix_tree_t) (rcs : List Int) (t' : lngx_radix_tree_t),
      Rooted t → run_records fuel t cs = .ok (rcs, t') → Rooted t' := by
  intro cs
  induction cs with
  | nil =>
    intro t rcs t' hr hrun
    simp only [run_records, Except.ok.injEq, Prod.mk.injEq] at hrun
    exact hrun.2 ▸ hr
  | cons c cs ih =>
    intro t rcs t' hr hrun
    rw [run_records] at hrun
    cases h1 : add_record fuel t c with
    | error e => rw [h1] at hrun; simp at hrun
    | ok p =>
      obtain ⟨rc, t1⟩ := p
      rw [h1] at hrun
      simp only at hrun
      cases h2 : run_records fuel t1 cs with
      | error e => rw [h2] at hrun; simp at hrun
      | ok q =>
        obtain ⟨rcs1, t2⟩ := q
        rw [h2] at hrun
        simp only [Except.ok.injEq, Prod.mk.injEq] at hrun
        obtain ⟨_, rfl⟩ := hrun
        exact ih t1 rcs1 t2 (add_record_rooted fuel hfuel t hr c rc t1 h1) h2

/-- An add-record call on a well-formed tree whose root has a child and whose
allocator does not fail: it returns `NGX_OK` and the prefix holds the value. -/
theorem add_record_spec (fuel : Nat) (hfuel : 32 ≤ fuel) (t : lngx_radix_tree_t)
    (hr : Rooted t) (hnf : NoFail t) (c : ins_call) :
    ∃ t', add_record fuel t c = .ok (NGX_OK, t') ∧ Rooted t' ∧ NoFail t' ∧
      obs t' (pfx c.key c.mask 32) = some c.value := by
  obtain ⟨⟨F, h⟩, c0, hc0⟩ := hr
  by_cases hocc : Occupied (obs t) (pfx c.key c.mask 32)
  · have hkid : ∃ c', child t.mem t.root c' ≠ 0 := by
      refine ⟨c0, ?_⟩
      have := (obs_child t [] c0 (by simpa [walk] using h.root_ne)).1 (by simpa using hc0)
      simpa [walk] using this
    obtain ⟨hbusy, t1, t2, F2, hdel, hins, _, ha, _, _, _, hobs2⟩ :=
      replace_spec t F h c.key c.mask c.value fuel hfuel hocc (Or.inr hkid)
    have hrun : add_record fuel t c = .ok (NGX_OK, t2) := by
      unfold add_record
      simp only [hbusy, if_true, hdel, hins]
    refine ⟨t2, hrun, add_record_rooted fuel hfuel t ⟨⟨F, h⟩, c0, hc0⟩ c _ t2 hrun, ?_, ?_⟩
    · intro i hi
      rw [ha] at hi ⊢
      exact hnf i hi
    · rw [hobs2, if_pos rfl]
  · have hspec := insertL_spec t F h (pfx c.key c.mask 32) (pfx_length_le _ _ 32) c.value
    rw [← insert_eq_insertL] at hspec
    obtain ⟨t1, hins⟩ := hspec.2.1 hocc (Or.inl hnf)
    obtain ⟨_, hobs1, _, _, hoom, hcalls, _⟩ := hspec.2.2 _ _ hins hocc
    have hrun : add_record fuel t c = .ok (NGX_OK, t1) := by
      unfold add_record
      simp only [hins, show ¬ NGX_OK = NGX_BUSY by decide, if_false]
    refine ⟨t1, hrun, add_record_rooted fuel hfuel t ⟨⟨F, h⟩, c0, hc0⟩ c _ t1 hrun,
      NoFail_alloc t hnf t1 hoom hcalls, ?_⟩
    rw [hobs1]
    simp [insO]

/-- An allocation from the slab: the free list is empty and the slab has room
for a node. -/
theorem alloc_slab (t : lngx_radix_tree_t) (hf : t.free = 0) (hs : sizeof_node ≤ t.size)
    (hlt : t.size < 2 ^ 64) (p : Nat) (t1 : lngx_radix_tree_t)
    (hal : lngx_radix_alloc t = .ok (p, t1)) :
    p = t.start ∧ t1.a = t.a ∧ t1.size + sizeof_node = t.size ∧ t1.free = 0 := by
  unfold lngx_radix_alloc at hal
  have hs' : ¬ t.size < sizeof_node := by omega
  simp only [hf, ne_eq, not_true_eq_false, if_false, hs', Except.ok.injEq, Prod.mk.injEq] at hal
  obtain ⟨rfl, rfl⟩ := hal
  refine ⟨rfl, rfl, ?_, rfl⟩
  show (t.size + 2 ^ 64 - sizeof_node) % 2 ^ 64 + sizeof_node = t.size
  simp only [sizeof_node] at hs ⊢
  omega

theorem free_list_empty (t : lngx_radix_tree_t) (F : List Nat) (h : Inv t F) (hf : t.free = 0) :
    F = [] := by
  cases F with
  | nil => rfl
  | cons q F =>
    obtain ⟨h1, h2, _⟩ := h.chain
    exact absurd (h1.symm.trans hf) h2

/-- The second loop of insert adds one node for every bit of the path that is
left; with an empty free list and room in the slab for all of them it takes
them from the slab and does not call the allocator. -/
theorem buildL_count : ∀ (rest σ : List Bool) (t : lngx_radix_tree_t) (F : List Nat)
    (node : Nat), Inv t F → walk t.mem t.root σ = node → node ≠ 0 →
    (∀ b bs, rest = b :: bs → child t.mem node b = 0) →
    σ.length + rest.length ≤ 32 →
    ∀ o t', buildL rest t node = .ok (o, t') →
      node_count t' = node_count t + rest.length ∧
      (t.free = 0 → sizeof_node * rest.length ≤ t.size →
        t'.a = t.a ∧ t'.size + sizeof_node * rest.length = t.size ∧ t'.free = 0) := by
  intro rest
  induction rest with
  | nil =>
    intro σ t F node _ _ _ _ _ o t' hb
    simp only [buildL, Except.ok.injEq, Prod.mk.injEq] at hb
    obtain ⟨_, rfl⟩ := hb
    exact ⟨rfl, fun hf _ => ⟨rfl, rfl, hf⟩⟩
  | cons b bs ih =>
    intro σ t F node h hnode hn0 hc hlen o t' hb
    have hcb : child t.mem node b = 0 := hc b bs rfl
    simp only [List.length_cons] at hlen
    rw [buildL_cons] at hb
    cases hal : lngx_radix_alloc t with
    | error e => rw [hal] at hb; simp at hb
    | ok res =>
      obtain ⟨next, t1⟩ := res
      rw [hal] at hb
      obtain ⟨hnext, hm, hr, _, _, _, hfresh, hbelow, F1, hinv1, hF1, _, _⟩ :=
        alloc_spec t F h next t1 hal
      simp only [hnext, if_false] at hb
      have hnode1 : walk t1.mem t1.root σ = node := by rw [hm, hr]; exact hnode
      have hcb1 : child t1.mem node b = 0 := by rw [hm]; exact hcb
      have hfresh1 : ∀ π, walk t1.mem t1.root π ≠ next := by rw [hm, hr]; exact hfresh
      have hinv2 := link_inv t1 F1 hinv1 σ b node next hnode1 hn0 hcb1 hnext hfresh1 hF1
        hbelow (by omega)
      have hw2 := link_walk t1 F1 hinv1 σ b node next hnode1 hn0 hcb1 hnext hfresh1 (σ ++ [b])
      simp only [if_true] at hw2
      have hne : next ≠ node := fun e => hfresh1 σ (hnode1.trans e.symm)
      have hch : ∀ b' bs', bs = b' :: bs' → child (link t1 node next b).mem next b' = 0 := by
        intro b' _ _
        simp only [child]
        rw [link_mem_next t1 node next b hne]
        cases b' <;> rfl
      obtain ⟨hcnt, hslab⟩ := ih (σ ++ [b]) (link t1 node next b) F1 next hinv2 hw2 hnext hch
        (by simp; omega) o t' hb
      have hobsl := link_obs t1 F1 hinv1 σ b node next hnode1 hn0 hcb1 hnext hfresh1
      have hc1 : node_count (link t1 node next b) = node_count t1 + 1 := by
        apply node_count_add_one t1 _ (σ ++ [b]) (by simp; omega)
        · rw [obs_eq_none, walk_snoc, hnode1, if_neg hn0]
          exact hcb1
        · rw [hobsl (σ ++ [b]), if_pos rfl]
          simp
        · intro π hπ
          rw [hobsl π, if_neg hπ]
      have hc0 : node_count t1 = node_count t := by
        unfold node_count
        rw [hm, hr]
      refine ⟨by rw [hcnt, hc1, hc0, List.length_cons]; omega, ?_⟩
      intro hf hsz
      simp only [List.length_cons] at hsz
      obtain ⟨_, ha1, hs1, hf1⟩ := alloc_slab t hf (by
        have : sizeof_node * 1 ≤ sizeof_node * (bs.length + 1) :=
          Nat.mul_le_mul_left _ (by omega)
        omega) h.size_lt next t1 hal
      have hsl : (link t1 node next b).size = t1.size := rfl
      have hal' : (link t1 node next b).a = t1.a := rfl
      have hfl : (link t1 node next b).free = t1.free := rfl
      obtain ⟨ha', hs', hf'⟩ := hslab (by rw [hfl]; exact hf1) (by
        rw [hsl]
        have : sizeof_node * (bs.length + 1) = sizeof_node * bs.length + sizeof_node := by ring
        omega)
      refine ⟨by rw [ha', hal', ha1], ?_, hf'⟩
      rw [hsl] at hs'
      have : sizeof_node * (bs.length + 1) = sizeof_node * bs.length + sizeof_node := by ring
      simp only [List.length_cons]
      omega
/-- The node count after an insert that returned, and the slab after it when
the free list is empty and the slab has room. -/
theorem insert_count (t : lngx_radix_tree_t) (F : List Nat) (h : Inv t F) (key mask v : Nat)
    (rc : Int) (t1 : lngx_radix_tree_t)
    (hins : lngx_radix32tree_insert t key mask v = .ok (rc, t1)) :
    node_count t1 = node_count t + need t (pfx key mask 32) ∧
    (t.free = 0 → sizeof_node * need t (pfx key mask 32) ≤ t.size →
      t1.a = t.a ∧ t1.size + sizeof_node * need t (pfx key mask 32) = t.size ∧
      t1.free = 0) := by
  have hlen := pfx_length_le key mask 32
  obtain ⟨σ, rest, hκ, hd, hσ, hch⟩ := descend_spec t.mem (pfx key mask 32) t.root h.root_ne
  have hneed : need t (pfx key mask 32) = rest.length := by unfold need; rw [hd]
  rw [hneed]
  rw [insert_eq_insertL] at hins
  unfold insertL at hins
  rw [if_neg h.root_ne, hd] at hins
  cases rest with
  | nil =>
    have hκσ : pfx key mask 32 = σ := by simpa using hκ
    simp only at hins
    by_cases hv : (t.mem (walk t.mem t.root σ)).value ≠ NGX_RADIX_NO_VALUE
    · rw [if_pos hv] at hins
      simp only [Except.ok.injEq, Prod.mk.injEq] at hins
      obtain ⟨_, rfl⟩ := hins
      exact ⟨rfl, fun hf _ => ⟨rfl, rfl, hf⟩⟩
    · rw [if_neg hv] at hins
      simp only [Except.ok.injEq, Prod.mk.injEq] at hins
      obtain ⟨_, rfl⟩ := hins
      exact ⟨node_count_setValue t F h σ _ v rfl hσ, fun hf _ => ⟨rfl, rfl, hf⟩⟩
  | cons b bs =>
    have hlen' : σ.length + (b :: bs).length ≤ 32 := by
      rw [← List.length_append, ← hκ]; exact hlen
    simp only at hins
    cases hb : buildL (b :: bs) t (walk t.mem t.root σ) with
    | error e => rw [hb] at hins; simp at hins
    | ok res =>
      obtain ⟨o, t2⟩ := res
      rw [hb] at hins
      obtain ⟨last, F', ho, hinv', hlast, hl0, _⟩ :=
        (buildL_spec (b :: bs) σ t F _ h rfl hσ hch hlen').2 o t2 hb
      obtain ⟨hcnt, hslab⟩ := buildL_count (b :: bs) σ t F _ h rfl hσ hch hlen' o t2 hb
      subst ho
      simp only [Except.ok.injEq, Prod.mk.injEq] at hins
      obtain ⟨_, rfl⟩ := hins
      refine ⟨?_, ?_⟩
      · rw [← hcnt]
        exact node_count_setValue t2 F' hinv' _ last v hlast hl0
      · intro hf hsz
        exact hslab hf hsz

/-- The slab after the allocation of the root. -/
theorem base_size (a : lua_Alloc) (mem : Nat → lngx_radix_node_t) (origin : Nat → Nat)
    (ps : Nat) (hps : sizeof_node ≤ ps) (hps' : ps < 2 ^ 64) (root : Nat)
    (t1 : lngx_radix_tree_t)
    (hal : lngx_radix_alloc (header a mem origin ps) = .ok (root, t1)) (hroot : root ≠ 0) :
    t1.free = 0 ∧ t1.size + sizeof_node = ps := by
  unfold lngx_radix_alloc at hal
  have h1 : (header a mem origin ps).free = 0 := rfl
  have h2 : (header a mem origin ps).size < sizeof_node := by
    show 0 < sizeof_node
    decide
  simp only [h1, ne_eq, not_true_eq_false, if_false, h2, if_true] at hal
  cases hp : lngx_pmemalign (header a mem origin ps) (header a mem origin ps).lngx_pagesize
      (header a mem origin ps).lngx_pagesize with
  | error e => rw [hp] at hal; simp at hal
  | ok res =>
    obtain ⟨p, t0⟩ := res
    rw [hp] at hal
    simp only at hal
    have hfree0 : t0.free = 0 ∧ t0.lngx_pagesize = ps := by
      unfold lngx_pmemalign at hp
      simp only at hp
      by_cases hm : ((header a mem origin ps).a.alloc
          ((header a mem origin ps).lngx_pagesize + (header a mem origin ps).lngx_pagesize
            + sizeof_ptr)).1 = 0
      · rw [if_pos hm] at hp
        simp at hp
      · rw [if_neg hm] at hp
        simp only [Except.ok.injEq, Prod.mk.injEq] at hp
        obtain ⟨_, rfl⟩ := hp
        exact ⟨rfl, rfl⟩
    by_cases hp0 : p = 0
    · rw [if_pos hp0] at hal
      simp only [Except.ok.injEq, Prod.mk.injEq] at hal
      exact absurd hal.1.symm hroot
    · rw [if_neg hp0] at hal
      simp only [Except.ok.injEq, Prod.mk.injEq] at hal
      obtain ⟨_, rfl⟩ := hal
      refine ⟨hfree0.1, ?_⟩
      show (t0.lngx_pagesize + 2 ^ 64 - sizeof_node) % 2 ^ 64 + sizeof_node = ps
      rw [hfree0.2]
      simp only [sizeof_node] at hps ⊢
      omega

/-- As long as the trie has no more nodes than fit into a page, every tree
that `lngx_radix_tree_create` returns has all its nodes in the first page: the
free list is empty, the allocator was called twice (for the header and for the
page) and the room left in the page is the page less the nodes. -/
theorem create_one_slab (fuel : Nat) (a : lua_Alloc) (mem : Nat → lngx_radix_node_t)
    (origin : Nat → Nat) (ps0 gps : Nat) (hint : Int)
    (hps : sizeof_node ≤ (if ps0 = 0 then gps else ps0))
    (hps' : (if ps0 = 0 then gps else ps0) < 2 ^ 64) :
    ∀ t, lngx_radix_tree_create fuel a mem origin ps0 gps hint = .ok (some t) →
      sizeof_node * node_count t ≤ (if ps0 = 0 then gps else ps0) →
      t.free = 0 ∧ t.a.calls = a.calls + 2 ∧
      t.size + sizeof_node * node_count t = (if ps0 = 0 then gps else ps0) := by
  intro t ht
  have hP := create_pres
    (fun t => WF t ∧ (sizeof_node * node_count t ≤ (if ps0 = 0 then gps else ps0) →
      t.free = 0 ∧ t.a.calls = a.calls + 2 ∧
      t.size + sizeof_node * node_count t = (if ps0 = 0 then gps else ps0)))
    ?_ fuel a mem origin ps0 gps hint ?_ t ht
  · exact hP.2
  · rintro t key mask t1 ⟨⟨F, h⟩, hQ⟩ hins
    refine ⟨insert_wf_any t ⟨F, h⟩ key mask _ _ t1 hins, ?_⟩
    intro hcap
    obtain ⟨hcnt, hslab⟩ := insert_count t F h key mask _ _ t1 hins
    rw [hcnt] at hcap ⊢
    have hmul : sizeof_node * (node_count t + need t (pfx key mask 32))
        = sizeof_node * node_count t + sizeof_node * need t (pfx key mask 32) := by ring
    obtain ⟨hf, hc, hs⟩ := hQ (by omega)
    obtain ⟨ha1, hs1, hf1⟩ := hslab hf (by omega)
    refine ⟨hf1, by rw [ha1]; exact hc, ?_⟩
    omega
  · intro root t1 ha hal hroot
    obtain ⟨_, hinv, _, _, _, hcalls⟩ := base_spec a mem origin _ hps hps' root t1 ha hal
    obtain ⟨hf, hs⟩ := base_size a mem origin _ hps hps' root t1 hal hroot
    refine ⟨⟨[], hinv⟩, fun _ => ⟨hf, hcalls, ?_⟩⟩
    rw [node_count_set_root t1 root hroot]
    show t1.size + sizeof_node * 1 = _
    omega

/-- C1.  Longest-prefix match.  Let the allocator never fail and hand out
non-null addresses, and let the page size be at least the size of a node.  For
a hint of `-1` or more `lngx_radix_tree_create` returns a tree.  On a tree that
it returned, for any hint, every sequence of inserts of routes `key/len` with
`len ≤ 32`, contiguous masks and real values returns, and afterwards find with
a lookup key `k` returns the value of the longest route covering `k` among the
routes whose insert returned `NGX_OK`, and `NGX_RADIX_NO_VALUE` when none of
them covers `k`. -/
theorem longest_prefix_match (fuel : Nat) (a : lua_Alloc) (mem : Nat → lngx_radix_node_t)
    (origin : Nat → Nat) (ps0 gps : Nat) (hint : Int)
    (hnf : ∀ i, a.calls ≤ i → a.oom i = false) (hbrk : 0 < a.brk)
    (hps : sizeof_node ≤ (if ps0 = 0 then gps else ps0))
    (hps' : (if ps0 = 0 then gps else ps0) < 2 ^ 64) (hfuel : 2 ^ 32 ≤ fuel) :
    (-1 ≤ hint → ∃ t, lngx_radix_tree_create fuel a mem origin ps0 gps hint = .ok (some t)) ∧
    ∀ t, lngx_radix_tree_create fuel a mem origin ps0 gps hint = .ok (some t) →
      ∀ rs : List route, (∀ r ∈ rs, r.len ≤ 32 ∧ r.value ≠ NGX_RADIX_NO_VALUE) →
        ∃ rcs t', run_inserts t (rs.map call_of) = .ok (rcs, t') ∧ rcs.length = rs.length ∧
          ∀ k f, 33 ≤ f →
            ∃ x, lngx_radix32tree_find f t' k = .ok x ∧
              ((∃ r ∈ accepted rs rcs, covers r k ∧
                  (∀ r' ∈ accepted rs rcs, covers r' k → r'.len ≤ r.len) ∧ x = r.value) ∨
                ((∀ r ∈ accepted rs rcs, ¬ covers r k) ∧ x = NGX_RADIX_NO_VALUE)) := by
  obtain ⟨hex, hlevel⟩ := create_tree fuel a mem origin ps0 gps hint hnf hbrk hps hps' hfuel
  refine ⟨hex, ?_⟩
  intro t ht rs hrs
  obtain ⟨levels, hwf, hnf', hobs⟩ := hlevel t ht
  have hH : HoldsRoutes (obs t) [] := by
    refine ⟨?_, by simp, by simp⟩
    intro π
    constructor
    · rintro ⟨x, hx, hx'⟩
      rw [hobs π] at hx
      by_cases hπ : π.length ≤ min levels 32
      · rw [if_pos hπ] at hx
        simp only [Option.some.injEq] at hx
        exact absurd hx.symm hx'
      · rw [if_neg hπ] at hx
        exact absurd hx (by simp)
    · rintro ⟨r, hr, _⟩
      simp at hr
  obtain ⟨rcs, t', hrun, hl, hwf', _, hH'⟩ := run_routes rs t [] hwf hnf' hH hrs
  rw [List.nil_append] at hH'
  exact ⟨rcs, t', hrun, hl, fun k f hf => find_of_holds t' hwf' _ hH' k f hf⟩

/-- Overlap shadowing: on the tree created with the hint 0, after the inserts
of `10.0.0.0/8` with the value 1 and of `10.10.0.0/16` with the value 2, find
returns 2 for `10.10.5.5`, 1 for `10.5.5.5` and the sentinel for `11.0.0.0`. -/
theorem longest_prefix_match_witness :
    ∃ t rcs t', lngx_radix_tree_create (2 ^ 32) ex_alloc ex_mem ex_origin 0 4096 0
        = .ok (some t) ∧
      run_inserts t [call_of ⟨0x0a000000, 8, 1⟩, call_of ⟨0x0a0a0000, 16, 2⟩]
        = .ok (rcs, t') ∧
      rcs = [NGX_OK, NGX_OK] ∧
      lngx_radix32tree_find 33 t' 0x0a0a0505 = .ok 2 ∧
      lngx_radix32tree_find 33 t' 0x0a050505 = .ok 1 ∧
      lngx_radix32tree_find 33 t' 0x0b000000 = .ok NGX_RADIX_NO_VALUE := by
  obtain ⟨hex, hall⟩ := longest_prefix_match (2 ^ 32) ex_alloc ex_mem ex_origin 0 4096 0
    ex_alloc_ok (by decide) (by decide) (by decide) (le_refl _)
  obtain ⟨t, ht⟩ := hex (by decide)
  obtain ⟨rcs, t', hrun, _, hfind⟩ := hall t ht [⟨0x0a000000, 8, 1⟩, ⟨0x0a0a0000, 16, 2⟩]
    (by decide)
  have ht0 : lngx_radix_tree_create (2 ^ 32) ex_alloc ex_mem ex_origin 0 4096 0
      = .ok (some ex_tree0) := rfl
  have hte : t = ex_tree0 := by
    rw [ht0] at ht
    simp only [Except.ok.injEq, Option.some.injEq] at ht
    exact ht.symm
  have hcodes := eq_of_run_codes
    (run_inserts ex_tree0 [call_of ⟨0x0a000000, 8, 1⟩, call_of ⟨0x0a0a0000, 16, 2⟩])
    [NGX_OK, NGX_OK] (by decide!)
  have hrun' : run_inserts t [call_of ⟨0x0a000000, 8, 1⟩, call_of ⟨0x0a0a0000, 16, 2⟩]
      = .ok (rcs, t') := hrun
  have hrcs : rcs = [NGX_OK, NGX_OK] := by
    rw [hte, hcodes] at hrun'
    simp only [Except.ok.injEq, Prod.mk.injEq] at hrun'
    exact hrun'.1.symm
  subst hrcs
  have hacc : accepted [⟨0x0a000000, 8, 1⟩, ⟨0x0a0a0000, 16, 2⟩] [NGX_OK, NGX_OK]
      = [⟨0x0a000000, 8, 1⟩, ⟨0x0a0a0000, 16, 2⟩] := by
    simp [accepted]
  have hA1 : covers ⟨0x0a000000, 8, 1⟩ 0x0a0a0505 := by unfold covers; decide
  have hB1 : covers ⟨0x0a0a0000, 16, 2⟩ 0x0a0a0505 := by unfold covers; decide
  have hA2 : covers ⟨0x0a000000, 8, 1⟩ 0x0a050505 := by unfold covers; decide
  have hB2 : ¬ covers ⟨0x0a0a0000, 16, 2⟩ 0x0a050505 := by unfold covers; decide
  have hA3 : ¬ covers ⟨0x0a000000, 8, 1⟩ 0x0b000000 := by unfold covers; decide
  have hB3 : ¬ covers ⟨0x0a0a0000, 16, 2⟩ 0x0b000000 := by unfold covers; decide
  refine ⟨t, _, t', ht, hrun', rfl, ?_, ?_, ?_⟩
  · obtain ⟨x, hx, hcase⟩ := hfind 0x0a0a0505 33 (le_refl _)
    rw [hacc] at hcase
    rw [hx]
    rcases hcase with ⟨r, hr, _, hmax, hval⟩ | ⟨hno, _⟩
    · simp only [List.mem_cons, List.mem_singleton, List.not_mem_nil, or_false] at hr
      rcases hr with hr | hr
      · have := hmax ⟨0x0a0a0000, 16, 2⟩ (by simp) hB1
        rw [hr] at this
        exact absurd this (by decide)
      · rw [hval, hr]
    · exact absurd hA1 (hno _ (by simp))
  · obtain ⟨x, hx, hcase⟩ := hfind 0x0a050505 33 (le_refl _)
    rw [hacc] at hcase
    rw [hx]
    rcases hcase with ⟨r, hr, hc, _, hval⟩ | ⟨hno, _⟩
    · simp only [List.mem_cons, List.mem_singleton, List.not_mem_nil, or_false] at hr
      rcases hr with hr | hr
      · rw [hval, hr]
      · rw [hr] at hc
        exact absurd hc hB2
    · exact absurd hA2 (hno _ (by simp))
  · obtain ⟨x, hx, hcase⟩ := hfind 0x0b000000 33 (le_refl _)
    rw [hacc] at hcase
    rw [hx]
    rcases hcase with ⟨r, hr, hc, _, _⟩ | ⟨_, hval⟩
    · simp only [List.mem_cons, List.mem_singleton, List.not_mem_nil, or_false] at hr
      rcases hr with hr | hr
      · rw [hr] at hc
        exact absurd hc hA3
      · rw [hr] at hc
        exact absurd hc hB3
    · rw [hval]

/-- C2, failing input.  On the tree created with the hint 0 the insert of the
prefix of length 0 (mask 0) with the value 5 returns `NGX_OK` and find returns
5 for every key; the delete of that prefix then follows the null parent link
of the root instead of returning `NGX_OK`. -/
theorem delete_root_prefix_faults :
    lngx_radix32tree_insert ex_tree0 0 0 5 = .ok (NGX_OK, ex_tree_root) ∧
    lngx_radix32tree_find 33 ex_tree_root 0x0a010203 = .ok 5 ∧
    lngx_radix32tree_delete 33 ex_tree_root 0 0 = .error .nullDeref :=
  ⟨rfl, rfl, rfl⟩

/-- C3.  Duplicate rejection is atomic: when the terminal node of `(key, mask)`
(the node at the masked prefix of the key) exists and holds a real value,
`lngx_radix32tree_insert` returns `NGX_BUSY` and the state it leaves is the
state it was given: node memory, free list, slab cursor and allocator are
unchanged, hence so are the stored value and the results of find. -/
theorem insert_duplicate_busy (t : lngx_radix_tree_t) (key mask value : Nat)
    (hnode : walk t.mem t.root (pfx key mask 32) ≠ 0)
    (hval : (t.mem (walk t.mem t.root (pfx key mask 32))).value ≠ NGX_RADIX_NO_VALUE) :
    lngx_radix32tree_insert t key mask value = .ok (NGX_BUSY, t) := by
  have hroot : t.root ≠ 0 := by
    intro e
    rw [e, walk_zero] at hnode
    exact hnode rfl
  rw [insert_eq_insertL]
  unfold insertL
  rw [if_neg hroot, descend_of_walk t.mem _ t.root hnode]
  simp only [hval, ne_eq, not_false_eq_true, if_true]

/-- Witness of C3: in the tree that holds 10.0.0.0/8 with the value 5, a second
insert of 10.0.0.0/8 returns `NGX_BUSY` and leaves the tree as it is. -/
theorem insert_duplicate_busy_witness :
    walk ex_tree1.mem ex_tree1.root (pfx 0x0a000000 0xff000000 32) ≠ 0 ∧
    (ex_tree1.mem (walk ex_tree1.mem ex_tree1.root (pfx 0x0a000000 0xff000000 32))).value
      ≠ NGX_RADIX_NO_VALUE ∧
    lngx_radix32tree_insert ex_tree1 0x0a000000 0xff000000 9 = .ok (NGX_BUSY, ex_tree1) :=
  ⟨by decide, by decide,
    insert_duplicate_busy ex_tree1 0x0a000000 0xff000000 9 (by decide) (by decide)⟩

/-- C4.  Insert/find round trip with frame.  On a well-formed tree, let an
insert of a real value `v` under a mask with `L` leading one bits return
`NGX_OK`.  Then find returns, and for every lookup key `k`: if `k` differs from
`key` within the first `L` bits the result of find is what it was before the
insert; if `k` agrees with `key` on the first `L` bits the result is `v`,
unless the old tree had a node with a real value deeper than `L` on the path of
`k`, in which case the result is what it was before. -/
theorem insert_find_frame (t : lngx_radix_tree_t) (hwf : WF t) (key mask v : Nat)
    (hv : v ≠ NGX_RADIX_NO_VALUE) (t' : lngx_radix_tree_t)
    (hins : lngx_radix32tree_insert t key mask v = .ok (NGX_OK, t')) (k fuel : Nat)
    (hfuel : 33 ≤ fuel) :
    (∃ x, lngx_radix32tree_find fuel t k = .ok x) ∧
    ((bitsFrom k 32).take (pfx key mask 32).length
        ≠ (bitsFrom key 32).take (pfx key mask 32).length →
      lngx_radix32tree_find fuel t' k = lngx_radix32tree_find fuel t k) ∧
    ((bitsFrom k 32).take (pfx key mask 32).length
        = (bitsFrom key 32).take (pfx key mask 32).length →
      ((∃ j, (pfx key mask 32).length < j ∧ j ≤ 32 ∧
          Occupied (obs t) ((bitsFrom k 32).take j)) →
        lngx_radix32tree_find fuel t' k = lngx_radix32tree_find fuel t k) ∧
      (¬ (∃ j, (pfx key mask 32).length < j ∧ j ≤ 32 ∧
          Occupied (obs t) ((bitsFrom k 32).take j)) →
        lngx_radix32tree_find fuel t' k = .ok v)) := by
  obtain ⟨F, h⟩ := hwf
  obtain ⟨hf, hf'⟩ := find_after_insert t F h key mask v t' hins k fuel hfuel
  have hκ := pfx_eq_take_length key mask
  have hL := pfx_length_le key mask 32
  have hbk : (bitsFrom k 32).length = 32 := bitsFrom_length k 32
  -- beyond the first `L` bits the insert changes nothing on the path of `k`
  have hdeep : ∀ i, (pfx key mask 32).length < i → i ≤ 32 →
      insO (obs t) (pfx key mask 32) v ((bitsFrom k 32).take i)
        = obs t ((bitsFrom k 32).take i) := by
    intro i hi hi'
    unfold insO
    have hlen : ((bitsFrom k 32).take i).length = i := by
      rw [List.length_take, hbk]; omega
    have h1 : ¬ (bitsFrom k 32).take i = pfx key mask 32 := by
      intro e
      have := congrArg List.length e
      omega
    have h2 : ¬ ((bitsFrom k 32).take i <+: pfx key mask 32
        ∧ obs t ((bitsFrom k 32).take i) = none) := by
      rintro ⟨hp, _⟩
      have := hp.length_le
      omega
    rw [if_neg h1, if_neg h2]
  refine ⟨⟨_, hf⟩, ?_, ?_⟩
  · intro hne
    rw [hf, hf']
    apply congrArg
    apply lpmO_congr
    intro j hj c
    simp only [List.nil_append]
    rw [hbk] at hj
    unfold insO
    have hlen : ((bitsFrom k 32).take j).length = j := by
      rw [List.length_take, hbk]; omega
    have h1 : ¬ (bitsFrom k 32).take j = pfx key mask 32 := by
      intro e
      apply hne
      have hj' : j = (pfx key mask 32).length := by
        have := congrArg List.length e
        omega
      rw [← hκ, ← hj', e]
    rw [if_neg h1]
    by_cases h2 : (bitsFrom k 32).take j <+: pfx key mask 32
        ∧ obs t ((bitsFrom k 32).take j) = none
    · rw [if_pos h2, h2.2]
      simp [keep]
    · rw [if_neg h2]
  · intro heq
    have hat : (bitsFrom k 32).take (pfx key mask 32).length = pfx key mask 32 := by
      rw [heq, ← hκ]
    constructor
    · rintro ⟨j, hj, hj', hocc⟩
      rw [hf, hf']
      apply congrArg
      apply lpmO_tail _ _ (bitsFrom k 32) [] ((pfx key mask 32).length + 1) j _ _ (by omega)
        (by rw [hbk]; exact hj')
      · intro i hi hi'
        simp only [List.nil_append]
        rw [hbk] at hi'
        exact hdeep i (by omega) hi'
      · simp only [List.nil_append]
        obtain ⟨x, hx, hx'⟩ := hocc
        exact ⟨x, by rw [hdeep j hj hj']; exact hx, hx'⟩
    · intro hno
      rw [hf']
      apply congrArg
      apply lpmO_some _ (bitsFrom k 32) [] _ (pfx key mask 32).length v (by rw [hbk]; exact hL)
      · simp only [List.nil_append]
        rw [hat]
        simp [insO]
      · exact hv
      · intro i hi hi'
        simp only [List.nil_append]
        rw [hbk] at hi'
        rintro ⟨x, hx, hx'⟩
        rw [hdeep i hi hi'] at hx
        exact hno ⟨i, hi, hi', x, hx, hx'⟩

/-- Witness of C4: on the fresh tree the insert of 10.0.0.0/8 with the value 5
returns `NGX_OK`; afterwards find(10.1.2.3) is 5 and find(11.0.0.0) is the
sentinel. -/
theorem insert_find_frame_witness :
    WF ex_tree0 ∧
    lngx_radix32tree_insert ex_tree0 0x0a000000 0xff000000 5 = .ok (NGX_OK, ex_tree1) ∧
    lngx_radix32tree_find 33 ex_tree1 0x0a010203 = .ok 5 ∧
    lngx_radix32tree_find 33 ex_tree1 0x0b000000 = .ok NGX_RADIX_NO_VALUE := by
  have hins : lngx_radix32tree_insert ex_tree0 0x0a000000 0xff000000 5
      = .ok (NGX_OK, ex_tree1) := by rfl
  have hL : (pfx 0x0a000000 0xff000000 32).length = 8 := by decide
  have h1 := insert_find_frame ex_tree0 ex_tree0_level.1 0x0a000000 0xff000000 5 (by decide)
    ex_tree1 hins 0x0a010203 33 (le_refl _)
  have h2 := insert_find_frame ex_tree0 ex_tree0_level.1 0x0a000000 0xff000000 5 (by decide)
    ex_tree1 hins 0x0b000000 33 (le_refl _)
  refine ⟨ex_tree0_level.1, hins, ?_, ?_⟩
  · apply (h1.2.2 (by rw [hL]; decide)).2
    rintro ⟨j, hj, hj', x, hx, _⟩
    rw [ex_tree0_obs _ (by
      intro e
      have := congrArg List.length e
      rw [List.length_take, bitsFrom_length, hL] at *
      simp at this
      omega)] at hx
    exact absurd hx (by simp)
  · rw [h2.2.1 (by rw [hL]; decide)]
    rfl

/-- C5, failing input.  In the tree created with the hint 1 the prefix 0/1 has
a node that holds the sentinel; the delete of that prefix returns `NGX_OK`,
not `NGX_ERROR`, and the node is gone from the trie afterwards. -/
theorem delete_sentinel_leaf_ok :
    walk ex_tree_warm.mem ex_tree_warm.root (pfx 0 0x80000000 32) ≠ 0 ∧
    (ex_tree_warm.mem (walk ex_tree_warm.mem ex_tree_warm.root (pfx 0 0x80000000 32))).value
      = NGX_RADIX_NO_VALUE ∧
    lngx_radix32tree_delete 33 ex_tree_warm 0 0x80000000
      = .ok (NGX_OK, tree_after (lngx_radix32tree_delete 33 ex_tree_warm 0 0x80000000)) ∧
    walk (tree_after (lngx_radix32tree_delete 33 ex_tree_warm 0 0x80000000)).mem
      (tree_after (lngx_radix32tree_delete 33 ex_tree_warm 0 0x80000000)).root
      (pfx 0 0x80000000 32) = 0 :=
  ⟨by decide, by decide, rfl, by decide⟩

/-- C6, failing input.  On the tree created with the hint 0, whose root has no
children, a delete with mask 0 follows the null parent link of the root, in
the 32-bit and in the 128-bit function. -/
theorem delete_childless_root_faults :
    lngx_radix32tree_delete 33 ex_tree0 0 0 = .error .nullDeref ∧
    lngx_radix128tree_delete 33 ex_tree0 (List.replicate 16 0) (List.replicate 16 0)
      = .error .nullDeref :=
  ⟨rfl, rfl⟩

/-- C7, counterexample.  The tree `ex_tree_full` is well formed and strict, the
mask `0xffffffff` has a leading one bit, the prefix `32.0.0.0/32` holds no
value and 5 is a real value; but the page of the tree has one node left, the
free list is empty and the allocator fails, so the insert, which needs 30
nodes, does not return `NGX_OK`: it ends in the store that `lngx_pmemalign`
makes in front of the page it did not get. -/
theorem full_page_insert_faults :
    WF ex_tree_full ∧ Strict ex_tree_full ∧ (0xffffffff : Nat).testBit 31 = true ∧
    ¬ Occupied (obs ex_tree_full) (pfx 0x20000000 0xffffffff 32) ∧
    (5 : Nat) ≠ NGX_RADIX_NO_VALUE ∧
    need ex_tree_full (pfx 0x20000000 0xffffffff 32) = 30 ∧
    ex_tree_full.free = 0 ∧ ex_tree_full.size = sizeof_node ∧
    ex_tree_full.a.oom ex_tree_full.a.calls = true ∧
    lngx_radix32tree_insert ex_tree_full 0x20000000 0xffffffff 5 = .error .wildStore := by
  refine ⟨ex_tree_full_spec.1, ex_tree_full_spec.2, by decide, ?_, by decide, by decide!,
    by decide!, by decide!, by decide!, ?_⟩
  · rintro ⟨x, hx, _⟩
    have h0 : walk ex_tree_full.mem ex_tree_full.root (pfx 0x20000000 0xffffffff 32) = 0 := by
      decide!
    rw [(obs_eq_none _ _).2 h0] at hx
    exact absurd hx (by simp)
  · exact eq_of_fault_of _ _ (by decide!)

/-- C7, as amended.  On a well-formed tree in which every reachable node other
than the root has a child or a real value, take a key and a mask with a
leading one bit whose prefix holds no real value, and a real value `v`.  When
the allocator does not fail, or the free list covers the nodes needed, the
insert returns `NGX_OK`; and whenever the insert returns, it returns `NGX_OK`,
the delete of the same prefix returns `NGX_OK`, the trie holds at every path
what it held before the insert, the number of reachable nodes is what it was,
and every node that the insert created is on the free list. -/
theorem insert_delete_baseline (t : lngx_radix_tree_t) (F : List Nat) (h : Inv t F)
    (hstrict : Strict t) (key mask v fuel : Nat) (hmask : mask.testBit 31 = true)
    (hfree : ¬ Occupied (obs t) (pfx key mask 32)) (hv : v ≠ NGX_RADIX_NO_VALUE)
    (hfuel : 32 ≤ fuel) :
    (NoFail t ∨ need t (pfx key mask 32) ≤ F.length →
      ∃ t1, lngx_radix32tree_insert t key mask v = .ok (NGX_OK, t1)) ∧
    ∀ rc t1, lngx_radix32tree_insert t key mask v = .ok (rc, t1) →
      rc = NGX_OK ∧
      ∃ t2 F2, lngx_radix32tree_delete fuel t1 key mask = .ok (NGX_OK, t2) ∧
        obs t2 = obs t ∧ node_count t2 = node_count t ∧ Inv t2 F2 ∧
        ∀ π, obs t π = none → walk t1.mem t1.root π ≠ 0 → walk t1.mem t1.root π ∈ F2 := by
  have hne : pfx key mask 32 ≠ [] := by
    simp [pfx, hmask]
  constructor
  · intro hmem
    have := (insertL_spec t F h (pfx key mask 32) (pfx_length_le key mask 32) v).2.1 hfree hmem
    rw [← insert_eq_insertL] at this
    exact this
  · intro rc t1 hins
    exact insert_then_delete t F h hstrict key mask v fuel hne hfree hv hfuel rc t1 hins

/-- The insert of `10.0.0.0/8` into the tree created with the hint 0, followed
by the delete of `10.0.0.0/8`: both return `NGX_OK` and the trie is the lone
root again. -/
theorem insert_delete_baseline_witness :
    ∃ t1 t2, lngx_radix32tree_insert ex_tree0 0x0a000000 0xff000000 5 = .ok (NGX_OK, t1) ∧
      lngx_radix32tree_delete 32 t1 0x0a000000 0xff000000 = .ok (NGX_OK, t2) ∧
      obs t2 = obs ex_tree0 ∧ node_count t2 = node_count ex_tree0 := by
  obtain ⟨F, h⟩ := ex_tree0_level.1
  have hs : Strict ex_tree0 := strict_of_root_only ex_tree0 ex_tree0_obs
  have hfree : ¬ Occupied (obs ex_tree0) (pfx 0x0a000000 0xff000000 32) := by
    rintro ⟨x, hx, _⟩
    rw [ex_tree0_obs _ (by decide)] at hx
    exact absurd hx (by simp)
  obtain ⟨h1, h2⟩ := insert_delete_baseline ex_tree0 F h hs 0x0a000000 0xff000000 5 32
    (by decide) hfree (by decide) (le_refl _)
  obtain ⟨t1, hins⟩ := h1 (Or.inl ex_tree0_level.2.1)
  obtain ⟨_, t2, F2, hdel, hobs, hcount, _⟩ := h2 _ _ hins
  exact ⟨t1, t2, hins, hdel, hobs, hcount⟩

/-- C8.  Arena reuse.  On a well-formed tree whose free list is `F` (most
recently recycled node first): (1) when the free list is not empty,
`lngx_radix_alloc` returns its head, the free list of the resulting tree is
the tail, and the allocator (its call counter included), the slab cursor and
the remaining capacity are unchanged; (2) a delete that returns puts the nodes
it removed from the trie in front of the free list, as many as the node count
went down; (3) a run of inserts that needs no more node allocations than the
free list is long returns with the allocator, the slab cursor and the capacity
unchanged, the free list shortened by the nodes used. -/
theorem arena_reuse (t : lngx_radix_tree_t) (F : List Nat) (h : Inv t F) :
    (t.free ≠ 0 → ∃ F1 t1, F = t.free :: F1 ∧ lngx_radix_alloc t = .ok (t.free, t1) ∧
      Inv t1 F1 ∧ t1.a = t.a ∧ t1.start = t.start ∧ t1.size = t.size) ∧
    (∀ (fuel key mask : Nat) (rc : Int) (t' : lngx_radix_tree_t), 32 ≤ fuel →
      lngx_radix32tree_delete fuel t key mask = .ok (rc, t') →
      ∃ R, Inv t' (R ++ F) ∧ R.length + node_count t' = node_count t ∧ t'.a = t.a ∧
        t'.start = t.start ∧ t'.size = t.size) ∧
    (∀ cs, need_seq t cs ≤ F.length →
      ∃ rcs t', run_inserts t cs = .ok (rcs, t') ∧ t'.a = t.a ∧ t'.start = t.start ∧
        t'.size = t.size ∧ Inv t' (F.drop (need_seq t cs))) := by
  refine ⟨?_, ?_, ?_⟩
  · intro hf
    have hal : lngx_radix_alloc t = .ok (t.free, { t with free := (t.mem t.free).right }) := by
      unfold lngx_radix_alloc
      rw [if_pos hf]
    obtain ⟨_, _, _, _, _, _, _, _, F1, hinv, _, hfree, _⟩ := alloc_spec t F h _ _ hal
    obtain ⟨hF, ha, hs, hz⟩ := hfree hf
    exact ⟨F1, _, hF, hal, hinv, ha, hs, hz⟩
  · intro fuel key mask rc t' hfuel hdel
    exact delete_recycles t F h fuel key mask hfuel rc t' hdel
  · intro cs hneed
    exact run_inserts_reuse cs t F h hneed

/-- The tree that held `10.0.0.0/8` after the delete of that prefix: the eight
nodes are on the free list, the next allocation returns the head of the list,
and the insert of `10.0.0.0/8` again makes no call to the allocator. -/
theorem arena_reuse_witness :
    ∃ F, Inv ex_tree_del F ∧ F.length = 8 ∧ ex_tree_del.free ≠ 0 ∧
      (∃ F1 t1, F = ex_tree_del.free :: F1 ∧
        lngx_radix_alloc ex_tree_del = .ok (ex_tree_del.free, t1) ∧ Inv t1 F1 ∧
        t1.a = ex_tree_del.a ∧ t1.start = ex_tree_del.start ∧ t1.size = ex_tree_del.size) ∧
      ∃ rcs t', run_inserts ex_tree_del [⟨0x0a000000, 0xff000000, 5⟩] = .ok (rcs, t') ∧
        t'.a = ex_tree_del.a ∧ t'.start = ex_tree_del.start ∧ t'.size = ex_tree_del.size ∧
        Inv t' (F.drop 8) := by
  obtain ⟨F0, h0⟩ := ex_tree0_level.1
  have hF0 : F0 = [] := by
    cases F0 with
    | nil => rfl
    | cons q F =>
      have hc := h0.chain
      exact absurd hc.1.symm hc.2.1
  subst hF0
  have hins : lngx_radix32tree_insert ex_tree0 0x0a000000 0xff000000 5
      = .ok (NGX_OK, ex_tree1) := by rfl
  have hfree : ¬ Occupied (obs ex_tree0) (pfx 0x0a000000 0xff000000 32) := by
    rintro ⟨x, hx, _⟩
    rw [ex_tree0_obs _ (by decide)] at hx
    exact absurd hx (by simp)
  rw [insert_eq_insertL] at hins
  obtain ⟨_, _, _, _, _, _, F1, h1, hF1⟩ :=
    (insertL_spec ex_tree0 [] h0 _ (pfx_length_le _ _ 32) 5).2.2 _ _ hins hfree
  have hdel : lngx_radix32tree_delete 32 ex_tree1 0x0a000000 0xff000000
      = .ok (NGX_OK, ex_tree_del) :=
    eq_of_return_code _ _ (by decide!)
  obtain ⟨R, h2, hcount, _⟩ :=
    (arena_reuse ex_tree1 F1 h1).2.1 32 0x0a000000 0xff000000 NGX_OK ex_tree_del
      (le_refl _) hdel
  have hc1 : node_count ex_tree1 = 9 := by decide!
  have hc2 : node_count ex_tree_del = 1 := by decide!
  have hfl : ex_tree_del.free ≠ 0 := by decide!
  have hF1nil : F1 = [] := by
    cases F1 with
    | nil => rfl
    | cons q F =>
      have hc := h1.chain
      have hz : ex_tree1.free = 0 := by decide!
      exact absurd (hc.1.symm.trans hz) hc.2.1
  subst hF1nil
  rw [List.append_nil] at h2
  have hR : R.length = 8 := by omega
  have hneed : need_seq ex_tree_del [⟨0x0a000000, 0xff000000, 5⟩] = 8 := by decide!
  obtain ⟨hA, _, hC⟩ := arena_reuse ex_tree_del R h2
  have hrun := hC [⟨0x0a000000, 0xff000000, 5⟩] (by rw [hneed, hR])
  rw [hneed] at hrun
  exact ⟨R, h2, hR, hfl, hA hfl, hrun⟩

/-- C9.  128-bit parity.  Let `key16 key` and `key16 mask` be the 16-byte
arrays that carry the big-endian bytes of a 32-bit key and mask in front of
twelve zero bytes.  On one and the same tree the 128-bit insert returns what
the 32-bit insert returns (status and resulting tree, or the same fault), and
so does the 128-bit delete for every bound on its pruning loop.  The two find
loops run in step for the first 128 rounds, so the finds agree whenever they
are given at most 128 rounds, and on a well-formed tree (depth at most 32) they
agree for every number of rounds; with at least 33 rounds both return the
longest-prefix match of the key. -/
theorem parity_128_32 (t : lngx_radix_tree_t) (key mask v fuel : Nat) :
    lngx_radix128tree_insert t (key16 key) (key16 mask) v
        = lngx_radix32tree_insert t key mask v ∧
    lngx_radix128tree_delete fuel t (key16 key) (key16 mask)
        = lngx_radix32tree_delete fuel t key mask ∧
    (fuel ≤ 128 ∨ WF t →
      lngx_radix128tree_find fuel t (key16 key) = lngx_radix32tree_find fuel t key) ∧
    (WF t → 33 ≤ fuel →
      ∃ x, lngx_radix128tree_find fuel t (key16 key) = .ok x ∧
        lngx_radix32tree_find fuel t key = .ok x) := by
  refine ⟨?_, ?_, ?_, ?_⟩
  · rw [insert128_eq_insertL, insert_eq_insertL]
  · rw [delete128_eq, delete_eq]
  · intro h
    by_cases hf : fuel ≤ 128
    · exact find128_eq_find t key fuel hf
    · rcases h with h | ⟨F, hF⟩
      · exact absurd h hf
      · rw [find128_spec t F hF key fuel (by omega), find_spec t F hF key fuel (by omega)]
  · rintro ⟨F, hF⟩ hfuel
    exact ⟨_, find128_spec t F hF key fuel hfuel, find_spec t F hF key fuel hfuel⟩

/-- The parity of the two widths on the tree that holds `10.0.0.0/8`, for the
lookup of `10.1.2.3` with 200 rounds. -/
theorem parity_128_32_witness :
    WF ex_tree1 ∧ 33 ≤ 200 ∧
    lngx_radix128tree_find 200 ex_tree1 (key16 0x0a010203)
      = lngx_radix32tree_find 200 ex_tree1 0x0a010203 ∧
    ∃ x, lngx_radix128tree_find 200 ex_tree1 (key16 0x0a010203) = .ok x ∧
      lngx_radix32tree_find 200 ex_tree1 0x0a010203 = .ok x :=
  ⟨ex_tree1_wf, by decide,
    (parity_128_32 ex_tree1 0x0a010203 0 0 200).2.2.1 (Or.inr ex_tree1_wf),
    (parity_128_32 ex_tree1 0x0a010203 0 0 200).2.2.2 ex_tree1_wf (by decide)⟩

/-- C10.  Warm-up shape.  Let the allocator never fail and hand out non-null
addresses, and let the page size be at least the size of a node.  For a hint
`K` with `1 ≤ K ≤ 32`, `lngx_radix_tree_create` returns a tree after exactly
`2^1 + ... + 2^K` calls of insert; each of the calls returned `NGX_OK` and
added one node; the trie has a node holding the sentinel at every path of
length at most `K` and no other node, `2^(K+1) - 1` nodes in all, and find
returns `NGX_RADIX_NO_VALUE` for every key.  With the hint 0 no insert is
called and the tree is a root that holds the sentinel and has no children and
no parent. -/
theorem create_warm_shape (fuel : Nat) (a : lua_Alloc) (mem : Nat → lngx_radix_node_t)
    (origin : Nat → Nat) (ps0 gps K : Nat)
    (hnf : ∀ i, a.calls ≤ i → a.oom i = false) (hbrk : 0 < a.brk)
    (hps : sizeof_node ≤ (if ps0 = 0 then gps else ps0))
    (hps' : (if ps0 = 0 then gps else ps0) < 2 ^ 64)
    (hK1 : 1 ≤ K) (hK : K ≤ 32) (hfuel : 2 ^ K ≤ fuel) :
    (∃ t log, lngx_radix_tree_create_log fuel a mem origin ps0 gps (K : Int)
        = (.ok (some t), log) ∧
      lngx_radix_tree_create fuel a mem origin ps0 gps (K : Int) = .ok (some t) ∧
      log.length = ∑ j ∈ Finset.range K, 2 ^ (j + 1) ∧
      (∀ c ∈ log, AddsOne c) ∧
      WF t ∧
      (∀ π, obs t π = if π.length ≤ K then some NGX_RADIX_NO_VALUE else none) ∧
      node_count t = 2 ^ (K + 1) - 1 ∧
      ∀ key f, 33 ≤ f → lngx_radix32tree_find f t key = .ok NGX_RADIX_NO_VALUE) ∧
    (∃ t0, lngx_radix_tree_create_log fuel a mem origin ps0 gps 0 = (.ok (some t0), []) ∧
      lngx_radix_tree_create fuel a mem origin ps0 gps 0 = .ok (some t0) ∧
      WF t0 ∧ node_count t0 = 1 ∧ t0.root ≠ 0 ∧
      (t0.mem t0.root).right = 0 ∧ (t0.mem t0.root).left = 0 ∧
      (t0.mem t0.root).parent = 0 ∧ (t0.mem t0.root).value = NGX_RADIX_NO_VALUE) := by
  have hminK : min K 32 = K := Nat.min_eq_left hK
  have hpos : 1 ≤ 2 ^ K := Nat.one_le_two_pow
  constructor
  · have hlev : (if (K : Int) = -1 then auto_levels (if ps0 = 0 then gps else ps0)
        else (K : Int)) = (K : Int) := by
      rw [if_neg (by omega)]
    obtain ⟨t, log, hrun, hlevel, _, hrest⟩ :=
      create_spec fuel a mem origin ps0 gps (K : Int) K hnf hbrk hps hps' hlev
        (by rw [hminK]; exact hfuel)
    obtain ⟨hlen, hcnt, hadd⟩ := hrest hK
    have hsum := sum_pow_two K
    have hobs : ∀ π, obs t π = if π.length ≤ K then some NGX_RADIX_NO_VALUE else none := by
      intro π
      rw [hlevel.2.2 π, hminK]
    refine ⟨t, log, hrun, ?_, by omega, hadd, hlevel.1, hobs, by omega, ?_⟩
    · unfold lngx_radix_tree_create
      rw [hrun]
    · intro key f hf
      apply find_no_value t hlevel.1 _ key f hf
      rintro π ⟨x, hx, hx'⟩
      rw [hobs π] at hx
      by_cases hπ : π.length ≤ K
      · rw [if_pos hπ] at hx
        simp only [Option.some.injEq] at hx
        exact hx' hx.symm
      · rw [if_neg hπ] at hx
        exact absurd hx (by simp)
  · have hlev : (if (0 : Int) = -1 then auto_levels (if ps0 = 0 then gps else ps0)
        else (0 : Int)) = ((0 : Nat) : Int) := by
      rw [if_neg (by decide)]; rfl
    obtain ⟨t0, log, hrun, hlevel, _, hrest⟩ :=
      create_spec fuel a mem origin ps0 gps 0 0 hnf hbrk hps hps' hlev (by simpa using by omega)
    obtain ⟨hlen, hcnt, _⟩ := hrest (by omega)
    have hlog : log = [] := by
      apply List.eq_nil_of_length_eq_zero
      simp only [Nat.zero_add, pow_one] at hlen
      omega
    subst hlog
    obtain ⟨h1, h2, h3, h4, h5⟩ := root_of_level_zero t0 hlevel
    refine ⟨t0, hrun, ?_, hlevel.1, by simpa using hcnt, h1, h2, h3, h4, h5⟩
    unfold lngx_radix_tree_create
    rw [hrun]

/-- The warm-up with the hint 2 on pages of 4096 bytes: six inserts, seven
nodes, and the lone root for the hint 0. -/
theorem create_warm_shape_witness :
    (∃ t log, lngx_radix_tree_create_log 4 ex_alloc ex_mem ex_origin 0 4096 2
        = (.ok (some t), log) ∧
      log.length = 6 ∧ (∀ c ∈ log, AddsOne c) ∧ node_count t = 7 ∧
      lngx_radix32tree_find 33 t 0x0a010203 = .ok NGX_RADIX_NO_VALUE) ∧
    ∃ t0, lngx_radix_tree_create 4 ex_alloc ex_mem ex_origin 0 4096 0 = .ok (some t0) ∧
      node_count t0 = 1 := by
  obtain ⟨⟨t, log, hrun, _, hlen, hadd, _, _, hcnt, hfind⟩, ⟨t0, _, hrun0, _, hcnt0, _⟩⟩ :=
    create_warm_shape 4 ex_alloc ex_mem ex_origin 0 4096 2 ex_alloc_ok (by decide) (by decide)
      (by decide) (by decide) (by decide) (by decide)
  refine ⟨⟨t, log, hrun, ?_, hadd, ?_, hfind _ 33 (le_refl _)⟩, t0, hrun0, hcnt0⟩
  · rw [hlen]; decide
  · rw [hcnt]; decide

/-- C11, failing input.  When the allocator fails for the tree header,
`lngx_radix_tree_create` returns `NULL`.  When it serves the header and fails
for the page of the root, `lngx_radix_alloc` does not return `NULL` and
`lngx_radix_tree_create` does not return `NULL`: both end in the store that
`lngx_pmemalign` makes through `ptr[-1]`, with `ptr` computed from the null
block. -/
theorem create_slab_failure_faults :
    lngx_radix_tree_create 1 ex_alloc_zero ex_mem ex_origin 0 4096 0 = .ok none ∧
    lngx_pmemalign (header ex_alloc_one ex_mem ex_origin 4096) 4096 4096
      = .error .wildStore ∧
    lngx_radix_alloc (header ex_alloc_one ex_mem ex_origin 4096) = .error .wildStore ∧
    lngx_radix_tree_create 1 ex_alloc_one ex_mem ex_origin 0 4096 0 = .error .wildStore :=
  ⟨rfl, rfl, rfl, rfl⟩

/-- C12, failing input.  The tree `ex_tree_full` is well formed, its page has
room for one more node, its free list is empty and its allocator fails from
now on.  The insert of `48.0.0.0/32` has to build a chain of 30 nodes: the
first comes from the page, the allocation of the second fails, and the call
does not return `NGX_ERROR` but ends in the store that `lngx_pmemalign` makes
through `ptr[-1]`. -/
theorem insert_chain_failure_faults :
    WF ex_tree_full ∧
    need ex_tree_full (pfx 0x30000000 0xffffffff 32) = 30 ∧
    ex_tree_full.free = 0 ∧ ex_tree_full.size = sizeof_node ∧
    ex_tree_full.a.oom ex_tree_full.a.calls = true ∧
    fault_in (lngx_radix_alloc ex_tree_full) = none ∧
    lngx_radix32tree_insert ex_tree_full 0x30000000 0xffffffff 5 = .error .wildStore :=
  ⟨ex_tree_full_spec.1, by decide!, by decide!, by decide!, by decide!, by decide!,
    eq_of_fault_of _ _ (by decide!)⟩

/-- C13.  Strict trie.  Let the allocator never fail and hand out non-null
addresses, and let the page size be at least the size of a node.  The tree
that `lngx_radix_tree_create` returns for the hint 0 is strict: no reachable
node other than the root has no children and the sentinel value.  Every
sequence of inserts of real values and of deletes on it either returns, and
then the tree is strict again, or ends where a delete follows the null parent
link of a childless root. -/
theorem strict_trie (fuel : Nat) (a : lua_Alloc) (mem : Nat → lngx_radix_node_t)
    (origin : Nat → Nat) (ps0 gps dfuel : Nat)
    (hnf : ∀ i, a.calls ≤ i → a.oom i = false) (hbrk : 0 < a.brk)
    (hps : sizeof_node ≤ (if ps0 = 0 then gps else ps0))
    (hps' : (if ps0 = 0 then gps else ps0) < 2 ^ 64) (hd : 32 ≤ dfuel) :
    ∃ t, lngx_radix_tree_create fuel a mem origin ps0 gps 0 = .ok (some t) ∧ Strict t ∧
      ∀ os, (∀ key mask v, op.insert key mask v ∈ os → v ≠ NGX_RADIX_NO_VALUE) →
        (∃ rcs t', run_ops dfuel t os = .ok (rcs, t') ∧ Strict t') ∨
        run_ops dfuel t os = .error .nullDeref := by
  obtain ⟨ha, root, t1, hal, hroot, hinv, hobs, _, hoom, hcalls⟩ :=
    create_root_spec a mem origin (if ps0 = 0 then gps else ps0) (hnf _ (le_refl _))
      (hnf _ (by omega)) hbrk hps hps'
  have hc : lngx_radix_tree_create fuel a mem origin ps0 gps 0
      = .ok (some (set_root t1 root)) := by
    unfold lngx_radix_tree_create lngx_radix_tree_create_log
    rw [if_neg ha, hal]
    simp only [hroot, if_false, if_true]
  have hnf1 : NoFail (set_root t1 root) := by
    intro i hi
    have hi' : t1.a.calls ≤ i := hi
    show t1.a.oom i = false
    rw [hoom]
    exact hnf i (by omega)
  have hs : Strict (set_root t1 root) := by
    apply strict_of_root_only
    intro π hπ
    rw [hobs π, if_neg hπ]
  refine ⟨_, hc, hs, ?_⟩
  intro os hreal
  rcases run_ops_strict dfuel hd os _ ⟨[], hinv⟩ hs hnf1 hreal with ⟨rcs, t', hrun, _, hs', _⟩ | h
  · exact Or.inl ⟨rcs, t', hrun, hs'⟩
  · exact Or.inr h

/-- The tree created with the hint 0 is strict after two inserts and a delete
that prunes a chain of eight nodes. -/
theorem strict_trie_witness :
    ∃ t rcs t', lngx_radix_tree_create 1 ex_alloc ex_mem ex_origin 0 4096 0 = .ok (some t) ∧
      run_ops 32 t ex_ops = .ok (rcs, t') ∧ Strict t' := by
  obtain ⟨t, ht, _, hall⟩ := strict_trie 1 ex_alloc ex_mem ex_origin 0 4096 32 ex_alloc_ok
    (by decide) (by decide) (by decide) (le_refl _)
  have ht0 : lngx_radix_tree_create 1 ex_alloc ex_mem ex_origin 0 4096 0
      = .ok (some ex_tree0) := rfl
  have hte : t = ex_tree0 := by
    rw [ht0] at ht
    simp only [Except.ok.injEq, Option.some.injEq] at ht
    exact ht.symm
  subst hte
  have hreal : ∀ key mask v, op.insert key mask v ∈ ex_ops → v ≠ NGX_RADIX_NO_VALUE := by
    intro key mask v hm
    simp only [ex_ops, List.mem_cons, op.insert.injEq, reduceCtorEq, List.mem_singleton,
      List.not_mem_nil, or_false] at hm
    rcases hm with ⟨_, _, rfl⟩ | ⟨_, _, rfl⟩ <;> decide
  rcases hall ex_ops hreal with ⟨rcs, t', hrun, hs⟩ | h
  · exact ⟨_, rcs, t', ht0, hrun, hs⟩
  · rw [ex_ops_run] at h
    simp at h

/-- C14.  Parent links.  Let the page size be at least the size of a node.
Every tree that `lngx_radix_tree_create` returns, whatever the hint and the
allocator, and every tree that a sequence of calls of
`lngx_radix32tree_insert` and `lngx_radix32tree_delete` on it returns, has the
parent links of a tree: the root has no parent and is the only reachable node
without one, and every other reachable node is the right or the left child,
not both, of its parent, which is reachable. -/
theorem parent_links (fuel : Nat) (a : lua_Alloc) (mem : Nat → lngx_radix_node_t)
    (origin : Nat → Nat) (ps0 gps : Nat) (hint : Int) (dfuel : Nat)
    (hps : sizeof_node ≤ (if ps0 = 0 then gps else ps0))
    (hps' : (if ps0 = 0 then gps else ps0) < 2 ^ 64) (hd : 32 ≤ dfuel) :
    ∀ t, lngx_radix_tree_create fuel a mem origin ps0 gps hint = .ok (some t) →
      ParentLinks t ∧
      ∀ os rcs t', run_ops dfuel t os = .ok (rcs, t') → ParentLinks t' := by
  intro t ht
  have hwf := create_wf fuel a mem origin ps0 gps hint hps hps' t ht
  exact ⟨wf_parent_links t hwf,
    fun os rcs t' hrun => wf_parent_links t' (run_ops_wf dfuel hd os t rcs t' hwf hrun)⟩

/-- The parent links after two inserts and a delete on the tree created with
the hint 0. -/
theorem parent_links_witness :
    ∃ t rcs t', lngx_radix_tree_create 1 ex_alloc ex_mem ex_origin 0 4096 0 = .ok (some t) ∧
      run_ops 32 t ex_ops = .ok (rcs, t') ∧ ParentLinks t ∧ ParentLinks t' := by
  have ht : lngx_radix_tree_create 1 ex_alloc ex_mem ex_origin 0 4096 0 = .ok (some ex_tree0) :=
    rfl
  obtain ⟨h1, h2⟩ := parent_links 1 ex_alloc ex_mem ex_origin 0 4096 0 32 (by decide)
    (by decide) (le_refl _) ex_tree0 ht
  exact ⟨ex_tree0, _, _, ht, ex_ops_run, h1, h2 _ _ _ ex_ops_run⟩

/-- C15.  Mask semantics.  Let `lead_mask mask` be the leading run of one bits
of `mask` and `L` their number.  On every tree, insert and delete with
`(key, mask)` return what the same call with
`(key & lead_mask mask, lead_mask mask)` returns, the code and the tree.  The
descent of both follows the first `L` bits of the key: the node that delete
works on is the one at that path of length `L`, and after an insert that
returned `NGX_OK` on a well-formed tree the node at that path holds the value. -/
theorem mask_semantics (t : lngx_radix_tree_t) (key mask v fuel : Nat) :
    lngx_radix32tree_insert t key mask v
      = lngx_radix32tree_insert t (key &&& lead_mask mask) (lead_mask mask) v ∧
    lngx_radix32tree_delete fuel t key mask
      = lngx_radix32tree_delete fuel t (key &&& lead_mask mask) (lead_mask mask) ∧
    ((bitsFrom key 32).take (leading_ones mask 32)).length = leading_ones mask 32 ∧
    lngx_radix32tree_delete fuel t key mask
      = delete_at fuel t (walk t.mem t.root ((bitsFrom key 32).take (leading_ones mask 32))) ∧
    (WF t → ∀ t1, lngx_radix32tree_insert t key mask v = .ok (NGX_OK, t1) →
      walk t1.mem t1.root ((bitsFrom key 32).take (leading_ones mask 32)) ≠ 0 ∧
      (t1.mem (walk t1.mem t1.root ((bitsFrom key 32).take (leading_ones mask 32)))).value
        = v) := by
  have hp := pfx_eq_take_leading key mask 32
  refine ⟨?_, ?_, ?_, ?_, ?_⟩
  · rw [insert_eq_insertL, insert_eq_insertL, pfx_lead_mask]
  · rw [delete_eq, delete_eq, pfx_lead_mask]
  · rw [← hp]; exact pfx_length key mask
  · rw [delete_eq, hp]
  · rintro ⟨F, h⟩ t1 hins
    rw [← hp]
    have hspec := insertL_spec t F h (pfx key mask 32) (pfx_length_le key mask 32) v
    rw [← insert_eq_insertL] at hspec
    have hfree : ¬ Occupied (obs t) (pfx key mask 32) := by
      intro hocc
      rw [hspec.1 hocc] at hins
      simp only [Except.ok.injEq, Prod.mk.injEq] at hins
      exact absurd hins.1 (by decide)
    obtain ⟨_, hobs, _⟩ := hspec.2.2 _ _ hins hfree
    have hκ : obs t1 (pfx key mask 32) = some v := by
      rw [hobs]; simp [insO]
    have hn : walk t1.mem t1.root (pfx key mask 32) ≠ 0 := by
      intro e
      rw [(obs_eq_none t1 _).2 e] at hκ
      exact absurd hκ (by simp)
    refine ⟨hn, ?_⟩
    rw [obs_of_walk t1 _ hn] at hκ
    simpa using hκ

/-- The mask `0xff00ff00` has eight leading one bits; on the tree created with
the hint 0 the insert of `10.11.12.13` under it returns `NGX_OK` and puts the
value at the path of the first eight bits of the key, as the insert of
`10.0.0.0` under `0xff000000` does. -/
theorem mask_semantics_witness :
    leading_ones 0xff00ff00 32 = 8 ∧ lead_mask 0xff00ff00 = 0xff000000 ∧
    0x0a0b0c0d &&& lead_mask 0xff00ff00 = 0x0a000000 ∧
    WF ex_tree0 ∧
    lngx_radix32tree_insert ex_tree0 0x0a0b0c0d 0xff00ff00 5 = .ok (NGX_OK, ex_tree1) ∧
    walk ex_tree1.mem ex_tree1.root ((bitsFrom 0x0a0b0c0d 32).take (leading_ones 0xff00ff00 32))
      ≠ 0 ∧
    (ex_tree1.mem (walk ex_tree1.mem ex_tree1.root
      ((bitsFrom 0x0a0b0c0d 32).take (leading_ones 0xff00ff00 32)))).value = 5 := by
  have h1 : leading_ones 0xff00ff00 32 = 8 := by decide
  have h2 : lead_mask 0xff00ff00 = 0xff000000 := by decide
  have h3 : 0x0a0b0c0d &&& lead_mask 0xff00ff00 = 0x0a000000 := by decide
  have hm := mask_semantics ex_tree0 0x0a0b0c0d 0xff00ff00 5 32
  have hins : lngx_radix32tree_insert ex_tree0 0x0a0b0c0d 0xff00ff00 5
      = .ok (NGX_OK, ex_tree1) := by
    rw [hm.1, h3, h2]
    rfl
  obtain ⟨hn, hv⟩ := hm.2.2.2.2 ex_tree0_level.1 ex_tree1 hins
  exact ⟨h1, h2, h3, ex_tree0_level.1, hins, hn, hv⟩

/-- C16.  Replace by delete-then-insert.  Let the allocator never fail and hand
out non-null addresses, and let the page size be at least the size of a node.
`lngx_radix_tree_create` returns a tree for the hint `-1`.  After every
sequence of add-record calls on it that returned, whenever an insert returns
`NGX_BUSY`, the delete of the same prefix returns `NGX_OK` and the insert
after it returns `NGX_OK` (so the add-record call returns `NGX_OK`); the
allocator with its call counter, the slab cursor and the remaining capacity
are what they were, every node having come from the free list; and the trie
holds at every path what it held before, except that the prefix holds the new
value, so the number of nodes is what it was. -/
theorem replace_succeeds (fuel : Nat) (a : lua_Alloc) (mem : Nat → lngx_radix_node_t)
    (origin : Nat → Nat) (ps0 gps dfuel : Nat)
    (hnf : ∀ i, a.calls ≤ i → a.oom i = false) (hbrk : 0 < a.brk)
    (hps : sizeof_node ≤ (if ps0 = 0 then gps else ps0))
    (hps' : (if ps0 = 0 then gps else ps0) < 2 ^ 64) (hfuel : 256 ≤ fuel)
    (hd : 32 ≤ dfuel) :
    ∃ t, lngx_radix_tree_create fuel a mem origin ps0 gps (-1) = .ok (some t) ∧
      ∀ recs rcs t', run_records dfuel t recs = .ok (rcs, t') →
        ∀ key mask v tb, lngx_radix32tree_insert t' key mask v = .ok (NGX_BUSY, tb) →
          ∃ t1 t2, lngx_radix32tree_delete dfuel tb key mask = .ok (NGX_OK, t1) ∧
            lngx_radix32tree_insert t1 key mask v = .ok (NGX_OK, t2) ∧
            add_record dfuel t' ⟨key, mask, v⟩ = .ok (NGX_OK, t2) ∧
            t2.a = t'.a ∧ t2.start = t'.start ∧ t2.size = t'.size ∧
            (∀ π, obs t2 π = if π = pfx key mask 32 then some v else obs t' π) ∧
            node_count t2 = node_count t' := by
  obtain ⟨t, log, levels, _, hc, _, hl6, _, hlevel, _⟩ :=
    create_auto fuel a mem origin ps0 gps hnf hbrk hps hps' hfuel
  refine ⟨t, hc, ?_⟩
  have hr : Rooted t := by
    refine ⟨hlevel.1, true, ?_⟩
    rw [hlevel.2.2 [true], if_pos (by simp; omega)]
    simp
  intro recs rcs t' hrun key mask v tb hbusy
  obtain ⟨⟨F, h⟩, c0, hc0⟩ := run_records_rooted dfuel hd recs t rcs t' hr hrun
  have hspec := insertL_spec t' F h (pfx key mask 32) (pfx_length_le key mask 32) v
  rw [← insert_eq_insertL] at hspec
  have hocc : Occupied (obs t') (pfx key mask 32) := by
    by_contra hfree
    have := (hspec.2.2 _ _ hbusy hfree).1
    exact absurd this (by decide)
  have hkid : ∃ c', child t'.mem t'.root c' ≠ 0 := by
    refine ⟨c0, ?_⟩
    have := (obs_child t' [] c0 (by simpa [walk] using h.root_ne)).1 (by simpa using hc0)
    simpa [walk] using this
  obtain ⟨hbusy', t1, t2, F2, hdel, hins, _, ha, hs, hz, _, hobs2⟩ :=
    replace_spec t' F h key mask v dfuel hd hocc (Or.inr hkid)
  have htb : tb = t' := by
    rw [hbusy'] at hbusy
    simp only [Except.ok.injEq, Prod.mk.injEq, true_and] at hbusy
    exact hbusy.symm
  subst htb
  refine ⟨t1, t2, hdel, hins, ?_, ha, hs, hz, hobs2, ?_⟩
  · unfold add_record
    simp only [hbusy', if_true, hdel, hins]
  · rw [node_count_eq, node_count_eq]
    apply List.countP_congr
    intro π _
    rw [hobs2 π]
    by_cases e : π = pfx key mask 32
    · obtain ⟨x, hx, _⟩ := hocc
      simp [e, hx]
    · simp [e]

/-- On the tree created with the hint `-1` on pages of 4096 bytes, after the
add-record of `10.0.0.0/8` with the value 1, the insert of `10.0.0.0/8` with
the value 2 returns `NGX_BUSY`, and the add-record of it returns `NGX_OK`
without a call to the allocator and leaves the value 2. -/
theorem replace_succeeds_witness :
    ∃ t rcs t' t2, lngx_radix_tree_create 256 ex_alloc ex_mem ex_origin 0 4096 (-1)
        = .ok (some t) ∧
      run_records 32 t [⟨0x0a000000, subnet_mask 8, 1⟩] = .ok (rcs, t') ∧
      lngx_radix32tree_insert t' 0x0a000000 (subnet_mask 8) 2 = .ok (NGX_BUSY, t') ∧
      add_record 32 t' ⟨0x0a000000, subnet_mask 8, 2⟩ = .ok (NGX_OK, t2) ∧
      t2.a = t'.a ∧ obs t2 (pfx 0x0a000000 (subnet_mask 8) 32) = some 2 ∧
      node_count t2 = node_count t' := by
  obtain ⟨t, ht, hall⟩ := replace_succeeds 256 ex_alloc ex_mem ex_origin 0 4096 32 ex_alloc_ok
    (by decide) (by decide) (by decide) (le_refl _) (le_refl _)
  obtain ⟨t0, _, levels, _, ht0, _, hl6, _, hlevel, _⟩ :=
    create_auto 256 ex_alloc ex_mem ex_origin 0 4096 ex_alloc_ok (by decide) (by decide)
      (by decide) (le_refl _)
  have hte : t0 = t := by
    rw [ht0] at ht
    simpa using ht
  subst hte
  have hr : Rooted t0 := by
    refine ⟨hlevel.1, true, ?_⟩
    rw [hlevel.2.2 [true], if_pos (by simp; omega)]
    simp
  obtain ⟨t', hadd1, hr', _, hobs'⟩ :=
    add_record_spec 32 (le_refl _) t0 hr hlevel.2.1 ⟨0x0a000000, subnet_mask 8, 1⟩
  have hrun : run_records 32 t0 [⟨0x0a000000, subnet_mask 8, 1⟩] = .ok ([NGX_OK], t') := by
    simp only [run_records, hadd1]
  obtain ⟨F, hF⟩ := hr'.1
  have hbusy : lngx_radix32tree_insert t' 0x0a000000 (subnet_mask 8) 2 = .ok (NGX_BUSY, t') := by
    rw [insert_eq_insertL]
    exact (insertL_spec t' F hF _ (pfx_length_le _ _ 32) 2).1 ⟨1, hobs', by decide⟩
  obtain ⟨t1, t2, _, _, hadd, ha, _, _, hobs, hcnt⟩ := hall _ _ _ hrun _ _ _ _ hbusy
  refine ⟨t0, _, t', t2, ht, hrun, hbusy, hadd, ha, ?_, hcnt⟩
  rw [hobs, if_pos rfl]

/-- C17.  Auto warm-up fits in one page.  Let the allocator never fail and hand
out non-null addresses, and let `ps` be the page size.  For the hint `-1`
`lngx_radix_tree_create` takes `K = 6` levels when `ps / sizeof(node)` is 128,
`K = 7` when it is 256 and `K = 8` otherwise; it returns a tree after
`2^(K+1) - 2` inserts, with `2^(K+1) - 1` nodes.  In the two rows of the table
these are no more than `ps / sizeof(node)`, the allocator was called twice in
all, once by `lngx_palloc` for the header and once by `lngx_radix_alloc` for a
page, the free list is empty and the room left in the page is the page less
the nodes. -/
theorem auto_warmup_one_page (fuel : Nat) (a : lua_Alloc) (mem : Nat → lngx_radix_node_t)
    (origin : Nat → Nat) (ps0 gps : Nat)
    (hnf : ∀ i, a.calls ≤ i → a.oom i = false) (hbrk : 0 < a.brk)
    (hps : sizeof_node ≤ (if ps0 = 0 then gps else ps0))
    (hps' : (if ps0 = 0 then gps else ps0) < 2 ^ 64) (hfuel : 256 ≤ fuel) :
    auto_levels (if ps0 = 0 then gps else ps0)
      = (if (if ps0 = 0 then gps else ps0) / sizeof_node = 128 then 6
          else if (if ps0 = 0 then gps else ps0) / sizeof_node = 256 then 7 else 8) ∧
    ∃ t log, ∃ K : Nat,
      lngx_radix_tree_create_log fuel a mem origin ps0 gps (-1) = (.ok (some t), log) ∧
      lngx_radix_tree_create fuel a mem origin ps0 gps (-1) = .ok (some t) ∧
      (K : Int) = auto_levels (if ps0 = 0 then gps else ps0) ∧
      log.length = 2 ^ (K + 1) - 2 ∧ node_count t = 2 ^ (K + 1) - 1 ∧
      (header a mem origin (if ps0 = 0 then gps else ps0)).a.calls = a.calls + 1 ∧
      ((if ps0 = 0 then gps else ps0) / sizeof_node = 128
          ∨ (if ps0 = 0 then gps else ps0) / sizeof_node = 256 →
        node_count t ≤ (if ps0 = 0 then gps else ps0) / sizeof_node ∧
        t.a.calls = a.calls + 2 ∧ t.free = 0 ∧
        t.size + sizeof_node * node_count t = (if ps0 = 0 then gps else ps0)) := by
  have htable : auto_levels (if ps0 = 0 then gps else ps0)
      = (if (if ps0 = 0 then gps else ps0) / sizeof_node = 128 then 6
          else if (if ps0 = 0 then gps else ps0) / sizeof_node = 256 then 7 else 8) := by
    unfold auto_levels
    split
    · rename_i h; rw [if_pos h]
    · rename_i h; rw [h]; rfl
    · rename_i h1 h2; rw [if_neg h1, if_neg h2]
  refine ⟨htable, ?_⟩
  obtain ⟨t, log, K, hrun, hc, hK, _, _, _, hlen, hcnt, _⟩ :=
    create_auto fuel a mem origin ps0 gps hnf hbrk hps hps' hfuel
  have hpow : 2 ≤ 2 ^ (K + 1) := by
    have : 2 ^ 1 ≤ 2 ^ (K + 1) := Nat.pow_le_pow_right (by norm_num) (by omega)
    simpa using this
  have hcalls : (header a mem origin (if ps0 = 0 then gps else ps0)).a.calls = a.calls + 1 := by
    have h0 := hnf a.calls (le_refl _)
    simp [header, lua_Alloc.alloc, h0]
  refine ⟨t, log, K, hrun, hc, hK, by omega, by omega, hcalls, ?_⟩
  intro hrow
  have hK' : K = 6 ∧ (if ps0 = 0 then gps else ps0) / sizeof_node = 128
      ∨ K = 7 ∧ (if ps0 = 0 then gps else ps0) / sizeof_node = 256 := by
    rw [htable] at hK
    rcases hrow with h | h
    · left
      rw [if_pos h] at hK
      exact ⟨by exact_mod_cast hK, h⟩
    · right
      rw [if_neg (by rw [h]; decide), if_pos h] at hK
      exact ⟨by exact_mod_cast hK, h⟩
  have hfit : node_count t ≤ (if ps0 = 0 then gps else ps0) / sizeof_node := by
    rcases hK' with ⟨h1, h2⟩ | ⟨h1, h2⟩
    · rw [h2, hcnt, ← Nat.succ_le_succ_iff]
      subst h1
      omega
    · rw [h2, hcnt, ← Nat.succ_le_succ_iff]
      subst h1
      omega
  have hbytes : sizeof_node * node_count t ≤ (if ps0 = 0 then gps else ps0) :=
    le_trans (Nat.mul_le_mul_left _ hfit) (Nat.mul_div_le _ _)
  obtain ⟨hf, hca, hs⟩ :=
    create_one_slab fuel a mem origin ps0 gps (-1) hps hps' t hc hbytes
  exact ⟨hfit, hca, hf, hs⟩

/-- Pages of 4096 bytes: six levels, 127 nodes, two calls of the allocator and
room for one more node in the page. -/
theorem auto_warmup_one_page_witness :
    auto_levels 4096 = 6 ∧
    ∃ t, lngx_radix_tree_create 256 ex_alloc ex_mem ex_origin 0 4096 (-1) = .ok (some t) ∧
      node_count t = 127 ∧ t.a.calls = 2 ∧ t.free = 0 ∧ t.size = 32 := by
  obtain ⟨_, t, log, K, _, hc, hK, _, hcnt, _, hrow⟩ :=
    auto_warmup_one_page 256 ex_alloc ex_mem ex_origin 0 4096 ex_alloc_ok (by decide)
      (by decide) (by decide) (le_refl _)
  have hK6 : K = 6 := by
    have : auto_levels 4096 = 6 := by decide
    simp only [show (0 : Nat) = 0 from rfl, if_true, this] at hK
    exact_mod_cast hK
  subst hK6
  obtain ⟨_, hca, hf, hs⟩ := hrow (Or.inl (by decide))
  refine ⟨by decide, t, hc, hcnt, hca, hf, ?_⟩
  rw [hcnt] at hs
  simp only [if_true, sizeof_node] at hs
  omega

/-- C18.  Slab alignment.  Let the allocator serve the request of
`size + ALIGN + sizeof(void*)` bytes with the block that starts at `mem`, not
null, let `ALIGN` be `2 ^ k` and let the end of the block not wrap around
`2 ^ 64`.  Then `lngx_pmemalign` returns
`p = (mem + ALIGN + sizeof(void*)) & ~(ALIGN - 1)`; `p` is a multiple of
`ALIGN`; `mem + sizeof(void*) ≤ p ≤ mem + ALIGN + sizeof(void*)`; the origin
slot `[p - sizeof(void*), p)` and the region `[p, p + size)` lie inside the
block; and the word stored in the slot in front of `p` is `mem`. -/
theorem pmemalign_aligned (t : lngx_radix_tree_t) (size k : Nat)
    (hserve : t.a.oom t.a.calls = false) (hmem : 0 < t.a.brk)
    (hwrap : t.a.brk + (size + 2 ^ k + sizeof_ptr) < 2 ^ 64) :
    ∃ p t1, lngx_pmemalign t size (2 ^ k) = .ok (p, t1) ∧
      (t.a.alloc (size + 2 ^ k + sizeof_ptr)).1 = t.a.brk ∧
      p = andNot (t.a.brk + 2 ^ k + sizeof_ptr) (2 ^ k - 1) ∧
      2 ^ k ∣ p ∧
      t.a.brk + sizeof_ptr ≤ p ∧ p ≤ t.a.brk + 2 ^ k + sizeof_ptr ∧
      t.a.brk ≤ p - sizeof_ptr ∧
      p + size ≤ t.a.brk + (size + 2 ^ k + sizeof_ptr) ∧
      p + size < 2 ^ 64 ∧
      t1.origin (p - sizeof_ptr) = t.a.brk ∧
      t1.a.brk = t.a.brk + (size + 2 ^ k + sizeof_ptr) := by
  have ha1 : (t.a.alloc (size + 2 ^ k + sizeof_ptr)).1 = t.a.brk := by
    simp [lua_Alloc.alloc, hserve]
  have ha2 : (t.a.alloc (size + 2 ^ k + sizeof_ptr)).2.brk
      = t.a.brk + (size + 2 ^ k + sizeof_ptr) := by
    simp [lua_Alloc.alloc, hserve]
  have hp := andNot_pow (t.a.brk + 2 ^ k + sizeof_ptr) k
  have hle := andNot_le (t.a.brk + 2 ^ k + sizeof_ptr) (2 ^ k - 1)
  have hge := le_andNot (t.a.brk + 2 ^ k + sizeof_ptr) (2 ^ k - 1)
  have hpos : 0 < 2 ^ k := Nat.two_pow_pos k
  have hne : ¬ t.a.brk = 0 := by omega
  have hpm : ∃ t1, lngx_pmemalign t size (2 ^ k)
        = .ok (andNot (t.a.brk + 2 ^ k + sizeof_ptr) (2 ^ k - 1), t1) ∧
      t1.origin (andNot (t.a.brk + 2 ^ k + sizeof_ptr) (2 ^ k - 1) - sizeof_ptr) = t.a.brk ∧
      t1.a.brk = t.a.brk + (size + 2 ^ k + sizeof_ptr) := by
    unfold lngx_pmemalign
    simp only [ha1, hne, if_false]
    exact ⟨_, rfl, by simp, ha2⟩
  obtain ⟨t1, h1, h2, h3⟩ := hpm
  refine ⟨_, t1, h1, ha1, rfl, ?_, by omega, hle, by omega, by omega, by omega, h2, h3⟩
  rw [hp]
  exact Dvd.intro _ rfl

/-- The page of 4096 bytes that `lngx_radix_alloc` requests from the allocator
`ex_alloc`, whose block starts at `0x10000`: the page starts at `0x11000`. -/
theorem pmemalign_aligned_witness :
    ∃ t1, lngx_pmemalign (header ex_alloc ex_mem ex_origin 4096) 4096 4096
        = .ok (0x11000, t1) ∧
      t1.origin (0x11000 - sizeof_ptr) = 0x10000 + sizeof_tree := by
  obtain ⟨p, t1, h1, _, h2, _, _, _, _, _, _, h3, _⟩ :=
    pmemalign_aligned (header ex_alloc ex_mem ex_origin 4096) 4096 12 (by decide) (by decide)
      (by decide)
  have hp : p = 0x11000 := by
    rw [h2]; decide
  subst hp
  exact ⟨t1, h1, h3⟩

/-- C19, failing input.  The 128-bit insert of the all-zero key under the
all-ones mask returns `NGX_OK` on the tree created with the hint 0 and leaves a
node at depth 128.  The 128-bit find of the all-zero key then visits that
node in its 129th round with the byte index at 16 and reads `key[16]`, past
the end of the 16-byte key.  The delete of the same prefix stops its descent
when the index reaches 16 and returns `NGX_OK`. -/
theorem find128_reads_past_key :
    return_code (lngx_radix128tree_insert ex_tree0 (List.replicate 16 0)
      (List.replicate 16 255) 7) = some NGX_OK ∧
    walk ex_tree_v6.mem ex_tree_v6.root (List.replicate 128 false) ≠ 0 ∧
    rd (List.replicate 16 0) 16 = .error .outOfBounds ∧
    lngx_radix128tree_find 200 ex_tree_v6 (List.replicate 16 0) = .error .outOfBounds ∧
    return_code (lngx_radix128tree_delete 200 ex_tree_v6 (List.replicate 16 0)
      (List.replicate 16 255)) = some NGX_OK :=
  ⟨by decide!, by decide!, rfl, eq_of_fault_in _ _ (by decide!), by decide!⟩

/-- C20.  Free list and trie are disjoint.  Let the page size be at least the
size of a node.  In every tree that `lngx_radix_tree_create` returns, whatever
the hint and the allocator, and in every tree that a sequence of calls of
`lngx_radix32tree_insert` and `lngx_radix32tree_delete` on it returns, the
free list is a finite chain without repeated nodes, none of its nodes is
reachable from the root, and a node that `lngx_radix_alloc` returns is not
null, not reachable from the root and not on the free list that is left. -/
theorem free_list_disjoint (fuel : Nat) (a : lua_Alloc) (mem : Nat → lngx_radix_node_t)
    (origin : Nat → Nat) (ps0 gps : Nat) (hint : Int) (dfuel : Nat)
    (hps : sizeof_node ≤ (if ps0 = 0 then gps else ps0))
    (hps' : (if ps0 = 0 then gps else ps0) < 2 ^ 64) (hd : 32 ≤ dfuel) :
    ∀ t, lngx_radix_tree_create fuel a mem origin ps0 gps hint = .ok (some t) →
      FreeDisjoint t ∧
      ∀ os rcs t', run_ops dfuel t os = .ok (rcs, t') → FreeDisjoint t' := by
  intro t ht
  have hwf := create_wf fuel a mem origin ps0 gps hint hps hps' t ht
  exact ⟨wf_free_disjoint t hwf,
    fun os rcs t' hrun => wf_free_disjoint t' (run_ops_wf dfuel hd os t rcs t' hwf hrun)⟩

/-- The free list after two inserts and a delete on the tree created with the
hint 0: it is not empty and disjoint from the trie. -/
theorem free_list_disjoint_witness :
    ∃ t rcs t', lngx_radix_tree_create 1 ex_alloc ex_mem ex_origin 0 4096 0 = .ok (some t) ∧
      run_ops 32 t ex_ops = .ok (rcs, t') ∧ t'.free ≠ 0 ∧ FreeDisjoint t' := by
  have ht : lngx_radix_tree_create 1 ex_alloc ex_mem ex_origin 0 4096 0 = .ok (some ex_tree0) :=
    rfl
  obtain ⟨_, h2⟩ := free_list_disjoint 1 ex_alloc ex_mem ex_origin 0 4096 0 32 (by decide)
    (by decide) (le_refl _) ex_tree0 ht
  exact ⟨ex_tree0, _, _, ht, ex_ops_run, by decide!, h2 _ _ _ ex_ops_run⟩


end Radix
